import Mathlib

/-!
# Plain records (`src/precord.c`)

A shallow embedding of the plain-record kernel of GAP and the properties of its
lazy-sorting scheme.

A plain record with `n` components is a bag of `2*n+2` words: word 0 is reserved
for a type object, word 1 holds the number of components, word `2*i` holds the
record name of component `i` and word `2*i+1` its value.  Names that belong to
the sorted area are stored negated, freshly appended names are stored positive.

Conventions of the embedding

* a value (`Obj`) is a machine word, `0` is the null pointer;
* a name word is kept in its signed reading (`Int`); arguments of C type `UInt`
  are natural numbers.  Interned record names are positive and far below
  `2^63`, so the casts between `UInt` and `Int` in the source keep the value;
* the component area of a bag is a list of slots, slot `i` of the source is
  entry `i-1` of the list; reading outside of the bag yields a zero word and a
  write outside of the bag is lost;
* loops over regions of the component area (`qsort`, the two merges) are
  recursions over the list of the slots of that region.
-/

namespace PRecord

/-- A value handle: a machine word, `0` is the null pointer. -/
abbrev Obj := Nat

/-- One component: the stored name word (signed reading) and the value. -/
abbrev Slot := Int × Obj

/-- Size of one word of a bag in bytes (`sizeof(Obj)`, 64 bit build). -/
def sizeofObj : Nat := 8

/-- Modelled from the spec: type number of the mutable plain record representation;
`objects.h` is not among the sources, the value only has to be a fixed number. -/
def T_PREC : Nat := 0

/-- A bag holding a plain record: type number, size in bytes, the length word
and the component area. -/
structure PRec where
  tnum : Nat
  size : Nat
  len : Nat
  slots : List Slot
deriving DecidableEq

/-- Number of slots of the component area whose name word lies inside a bag of
`size` bytes. -/
def slotsIn (size : Nat) : Nat := (size / sizeofObj - 2 + 1) / 2

/-- Capacity of a bag in complete name/value slots: `(size/sizeof(Obj) - 2) / 2`. -/
def capacityOf (size : Nat) : Nat := (size / sizeofObj - 2) / 2

/-- Capacity `C` of a record. -/
def capacity (rec : PRec) : Nat := capacityOf rec.size

/-- Modelled from the spec: `NewBag(type, size)` of the memory manager (`Allocate(tag, size)`),
a fresh zero filled bag. -/
def NewBag (type size : Nat) : PRec :=
  { tnum := type, size := size, len := 0, slots := List.replicate (slotsIn size) (0, 0) }

/-- Modelled from the spec: `ResizeBag(bag, size)` of the memory manager (`Resize(handle, newSize)`):
the old content is kept as far as it fits, new words are zero. -/
def ResizeBag (rec : PRec) (newsize : Nat) : PRec :=
  { rec with
    size := newsize
    slots := (rec.slots ++ List.replicate (slotsIn newsize - rec.slots.length) (0, 0)).take
      (slotsIn newsize) }

/-- Modelled from the spec: `SIZE_OBJ(bag)` of the memory manager. -/
def SIZE_OBJ (rec : PRec) : Nat := rec.size

/-- Modelled from the spec: macro `LEN_PREC(rec)` of `precord.h`, word 1 of the bag. -/
def LEN_PREC (rec : PRec) : Nat := rec.len

/-- Modelled from the spec: macro `SET_LEN_PREC(rec, len)` of `precord.h`. -/
def SET_LEN_PREC (rec : PRec) (len : Nat) : PRec := { rec with len := len }

/-- Modelled from the spec: macro `GET_RNAM_PREC(rec, i)` of `precord.h`, word `2*i` of the bag. -/
def GET_RNAM_PREC (rec : PRec) : Nat → Int
  | 0 => 0
  | i + 1 => (rec.slots.getD i (0, 0)).1

/-- Modelled from the spec: macro `GET_ELM_PREC(rec, i)` of `precord.h`, word `2*i+1` of the bag. -/
def GET_ELM_PREC (rec : PRec) : Nat → Obj
  | 0 => 0
  | i + 1 => (rec.slots.getD i (0, 0)).2

/-- Modelled from the spec: macro `SET_RNAM_PREC(rec, i, rnam)` of `precord.h`. -/
def SET_RNAM_PREC (rec : PRec) : Nat → Int → PRec
  | 0, _ => rec
  | i + 1, rnam => { rec with slots := rec.slots.set i (rnam, (rec.slots.getD i (0, 0)).2) }

/-- Modelled from the spec: macro `SET_ELM_PREC(rec, i, val)` of `precord.h`. -/
def SET_ELM_PREC (rec : PRec) : Nat → Obj → PRec
  | 0, _ => rec
  | i + 1, val => { rec with slots := rec.slots.set i ((rec.slots.getD i (0, 0)).1, val) }

/-- `NEW_PREC(len)`: a new plain record with room for `len` components. -/
def NEW_PREC (len : Nat) : PRec :=
  let o := NewBag T_PREC (len * 2 * sizeofObj + 2 * sizeofObj)
  SET_LEN_PREC o 0

/-- `GrowPRec(rec, need)`: make sure `rec` can hold `need` components; the
second component is the return value (0 nothing changed, 1 enlarged). -/
def GrowPRec (rec : PRec) (need : Nat) : PRec × Nat :=
  let want := (2 * need + 2) * sizeofObj
  if SIZE_OBJ rec ≥ want then (rec, 0)
  else
    let good := ((5 * LEN_PREC rec + 3) / 4 + 1) * 2 * sizeofObj + 2
    let newsize := if want < good then good else want
    (ResizeBag rec newsize, 1)

/-! ## Sorting the names: `SortPRecRNam` -/

/-- The slot with the name word negated (`-(Int)(GET_RNAM_PREC(rec,i))`). -/
def negSlot (s : Slot) : Slot := (-s.1, s.2)

/-- First loop of `SortPRecRNam`: walk down from `i` while the name at `i` is
positive, clearing `issorted` when position `i` and `i+1` are out of order.
Returns the final `i` and the flag. -/
def scanDirty (rec : PRec) : Nat → Bool → Nat × Bool
  | 0, issorted => (0, issorted)
  | i + 1, issorted =>
    if GET_RNAM_PREC rec (i + 1) > 0 then
      scanDirty rec i
        (if issorted && decide (GET_RNAM_PREC rec (i + 1) > GET_RNAM_PREC rec (i + 2))
          then false else issorted)
    else (i + 1, issorted)

/-- The call `qsort(ADDR_OBJ(rec)+2*i, len-i+1, 2*sizeof(Obj), &PrecComparer)`:
the slots of the region are sorted by their name word (`PrecComparer` compares
the first word of two slots). -/
def qsort (region : List Slot) : List Slot :=
  region.insertionSort (fun a b => a.1 ≤ b.1)

/-- The three `while` loops of the allocating merge: `n` slots of `space` are
still to be written, `ps` are the slots `j .. save-1` and `ds` the slots
`i .. len` of the record. -/
def mergeLoop : Nat → List Slot → List Slot → List Slot
  | 0, _, _ => []
  | _ + 1, [], [] => []
  | n + 1, p :: ps, [] => p :: mergeLoop n ps []
  | n + 1, [], d :: ds => negSlot d :: mergeLoop n [] ds
  | n + 1, p :: ps, d :: ds =>
    if -p.1 < d.1 then p :: mergeLoop n ps (d :: ds)
    else negSlot d :: mergeLoop n (p :: ps) ds

/-- The loop `for (k = i; k < len; k++)` of the in-place merge: the slot `x` at
position `k` is swapped upwards while its name is larger than the next one. -/
def bubbleUp (x : Slot) : List Slot → List Slot
  | [] => [x]
  | y :: rest => if x.1 > y.1 then y :: bubbleUp x rest else x :: y :: rest

/-- The loop `for (j = 1; j < save; j++)` of the in-place merge: `ps` are the
slots `j .. save-1`, `ds` the slots `save .. len`.  Returns the new content of
both regions. -/
def inplaceLoop : List Slot → List Slot → List Slot × List Slot
  | [], ds => ([], ds)
  | p :: ps, [] => (p :: ps, [])
  | p :: ps, d :: ds =>
    if -p.1 > d.1 then
      let r := inplaceLoop ps (bubbleUp (-p.1, p.2) ds)
      (negSlot d :: r.1, r.2)
    else
      let r := inplaceLoop ps (d :: ds)
      (p :: r.1, r.2)

/-- `SortPRecRNam(rec, inplace)`: sort the names of the record. -/
def SortPRecRNam (rec : PRec) (inplace : Bool) : PRec :=
  let len := LEN_PREC rec
  -- nothing has to be done if it is already sorted
  if len = 0 ∨ GET_RNAM_PREC rec len < 0 then rec
  else
    -- find the unsorted part and check whether it is sorted; then `i++`
    let sc := scanDirty rec (len - 1) true
    let i := sc.1 + 1
    let issorted := sc.2
    -- slots `1 .. i-1`, slots `i .. len`, and the unused rest of the bag
    let sorted := (rec.slots.take len).take (i - 1)
    let dirty := (rec.slots.take len).drop (i - 1)
    let rest := rec.slots.drop len
    let dirty1 := if issorted = false ∧ len - i + 1 > 1 then qsort dirty else dirty
    let rec1 : PRec := { rec with slots := sorted ++ dirty1 ++ rest }
    let save := i
    if save = 1 ∨ -GET_RNAM_PREC rec1 (save - 1) < GET_RNAM_PREC rec1 save then
      -- already sorted, only negate the names `save .. len`
      { rec with slots := sorted ++ dirty1.map negSlot ++ rest }
    else if inplace = false then
      -- merge into `space`, then `memcpy` the `2*len` words back
      { rec with slots := mergeLoop len sorted dirty1 ++ rest }
    else
      -- merge in place, then negate the names `save .. len`
      let r := inplaceLoop sorted dirty1
      { rec with slots := r.1 ++ r.2.map negSlot ++ rest }

/-! ## Lookup: `FindPRec` -/

/-- Result of `FindPRec`: the return value, the content of `*pos` and the
record (which a cleanup may have reorganised). -/
structure FindResult where
  ret : Nat
  pos : Nat
  bag : PRec
deriving DecidableEq

/-- Outcome of the backward scan of `FindPRec` through the unsorted names. -/
inductive ScanResult where
  | found (i : Nat)
  | sortedArea (i : Nat)
  | exhausted
deriving DecidableEq

/-- The loop `while (i >= 1)` of `FindPRec` (no cleanup allowed). -/
def scanBack (rec : PRec) (rnam : Nat) : Nat → ScanResult
  | 0 => ScanResult.exhausted
  | i + 1 =>
    let rnam2 := GET_RNAM_PREC rec (i + 1)
    if (rnam : Int) = rnam2 then ScanResult.found (i + 1)
    else if rnam2 < 0 then ScanResult.sortedArea (i + 1)
    else scanBack rec rnam i

/-- The loop `while (low < high)` of `FindPRec`; the first argument bounds the
number of iterations, `high - low` is enough.  Returns the return value and the
position. -/
def binSearch (rec : PRec) (rnam : Nat) : Nat → Nat → Nat → Nat × Nat
  | 0, low, _ => (0, low)
  | fuel + 1, low, high =>
    if low < high then
      let i := (low + high) / 2
      let rnam2 := -GET_RNAM_PREC rec i
      if rnam2 < (rnam : Int) then binSearch rec rnam fuel (i + 1) high
      else if rnam2 > (rnam : Int) then binSearch rec rnam fuel low i
      else (1, i)
    else (0, low)

/-- `FindPRec(rec, rnam, pos, cleanup)`; `pos` is the content of `*pos` on entry. -/
def FindPRec (rec : PRec) (rnam : Nat) (pos : Nat) (cleanup : Bool) : FindResult :=
  let low := 1
  let high := LEN_PREC rec
  if high > 0 ∧ GET_RNAM_PREC rec high > 0 then
    if cleanup then
      let rec1 := SortPRecRNam rec false
      let b := binSearch rec1 rnam (high + 1 - low) low (high + 1)
      { ret := b.1, pos := b.2, bag := rec1 }
    else
      match scanBack rec rnam high with
      | ScanResult.found i => { ret := 1, pos := i, bag := rec }
      | ScanResult.exhausted => { ret := 0, pos := pos, bag := rec }
      | ScanResult.sortedArea i =>
        let b := binSearch rec rnam (i + 1 - low) low (i + 1)
        { ret := b.1, pos := b.2, bag := rec }
  else
    let b := binSearch rec rnam (high + 1 - low) low (high + 1)
    { ret := b.1, pos := b.2, bag := rec }

/-! ## Access functions -/

/-- The two errors a record access can signal. -/
inductive RecError where
  | UnassignedComponent
  | ImmutableViolation
deriving DecidableEq

/-- `IsbPRec(rec, rnam)`: the record after the call and the return value. -/
def IsbPRec (rec : PRec) (rnam : Nat) : PRec × Nat :=
  let f := FindPRec rec rnam 0 true
  (f.bag, f.ret)

/-- `ElmPRec(rec, rnam)`: the record after the call and either the value or the
error signalled by `ErrorReturnVoid` (must have an assigned value). -/
def ElmPRec (rec : PRec) (rnam : Nat) : PRec × Except RecError Obj :=
  let f := FindPRec rec rnam 0 true
  if f.ret ≠ 0 then (f.bag, Except.ok (GET_ELM_PREC f.bag f.pos))
  else (f.bag, Except.error RecError.UnassignedComponent)

/-- The loop `for ( ; i < len; i++ )` of `UnbPRec`, `n` iterations left. -/
def shiftDown (rec : PRec) : Nat → Nat → PRec
  | _, 0 => rec
  | i, n + 1 =>
    let rec1 := SET_RNAM_PREC rec i (GET_RNAM_PREC rec (i + 1))
    let rec2 := SET_ELM_PREC rec1 i (GET_ELM_PREC rec1 (i + 1))
    shiftDown rec2 (i + 1) n

/-- `UnbPRec(rec, rnam)`: unbind a component. -/
def UnbPRec (rec : PRec) (rnam : Nat) : PRec :=
  let f := FindPRec rec rnam 0 true
  if f.ret ≠ 0 then
    let rec0 := f.bag
    let i := f.pos
    let len := LEN_PREC rec0
    let rec1 := shiftDown rec0 i (len - i)
    let rec2 := SET_RNAM_PREC rec1 len 0
    let rec3 := SET_ELM_PREC rec2 len 0
    SET_LEN_PREC rec3 (LEN_PREC rec3 - 1)
  else f.bag

/-- `AssPRec(rec, rnam, val)`: assign to a component. -/
def AssPRec (rec : PRec) (rnam : Nat) (val : Obj) : PRec :=
  let len := LEN_PREC rec
  let rec0 := if len % 1000 = 0 then SortPRecRNam rec false else rec
  let f := FindPRec rec0 rnam 0 false
  if f.ret = 0 then
    let len1 := len + 1
    let rec1 := (GrowPRec f.bag len1).1
    let i := len1
    let rec2 := SET_RNAM_PREC rec1 i rnam
    let rec3 := SET_LEN_PREC rec2 len1
    SET_ELM_PREC rec3 i val
  else
    SET_ELM_PREC f.bag f.pos val

/-- `InnerRecNames(rec)`: the record after the call and the list of the names
(as interned identifiers, `NAME_RNAM` turns each into its text). -/
def InnerRecNames (rec : PRec) : PRec × List Int :=
  let rec1 := SortPRecRNam rec false
  (rec1, (List.range (LEN_PREC rec1)).map (fun i => -GET_RNAM_PREC rec1 (i + 1)))

/-! ## Predicates and views used in the statements -/

/-- Magnitude of the stored name word of a slot. -/
def mag (s : Slot) : Nat := s.1.natAbs

/-- The slot with its name in the negative (sorted) encoding. -/
def normSlot (s : Slot) : Slot := (-(s.1.natAbs : Int), s.2)

/-- The slots `1 .. LEN_PREC(rec)` of a record. -/
def active (r : PRec) : List Slot := r.slots.take r.len

/-- A region in the sorted encoding: all names negative, strictly decreasing as
stored (strictly increasing magnitude). -/
def CleanL (l : List Slot) : Prop :=
  (∀ s ∈ l, s.1 < 0) ∧ l.Pairwise (fun a b => b.1 < a.1)

/-- A region of positive names that is strictly increasing. -/
def DirtyL (l : List Slot) : Prop :=
  (∀ s ∈ l, 0 < s.1) ∧ l.Pairwise (fun a b => a.1 < b.1)

/-- The record well-formedness predicate: the `N` slots exist, and there is
`K ≤ N` such that slots `1 .. K` are negative-encoded with strictly increasing
magnitude, slots `K+1 .. N` are positive-encoded, and no magnitude occurs
twice among the `N` slots. -/
def WellFormed (r : PRec) : Prop :=
  r.len ≤ r.slots.length ∧ ∃ K, K ≤ r.len ∧
    (∀ s ∈ (active r).take K, s.1 < 0) ∧
    ((active r).take K).Pairwise (fun a b => mag a < mag b) ∧
    (∀ s ∈ (active r).drop K, 0 < s.1) ∧
    ((active r).map mag).Nodup

/-- Slot `i` of a record as a pair. -/
def slotAt (r : PRec) (i : Nat) : Slot := (GET_RNAM_PREC r i, GET_ELM_PREC r i)

/-- The well-formedness predicate read slot by slot. -/
structure WFIdx (r : PRec) (K : Nat) : Prop where
  hK : K ≤ r.len
  hlen : r.len ≤ r.slots.length
  neg : ∀ i, 1 ≤ i → i ≤ K → GET_RNAM_PREC r i < 0
  mono : ∀ i j, 1 ≤ i → i < j → j ≤ K → -GET_RNAM_PREC r i < -GET_RNAM_PREC r j
  pos : ∀ i, K < i → i ≤ r.len → 0 < GET_RNAM_PREC r i
  distinct : ∀ i j, 1 ≤ i → i < j → j ≤ r.len →
    (GET_RNAM_PREC r i).natAbs ≠ (GET_RNAM_PREC r j).natAbs

/-- Some slot among `1 .. N` binds the name `k` to the value `v`. -/
def Binds (r : PRec) (k : Nat) (v : Obj) : Prop :=
  ∃ i, 1 ≤ i ∧ i ≤ r.len ∧ (GET_RNAM_PREC r i).natAbs = k ∧ GET_ELM_PREC r i = v

/-- Some slot among `1 .. N` holds the name `k`. -/
def HasKey (r : PRec) (k : Nat) : Prop :=
  ∃ i, 1 ≤ i ∧ i ≤ r.len ∧ (GET_RNAM_PREC r i).natAbs = k

/-- The component area of the record is exactly the memory of its bag. -/
def BagOK (r : PRec) : Prop := r.slots.length = slotsIn r.size

/-- An operation of a client of the record: `Set(k, v)` or `Delete(k)`. -/
inductive Op where
  | set (k : Nat) (v : Obj)
  | delete (k : Nat)
deriving DecidableEq

/-- The name an operation works on. -/
def Op.key : Op → Nat
  | Op.set k _ => k
  | Op.delete k => k

/-- `Set` is `AssPRec`, `Delete` is `UnbPRec`. -/
def applyOp (r : PRec) : Op → PRec
  | Op.set k v => AssPRec r k v
  | Op.delete k => UnbPRec r k

/-- Run a finite sequence of operations on a record. -/
def runOps (r : PRec) (ops : List Op) : PRec := ops.foldl applyOp r

/-- The last operation of the sequence that works on the name `k`, if any. -/
def lastOp (ops : List Op) (k : Nat) : Option Op :=
  (ops.filter (fun o => decide (o.key = k))).getLast?

/-- A full linear scan of the slots `1 .. N` for a slot whose name has
magnitude `rnam`; returns the position of the first such slot. -/
def fullScan (rec : PRec) (rnam : Nat) : Option Nat :=
  ((List.range (LEN_PREC rec)).find?
    (fun i => decide ((GET_RNAM_PREC rec (i + 1)).natAbs = rnam))).map (fun i => i + 1)

/-- A well-formed record with three sorted names and an unsorted dirty suffix. -/
def demoRec : PRec :=
  { tnum := T_PREC, size := 98, len := 5,
    slots := [(-3, 30), (-5, 50), (-7, 70), (4, 40), (1, 10)] }

/-- A record whose only name is still in the positive encoding. -/
def demoDirty : PRec :=
  { tnum := T_PREC, size := 32, len := 1, slots := [(5, 50)] }

/-- A short sequence of operations. -/
def demoOps : List Op := [Op.set 5 50, Op.set 3 30, Op.delete 5, Op.set 7 70]

/-- Modelled from the spec: offset of the type number of the immutable representation
(`objects.h` is not among the sources). -/
def IMMUTABLE : Nat := 1

/-- Modelled from the spec: macro `IS_PREC_REP(obj)` of `precord.h`: the bag is a plain record,
mutable or immutable. -/
def IS_PREC_REP (obj : PRec) : Bool :=
  obj.tnum == T_PREC || obj.tnum == T_PREC + IMMUTABLE

/-- Modelled from the spec: `TNUM_OBJ(obj)` of the memory manager. -/
def TNUM_OBJ (obj : PRec) : Nat := obj.tnum

/-- The loop `for ( i = 1; i <= LEN_PREC(right); i++ )` of `FuncEQ_PREC_DEFAULT`,
at position `i` with `n` iterations left; `EQ` is the equality of values. -/
def eqLoop (EQ : Obj → Obj → Bool) (left right : PRec) : Nat → Nat → Bool
  | _, 0 => true
  | i, n + 1 =>
    if GET_RNAM_PREC left i ≠ GET_RNAM_PREC right i then false
    else if ¬ (EQ (GET_ELM_PREC left i) (GET_ELM_PREC right i) = true) then false
    else eqLoop EQ left right (i + 1) n

/-- `FuncEQ_PREC_DEFAULT(self, left, right)`: comparison of two records. -/
def FuncEQ_PREC_DEFAULT (EQ : Obj → Obj → Bool) (left right : PRec) : Bool :=
  if ¬ (IS_PREC_REP left = true) then false
  else if ¬ (IS_PREC_REP right = true) then false
  else if LEN_PREC left ≠ LEN_PREC right then false
  else eqLoop EQ left right 1 (LEN_PREC right)

/-- The C library function `strcmp` on name texts, as its sign. -/
def strcmp (s t : String) : Int :=
  match compare s t with
  | Ordering.lt => -1
  | Ordering.eq => 0
  | Ordering.gt => 1

/-- The loop of `FuncLT_PREC_DEFAULT`, at position `i` with `n` iterations left;
`NAME_RNAM` gives the text of a record name, `EQ` and `LT` compare values. -/
def ltLoop (NAME_RNAM : Nat → String) (EQ LT : Obj → Obj → Bool) (left right : PRec) :
    Nat → Nat → Bool
  | _, 0 => false
  | i, n + 1 =>
    if LEN_PREC left < i then true
    else if GET_RNAM_PREC left i ≠ GET_RNAM_PREC right i then
      if strcmp (NAME_RNAM (GET_RNAM_PREC left i).natAbs)
          (NAME_RNAM (GET_RNAM_PREC right i).natAbs) > 0 then true
      else false
    else if ¬ (EQ (GET_ELM_PREC left i) (GET_ELM_PREC right i) = true) then
      LT (GET_ELM_PREC left i) (GET_ELM_PREC right i)
    else ltLoop NAME_RNAM EQ LT left right (i + 1) n

/-- `FuncLT_PREC_DEFAULT(self, left, right)`: comparison of two records. -/
def FuncLT_PREC_DEFAULT (NAME_RNAM : Nat → String) (EQ LT : Obj → Obj → Bool)
    (left right : PRec) : Bool :=
  if (¬ (IS_PREC_REP left = true) ∨ ¬ (IS_PREC_REP right = true)) ∧
      TNUM_OBJ left < TNUM_OBJ right then true
  else if (¬ (IS_PREC_REP left = true) ∨ ¬ (IS_PREC_REP right = true)) ∧
      TNUM_OBJ left > TNUM_OBJ right then false
  else ltLoop NAME_RNAM EQ LT left right 1 (LEN_PREC right)

/-- One item of a saved workspace: an unsigned word or a reference to a
sub-object. -/
inductive SaveItem where
  | uint (n : Nat)
  | subobj (o : Obj)
deriving DecidableEq

/-- The cast `(UInt)` of a name word: its bit pattern read unsigned. -/
def toUInt (x : Int) : Nat := (x % 2 ^ 64).toNat

/-- The cast `(Int)` of an unsigned word: its bit pattern read signed. -/
def toInt (n : Nat) : Int := if n % 2 ^ 64 < 2 ^ 63 then (n % 2 ^ 64 : Nat) else (n % 2 ^ 64 : Nat) - 2 ^ 64

/-- Modelled from the spec: `SaveUInt(x)` of `saveload.h`: append an unsigned word to the output. -/
def SaveUInt (x : Nat) (out : List SaveItem) : List SaveItem := out ++ [SaveItem.uint x]

/-- Modelled from the spec: `SaveSubObj(obj)` of `saveload.h`: append the reference to a
sub-object to the output. -/
def SaveSubObj (o : Obj) (out : List SaveItem) : List SaveItem := out ++ [SaveItem.subobj o]

/-- Modelled from the spec: `LoadUInt()` of `saveload.h`: read an unsigned word from the input. -/
def LoadUInt : List SaveItem → Nat × List SaveItem
  | SaveItem.uint n :: rest => (n, rest)
  | inp => (0, inp)

/-- Modelled from the spec: `LoadSubObj()` of `saveload.h`: read the reference to a sub-object. -/
def LoadSubObj : List SaveItem → Obj × List SaveItem
  | SaveItem.subobj o :: rest => (o, rest)
  | inp => (0, inp)

/-- The loop of `SavePRec`, at position `i` with `n` iterations left. -/
def saveLoop (prec : PRec) : Nat → Nat → List SaveItem → List SaveItem
  | _, 0, out => out
  | i, n + 1, out =>
    let out1 := SaveUInt (toUInt (GET_RNAM_PREC prec i)) out
    let out2 := SaveSubObj (GET_ELM_PREC prec i) out1
    saveLoop prec (i + 1) n out2

/-- `SavePRec(prec)`: the output after the call. -/
def SavePRec (prec : PRec) (out : List SaveItem) : List SaveItem :=
  let len := LEN_PREC prec
  let out1 := SaveUInt len out
  saveLoop prec 1 len out1

/-- The loop of `LoadPRec`, at position `i` with `n` iterations left. -/
def loadLoop : PRec → Nat → Nat → List SaveItem → PRec × List SaveItem
  | prec, _, 0, inp => (prec, inp)
  | prec, i, n + 1, inp =>
    let u := LoadUInt inp
    let prec1 := SET_RNAM_PREC prec i (toInt u.1)
    let o := LoadSubObj u.2
    let prec2 := SET_ELM_PREC prec1 i o.1
    loadLoop prec2 (i + 1) n o.2

/-- `LoadPRec(prec)`: the record and the input after the call. -/
def LoadPRec (prec : PRec) (inp : List SaveItem) : PRec × List SaveItem :=
  let u := LoadUInt inp
  let len := u.1
  let prec1 := SET_LEN_PREC prec len
  loadLoop prec1 1 len u.2

/-- A record of length 4 in a bag with room for exactly 4 components. -/
def demoFull : PRec :=
  { tnum := T_PREC, size := 80, len := 4, slots := [(1, 10), (2, 20), (3, 30), (4, 40)] }

/-- The record `demoDirty` after a read access has reconciled it. -/
def demoClean : PRec :=
  { tnum := T_PREC, size := 32, len := 1, slots := [(-5, 50)] }

/-- Identity of values as the equality of values. -/
def demoEQ (a b : Obj) : Bool := a == b

/-- The order of the machine words as the order of values. -/
def demoLT (a b : Obj) : Bool := decide (a < b)

/-- The items `saveLoop` appends for the slots `i .. i+n-1`. -/
def saveItems (prec : PRec) : Nat → Nat → List SaveItem
  | _, 0 => []
  | i, n + 1 =>
    SaveItem.uint (toUInt (GET_RNAM_PREC prec i)) :: SaveItem.subobj (GET_ELM_PREC prec i) ::
      saveItems prec (i + 1) n

/-- The record built by `Set(1,1); Set(2,2)` on `NEW_PREC(0)`. -/
def demoAB : PRec := { tnum := T_PREC, size := 50, len := 2, slots := [(1, 1), (2, 2)] }

/-- The record built by `Set(2,2); Set(1,1)` on `NEW_PREC(0)`. -/
def demoBA : PRec := { tnum := T_PREC, size := 50, len := 2, slots := [(2, 2), (1, 1)] }

/-- The name 5, not yet sorted, bound to the value 1. -/
def demoP1 : PRec := { tnum := T_PREC, size := 32, len := 1, slots := [(5, 1)] }

/-- The name 5, sorted, bound to the value 2. -/
def demoN2 : PRec := { tnum := T_PREC, size := 32, len := 1, slots := [(-5, 2)] }

/-- The name 5, not yet sorted, bound to the value 2. -/
def demoP2 : PRec := { tnum := T_PREC, size := 32, len := 1, slots := [(5, 2)] }

/-- A name table for the examples: every name has the empty text. -/
def demoName (_ : Nat) : String := ""

/-- A record with the component of `demoClean` and a second component behind it. -/
def demoLonger : PRec :=
  { tnum := T_PREC, size := 48, len := 2, slots := [(-5, 50), (-7, 70)] }

/-- Modelled from the spec: offset of the type numbers of the mid-copy representations
(`objects.h` is not among the sources); a record in this representation carries a
forwarding marker. -/
def COPYING : Nat := 2

/-- Modelled from the spec: macro `IMMUTABLE_TNUM(type)` of `objects.h`, the type number of the
immutable representation. -/
def IMMUTABLE_TNUM (type : Nat) : Nat := type ||| IMMUTABLE

/-- Modelled from the spec: `RetypeBag(bag, type)` of the memory manager (`Retag(handle, newTag)`). -/
def RetypeBag (bag : PRec) (type : Nat) : PRec := { bag with tnum := type }

/-- `IS_MUTABLE_OBJ(rec)` for the bags of this module: `IsMutableObjFuncs` holds
`IsMutablePRecYes` for `T_PREC` and `IsMutablePRecNo` for `T_PREC+IMMUTABLE`. -/
def IS_MUTABLE_OBJ (bag : PRec) : Bool := bag.tnum == T_PREC

/-- The workspace: the list of all bags.  The handle of bag number `i` is the even
word `2*i+2`; odd words are immediate objects and `0` is the null pointer. -/
abbrev Heap := List PRec

/-- The word is the handle of a bag (not an immediate object, not null). -/
def isBagRef (o : Obj) : Bool := o % 2 == 0 && o != 0

/-- The number of the bag a handle refers to. -/
def indexOf (o : Obj) : Nat := o / 2 - 1

/-- The handle of bag number `i`. -/
def handleOf (i : Nat) : Obj := 2 * i + 2

/-- What is read through a word that is no handle of a bag of the workspace: a
bag that is no record, without content. -/
def voidBag : PRec := { tnum := 255, size := 0, len := 0, slots := [] }

/-- The bag behind a handle. -/
def bagOf (h : Heap) (o : Obj) : PRec :=
  if isBagRef o = true then h.getD (indexOf o) voidBag else voidBag

/-- Replace the bag behind a handle. -/
def setBag (h : Heap) (o : Obj) (bag : PRec) : Heap :=
  if isBagRef o = true then h.set (indexOf o) bag else h

/-- Apply a change to the bag behind a handle. -/
def onBag (h : Heap) (o : Obj) (f : PRec → PRec) : Heap := setBag h o (f (bagOf h o))

/-- `NewBag(type, size)` in the workspace: the new workspace and the handle. -/
def allocBag (h : Heap) (type size : Nat) : Heap × Obj :=
  (h ++ [NewBag type size], handleOf h.length)

/-- `CopyPRecCopy(rec, mut)`: the forwarding pointer kept in the first name word. -/
def CopyPRecCopy (h : Heap) (rec : Obj) (_mutFlag : Bool) : Obj :=
  (GET_RNAM_PREC (bagOf h rec) 1).toNat

/-- The loop `for ( i = 2; i <= LEN_PREC(copy); i++ )` of `CopyPRec`, at position
`i` with `n` iterations left; `COPY` is `COPY_OBJ( . , mut)`. -/
def copyLoop (COPY : Heap → Obj → Option (Heap × Obj)) (rec copy : Obj) :
    Nat → Nat → Heap → Option Heap
  | _, 0, h => some h
  | i, n + 1, h =>
    let h1 := onBag h copy (fun b => SET_RNAM_PREC b i (GET_RNAM_PREC (bagOf h rec) i))
    match COPY h1 (GET_ELM_PREC (bagOf h1 rec) i) with
    | none => none
    | some (h2, tmp) =>
      let h3 := onBag h2 copy (fun b => SET_ELM_PREC b i tmp)
      copyLoop COPY rec copy (i + 1) n h3

/-- The body of `CopyPRec(rec, mut)`; `COPY` is `COPY_OBJ( . , mut)` for the
sub-objects.  Returns the workspace after the call and the copy. -/
def CopyPRecWith (COPY : Heap → Obj → Option (Heap × Obj)) (h : Heap) (rec : Obj)
    (mutFlag : Bool) : Option (Heap × Obj) :=
  -- don't change immutable objects
  if IS_MUTABLE_OBJ (bagOf h rec) = false then some (h, rec)
  else if LEN_PREC (bagOf h rec) = 0 then
    -- an empty record: make a copy
    let a := allocBag h
      (if mutFlag = true then TNUM_OBJ (bagOf h rec) else IMMUTABLE_TNUM (TNUM_OBJ (bagOf h rec)))
      (SIZE_OBJ (bagOf h rec))
    let copy := a.2
    -- leave a forwarding pointer
    let h1 := onBag a.1 rec (fun b => ResizeBag b (SIZE_OBJ b + sizeofObj))
    let h2 := onBag h1 rec (fun b => SET_RNAM_PREC b 1 (copy : Int))
    -- now it is copied
    let h3 := onBag h2 rec (fun b => RetypeBag b (TNUM_OBJ b + COPYING))
    some (h3, copy)
  else
    -- make a copy
    let a := allocBag h
      (if mutFlag = true then TNUM_OBJ (bagOf h rec) else IMMUTABLE_TNUM (TNUM_OBJ (bagOf h rec)))
      (SIZE_OBJ (bagOf h rec))
    let copy := a.2
    let h1 := onBag a.1 copy (fun b => SET_RNAM_PREC b 1 (GET_RNAM_PREC (bagOf a.1 rec) 1))
    -- leave a forwarding pointer
    let h2 := onBag h1 rec (fun b => SET_RNAM_PREC b 1 (copy : Int))
    -- now it is copied
    let h3 := onBag h2 rec (fun b => RetypeBag b (TNUM_OBJ b + COPYING))
    -- copy the subvalues
    match COPY h3 (GET_ELM_PREC (bagOf h3 rec) 1) with
    | none => none
    | some (h4, tmp) =>
      let h5 := onBag h4 copy (fun b => SET_LEN_PREC b (LEN_PREC (bagOf h4 rec)))
      let h6 := onBag h5 copy (fun b => SET_ELM_PREC b 1 tmp)
      match copyLoop COPY rec copy 2 (LEN_PREC (bagOf h6 copy) - 1) h6 with
      | none => none
      | some h7 => some (h7, copy)

/-- Modelled from the spec: `COPY_OBJ(obj, mut)`, the dispatch through `CopyObjFuncs`: `CopyPRec`
for the two record representations, `CopyPRecCopy` for the two mid-copy
representations; every other object is a constant and is its own copy.  The
first argument bounds the depth of the recursion, `none` means it was too small. -/
def COPY_OBJ : Nat → Heap → Obj → Bool → Option (Heap × Obj)
  | 0, _, _, _ => none
  | fuel + 1, h, obj, mutFlag =>
    if TNUM_OBJ (bagOf h obj) = T_PREC ∨ TNUM_OBJ (bagOf h obj) = T_PREC + IMMUTABLE then
      CopyPRecWith (fun h1 o => COPY_OBJ fuel h1 o mutFlag) h obj mutFlag
    else if TNUM_OBJ (bagOf h obj) = T_PREC + COPYING ∨
        TNUM_OBJ (bagOf h obj) = T_PREC + IMMUTABLE + COPYING then
      some (h, CopyPRecCopy h obj mutFlag)
    else some (h, obj)

/-- `CopyPRec(rec, mut)`, its sub-objects copied with recursion depth `fuel`. -/
def CopyPRec (fuel : Nat) (h : Heap) (rec : Obj) (mutFlag : Bool) : Option (Heap × Obj) :=
  CopyPRecWith (fun h1 o => COPY_OBJ fuel h1 o mutFlag) h rec mutFlag

/-- The loop `for ( i = 2; i <= LEN_PREC(rec); i++ )` of `CleanPRecCopy`. -/
def cleanLoop (CLEAN : Heap → Obj → Option Heap) (rec : Obj) : Nat → Nat → Heap → Option Heap
  | _, 0, h => some h
  | i, n + 1, h =>
    match CLEAN h (GET_ELM_PREC (bagOf h rec) i) with
    | none => none
    | some h1 => cleanLoop CLEAN rec (i + 1) n h1

/-- The body of `CleanPRecCopy(rec)`; `CLEAN` is `CLEAN_OBJ` for the sub-objects. -/
def CleanPRecCopyWith (CLEAN : Heap → Obj → Option Heap) (h : Heap) (rec : Obj) : Option Heap :=
  if LEN_PREC (bagOf h rec) = 0 then
    -- remove the forwarding pointer
    let h1 := onBag h rec (fun b => ResizeBag b (SIZE_OBJ b - sizeofObj))
    -- now it is cleaned
    let h2 := onBag h1 rec (fun b => RetypeBag b (TNUM_OBJ b - COPYING))
    some h2
  else
    -- remove the forwarding pointer
    let h1 := onBag h rec (fun b =>
      SET_RNAM_PREC b 1 (GET_RNAM_PREC (bagOf h (GET_RNAM_PREC b 1).toNat) 1))
    -- now it is cleaned
    let h2 := onBag h1 rec (fun b => RetypeBag b (TNUM_OBJ b - COPYING))
    -- clean the subvalues
    match CLEAN h2 (GET_ELM_PREC (bagOf h2 rec) 1) with
    | none => none
    | some h3 => cleanLoop CLEAN rec 2 (LEN_PREC (bagOf h3 rec) - 1) h3

/-- Modelled from the spec: `CLEAN_OBJ(obj)`, the dispatch through `CleanObjFuncs`: `CleanPRec`
(which does nothing) for the two record representations, `CleanPRecCopy` for the two
mid-copy representations; nothing is to be cleaned for a constant. -/
def CLEAN_OBJ : Nat → Heap → Obj → Option Heap
  | 0, _, _ => none
  | fuel + 1, h, obj =>
    if TNUM_OBJ (bagOf h obj) = T_PREC ∨ TNUM_OBJ (bagOf h obj) = T_PREC + IMMUTABLE then
      some h
    else if TNUM_OBJ (bagOf h obj) = T_PREC + COPYING ∨
        TNUM_OBJ (bagOf h obj) = T_PREC + IMMUTABLE + COPYING then
      CleanPRecCopyWith (fun h1 o => CLEAN_OBJ fuel h1 o) h obj
    else some h

/-- `CleanPRecCopy(rec)`, its sub-objects cleaned with recursion depth `fuel`. -/
def CleanPRecCopy (fuel : Nat) (h : Heap) (rec : Obj) : Option Heap :=
  CleanPRecCopyWith (fun h1 o => CLEAN_OBJ fuel h1 o) h rec

/-- Modelled from the spec: `DeepCopy`, the caller of the two phases (`CopyObj` of `objects.c`):
`new = COPY_OBJ(obj, mut); CLEAN_OBJ(obj); return new;`. -/
def CopyObj (fuel : Nat) (h : Heap) (obj : Obj) (mutFlag : Bool) : Option (Heap × Obj) :=
  match COPY_OBJ fuel h obj mutFlag with
  | none => none
  | some (h1, new) =>
    match CLEAN_OBJ fuel h1 obj with
    | none => none
    | some h2 => some (h2, new)

/-- Modelled from the spec: the equality `EQ` of values (`ariths.h`): identical objects are
equal, two bags are compared by `FuncEQ_PREC_DEFAULT` (no handler is installed),
anything else is different.  The first argument bounds the depth of the
recursion; running out of it yields `false`. -/
def EQ : Nat → Heap → Obj → Obj → Bool
  | fuel, h, a, b =>
    if a = b then true
    else
      match fuel with
      | 0 => false
      | fuel1 + 1 => FuncEQ_PREC_DEFAULT (fun x y => EQ fuel1 h x y) (bagOf h a) (bagOf h b)

/-- The word is the handle of a bag of the workspace `h`. -/
def ValidRef (h : Heap) (o : Obj) : Prop := isBagRef o = true ∧ indexOf o < h.length

/-- The word is the handle of a mutable plain record of the workspace `h0`. -/
def IsMutRec (h0 : Heap) (v : Obj) : Prop := ValidRef h0 v ∧ (bagOf h0 v).tnum = T_PREC

/-- The workspace before a structural copy: no bag carries a forwarding marker,
and every mutable record has its header words, its `N` slots inside the bag, and
values that are immediate objects or handles of bags of the workspace. -/
def HeapOK (h0 : Heap) : Prop :=
  ∀ v, ValidRef h0 v →
    (bagOf h0 v).tnum ≠ T_PREC + COPYING ∧ (bagOf h0 v).tnum ≠ T_PREC + IMMUTABLE + COPYING ∧
    ((bagOf h0 v).tnum = T_PREC →
      16 ≤ (bagOf h0 v).size ∧ BagOK (bagOf h0 v) ∧
      (bagOf h0 v).len ≤ (bagOf h0 v).slots.length ∧
      ∀ i, 1 ≤ i → i ≤ (bagOf h0 v).len →
        isBagRef (GET_ELM_PREC (bagOf h0 v) i) = true →
        ValidRef h0 (GET_ELM_PREC (bagOf h0 v) i))

/-- The value graph below the records of rank at most `R` is acyclic: along every
reference from a mutable record to a mutable record the rank decreases. -/
def Acyclic (h0 : Heap) (rank : Obj → Nat) (R : Nat) : Prop :=
  ∀ v, IsMutRec h0 v → rank v ≤ R → ∀ i, 1 ≤ i → i ≤ (bagOf h0 v).len →
    IsMutRec h0 (GET_ELM_PREC (bagOf h0 v) i) → rank (GET_ELM_PREC (bagOf h0 v) i) < rank v

/-- The record `v` of `h0` carries, in `h`, a forwarding marker to the new bag `c`
of type `T`; everything but its first name word and its type is as in `h0`. -/
structure Forwarded (h0 h : Heap) (T : Nat) (v c : Obj) : Prop where
  mutRec : IsMutRec h0 v
  valid : ValidRef h c
  fresh : ¬ ValidRef h0 c
  tnum : (bagOf h v).tnum = T_PREC + COPYING
  len : (bagOf h v).len = (bagOf h0 v).len
  ptr : GET_RNAM_PREC (bagOf h v) 1 = (c : Int)
  elms : ∀ i, 1 ≤ i → i ≤ (bagOf h0 v).len →
    GET_ELM_PREC (bagOf h v) i = GET_ELM_PREC (bagOf h0 v) i
  names : ∀ i, 2 ≤ i → i ≤ (bagOf h0 v).len →
    GET_RNAM_PREC (bagOf h v) i = GET_RNAM_PREC (bagOf h0 v) i
  ctnum : (bagOf h c).tnum = T
  room : (bagOf h0 v).len ≤ (bagOf h c).slots.length
  vroom : (bagOf h0 v).len ≤ (bagOf h v).slots.length
  csize : (bagOf h c).size = (bagOf h0 v).size
  shape : bagOf h v = RetypeBag (SET_RNAM_PREC
    (if (bagOf h0 v).len = 0 then ResizeBag (bagOf h0 v) (SIZE_OBJ (bagOf h0 v) + sizeofObj)
      else bagOf h0 v) 1 (c : Int)) (T_PREC + COPYING)
  cname : 0 < (bagOf h0 v).len → GET_RNAM_PREC (bagOf h c) 1 = GET_RNAM_PREC (bagOf h0 v) 1

/-- Slot `i` of the copy `c` of the record `v` is finished: it holds the name of
slot `i` of `v` and the image of its value (the copy of a mutable record, the
value itself otherwise). -/
def SlotDone (h0 h : Heap) (T : Nat) (v c : Obj) (i : Nat) : Prop :=
  GET_RNAM_PREC (bagOf h c) i = GET_RNAM_PREC (bagOf h0 v) i ∧
  (IsMutRec h0 (GET_ELM_PREC (bagOf h0 v) i) →
    Forwarded h0 h T (GET_ELM_PREC (bagOf h0 v) i) (GET_ELM_PREC (bagOf h c) i)) ∧
  (¬ IsMutRec h0 (GET_ELM_PREC (bagOf h0 v) i) →
    GET_ELM_PREC (bagOf h c) i = GET_ELM_PREC (bagOf h0 v) i)

/-- The copy of the record `v` is finished: it has the length of `v` and all its
slots are finished. -/
def Complete (h0 h : Heap) (T : Nat) (v : Obj) : Prop :=
  ∃ c, Forwarded h0 h T v c ∧ (bagOf h c).len = (bagOf h0 v).len ∧
    ∀ i, 1 ≤ i → i ≤ (bagOf h0 v).len → SlotDone h0 h T v c i

/-- State of the workspace during the forward phase of a copy of `h0`. -/
def FwdInv (h0 h : Heap) (T : Nat) : Prop :=
  h0.length ≤ h.length ∧
  (∀ v, ValidRef h0 v → bagOf h v = bagOf h0 v ∨ ∃ c, Forwarded h0 h T v c) ∧
  (∀ v w c, Forwarded h0 h T v c → Forwarded h0 h T w c → v = w)

/-- Markers of `h` are still there in `h1`, and the bags they point to are
untouched. -/
def FwdMono (h0 h h1 : Heap) (T : Nat) : Prop :=
  h.length ≤ h1.length ∧
  ∀ v c, Forwarded h0 h T v c → Forwarded h0 h1 T v c ∧ bagOf h1 c = bagOf h c

/-- Markers of `h` are still there in `h1`, and the bags they point to are
untouched, but for the copy of `x`. -/
def FwdMonoX (h0 h h1 : Heap) (T : Nat) (x : Obj) : Prop :=
  h.length ≤ h1.length ∧
  ∀ v c, Forwarded h0 h T v c → Forwarded h0 h1 T v c ∧ (v ≠ x → bagOf h1 c = bagOf h c)

/-- Every record of rank below `ρ` that carries a marker has a finished copy. -/
def FwdDone (h0 h : Heap) (T : Nat) (rank : Obj → Nat) (ρ : Nat) : Prop :=
  ∀ v c, Forwarded h0 h T v c → rank v < ρ → Complete h0 h T v

/-- Every marker of `h1` was there in `h` or sits on a record of rank below `ρ`. -/
def FwdNew (h0 h h1 : Heap) (T : Nat) (rank : Obj → Nat) (ρ : Nat) : Prop :=
  ∀ v c, Forwarded h0 h1 T v c → Forwarded h0 h T v c ∨ rank v < ρ

/-- The type, the size of the component area and the first name word of a bag
are kept. -/
def CopyKeep (b b1 : PRec) : Prop :=
  b1.tnum = b.tnum ∧ b1.size = b.size ∧ b1.slots.length = b.slots.length ∧
  GET_RNAM_PREC b1 1 = GET_RNAM_PREC b 1

/-- The type number of the copy of a mutable plain record in `CopyPRec`:
`mut ? TNUM_OBJ(rec) : IMMUTABLE_TNUM(TNUM_OBJ(rec))` with `TNUM_OBJ(rec) = T_PREC`. -/
def copyType (mutFlag : Bool) : Nat :=
  if mutFlag = true then T_PREC else IMMUTABLE_TNUM T_PREC

/-- What a call of `COPY_OBJ` does to a workspace in the forward phase, on values
whose records have rank below `ρ`: it returns, keeps the state of the phase, and
its result is the copy of a mutable record and the value itself otherwise. -/
def CopySpec (h0 : Heap) (T : Nat) (rank : Obj → Nat) (ρ : Nat)
    (COPY : Heap → Obj → Option (Heap × Obj)) : Prop :=
  ∀ h x, FwdInv h0 h T → FwdDone h0 h T rank ρ → (isBagRef x = true → ValidRef h0 x) →
    (IsMutRec h0 x → rank x < ρ) →
    ∃ h1 c, COPY h x = some (h1, c) ∧ FwdInv h0 h1 T ∧ FwdMono h0 h h1 T ∧
      FwdNew h0 h h1 T rank ρ ∧ FwdDone h0 h1 T rank ρ ∧
      (IsMutRec h0 x → Forwarded h0 h1 T x c) ∧ (¬ IsMutRec h0 x → c = x)

/-- The record `v` is being copied into `c`, the slots before `i` are finished. -/
def InProgress (h0 h : Heap) (T : Nat) (rank : Obj → Nat) (v c : Obj) (i : Nat) : Prop :=
  FwdInv h0 h T ∧ FwdDone h0 h T rank (rank v) ∧ Forwarded h0 h T v c ∧
  ∀ k, 1 ≤ k → k < i → SlotDone h0 h T v c k

/-- A step of the copy of `v`. -/
def Step (h0 h h1 : Heap) (T : Nat) (rank : Obj → Nat) (v : Obj) : Prop :=
  FwdMonoX h0 h h1 T v ∧ FwdNew h0 h h1 T rank (rank v)

/-- The record `u` is, in `h`, a mutable record with the length, the names and the
values it has in `h0`. -/
def Restored (h0 h : Heap) (u : Obj) : Prop :=
  (bagOf h u).tnum = T_PREC ∧ (bagOf h u).len = (bagOf h0 u).len ∧
  ∀ i, 1 ≤ i → i ≤ (bagOf h0 u).len →
    GET_RNAM_PREC (bagOf h u) i = GET_RNAM_PREC (bagOf h0 u) i ∧
    GET_ELM_PREC (bagOf h u) i = GET_ELM_PREC (bagOf h0 u) i

/-- The workspace `h1` after the forward phase of a copy of `h0`: every record
with a marker has a finished copy and a rank of at most `R`. -/
def Copied (h0 h1 : Heap) (T : Nat) (rank : Obj → Nat) (R : Nat) : Prop :=
  FwdInv h0 h1 T ∧ ∀ u cu, Forwarded h0 h1 T u cu → Complete h0 h1 T u ∧ rank u ≤ R

/-- State of the workspace during the clean phase that follows `h1`: the new bags
are untouched, and a record of `h0` is as in `h1` or had a marker and is restored. -/
def CInv (h0 h1 h : Heap) (T : Nat) : Prop :=
  h.length = h1.length ∧ (∀ u, ¬ ValidRef h0 u → bagOf h u = bagOf h1 u) ∧
  (∀ u, ValidRef h0 u →
    bagOf h u = bagOf h1 u ∨ ((∃ cu, Forwarded h0 h1 T u cu) ∧ Restored h0 h u))

/-- Every restored record of rank below `ρ` has only restored records among its
values. -/
def CDone (h0 h1 h : Heap) (T : Nat) (rank : Obj → Nat) (ρ : Nat) : Prop :=
  ∀ u cu, Forwarded h0 h1 T u cu → Restored h0 h u → rank u < ρ →
    ∀ i, 1 ≤ i → i ≤ (bagOf h0 u).len → IsMutRec h0 (GET_ELM_PREC (bagOf h0 u) i) →
      Restored h0 h (GET_ELM_PREC (bagOf h0 u) i)

/-- Only bags with a marker are changed. -/
def CMono (h h1 : Heap) : Prop :=
  ∀ u, (bagOf h u).tnum ≠ T_PREC + COPYING → bagOf h1 u = bagOf h u

/-- Only bags of rank below `ρ` are changed. -/
def CNew (h h1 : Heap) (rank : Obj → Nat) (ρ : Nat) : Prop :=
  ∀ u, bagOf h1 u = bagOf h u ∨ rank u < ρ

/-- What a call of `CLEAN_OBJ` does to a workspace in the clean phase, on values
whose records have rank below `ρ`: it returns, keeps the state of the phase, and
a mutable record is restored. -/
def CleanSpec (h0 h1 : Heap) (T : Nat) (rank : Obj → Nat) (ρ : Nat)
    (CLEAN : Heap → Obj → Option Heap) : Prop :=
  ∀ h x, CInv h0 h1 h T → CDone h0 h1 h T rank ρ → (isBagRef x = true → ValidRef h0 x) →
    (IsMutRec h0 x → rank x < ρ ∧ ∃ cx, Forwarded h0 h1 T x cx) →
    ∃ h2, CLEAN h x = some h2 ∧ CInv h0 h1 h2 T ∧ CDone h0 h1 h2 T rank ρ ∧ CMono h h2 ∧
      CNew h h2 rank ρ ∧ (IsMutRec h0 x → Restored h0 h2 x)

/-- A workspace with three mutable records: the record of handle 2 holds an
immediate value, the record of handle 4 twice, and the empty record of handle 6. -/
def demoHeap : Heap :=
  [{ tnum := 0, size := 80, len := 4, slots := [(-1, 3), (-2, 4), (3, 4), (5, 6)] },
   { tnum := 0, size := 32, len := 1, slots := [(-7, 9)] },
   { tnum := 0, size := 16, len := 0, slots := [] }]

/-- Height of the records of `demoHeap` in its value graph. -/
def demoRank (v : Obj) : Nat := if v = 2 then 1 else 0

/-- `AssPRecImm(rec, rnam, val)`: the record after the call and the error that
`ErrorReturnVoid` signals (must be a mutable record). -/
def AssPRecImm (rec : PRec) (_rnam : Nat) (_val : Obj) : PRec × Except RecError Unit :=
  (rec, Except.error RecError.ImmutableViolation)

/-- `UnbPRecImm(rec, rnam)`: the record after the call and the error that
`ErrorReturnVoid` signals (must be a mutable record). -/
def UnbPRecImm (rec : PRec) (_rnam : Nat) : PRec × Except RecError Unit :=
  (rec, Except.error RecError.ImmutableViolation)

/-- Modelled from the spec: `ASS_REC(rec, rnam, val)` of `records.h`, the call through
`AssRecFuncs`, whose entries `InitKernel` sets to `AssPRec` for `T_PREC` and to
`AssPRecImm` for `T_PREC+IMMUTABLE`; `none` for a type number without an entry of
this module. -/
def ASS_REC (rec : PRec) (rnam : Nat) (val : Obj) : Option (PRec × Except RecError Unit) :=
  if TNUM_OBJ rec = T_PREC then some (AssPRec rec rnam val, Except.ok ())
  else if TNUM_OBJ rec = T_PREC + IMMUTABLE then some (AssPRecImm rec rnam val)
  else none

/-- Modelled from the spec: `UNB_REC(rec, rnam)` of `records.h`, the call through `UnbRecFuncs`,
whose entries `InitKernel` sets to `UnbPRec` for `T_PREC` and to `UnbPRecImm` for
`T_PREC+IMMUTABLE`. -/
def UNB_REC (rec : PRec) (rnam : Nat) : Option (PRec × Except RecError Unit) :=
  if TNUM_OBJ rec = T_PREC then some (UnbPRec rec rnam, Except.ok ())
  else if TNUM_OBJ rec = T_PREC + IMMUTABLE then some (UnbPRecImm rec rnam)
  else none

/-- Modelled from the spec: `ISB_REC(rec, rnam)` of `records.h`, the call through `IsbRecFuncs`,
whose entries `InitKernel` sets to `IsbPRec` for both representations. -/
def ISB_REC (rec : PRec) (rnam : Nat) : Option (PRec × Nat) :=
  if TNUM_OBJ rec = T_PREC ∨ TNUM_OBJ rec = T_PREC + IMMUTABLE then some (IsbPRec rec rnam)
  else none

/-- Modelled from the spec: `ELM_REC(rec, rnam)` of `records.h`, the call through `ElmRecFuncs`,
whose entries `InitKernel` sets to `ElmPRec` for both representations. -/
def ELM_REC (rec : PRec) (rnam : Nat) : Option (PRec × Except RecError Obj) :=
  if TNUM_OBJ rec = T_PREC ∨ TNUM_OBJ rec = T_PREC + IMMUTABLE then some (ElmPRec rec rnam)
  else none

/-- The cases `T_PREC` and `T_PREC+IMMUTABLE` of `FuncREC_NAMES(self, rec)`; `none`
stands for the other cases (atomic records, the error for a non-record). -/
def FuncREC_NAMES (rec : PRec) : Option (PRec × List Int) :=
  if TNUM_OBJ rec = T_PREC ∨ TNUM_OBJ rec = T_PREC + IMMUTABLE then some (InnerRecNames rec)
  else none

/-- The loop `for ( i = 1; i <= len; i++ )` of `MakeImmutablePRec`, at position `i`
with `n` iterations left; `MAKE` is `MakeImmutable`. -/
def immLoop (MAKE : Heap → Obj → Option Heap) (rec : Obj) : Nat → Nat → Heap → Option Heap
  | _, 0, h => some h
  | i, n + 1, h =>
    match MAKE h (GET_ELM_PREC (bagOf h rec) i) with
    | none => none
    | some h1 => immLoop MAKE rec (i + 1) n h1

/-- The body of `MakeImmutablePRec(rec)`; `MAKE` is `MakeImmutable` for the
sub-objects. -/
def MakeImmutablePRecWith (MAKE : Heap → Obj → Option Heap) (h : Heap) (rec : Obj) :
    Option Heap :=
  let len := LEN_PREC (bagOf h rec)
  match immLoop MAKE rec 1 len h with
  | none => none
  | some h1 => some (onBag h1 rec (fun b => RetypeBag b (IMMUTABLE_TNUM (TNUM_OBJ b))))

/-- Modelled from the spec: `MakeImmutable(obj)` of `objects.c`: a mutable object is handed to
its entry of `MakeImmutableObjFuncs`, which `InitKernel` sets to
`MakeImmutablePRec` for `T_PREC`; nothing is done for an object that is not
mutable.  The first argument bounds the depth of the recursion, `none` means it
was too small. -/
def MakeImmutable : Nat → Heap → Obj → Option Heap
  | 0, _, _ => none
  | fuel + 1, h, obj =>
    if IS_MUTABLE_OBJ (bagOf h obj) = true then
      MakeImmutablePRecWith (fun h1 o => MakeImmutable fuel h1 o) h obj
    else some h

/-- `MakeImmutablePRec(rec)`, its sub-objects made immutable with recursion depth
`fuel`. -/
def MakeImmutablePRec (fuel : Nat) (h : Heap) (rec : Obj) : Option Heap :=
  MakeImmutablePRecWith (fun h1 o => MakeImmutable fuel h1 o) h rec

/-- An immutable record with the names 3 and 5. -/
def demoImm : PRec :=
  { tnum := T_PREC + IMMUTABLE, size := 48, len := 2, slots := [(-3, 30), (5, 50)] }

/-- An interning in which the name `a` got the identifier 2 and the name `b` the
identifier 1. -/
def nameAB (rnam : Nat) : String := if rnam = 2 then "a" else "b"

/-- The record names that `PostRestore` fetches with `RNamName` and keeps in global
variables. -/
structure Globals where
  OperationsRNam : Nat
  COMPONENTSRNam : Nat
  EqRNam : Nat
  LtRNam : Nat
  InRNam : Nat
  SumRNam : Nat
  DiffRNam : Nat
  ProdRNam : Nat
  QuoRNam : Nat
  LQuoRNam : Nat
  PowRNam : Nat
  CommRNam : Nat
  ModRNam : Nat

/-- Modelled from the spec: the type number `T_COMOBJ` of the component objects (`objects.h` is
not among the sources); all that matters is that it is another number than those of
the plain records. -/
def T_COMOBJ : Nat := 83

/-- The part of `MethodPRec` from the test `! IS_PREC_REP(opers)` on; `pos` is the
content of `i`. -/
def methodOf (h : Heap) (opers : Obj) (rnam : Nat) (pos : Nat) : Heap × Obj :=
  if ¬ (IS_PREC_REP (bagOf h opers) = true) then (h, 0)
  else
    -- try to get the method
    let f := FindPRec (bagOf h opers) rnam pos true
    let h1 := setBag h opers f.bag
    if f.ret = 0 then (h1, 0)
    else (h1, GET_ELM_PREC (bagOf h1 opers) f.pos)

/-- `MethodPRec(rec, rnam)`: the workspace after the call (the lookups reorganise
the records) and the method, 0 if there is none. -/
def MethodPRec (g : Globals) (h : Heap) (rec : Obj) (rnam : Nat) : Heap × Obj :=
  -- is <rec> a record?
  if ¬ (IS_PREC_REP (bagOf h rec) = true) then (h, 0)
  else
    -- try to get the operations record
    let f := FindPRec (bagOf h rec) g.OperationsRNam 0 true
    let h1 := setBag h rec f.bag
    if f.ret = 0 then (h1, 0)
    else
      let opers := GET_ELM_PREC (bagOf h1 rec) f.pos
      -- check for an Operations Record object
      if TNUM_OBJ (bagOf h1 opers) = T_COMOBJ then
        let f2 := FindPRec (bagOf h1 opers) g.COMPONENTSRNam f.pos true
        let h2 := setBag h1 opers f2.bag
        if f2.ret = 0 then (h2, 0)
        else methodOf h2 (GET_ELM_PREC (bagOf h2 opers) f2.pos) rnam f2.pos
      else methodOf h1 opers rnam f.pos

/-- Every plain record and every component object of the workspace is well formed. -/
def RecWF (h : Heap) : Prop :=
  ∀ v, (IS_PREC_REP (bagOf h v) = true ∨ TNUM_OBJ (bagOf h v) = T_COMOBJ) →
    WellFormed (bagOf h v)

/-- The bags of `h1` have the types and the bindings of the bags of `h`. -/
def SameView (h h1 : Heap) : Prop :=
  ∀ v, (bagOf h1 v).tnum = (bagOf h v).tnum ∧
    ∀ k x, Binds (bagOf h1 v) k x ↔ Binds (bagOf h v) k x

/-- The object `rec` supplies the handler `m` for the operator name `op`: it is a
record that binds `operations` to `o`, and `o` (or, when `o` is a component
object, what `o` binds to `COMPONENTS`) is a record that binds `op` to `m`. -/
def Supplies (g : Globals) (h : Heap) (rec : Obj) (op : Nat) (m : Obj) : Prop :=
  IS_PREC_REP (bagOf h rec) = true ∧ ∃ o, Binds (bagOf h rec) g.OperationsRNam o ∧
    ∃ o2, (if TNUM_OBJ (bagOf h o) = T_COMOBJ then Binds (bagOf h o) g.COMPONENTSRNam o2
        else o2 = o) ∧
      IS_PREC_REP (bagOf h o2) = true ∧ Binds (bagOf h o2) op m

/-- The names used in the examples: `operations` is 7, `COMPONENTS` is 8, the
operators are 11 to 21. -/
def demoGlobals : Globals :=
  { OperationsRNam := 7, COMPONENTSRNam := 8, EqRNam := 11, LtRNam := 12, InRNam := 13,
    SumRNam := 14, DiffRNam := 15, ProdRNam := 16, QuoRNam := 17, LQuoRNam := 18,
    PowRNam := 19, CommRNam := 20, ModRNam := 21 }

/-- A workspace for the examples: the record of handle 2 has the operations
record of handle 4, which binds `in` (13) to 101 and `+` (14) to 103; the
record of handle 6 has no operations record; the record of handle 8 has as
operations the component object of handle 10, whose `COMPONENTS` is the record
of handle 4. -/
def demoMethods : Heap :=
  [{ tnum := 0, size := 48, len := 2, slots := [(7, 4), (3, 33)] },
   { tnum := 0, size := 48, len := 2, slots := [(-13, 101), (-14, 103)] },
   { tnum := 0, size := 32, len := 1, slots := [(-3, 35)] },
   { tnum := 1, size := 32, len := 1, slots := [(-7, 10)] },
   { tnum := 83, size := 32, len := 1, slots := [(8, 4)] }]

/-- What an operator entry point does in the end: it reports that it has no
method (`TRY_NEXT_METHOD`), it calls a handler (`CALL_2ARGS(method, left,
right)`), or it returns the answer of the default comparison. -/
inductive Outcome where
  | TRY_NEXT_METHOD
  | CALL_2ARGS (method left right : Obj)
  | answer (b : Bool)
deriving DecidableEq

/-- `FuncSUM_PREC(self, left, right)`: sum of two records. -/
def FuncSUM_PREC (g : Globals) (h : Heap) (left right : Obj) : Heap × Outcome :=
  -- try to find an applicable method
  let m1 := MethodPRec g h right g.SumRNam
  if m1.2 ≠ 0 then (m1.1, Outcome.CALL_2ARGS m1.2 left right)
  else
    let m2 := MethodPRec g m1.1 left g.SumRNam
    if m2.2 ≠ 0 then (m2.1, Outcome.CALL_2ARGS m2.2 left right)
    else (m2.1, Outcome.TRY_NEXT_METHOD)

/-- `FuncDIFF_PREC(self, left, right)`: difference of two records. -/
def FuncDIFF_PREC (g : Globals) (h : Heap) (left right : Obj) : Heap × Outcome :=
  -- try to find an applicable method
  let m1 := MethodPRec g h right g.DiffRNam
  if m1.2 ≠ 0 then (m1.1, Outcome.CALL_2ARGS m1.2 left right)
  else
    let m2 := MethodPRec g m1.1 left g.DiffRNam
    if m2.2 ≠ 0 then (m2.1, Outcome.CALL_2ARGS m2.2 left right)
    else (m2.1, Outcome.TRY_NEXT_METHOD)

/-- `FuncPROD_PREC(self, left, right)`: product of two records. -/
def FuncPROD_PREC (g : Globals) (h : Heap) (left right : Obj) : Heap × Outcome :=
  -- try to find an applicable method
  let m1 := MethodPRec g h right g.ProdRNam
  if m1.2 ≠ 0 then (m1.1, Outcome.CALL_2ARGS m1.2 left right)
  else
    let m2 := MethodPRec g m1.1 left g.ProdRNam
    if m2.2 ≠ 0 then (m2.1, Outcome.CALL_2ARGS m2.2 left right)
    else (m2.1, Outcome.TRY_NEXT_METHOD)

/-- `FuncQUO_PREC(self, left, right)`: quotient of two records. -/
def FuncQUO_PREC (g : Globals) (h : Heap) (left right : Obj) : Heap × Outcome :=
  -- try to find an applicable method
  let m1 := MethodPRec g h right g.QuoRNam
  if m1.2 ≠ 0 then (m1.1, Outcome.CALL_2ARGS m1.2 left right)
  else
    let m2 := MethodPRec g m1.1 left g.QuoRNam
    if m2.2 ≠ 0 then (m2.1, Outcome.CALL_2ARGS m2.2 left right)
    else (m2.1, Outcome.TRY_NEXT_METHOD)

/-- `FuncLQUO_PREC(self, left, right)`: left quotient of two records. -/
def FuncLQUO_PREC (g : Globals) (h : Heap) (left right : Obj) : Heap × Outcome :=
  -- try to find an applicable method
  let m1 := MethodPRec g h right g.LQuoRNam
  if m1.2 ≠ 0 then (m1.1, Outcome.CALL_2ARGS m1.2 left right)
  else
    let m2 := MethodPRec g m1.1 left g.LQuoRNam
    if m2.2 ≠ 0 then (m2.1, Outcome.CALL_2ARGS m2.2 left right)
    else (m2.1, Outcome.TRY_NEXT_METHOD)

/-- `FuncPOW_PREC(self, left, right)`: power of two records. -/
def FuncPOW_PREC (g : Globals) (h : Heap) (left right : Obj) : Heap × Outcome :=
  -- try to find an applicable method
  let m1 := MethodPRec g h right g.PowRNam
  if m1.2 ≠ 0 then (m1.1, Outcome.CALL_2ARGS m1.2 left right)
  else
    let m2 := MethodPRec g m1.1 left g.PowRNam
    if m2.2 ≠ 0 then (m2.1, Outcome.CALL_2ARGS m2.2 left right)
    else (m2.1, Outcome.TRY_NEXT_METHOD)

/-- `FuncCOMM_PREC(self, left, right)`: commutator of two records. -/
def FuncCOMM_PREC (g : Globals) (h : Heap) (left right : Obj) : Heap × Outcome :=
  -- try to find an applicable method
  let m1 := MethodPRec g h right g.CommRNam
  if m1.2 ≠ 0 then (m1.1, Outcome.CALL_2ARGS m1.2 left right)
  else
    let m2 := MethodPRec g m1.1 left g.CommRNam
    if m2.2 ≠ 0 then (m2.1, Outcome.CALL_2ARGS m2.2 left right)
    else (m2.1, Outcome.TRY_NEXT_METHOD)

/-- `FuncMOD_PREC(self, left, right)`: remainder of two records. -/
def FuncMOD_PREC (g : Globals) (h : Heap) (left right : Obj) : Heap × Outcome :=
  -- try to find an applicable method
  let m1 := MethodPRec g h right g.ModRNam
  if m1.2 ≠ 0 then (m1.1, Outcome.CALL_2ARGS m1.2 left right)
  else
    let m2 := MethodPRec g m1.1 left g.ModRNam
    if m2.2 ≠ 0 then (m2.1, Outcome.CALL_2ARGS m2.2 left right)
    else (m2.1, Outcome.TRY_NEXT_METHOD)

/-- `FuncIN_PREC(self, left, right)`: membership test for records; only the right
operand is asked for a method. -/
def FuncIN_PREC (g : Globals) (h : Heap) (left right : Obj) : Heap × Outcome :=
  -- try to find an applicable method
  let m1 := MethodPRec g h right g.InRNam
  if m1.2 ≠ 0 then (m1.1, Outcome.CALL_2ARGS m1.2 left right)
  else (m1.1, Outcome.TRY_NEXT_METHOD)

/-- `FuncEQ_PREC(self, left, right)`: comparison of two records; `EQ` compares the
values in the workspace it is given. -/
def FuncEQ_PREC (g : Globals) (EQ : Heap → Obj → Obj → Bool) (h : Heap) (left right : Obj) :
    Heap × Outcome :=
  -- try to find an applicable method
  let m1 := MethodPRec g h right g.EqRNam
  if m1.2 ≠ 0 then (m1.1, Outcome.CALL_2ARGS m1.2 left right)
  else
    let m2 := MethodPRec g m1.1 left g.EqRNam
    if m2.2 ≠ 0 then (m2.1, Outcome.CALL_2ARGS m2.2 left right)
    else (m2.1, Outcome.answer
      (FuncEQ_PREC_DEFAULT (EQ m2.1) (bagOf m2.1 left) (bagOf m2.1 right)))

/-- `FuncLT_PREC(self, left, right)`: comparison of two records; `EQ` and `LT`
compare the values in the workspace they are given. -/
def FuncLT_PREC (g : Globals) (NAME_RNAM : Nat → String) (EQ LT : Heap → Obj → Obj → Bool)
    (h : Heap) (left right : Obj) : Heap × Outcome :=
  -- try to find an applicable method
  let m1 := MethodPRec g h right g.LtRNam
  if m1.2 ≠ 0 then (m1.1, Outcome.CALL_2ARGS m1.2 left right)
  else
    let m2 := MethodPRec g m1.1 left g.LtRNam
    if m2.2 ≠ 0 then (m2.1, Outcome.CALL_2ARGS m2.2 left right)
    else (m2.1, Outcome.answer
      (FuncLT_PREC_DEFAULT NAME_RNAM (EQ m2.1) (LT m2.1) (bagOf m2.1 left) (bagOf m2.1 right)))

/-- The entry point `F` for the operator name `op` asks the right operand, then the
left one: a handler other than 0 that the right operand supplies is called with
`(left, right)`; if the right operand supplies none, a handler that the left
operand supplies is called with `(left, right)`. -/
def RightThenLeft (g : Globals) (h : Heap) (op : Nat)
    (F : Heap → Obj → Obj → Heap × Outcome) : Prop :=
  ∀ left right m, m ≠ 0 →
    (Supplies g h right op m → (F h left right).2 = Outcome.CALL_2ARGS m left right) ∧
    ((∀ m1, Supplies g h right op m1 → m1 = 0) → Supplies g h left op m →
      (F h left right).2 = Outcome.CALL_2ARGS m left right)

/-- The entry point `F` for the operator name `op` asks the right operand only: a
handler other than 0 that it supplies is called with `(left, right)`; if it
supplies none there is no method, whatever the left operand supplies. -/
def RightOnly (g : Globals) (h : Heap) (op : Nat)
    (F : Heap → Obj → Obj → Heap × Outcome) : Prop :=
  ∀ left right,
    (∀ m, m ≠ 0 → Supplies g h right op m →
      (F h left right).2 = Outcome.CALL_2ARGS m left right) ∧
    ((∀ m1, Supplies g h right op m1 → m1 = 0) →
      (F h left right).2 = Outcome.TRY_NEXT_METHOD)

/-- Every record that carries a marker and is not being copied (is not on the
stack `S` of the calls of `CopyPRec` in progress) has a finished copy. -/
def FwdDoneS (h0 h : Heap) (T : Nat) (S : List Obj) : Prop :=
  ∀ v c, Forwarded h0 h T v c → v ∉ S → Complete h0 h T v

/-- The records being copied are different records that carry a marker. -/
def StackOK (h0 h : Heap) (T : Nat) (S : List Obj) : Prop :=
  S.Nodup ∧ ∀ s ∈ S, ∃ c, Forwarded h0 h T s c

/-- What a call of `COPY_OBJ` does to a workspace in the forward phase while the
records of `S` are being copied, for any value graph: it returns, keeps the state
of the phase, and its result is the copy of a mutable record and the value
itself otherwise. -/
def CopySpecS (h0 : Heap) (T : Nat) (S : List Obj)
    (COPY : Heap → Obj → Option (Heap × Obj)) : Prop :=
  ∀ h x, FwdInv h0 h T → FwdDoneS h0 h T S → StackOK h0 h T S →
    (isBagRef x = true → ValidRef h0 x) →
    ∃ h1 c, COPY h x = some (h1, c) ∧ FwdInv h0 h1 T ∧ FwdMono h0 h h1 T ∧
      FwdDoneS h0 h1 T S ∧
      (IsMutRec h0 x → Forwarded h0 h1 T x c) ∧ (¬ IsMutRec h0 x → c = x)

/-- The record `v` is being copied into `c` inside the calls for the records of
`S`, the slots before `i` are finished. -/
def InProgressS (h0 h : Heap) (T : Nat) (S : List Obj) (v c : Obj) (i : Nat) : Prop :=
  FwdInv h0 h T ∧ FwdDoneS h0 h T (v :: S) ∧ StackOK h0 h T (v :: S) ∧
  Forwarded h0 h T v c ∧ ∀ k, 1 ≤ k → k < i → SlotDone h0 h T v c k

/-- The objects reached from `r` through the slots of mutable records. -/
inductive ReachMut (h0 : Heap) (r : Obj) : Obj → Prop where
  | root : ReachMut h0 r r
  | step (v : Obj) (i : Nat) : ReachMut h0 r v → IsMutRec h0 v → 1 ≤ i →
      i ≤ (bagOf h0 v).len → ReachMut h0 r (GET_ELM_PREC (bagOf h0 v) i)

/-- A workspace with one record, whose two slots hold the record itself. -/
def demoSelf : Heap :=
  [{ tnum := 0, size := 48, len := 2, slots := [(-1, 2), (-2, 2)] }]

/-- The record `u` is, in `h`, a mutable record with the size, the length, the
names and the values it has in `h0`; a non-empty record has all of its bag
again. -/
def RestoredX (h0 h : Heap) (u : Obj) : Prop :=
  (bagOf h u).tnum = T_PREC ∧ (bagOf h u).size = (bagOf h0 u).size ∧
  (bagOf h u).len = (bagOf h0 u).len ∧
  (bagOf h u).slots.length = (bagOf h0 u).slots.length ∧
  (∀ i, 1 ≤ i → i ≤ (bagOf h0 u).len →
    GET_RNAM_PREC (bagOf h u) i = GET_RNAM_PREC (bagOf h0 u) i ∧
    GET_ELM_PREC (bagOf h u) i = GET_ELM_PREC (bagOf h0 u) i) ∧
  (0 < (bagOf h0 u).len → bagOf h u = bagOf h0 u)

/-- The workspace `h1` after the forward phase of a copy of `h0`: every record
with a marker has a finished copy. -/
def CopiedAll (h0 h1 : Heap) (T : Nat) : Prop :=
  FwdInv h0 h1 T ∧ ∀ u cu, Forwarded h0 h1 T u cu → Complete h0 h1 T u

/-- State of the workspace during the clean phase that follows `h1`: the new bags
are untouched, and a record of `h0` is as in `h1` or had a marker and is restored. -/
def CInvX (h0 h1 h : Heap) (T : Nat) : Prop :=
  h.length = h1.length ∧ (∀ u, ¬ ValidRef h0 u → bagOf h u = bagOf h1 u) ∧
  (∀ u, ValidRef h0 u →
    bagOf h u = bagOf h1 u ∨ ((∃ cu, Forwarded h0 h1 T u cu) ∧ RestoredX h0 h u))

/-- Every restored record that is not being cleaned (is not on the stack `S` of
the calls of `CleanPRecCopy` in progress) has only restored records among its
values. -/
def CDoneS (h0 h1 h : Heap) (T : Nat) (S : List Obj) : Prop :=
  ∀ u cu, Forwarded h0 h1 T u cu → RestoredX h0 h u → u ∉ S →
    ∀ i, 1 ≤ i → i ≤ (bagOf h0 u).len → IsMutRec h0 (GET_ELM_PREC (bagOf h0 u) i) →
      RestoredX h0 h (GET_ELM_PREC (bagOf h0 u) i)

/-- The records being cleaned are different bags of `h0` that have lost their
marker. -/
def CStackOK (h0 h : Heap) (S : List Obj) : Prop :=
  S.Nodup ∧ ∀ s ∈ S, ValidRef h0 s ∧ (bagOf h s).tnum = T_PREC

/-- What a call of `CLEAN_OBJ` does to a workspace in the clean phase while the
records of `S` are being cleaned, for any value graph: it returns, keeps the
state of the phase, and a mutable record is restored. -/
def CleanSpecS (h0 h1 : Heap) (T : Nat) (S : List Obj)
    (CLEAN : Heap → Obj → Option Heap) : Prop :=
  ∀ h x, CInvX h0 h1 h T → CDoneS h0 h1 h T S → CStackOK h0 h S →
    (isBagRef x = true → ValidRef h0 x) →
    (IsMutRec h0 x → ∃ cx, Forwarded h0 h1 T x cx) →
    ∃ h2, CLEAN h x = some h2 ∧ CInvX h0 h1 h2 T ∧ CDoneS h0 h1 h2 T S ∧ CMono h h2 ∧
      (IsMutRec h0 x → RestoredX h0 h2 x)

/-- The word is the handle of a plain record of the workspace `h0`, mutable or
immutable. -/
def IsRec (h0 : Heap) (v : Obj) : Prop := ValidRef h0 v ∧ IS_PREC_REP (bagOf h0 v) = true

/-- The objects reached from `r` through the slot values of records. -/
inductive Reach (h0 : Heap) (r : Obj) : Obj → Prop where
  | root : Reach h0 r r
  | step (v : Obj) (i : Nat) : Reach h0 r v → IsRec h0 v → 1 ≤ i →
      i ≤ (bagOf h0 v).len → Reach h0 r (GET_ELM_PREC (bagOf h0 v) i)

/-- No immutable record of the workspace holds a mutable record. -/
def DeepImm (h : Heap) : Prop :=
  ∀ v, (bagOf h v).tnum = T_PREC + IMMUTABLE → ∀ i, 1 ≤ i → i ≤ (bagOf h v).len →
    (bagOf h (GET_ELM_PREC (bagOf h v) i)).tnum ≠ T_PREC

/-- The workspace `h` is `h0` with some of its mutable records retyped to the
immutable representation. -/
def FInv (h0 h : Heap) : Prop :=
  h.length = h0.length ∧
  ∀ v, bagOf h v = bagOf h0 v ∨
    ((bagOf h0 v).tnum = T_PREC ∧ bagOf h v = RetypeBag (bagOf h0 v) (T_PREC + IMMUTABLE))

/-- The records that were retyped in `h` hold no record that is still mutable. -/
def FClosed (h0 h : Heap) : Prop :=
  ∀ v, (bagOf h0 v).tnum = T_PREC → (bagOf h v).tnum = T_PREC + IMMUTABLE →
    ∀ i, 1 ≤ i → i ≤ (bagOf h0 v).len →
      (bagOf h0 (GET_ELM_PREC (bagOf h0 v) i)).tnum = T_PREC →
      (bagOf h (GET_ELM_PREC (bagOf h0 v) i)).tnum = T_PREC + IMMUTABLE

/-- What is immutable in `h` is immutable in `h1`. -/
def FMono (h h1 : Heap) : Prop :=
  ∀ v, (bagOf h v).tnum = T_PREC + IMMUTABLE → (bagOf h1 v).tnum = T_PREC + IMMUTABLE

/-- The only records retyped in `h` are members of `P`. -/
def FOnly (h0 : Heap) (P : Obj → Prop) (h : Heap) : Prop :=
  ∀ v, (bagOf h0 v).tnum = T_PREC → (bagOf h v).tnum = T_PREC + IMMUTABLE → P v

/-- The set `P` holds every value of a mutable record it holds. -/
def PClosed (h0 : Heap) (P : Obj → Prop) : Prop :=
  ∀ v, P v → IsMutRec h0 v → ∀ i, 1 ≤ i → i ≤ (bagOf h0 v).len →
    P (GET_ELM_PREC (bagOf h0 v) i)

/-- What `MAKE` (the recursive call `MakeImmutable` with recursion depth `n`) does
on an object `u` that, if it is a mutable record, has rank at most `n - 2` and
is a member of `P`. -/
def FreezeSpec (h0 : Heap) (rank : Obj → Nat) (R n : Nat) (P : Obj → Prop)
    (MAKE : Heap → Obj → Option Heap) : Prop :=
  ∀ h u, FInv h0 h → FClosed h0 h → FOnly h0 P h →
    ((bagOf h0 u).tnum = T_PREC → rank u + 2 ≤ n ∧ rank u ≤ R ∧ P u) →
    ∃ h1, MAKE h u = some h1 ∧ FInv h0 h1 ∧ FClosed h0 h1 ∧ FOnly h0 P h1 ∧ FMono h h1 ∧
      ((bagOf h0 u).tnum = T_PREC → (bagOf h1 u).tnum = T_PREC + IMMUTABLE)

/-- A workspace in which the mutable record of handle 2 holds the immutable
record of handle 4, which holds the mutable record of handle 6. -/
def demoShallow : Heap :=
  [{ tnum := 0, size := 32, len := 1, slots := [(-1, 4)] },
   { tnum := 1, size := 32, len := 1, slots := [(-1, 6)] },
   { tnum := 0, size := 32, len := 1, slots := [(-1, 9)] }]

/-- Height of the records of `demoShallow` in its value graph. -/
def demoShallowRank (v : Obj) : Nat := 3 - v / 2

/-- A workspace with two mutable records and an immutable one: the record of
handle 2 holds the mutable record of handle 4 twice and the immutable record of
handle 6. -/
def demoFreeze : Heap :=
  [{ tnum := 0, size := 64, len := 3, slots := [(-1, 4), (-2, 4), (-3, 6)] },
   { tnum := 0, size := 32, len := 1, slots := [(-7, 9)] },
   { tnum := 1, size := 32, len := 1, slots := [(-5, 11)] }]

/-- Rank of the records of `demoFreeze` in its value graph. -/
def demoFreezeRank (v : Obj) : Nat := if v = 2 then 1 else 0

/-- From the object `v` a chain of one or more references, each taken from a slot
of a mutable record of the workspace `h0`, leads to `r`. -/
inductive LeadsTo (h0 : Heap) (r : Obj) : Obj → Prop where
  | last (v : Obj) (i : Nat) : IsMutRec h0 v → 1 ≤ i → i ≤ (bagOf h0 v).len →
      GET_ELM_PREC (bagOf h0 v) i = r → LeadsTo h0 r v
  | next (v : Obj) (i : Nat) : IsMutRec h0 v → 1 ≤ i → i ≤ (bagOf h0 v).len →
      LeadsTo h0 r (GET_ELM_PREC (bagOf h0 v) i) → LeadsTo h0 r v

/-- The records of the set `C` are in `h` as they are in `h0`. -/
def Untouched (h0 : Heap) (C : Obj → Prop) (h : Heap) : Prop := ∀ v, C v → bagOf h v = bagOf h0 v

/-- Every member of `C` is a mutable record of `h0` with a slot that holds a
member of `C`. -/
def CycleSet (h0 : Heap) (C : Obj → Prop) : Prop :=
  ∀ v, C v → (bagOf h0 v).tnum = T_PREC ∧
    ∃ i, 1 ≤ i ∧ i ≤ (bagOf h0 v).len ∧ C (GET_ELM_PREC (bagOf h0 v) i)

/-- What the recursive call does with respect to `C`: it does not return on a
member of `C`, and when it returns the members of `C` are untouched. -/
def NoReturn (h0 : Heap) (C : Obj → Prop) (MAKE : Heap → Obj → Option Heap) : Prop :=
  ∀ h u, Untouched h0 C h → (C u → MAKE h u = none) ∧
    (∀ h1, MAKE h u = some h1 → Untouched h0 C h1)

/-- Two mutable records that hold each other. -/
def demoCycle : Heap :=
  [{ tnum := 0, size := 32, len := 1, slots := [(-1, 4)] },
   { tnum := 0, size := 48, len := 2, slots := [(-1, 7), (-2, 2)] }]

/-- One probe of the binary search of `FindPRec`: the values of `low`, `i` and
`high` when `GET_RNAM_PREC(rec, i)` is read. -/
structure Probe where
  low : Nat
  i : Nat
  high : Nat
deriving DecidableEq

/-- The loop `while (low < high)` of `FindPRec` together with the probes it
makes, in order; the result is the return value and the position.  The first
argument bounds the number of iterations: `none` when it is used up before the
loop ends. -/
def binSearchRun (rec : PRec) (rnam : Nat) : Nat → Nat → Nat → Option (List Probe × Nat × Nat)
  | 0, low, high => if low < high then none else some ([], 0, low)
  | fuel + 1, low, high =>
    if low < high then
      let i := (low + high) / 2
      let rnam2 := -GET_RNAM_PREC rec i
      if rnam2 < (rnam : Int) then
        (binSearchRun rec rnam fuel (i + 1) high).map
          (fun t => ({ low := low, i := i, high := high } :: t.1, t.2))
      else if rnam2 > (rnam : Int) then
        (binSearchRun rec rnam fuel low i).map
          (fun t => ({ low := low, i := i, high := high } :: t.1, t.2))
      else some ([{ low := low, i := i, high := high }], 1, i)
    else some ([], 0, low)

/-- The loop `while (i >= 1)` of `FindPRec` together with the slot indices whose
name word it reads, in order. -/
def scanBackRun (rec : PRec) (rnam : Nat) : Nat → List Nat × ScanResult
  | 0 => ([], ScanResult.exhausted)
  | i + 1 =>
    let rnam2 := GET_RNAM_PREC rec (i + 1)
    if (rnam : Int) = rnam2 then ([i + 1], ScanResult.found (i + 1))
    else if rnam2 < 0 then ([i + 1], ScanResult.sortedArea (i + 1))
    else ((i + 1) :: (scanBackRun rec rnam i).1, (scanBackRun rec rnam i).2)

/-- A run of `FindPRec`: the slot index read by the test of the last name, the
indices read by the backward scan, the probes of the binary search, and what
the function returns. -/
structure FindRun where
  first : List Nat
  scan : List Nat
  probes : List Probe
  result : FindResult

/-- `FindPRec(rec, rnam, pos, cleanup)` together with the slot indices it reads
through `GET_RNAM_PREC`; `fuel` bounds the iterations of the binary search. -/
def FindPRecRun (rec : PRec) (rnam : Nat) (pos : Nat) (cleanup : Bool) (fuel : Nat) :
    Option FindRun :=
  let low := 1
  let high := LEN_PREC rec
  if high > 0 ∧ GET_RNAM_PREC rec high > 0 then
    if cleanup then
      let rec1 := SortPRecRNam rec false
      (binSearchRun rec1 rnam fuel low (high + 1)).map (fun b =>
        { first := [high], scan := [], probes := b.1,
          result := { ret := b.2.1, pos := b.2.2, bag := rec1 } })
    else
      match (scanBackRun rec rnam high).2 with
      | ScanResult.found i =>
        some { first := [high], scan := (scanBackRun rec rnam high).1, probes := [],
               result := { ret := 1, pos := i, bag := rec } }
      | ScanResult.exhausted =>
        some { first := [high], scan := (scanBackRun rec rnam high).1, probes := [],
               result := { ret := 0, pos := pos, bag := rec } }
      | ScanResult.sortedArea i =>
        (binSearchRun rec rnam fuel low (i + 1)).map (fun b =>
          { first := [high], scan := (scanBackRun rec rnam high).1, probes := b.1,
            result := { ret := b.2.1, pos := b.2.2, bag := rec } })
  else
    (binSearchRun rec rnam fuel low (high + 1)).map (fun b =>
      { first := if high > 0 then [high] else [], scan := [], probes := b.1,
        result := { ret := b.2.1, pos := b.2.2, bag := rec } })

/-- The record after the first `n` of the calls `AssPRec(rec, key 0, val 0)`,
`AssPRec(rec, key 1, val 1)`, ... on a new record with room for `c` components. -/
def setMany (c : Nat) (key : Nat → Nat) (val : Nat → Obj) : Nat → PRec
  | 0 => NEW_PREC c
  | n + 1 => AssPRec (setMany c key val n) (key n) (val n)

/-- The names 1, 2, 3, ... -/
def seqKey (i : Nat) : Nat := i + 1

/-- The values 1, 3, 5, ... (immediate objects). -/
def seqVal (i : Nat) : Obj := 2 * i + 1

/-! ## Theorems -/

theorem negSlot_negSlot (s : Slot) : negSlot (negSlot s) = s := by
  simp [negSlot]

theorem cleanL_map_negSlot {l : List Slot} (h : DirtyL l) : CleanL (l.map negSlot) := by
  obtain ⟨h1, h2⟩ := h
  constructor
  · intro s hs
    rw [List.mem_map] at hs
    obtain ⟨a, ha, rfl⟩ := hs
    have := h1 a ha
    simp only [negSlot]; omega
  · rw [List.pairwise_map]
    refine h2.imp ?_
    intro a b hab
    simp only [negSlot]; omega

theorem bubbleUp_perm (x : Slot) (l : List Slot) : (bubbleUp x l).Perm (x :: l) := by
  induction l with
  | nil => simp [bubbleUp]
  | cons y rest ih =>
    simp only [bubbleUp]
    split
    · exact (List.Perm.cons y ih).trans (List.Perm.swap x y rest)
    · exact List.Perm.refl _

theorem bubbleUp_pairwise (x : Slot) (l : List Slot)
    (hl : l.Pairwise (fun a b => a.1 < b.1)) (hx : ∀ y ∈ l, y.1 ≠ x.1) :
    (bubbleUp x l).Pairwise (fun a b => a.1 < b.1) := by
  induction l with
  | nil => simp [bubbleUp]
  | cons y rest ih =>
    simp only [bubbleUp]
    rw [List.pairwise_cons] at hl
    split
    · rename_i hxy
      rw [List.pairwise_cons]
      refine ⟨?_, ih hl.2 (fun z hz => hx z (List.mem_cons_of_mem _ hz))⟩
      intro z hz
      have hz2 := (bubbleUp_perm x rest).mem_iff.mp hz
      rcases List.mem_cons.mp hz2 with rfl | hz3
      · exact hxy
      · exact hl.1 z hz3
    · rename_i hxy
      have hne := hx y (List.mem_cons_self _ _)
      have hlt : x.1 < y.1 := by omega
      rw [List.pairwise_cons, List.pairwise_cons]
      refine ⟨?_, hl.1, hl.2⟩
      intro z hz
      rcases List.mem_cons.mp hz with rfl | hz3
      · exact hlt
      · have := hl.1 z hz3; omega

theorem dirtyL_bubbleUp (x : Slot) (l : List Slot) (hl : DirtyL l) (hpos : 0 < x.1)
    (hx : ∀ y ∈ l, y.1 ≠ x.1) : DirtyL (bubbleUp x l) := by
  refine ⟨?_, bubbleUp_pairwise x l hl.2 hx⟩
  intro s hs
  have hs2 := (bubbleUp_perm x l).mem_iff.mp hs
  rcases List.mem_cons.mp hs2 with rfl | h
  · exact hpos
  · exact hl.1 s h

theorem cleanL_cons {p : Slot} {l : List Slot} (hp : p.1 < 0) (hl : CleanL l)
    (h : ∀ s ∈ l, s.1 < p.1) : CleanL (p :: l) := by
  refine ⟨?_, List.pairwise_cons.mpr ⟨h, hl.2⟩⟩
  intro s hs
  rcases List.mem_cons.mp hs with rfl | h2
  · exact hp
  · exact hl.1 s h2

theorem cleanL_tail {p : Slot} {l : List Slot} (h : CleanL (p :: l)) : CleanL l :=
  ⟨fun s hs => h.1 s (List.mem_cons_of_mem _ hs), (List.pairwise_cons.mp h.2).2⟩

theorem dirtyL_tail {p : Slot} {l : List Slot} (h : DirtyL (p :: l)) : DirtyL l :=
  ⟨fun s hs => h.1 s (List.mem_cons_of_mem _ hs), (List.pairwise_cons.mp h.2).2⟩

theorem mergeLoop_spec : ∀ (n : Nat) (ps ds : List Slot), ps.length + ds.length ≤ n →
    CleanL ps → DirtyL ds → (∀ p ∈ ps, ∀ d ∈ ds, -p.1 ≠ d.1) →
    (mergeLoop n ps ds).Perm (ps ++ ds.map negSlot) ∧ CleanL (mergeLoop n ps ds) := by
  intro n
  induction n with
  | zero =>
    intro ps ds hlen _ _ _
    have h1 : ps = [] := List.length_eq_zero.mp (by omega)
    have h2 : ds = [] := List.length_eq_zero.mp (by omega)
    subst h1; subst h2
    simp [mergeLoop, CleanL]
  | succ n ih =>
    intro ps ds hlen hps hds hx
    match ps, ds with
    | [], [] => simp [mergeLoop, CleanL]
    | p :: ps, [] =>
      simp only [mergeLoop]
      have hlen2 : ps.length + ([] : List Slot).length ≤ n := by
        simp only [List.length_cons, List.length_nil] at hlen ⊢; omega
      obtain ⟨i1, i2⟩ := ih ps [] hlen2 (cleanL_tail hps) hds (by simp)
      refine ⟨by simpa using i1.cons p, cleanL_cons (hps.1 p (List.mem_cons_self _ _)) i2 ?_⟩
      intro s hs
      have hs2 := i1.mem_iff.mp hs
      simp only [List.map_nil, List.append_nil] at hs2
      exact (List.pairwise_cons.mp hps.2).1 s hs2
    | [], d :: ds =>
      simp only [mergeLoop]
      have hlen2 : ([] : List Slot).length + ds.length ≤ n := by
        simp only [List.length_cons, List.length_nil] at hlen ⊢; omega
      obtain ⟨i1, i2⟩ := ih [] ds hlen2 hps (dirtyL_tail hds) (by simp)
      have hd := hds.1 d (List.mem_cons_self _ _)
      refine ⟨by simpa using i1.cons (negSlot d), cleanL_cons (by simp only [negSlot]; omega) i2 ?_⟩
      intro s hs
      have hs2 := i1.mem_iff.mp hs
      simp only [List.nil_append, List.mem_map] at hs2
      obtain ⟨a, ha, rfl⟩ := hs2
      have := (List.pairwise_cons.mp hds.2).1 a ha
      simp only [negSlot]; omega
    | p :: ps, d :: ds =>
      simp only [mergeLoop]
      have hp := hps.1 p (List.mem_cons_self _ _)
      have hd := hds.1 d (List.mem_cons_self _ _)
      split
      · rename_i hlt
        have hlen2 : ps.length + (d :: ds).length ≤ n := by
          simp only [List.length_cons] at hlen ⊢; omega
        obtain ⟨i1, i2⟩ := ih ps (d :: ds) hlen2 (cleanL_tail hps) hds
          (fun a ha b hb => hx a (List.mem_cons_of_mem _ ha) b hb)
        refine ⟨by simpa using i1.cons p, cleanL_cons hp i2 ?_⟩
        intro s hs
        have hs2 := i1.mem_iff.mp hs
        rcases List.mem_append.mp hs2 with h | h
        · exact (List.pairwise_cons.mp hps.2).1 s h
        · rw [List.mem_map] at h
          obtain ⟨a, ha, rfl⟩ := h
          simp only [negSlot]
          rcases List.mem_cons.mp ha with rfl | ha2
          · omega
          · have := (List.pairwise_cons.mp hds.2).1 a ha2; omega
      · rename_i hlt
        have hne := hx p (List.mem_cons_self _ _) d (List.mem_cons_self _ _)
        have hlen2 : (p :: ps).length + ds.length ≤ n := by
          simp only [List.length_cons] at hlen ⊢; omega
        obtain ⟨i1, i2⟩ := ih (p :: ps) ds hlen2 hps (dirtyL_tail hds)
          (fun a ha b hb => hx a ha b (List.mem_cons_of_mem _ hb))
        refine ⟨?_, cleanL_cons (by simp only [negSlot]; omega) i2 ?_⟩
        · refine (i1.cons (negSlot d)).trans ?_
          simp only [List.map_cons]
          exact (List.perm_middle :
            (p :: ps ++ negSlot d :: ds.map negSlot).Perm
              (negSlot d :: (p :: ps ++ ds.map negSlot))).symm
        · intro s hs
          have hs2 := i1.mem_iff.mp hs
          simp only [negSlot]
          rcases List.mem_append.mp hs2 with h | h
          · rcases List.mem_cons.mp h with rfl | h2
            · omega
            · have := (List.pairwise_cons.mp hps.2).1 s h2; omega
          · rw [List.mem_map] at h
            obtain ⟨a, ha, rfl⟩ := h
            have := (List.pairwise_cons.mp hds.2).1 a ha
            simp only [negSlot]; omega

theorem inplaceLoop_spec : ∀ (ps ds : List Slot), CleanL ps → DirtyL ds →
    (∀ p ∈ ps, ∀ d ∈ ds, -p.1 ≠ d.1) →
    ((inplaceLoop ps ds).1 ++ (inplaceLoop ps ds).2.map negSlot).Perm (ps ++ ds.map negSlot) ∧
      CleanL ((inplaceLoop ps ds).1 ++ (inplaceLoop ps ds).2.map negSlot) := by
  intro ps
  induction ps with
  | nil =>
    intro ds _ hds _
    simp only [inplaceLoop, List.nil_append]
    exact ⟨List.Perm.refl _, cleanL_map_negSlot hds⟩
  | cons p ps ih =>
    intro ds hps hds hx
    have hp := hps.1 p (List.mem_cons_self _ _)
    have hpp := (List.pairwise_cons.mp hps.2).1
    cases ds with
    | nil =>
      simp only [inplaceLoop, List.map_nil, List.append_nil]
      exact ⟨List.Perm.refl _, hps⟩
    | cons d ds =>
      have hd := hds.1 d (List.mem_cons_self _ _)
      have hdd := (List.pairwise_cons.mp hds.2).1
      have hne := hx p (List.mem_cons_self _ _) d (List.mem_cons_self _ _)
      simp only [inplaceLoop]
      split
      · rename_i hgt
        have hb : DirtyL (bubbleUp (-p.1, p.2) ds) := by
          refine dirtyL_bubbleUp _ ds (dirtyL_tail hds) (by simp only; omega) ?_
          intro y hy
          have := hx p (List.mem_cons_self _ _) y (List.mem_cons_of_mem _ hy)
          simp only; omega
        have hbm : ∀ a, a ∈ bubbleUp (-p.1, p.2) ds ↔ a = (-p.1, p.2) ∨ a ∈ ds := by
          intro a
          rw [(bubbleUp_perm _ ds).mem_iff, List.mem_cons]
        obtain ⟨i1, i2⟩ := ih (bubbleUp (-p.1, p.2) ds) (cleanL_tail hps) hb (by
          intro a ha b hb2
          rcases (hbm b).mp hb2 with rfl | h
          · have := hpp a ha; simp only; omega
          · exact hx a (List.mem_cons_of_mem _ ha) b (List.mem_cons_of_mem _ h))
        have hperm : ((bubbleUp (-p.1, p.2) ds).map negSlot).Perm (p :: ds.map negSlot) := by
          have := (bubbleUp_perm (-p.1, p.2) ds).map negSlot
          simpa [negSlot] using this
        constructor
        · simp only [List.cons_append, List.map_cons]
          refine (i1.cons (negSlot d)).trans ?_
          refine ((hperm.append_left ps).cons (negSlot d)).trans ?_
          refine (List.perm_middle.cons (negSlot d)).trans ?_
          refine (List.Perm.swap p (negSlot d) _).trans ?_
          exact (List.perm_middle.symm).cons p
        · simp only [List.cons_append]
          refine cleanL_cons (by simp only [negSlot]; omega) i2 ?_
          intro s hs
          have hs2 := i1.mem_iff.mp hs
          simp only [negSlot]
          rcases List.mem_append.mp hs2 with h | h
          · have := hpp s h; omega
          · rw [List.mem_map] at h
            obtain ⟨a, ha, rfl⟩ := h
            simp only [negSlot]
            rcases (hbm a).mp ha with rfl | h3
            · simp only; omega
            · have := hdd a h3; omega
      · rename_i hgt
        obtain ⟨i1, i2⟩ := ih (d :: ds) (cleanL_tail hps) hds
          (fun a ha b hb => hx a (List.mem_cons_of_mem _ ha) b hb)
        constructor
        · simpa using i1.cons p
        · simp only [List.cons_append]
          refine cleanL_cons hp i2 ?_
          intro s hs
          have hs2 := i1.mem_iff.mp hs
          rcases List.mem_append.mp hs2 with h | h
          · exact hpp s h
          · rw [List.mem_map] at h
            obtain ⟨a, ha, rfl⟩ := h
            simp only [negSlot]
            rcases List.mem_cons.mp ha with rfl | ha2
            · omega
            · have := hdd a ha2; omega

theorem dirtyL_of_le {l : List Slot} (hpos : ∀ d ∈ l, 0 < d.1)
    (hle : l.Pairwise (fun a b => a.1 ≤ b.1)) (hnd : (l.map (fun s => s.1)).Nodup) :
    DirtyL l := by
  refine ⟨hpos, ?_⟩
  have hne : l.Pairwise (fun a b => a.1 ≠ b.1) := by
    have := hnd
    rw [List.Nodup, List.pairwise_map] at this
    exact this
  exact (hle.and hne).imp (fun h => lt_of_le_of_ne h.1 h.2)

theorem qsort_perm (l : List Slot) : (qsort l).Perm l :=
  List.perm_insertionSort _ l

theorem qsort_pairwise (l : List Slot) : (qsort l).Pairwise (fun a b => a.1 ≤ b.1) := by
  haveI : IsTotal Slot (fun a b => a.1 ≤ b.1) := ⟨fun a b => le_total a.1 b.1⟩
  haveI : IsTrans Slot (fun a b => a.1 ≤ b.1) := ⟨fun a b c h1 h2 => le_trans h1 h2⟩
  exact List.sorted_insertionSort (fun a b : Slot => a.1 ≤ b.1) l

theorem dirtyL_qsort {l : List Slot} (hpos : ∀ d ∈ l, 0 < d.1)
    (hnd : (l.map (fun s => s.1)).Nodup) : DirtyL (qsort l) := by
  refine dirtyL_of_le ?_ (qsort_pairwise l) ?_
  · intro d hd
    exact hpos d ((qsort_perm l).mem_iff.mp hd)
  · exact (((qsort_perm l).map _).nodup_iff).mpr hnd

theorem cleanL_append {ps ds : List Slot} (hps : CleanL ps) (hds : DirtyL ds)
    (h : ∀ p ∈ ps, ∀ d ∈ ds, -p.1 < d.1) : CleanL (ps ++ ds.map negSlot) := by
  have hc := cleanL_map_negSlot hds
  refine ⟨?_, List.pairwise_append.mpr ⟨hps.2, hc.2, ?_⟩⟩
  · intro s hs
    rcases List.mem_append.mp hs with h1 | h1
    · exact hps.1 s h1
    · exact hc.1 s h1
  · intro a ha b hb
    rw [List.mem_map] at hb
    obtain ⟨c, hc2, rfl⟩ := hb
    have := h a ha c hc2
    simp only [negSlot]; omega

theorem get_rnam_left (r : PRec) (ps tl : List Slot) (hs : r.slots = ps ++ tl) (i : Nat)
    (hi : i < ps.length) : GET_RNAM_PREC r (i + 1) = (ps.getD i (0, 0)).1 := by
  simp only [GET_RNAM_PREC, hs]
  rw [List.getD_append _ _ _ _ hi]

theorem get_rnam_right (r : PRec) (ps tl : List Slot) (hs : r.slots = ps ++ tl) (i : Nat) :
    GET_RNAM_PREC r (ps.length + i + 1) = (tl.getD i (0, 0)).1 := by
  simp only [GET_RNAM_PREC, hs]
  rw [List.getD_append_right _ _ _ _ (by omega)]
  congr 2
  omega

theorem get_elm_left (r : PRec) (ps tl : List Slot) (hs : r.slots = ps ++ tl) (i : Nat)
    (hi : i < ps.length) : GET_ELM_PREC r (i + 1) = (ps.getD i (0, 0)).2 := by
  simp only [GET_ELM_PREC, hs]
  rw [List.getD_append _ _ _ _ hi]

theorem getD_mem {l : List Slot} {i : Nat} (hi : i < l.length) : l.getD i (0, 0) ∈ l := by
  rw [List.getD_eq_getElem _ _ hi]
  exact List.getElem_mem _

/-- What the first loop of `SortPRecRNam` computes on a record whose slots
`1 .. K` are not positive and whose slots `K+1 .. N` are positive. -/
theorem scanDirty_spec (r : PRec) (K : Nat) (hneg : 1 ≤ K → GET_RNAM_PREC r K ≤ 0) :
    ∀ (i : Nat), K ≤ i → (∀ j, K < j → j ≤ i → 0 < GET_RNAM_PREC r j) → ∀ (flag : Bool),
      (scanDirty r i flag).1 = K ∧
      ((scanDirty r i flag).2 = true →
        flag = true ∧ ∀ j, K < j → j ≤ i → GET_RNAM_PREC r j ≤ GET_RNAM_PREC r (j + 1)) := by
  intro i
  induction i with
  | zero =>
    intro hK _ flag
    have : K = 0 := by omega
    subst this
    simp only [scanDirty]
    refine ⟨trivial, fun h => ⟨h, ?_⟩⟩
    intro j h1 h2; omega
  | succ i ih =>
    intro hK hpos flag
    simp only [scanDirty]
    by_cases hKi : K = i + 1
    · have h0 := hneg (by omega)
      rw [hKi] at h0
      rw [if_neg (by omega)]
      refine ⟨hKi.symm, fun h => ⟨h, ?_⟩⟩
      intro j h1 h2; omega
    · have hp := hpos (i + 1) (by omega) (le_refl _)
      rw [if_pos hp]
      obtain ⟨i1, i2⟩ := ih (by omega) (fun j h1 h2 => hpos j h1 (by omega))
        (if flag && decide (GET_RNAM_PREC r (i + 1) > GET_RNAM_PREC r (i + 2))
          then false else flag)
      refine ⟨i1, fun h => ?_⟩
      obtain ⟨f1, f2⟩ := i2 h
      have hfl : flag = true ∧ ¬ (GET_RNAM_PREC r (i + 1) > GET_RNAM_PREC r (i + 2)) := by
        cases flag with
        | false => simp at f1
        | true =>
          by_cases hc : GET_RNAM_PREC r (i + 1) > GET_RNAM_PREC r (i + 2)
          · simp [hc] at f1
          · exact ⟨rfl, hc⟩
      refine ⟨hfl.1, ?_⟩
      intro j h1 h2
      by_cases hj : j = i + 1
      · subst hj; have := hfl.2; simp only [show i + 1 + 1 = i + 2 from rfl]; omega
      · exact f2 j h1 (by omega)

theorem pairwise_le_of_adjacent (l : List Slot)
    (h : ∀ i, i + 1 < l.length → (l.getD i (0, 0)).1 ≤ (l.getD (i + 1) (0, 0)).1) :
    l.Pairwise (fun a b => a.1 ≤ b.1) := by
  induction l with
  | nil => exact List.Pairwise.nil
  | cons a l ih =>
    have ih2 := ih (by
      intro i hi
      have := h (i + 1) (by simp only [List.length_cons]; omega)
      simpa using this)
    rw [List.pairwise_cons]
    refine ⟨?_, ih2⟩
    intro b hb
    cases l with
    | nil => simp at hb
    | cons c l =>
      have h0 := h 0 (by simp)
      simp only [List.getD_cons_zero, List.getD_cons_succ] at h0
      rcases List.mem_cons.mp hb with rfl | hb2
      · exact h0
      · have := (List.pairwise_cons.mp ih2).1 b hb2
        omega

theorem prec_eta (r : PRec) : ({ r with slots := r.slots } : PRec) = r := by
  cases r; rfl

theorem cleanL_getLast_le {ps : List Slot} (hps : CleanL ps) (hne : 0 < ps.length) :
    ∀ p ∈ ps, (ps.getD (ps.length - 1) (0, 0)).1 ≤ p.1 := by
  intro p hp
  obtain ⟨i, hi, rfl⟩ := List.mem_iff_getElem.mp hp
  rw [List.getD_eq_getElem _ _ (by omega)]
  by_cases h : i = ps.length - 1
  · subst h; exact le_refl _
  · have := (List.pairwise_iff_getElem.mp hps.2) i (ps.length - 1) hi (by omega) (by omega)
    omega

theorem dirtyL_head_le {ds : List Slot} (hds : DirtyL ds) :
    ∀ d ∈ ds, (ds.getD 0 (0, 0)).1 ≤ d.1 := by
  intro d hd
  cases ds with
  | nil => simp at hd
  | cons a l =>
    simp only [List.getD_cons_zero]
    rcases List.mem_cons.mp hd with rfl | h
    · exact le_refl _
    · have := (List.pairwise_cons.mp hds.2).1 d h; omega

/-- `SortPRecRNam` on a record whose component area splits into a sorted region
`ps` and a region `ds` of positive names. -/
theorem SortPRecRNam_split (r : PRec) (b : Bool) (ps ds rest : List Slot)
    (hs : r.slots = ps ++ ds ++ rest) (hl : r.len = ps.length + ds.length)
    (hps : CleanL ps) (hds : ∀ d ∈ ds, 0 < d.1) (hnd : (ds.map (fun s => s.1)).Nodup)
    (hx : ∀ p ∈ ps, ∀ d ∈ ds, -p.1 ≠ d.1) :
    ∃ core, SortPRecRNam r b = { r with slots := core ++ rest } ∧
      core.Perm (ps ++ ds.map negSlot) ∧ CleanL core := by
  by_cases hd0 : ds = []
  · subst hd0
    simp only [List.append_nil, List.length_nil, Nat.add_zero, List.map_nil] at hs hl ⊢
    refine ⟨ps, ?_, List.Perm.refl _, hps⟩
    have hret : SortPRecRNam r b = r := by
      unfold SortPRecRNam
      simp only [LEN_PREC]
      by_cases h0 : r.len = 0
      · simp [h0]
      · have hlast : GET_RNAM_PREC r r.len < 0 := by
          have := get_rnam_left r ps rest hs (r.len - 1) (by omega)
          rw [show r.len - 1 + 1 = r.len by omega] at this
          rw [this]
          exact hps.1 _ (getD_mem (by omega))
        simp [hlast]
    rw [hret, ← hs, prec_eta]
  · have hdl : 0 < ds.length := List.length_pos.mpr hd0
    have hs2 : r.slots = ps ++ (ds ++ rest) := by rw [hs, List.append_assoc]
    -- reading the name words
    have hgd : ∀ j, j < ds.length → GET_RNAM_PREC r (ps.length + j + 1) = (ds.getD j (0, 0)).1 := by
      intro j hj
      rw [get_rnam_right r ps (ds ++ rest) hs2 j, List.getD_append _ _ _ _ hj]
    have hpos : ∀ j, ps.length < j → j ≤ r.len → 0 < GET_RNAM_PREC r j := by
      intro j h1 h2
      have := hgd (j - ps.length - 1) (by omega)
      rw [show ps.length + (j - ps.length - 1) + 1 = j by omega] at this
      rw [this]
      exact hds _ (getD_mem (by omega))
    have hneg : 1 ≤ ps.length → GET_RNAM_PREC r ps.length ≤ 0 := by
      intro h1
      have := get_rnam_left r ps (ds ++ rest) hs2 (ps.length - 1) (by omega)
      rw [show ps.length - 1 + 1 = ps.length by omega] at this
      rw [this]
      exact le_of_lt (hps.1 _ (getD_mem (by omega)))
    have hguard : ¬ (r.len = 0 ∨ GET_RNAM_PREC r r.len < 0) := by
      have := hpos r.len (by omega) (le_refl _)
      omega
    obtain ⟨sc1, sc2⟩ := scanDirty_spec r ps.length hneg (r.len - 1) (by omega)
      (fun j h1 h2 => hpos j h1 (by omega)) true
    -- the regions
    have htake : List.take r.len r.slots = ps ++ ds := by
      rw [hs]
      exact List.take_left' (by simp [hl])
    have hrest : List.drop r.len r.slots = rest := by
      rw [hs]
      exact List.drop_left' (by simp [hl])
    have hsorted : List.take ps.length (ps ++ ds) = ps := List.take_left' rfl
    have hdirty : List.drop ps.length (ps ++ ds) = ds := List.drop_left' rfl
    -- the dirty region after the call of qsort
    obtain ⟨d1, hd1def, hd1p, hd1d⟩ : ∃ d1,
        d1 = (if (scanDirty r (r.len - 1) true).2 = false ∧ r.len - (ps.length + 1) + 1 > 1
          then qsort ds else ds) ∧ d1.Perm ds ∧ DirtyL d1 := by
      refine ⟨_, rfl, ?_, ?_⟩
      · split
        · exact qsort_perm ds
        · exact List.Perm.refl _
      · split
        · exact dirtyL_qsort hds hnd
        · rename_i hc
          by_cases hfl : (scanDirty r (r.len - 1) true).2 = true
          · refine dirtyL_of_le hds (pairwise_le_of_adjacent ds ?_) hnd
            intro i hi
            have := (sc2 hfl).2 (ps.length + i + 1) (by omega) (by omega)
            rw [hgd i (by omega), show ps.length + i + 1 + 1 = ps.length + (i + 1) + 1 by omega,
              hgd (i + 1) hi] at this
            exact this
          · have hfl2 : (scanDirty r (r.len - 1) true).2 = false := by
              cases h : (scanDirty r (r.len - 1) true).2
              · rfl
              · exact absurd h hfl
            have hlen1 : ds.length = 1 := by
              have : ¬ (r.len - (ps.length + 1) + 1 > 1) := fun h => hc ⟨hfl2, h⟩
              omega
            refine dirtyL_of_le hds ?_ hnd
            match ds, hlen1 with
            | [a], _ => exact List.pairwise_singleton _ a
    have hd1l : d1.length = ds.length := hd1p.length_eq
    have hx1 : ∀ p ∈ ps, ∀ d ∈ d1, -p.1 ≠ d.1 := fun p hp d hd => hx p hp d (hd1p.mem_iff.mp hd)
    have hpermN : (ps ++ d1.map negSlot).Perm (ps ++ ds.map negSlot) :=
      (hd1p.map negSlot).append_left ps
    -- unfold the function
    unfold SortPRecRNam
    simp only [LEN_PREC]
    rw [if_neg hguard]
    simp only [sc1, Nat.add_sub_cancel, htake, hrest, hsorted, hdirty]
    rw [← hd1def]
    by_cases hA : ps.length + 1 = 1 ∨
        -GET_RNAM_PREC { r with slots := ps ++ d1 ++ rest } ps.length <
          GET_RNAM_PREC { r with slots := ps ++ d1 ++ rest } (ps.length + 1)
    · rw [if_pos hA]
      refine ⟨ps ++ d1.map negSlot, rfl, hpermN, cleanL_append hps hd1d ?_⟩
      intro p hp d hd
      rcases hA with hA | hA
      · have : ps = [] := List.length_eq_zero.mp (by omega)
        subst this
        simp at hp
      · have hK : 0 < ps.length := List.length_pos.mpr (List.ne_nil_of_mem hp)
        have e1 := get_rnam_left { r with slots := ps ++ d1 ++ rest } ps (d1 ++ rest)
          (by simp) (ps.length - 1) (by omega)
        rw [show ps.length - 1 + 1 = ps.length by omega] at e1
        have e2 := get_rnam_right { r with slots := ps ++ d1 ++ rest } ps (d1 ++ rest)
          (by simp) 0
        rw [List.getD_append _ _ _ _ (by omega)] at e2
        simp only [Nat.add_zero] at e2
        rw [e1, e2] at hA
        have h1 := cleanL_getLast_le hps hK p hp
        have h2 := dirtyL_head_le hd1d d hd
        omega
    · rw [if_neg hA]
      cases b with
      | false =>
        simp only [if_true]
        obtain ⟨m1, m2⟩ := mergeLoop_spec r.len ps d1 (by omega) hps hd1d hx1
        exact ⟨_, rfl, m1.trans hpermN, m2⟩
      | true =>
        simp only [Bool.true_eq_false, if_false]
        obtain ⟨m1, m2⟩ := inplaceLoop_spec ps d1 hps hd1d hx1
        exact ⟨_, rfl, m1.trans hpermN, m2⟩

theorem length_active {r : PRec} (h : r.len ≤ r.slots.length) : (active r).length = r.len := by
  simp [active, h]

theorem slots_eq_active (r : PRec) : r.slots = active r ++ r.slots.drop r.len := by
  simp [active]

theorem cleanL_of_mag {l : List Slot} (hn : ∀ s ∈ l, s.1 < 0)
    (hp : l.Pairwise (fun a b => mag a < mag b)) : CleanL l := by
  refine ⟨hn, hp.imp_of_mem ?_⟩
  intro a b ha hb hab
  have h1 := hn a ha
  have h2 := hn b hb
  simp only [mag] at hab
  omega

theorem mag_of_cleanL {l : List Slot} (h : CleanL l) : l.Pairwise (fun a b => mag a < mag b) := by
  refine h.2.imp_of_mem ?_
  intro a b ha hb hab
  have h1 := h.1 a ha
  have h2 := h.1 b hb
  simp only [mag]
  omega

theorem normSlot_of_neg {s : Slot} (h : s.1 < 0) : normSlot s = s := by
  simp only [normSlot]
  ext
  · simp only; omega
  · rfl

theorem normSlot_of_pos {s : Slot} (h : 0 < s.1) : normSlot s = negSlot s := by
  simp only [normSlot, negSlot]
  ext
  · simp only; omega
  · rfl

theorem mag_normSlot (s : Slot) : mag (normSlot s) = mag s := by
  simp only [mag, normSlot]; omega

theorem map_normSlot_of_neg {l : List Slot} (h : ∀ s ∈ l, s.1 < 0) : l.map normSlot = l := by
  induction l with
  | nil => rfl
  | cons a l ih =>
    simp only [List.map_cons]
    rw [normSlot_of_neg (h a (List.mem_cons_self _ _)),
      ih (fun s hs => h s (List.mem_cons_of_mem _ hs))]

theorem map_normSlot_of_pos {l : List Slot} (h : ∀ s ∈ l, 0 < s.1) :
    l.map normSlot = l.map negSlot := by
  induction l with
  | nil => rfl
  | cons a l ih =>
    simp only [List.map_cons]
    rw [normSlot_of_pos (h a (List.mem_cons_self _ _)),
      ih (fun s hs => h s (List.mem_cons_of_mem _ hs))]

/-- The split of a well-formed record into sorted region, positive region and
the unused rest of the bag. -/
theorem WellFormed.split {r : PRec} (h : WellFormed r) :
    ∃ ps ds, active r = ps ++ ds ∧ r.slots = ps ++ ds ++ r.slots.drop r.len ∧
      r.len = ps.length + ds.length ∧ CleanL ps ∧ (∀ d ∈ ds, 0 < d.1) ∧
      (ds.map (fun s => s.1)).Nodup ∧ (∀ p ∈ ps, ∀ d ∈ ds, -p.1 ≠ d.1) := by
  obtain ⟨hlen, K, hK, h1, h2, h3, h4⟩ := h
  refine ⟨(active r).take K, (active r).drop K, (List.take_append_drop K _).symm, ?_, ?_,
    cleanL_of_mag h1 h2, h3, ?_, ?_⟩
  · rw [List.take_append_drop]
    exact slots_eq_active r
  · have := length_active hlen
    simp only [List.length_take, List.length_drop]
    omega
  · rw [← List.take_append_drop K (active r), List.map_append, List.nodup_append] at h4
    have h5 := h4.2.1
    have h6 : (List.map mag (List.drop K (active r))) =
        (List.map (fun s : Slot => s.1) (List.drop K (active r))).map Int.natAbs := by
      rw [List.map_map]; rfl
    rw [h6] at h5
    exact h5.of_map _
  · rw [← List.take_append_drop K (active r), List.map_append, List.nodup_append] at h4
    intro p hp d hd hpd
    have hd1 : mag p ∈ List.map mag (List.take K (active r)) := List.mem_map_of_mem _ hp
    have hd2 : mag d ∈ List.map mag (List.drop K (active r)) := List.mem_map_of_mem _ hd
    have heq : mag p = mag d := by simp only [mag]; omega
    exact h4.2.2 hd1 (heq ▸ hd2)

/-- A record whose slots `1 .. N` are all in the sorted encoding is well formed. -/
theorem wellFormed_of_cleanL {r : PRec} (hlen : r.len ≤ r.slots.length)
    (h : CleanL (active r)) : WellFormed r := by
  have hl := length_active hlen
  refine ⟨hlen, r.len, le_refl _, ?_, ?_, ?_, ?_⟩
  · rw [List.take_of_length_le (by omega)]; exact h.1
  · rw [List.take_of_length_le (by omega)]; exact mag_of_cleanL h
  · rw [List.drop_of_length_le (by omega)]; simp
  · have := mag_of_cleanL h
    rw [List.Nodup, List.pairwise_map]
    exact this.imp (fun hab => Nat.ne_of_lt hab)

/-- `SortPRecRNam` on a well-formed record: the slots `1 .. N` are replaced by a
sorted permutation of themselves (names in the negative encoding), everything
else is kept. -/
theorem sort_spec {r : PRec} (h : WellFormed r) (b : Bool) :
    ∃ core, SortPRecRNam r b = { r with slots := core ++ r.slots.drop r.len } ∧
      core.Perm ((active r).map normSlot) ∧ CleanL core := by
  obtain ⟨ps, ds, ha, hs, hl, hps, hds, hnd, hx⟩ := h.split
  obtain ⟨core, h1, h2, h3⟩ := SortPRecRNam_split r b ps ds _ hs hl hps hds hnd hx
  refine ⟨core, h1, ?_, h3⟩
  rw [ha, List.map_append, map_normSlot_of_neg hps.1, map_normSlot_of_pos hds]
  exact h2

theorem cleanL_unique {l₁ l₂ : List Slot} (hp : l₁.Perm l₂) (h1 : CleanL l₁) (h2 : CleanL l₂) :
    l₁ = l₂ := by
  haveI : IsAntisymm Slot (fun a b => b.1 < a.1) :=
    ⟨fun a b hab hba => absurd hab (not_lt_of_gt hba)⟩
  exact List.eq_of_perm_of_sorted hp h1.2 h2.2

/-- Frame and content of `SortPRecRNam` in terms of the active slots. -/
theorem sort_active {r : PRec} (h : WellFormed r) (b : Bool) :
    (SortPRecRNam r b).len = r.len ∧ (SortPRecRNam r b).size = r.size ∧
    (SortPRecRNam r b).tnum = r.tnum ∧
    (SortPRecRNam r b).slots.length = r.slots.length ∧
    (SortPRecRNam r b).slots.drop r.len = r.slots.drop r.len ∧
    (active (SortPRecRNam r b)).Perm ((active r).map normSlot) ∧
    CleanL (active (SortPRecRNam r b)) := by
  obtain ⟨core, h1, h2, h3⟩ := sort_spec h b
  have hcl : core.length = r.len := by
    rw [h2.length_eq, List.length_map, length_active h.1]
  have hact : active (SortPRecRNam r b) = core := by
    rw [h1]
    simp only [active]
    exact List.take_left' hcl
  rw [hact]
  rw [h1]
  refine ⟨rfl, rfl, rfl, ?_, ?_, h2, h3⟩
  · simp only [List.length_append, List.length_drop, hcl]
    have := h.1
    omega
  · exact List.drop_left' hcl

theorem sort_wellFormed {r : PRec} (h : WellFormed r) (b : Bool) :
    WellFormed (SortPRecRNam r b) := by
  obtain ⟨h1, _, _, h4, _, _, h7⟩ := sort_active h b
  exact wellFormed_of_cleanL (by rw [h1, h4]; exact h.1) h7

theorem sort_inplace_eq {r : PRec} (h : WellFormed r) :
    SortPRecRNam r false = SortPRecRNam r true := by
  obtain ⟨c1, e1, p1, s1⟩ := sort_spec h false
  obtain ⟨c2, e2, p2, s2⟩ := sort_spec h true
  rw [e1, e2, cleanL_unique (p1.trans p2.symm) s1 s2]

theorem slotAt_succ (r : PRec) (i : Nat) : slotAt r (i + 1) = r.slots.getD i (0, 0) := by
  simp [slotAt, GET_RNAM_PREC, GET_ELM_PREC]

theorem slotAt_active {r : PRec} (hlen : r.len ≤ r.slots.length) {i : Nat} (hi : i < r.len) :
    slotAt r (i + 1) = (active r).getD i (0, 0) := by
  rw [slotAt_succ]
  conv_lhs => rw [slots_eq_active r]
  rw [List.getD_append _ _ _ _ (by rw [length_active hlen]; exact hi)]

theorem slotAt_mem {r : PRec} (hlen : r.len ≤ r.slots.length) {i : Nat} (h1 : 1 ≤ i)
    (h2 : i ≤ r.len) : slotAt r i ∈ active r := by
  obtain ⟨j, rfl⟩ : ∃ j, i = j + 1 := ⟨i - 1, by omega⟩
  rw [slotAt_active hlen (by omega)]
  exact getD_mem (by rw [length_active hlen]; omega)

theorem mem_active_iff {r : PRec} (hlen : r.len ≤ r.slots.length) (s : Slot) :
    s ∈ active r ↔ ∃ i, 1 ≤ i ∧ i ≤ r.len ∧ slotAt r i = s := by
  constructor
  · intro hs
    obtain ⟨i, hi, rfl⟩ := List.mem_iff_getElem.mp hs
    rw [length_active hlen] at hi
    refine ⟨i + 1, by omega, by omega, ?_⟩
    rw [slotAt_active hlen hi, List.getD_eq_getElem]
  · rintro ⟨i, h1, h2, rfl⟩
    exact slotAt_mem hlen h1 h2

theorem getD_take {l : List Slot} {K i : Nat} (h : i < K) :
    (l.take K).getD i (0, 0) = l.getD i (0, 0) := by
  rw [List.getD_eq_getElem?_getD, List.getD_eq_getElem?_getD, List.getElem?_take_of_lt h]

theorem getD_drop {l : List Slot} {K i : Nat} :
    (l.drop K).getD i (0, 0) = l.getD (K + i) (0, 0) := by
  rw [List.getD_eq_getElem?_getD, List.getD_eq_getElem?_getD, List.getElem?_drop]

theorem WellFormed.index {r : PRec} (h : WellFormed r) : ∃ K, WFIdx r K := by
  obtain ⟨hlen, K, hK, h1, h2, h3, h4⟩ := h
  have hl := length_active hlen
  have hget : ∀ i, 1 ≤ i → i ≤ r.len →
      GET_RNAM_PREC r i = ((active r).getD (i - 1) (0, 0)).1 := by
    intro i hi1 hi2
    obtain ⟨j, rfl⟩ : ∃ j, i = j + 1 := ⟨i - 1, by omega⟩
    have := slotAt_active hlen (show j < r.len by omega)
    rw [Nat.add_sub_cancel, ← this]
    rfl
  refine ⟨K, hK, hlen, ?_, ?_, ?_, ?_⟩
  · intro i hi1 hi2
    rw [hget i hi1 (by omega), ← getD_take (show i - 1 < K by omega)]
    exact h1 _ (getD_mem (by simp only [List.length_take]; omega))
  · intro i j hi hij hj
    rw [hget i hi (by omega), hget j (by omega) (by omega),
      ← getD_take (show i - 1 < K by omega), ← getD_take (show j - 1 < K by omega)]
    have hlt : (List.take K (active r)).length = K := by simp only [List.length_take]; omega
    have := (List.pairwise_iff_getElem.mp h2) (i - 1) (j - 1) (by omega) (by omega) (by omega)
    rw [List.getD_eq_getElem _ _ (by omega), List.getD_eq_getElem _ _ (by omega)]
    have n1 := h1 _ (List.getElem_mem (l := List.take K (active r)) (n := i - 1) (by omega))
    have n2 := h1 _ (List.getElem_mem (l := List.take K (active r)) (n := j - 1) (by omega))
    simp only [mag] at this
    omega
  · intro i hi1 hi2
    rw [hget i (by omega) hi2, show i - 1 = K + (i - 1 - K) by omega, ← getD_drop]
    exact h3 _ (getD_mem (by simp only [List.length_drop]; omega))
  · intro i j hi hij hj
    rw [hget i hi (by omega), hget j (by omega) (by omega)]
    rw [List.Nodup, List.pairwise_map] at h4
    have := (List.pairwise_iff_getElem.mp h4) (i - 1) (j - 1) (by omega) (by omega) (by omega)
    rw [List.getD_eq_getElem _ _ (by omega), List.getD_eq_getElem _ _ (by omega)]
    exact this

/-- The binary search loop of `FindPRec` on names that are sorted up to `n`. -/
theorem binSearch_spec (r : PRec) (k n : Nat)
    (hmono : ∀ i j, 1 ≤ i → i < j → j ≤ n → -GET_RNAM_PREC r i < -GET_RNAM_PREC r j) :
    ∀ (fuel low high : Nat), 1 ≤ low → low ≤ high → high ≤ n + 1 → high - low ≤ fuel →
      (∀ i, 1 ≤ i → i < low → -GET_RNAM_PREC r i < (k : Int)) →
      (∀ i, high ≤ i → i ≤ n → (k : Int) < -GET_RNAM_PREC r i) →
      ((binSearch r k fuel low high).1 = 1 ∧ 1 ≤ (binSearch r k fuel low high).2 ∧
          (binSearch r k fuel low high).2 ≤ n ∧
          -GET_RNAM_PREC r (binSearch r k fuel low high).2 = (k : Int)) ∨
      ((binSearch r k fuel low high).1 = 0 ∧ 1 ≤ (binSearch r k fuel low high).2 ∧
          (binSearch r k fuel low high).2 ≤ n + 1 ∧
          (∀ i, 1 ≤ i → i < (binSearch r k fuel low high).2 → -GET_RNAM_PREC r i < (k : Int)) ∧
          (∀ i, (binSearch r k fuel low high).2 ≤ i → i ≤ n → (k : Int) < -GET_RNAM_PREC r i)) := by
  intro fuel
  induction fuel with
  | zero =>
    intro low high h1 h2 h3 h4 hlo hhi
    have : low = high := by omega
    subst this
    simp only [binSearch]
    exact Or.inr ⟨trivial, h1, h3, hlo, hhi⟩
  | succ fuel ih =>
    intro low high h1 h2 h3 h4 hlo hhi
    simp only [binSearch]
    by_cases hlt : low < high
    · rw [if_pos hlt]
      have hi1 : low ≤ (low + high) / 2 := by omega
      have hi2 : (low + high) / 2 < high := by omega
      by_cases hc1 : -GET_RNAM_PREC r ((low + high) / 2) < (k : Int)
      · rw [if_pos hc1]
        refine ih ((low + high) / 2 + 1) high (by omega) (by omega) h3 (by omega) ?_ hhi
        intro i hi hi3
        by_cases he : i = (low + high) / 2
        · rw [he]; exact hc1
        · have := hmono i ((low + high) / 2) hi (by omega) (by omega)
          omega
      · rw [if_neg hc1]
        by_cases hc2 : -GET_RNAM_PREC r ((low + high) / 2) > (k : Int)
        · rw [if_pos hc2]
          refine ih low ((low + high) / 2) h1 hi1 (by omega) (by omega) hlo ?_
          intro i hi hi3
          by_cases he : i = (low + high) / 2
          · rw [he]; exact hc2
          · have := hmono ((low + high) / 2) i (by omega) (by omega) hi3
            omega
        · rw [if_neg hc2]
          exact Or.inl ⟨rfl, by show 1 ≤ (low + high) / 2; omega,
            by show (low + high) / 2 ≤ n; omega,
            by show -GET_RNAM_PREC r ((low + high) / 2) = (k : Int); omega⟩
    · rw [if_neg hlt]
      have : low = high := by omega
      subst this
      exact Or.inr ⟨rfl, h1, h3, hlo, hhi⟩

/-- The backward scan of `FindPRec` through the positive names. -/
theorem scanBack_spec (r : PRec) (k K : Nat) (hneg : 1 ≤ K → GET_RNAM_PREC r K < 0) :
    ∀ (i : Nat), K ≤ i → (∀ j, K < j → j ≤ i → 0 < GET_RNAM_PREC r j) →
      match scanBack r k i with
      | ScanResult.found j => K < j ∧ j ≤ i ∧ GET_RNAM_PREC r j = (k : Int)
      | ScanResult.sortedArea j =>
        j = K ∧ 1 ≤ K ∧ ∀ m, K < m → m ≤ i → GET_RNAM_PREC r m ≠ (k : Int)
      | ScanResult.exhausted => K = 0 ∧ ∀ m, 1 ≤ m → m ≤ i → GET_RNAM_PREC r m ≠ (k : Int) := by
  intro i
  induction i with
  | zero =>
    intro hK _
    simp only [scanBack]
    exact ⟨by omega, fun m h1 h2 => by omega⟩
  | succ i ih =>
    intro hK hpos
    simp only [scanBack]
    by_cases hKi : K = i + 1
    · have h0 := hneg (by omega)
      rw [hKi] at h0
      rw [if_neg (by omega), if_pos h0]
      exact ⟨hKi.symm, by omega, fun m h1 h2 => by omega⟩
    · have hp := hpos (i + 1) (by omega) (le_refl _)
      by_cases he : (k : Int) = GET_RNAM_PREC r (i + 1)
      · rw [if_pos he]
        exact ⟨by omega, le_refl _, he.symm⟩
      · rw [if_neg he, if_neg (by omega)]
        have := ih (by omega) (fun j h1 h2 => hpos j h1 (by omega))
        split
        · rename_i j hj
          rw [hj] at this
          exact ⟨this.1, by omega, this.2.2⟩
        · rename_i j hj
          rw [hj] at this
          refine ⟨this.1, this.2.1, ?_⟩
          intro m h1 h2
          by_cases hm : m = i + 1
          · subst hm; exact fun h => he h.symm
          · exact this.2.2 m h1 (by omega)
        · rename_i hj
          rw [hj] at this
          refine ⟨this.1, ?_⟩
          intro m h1 h2
          by_cases hm : m = i + 1
          · subst hm; exact fun h => he h.symm
          · exact this.2 m h1 (by omega)

theorem hasKey_iff_binds (r : PRec) (k : Nat) : HasKey r k ↔ ∃ v, Binds r k v := by
  constructor
  · rintro ⟨i, h1, h2, h3⟩
    exact ⟨_, i, h1, h2, h3, rfl⟩
  · rintro ⟨v, i, h1, h2, h3, _⟩
    exact ⟨i, h1, h2, h3⟩

theorem binds_iff_mem {r : PRec} (hlen : r.len ≤ r.slots.length) (k : Nat) (v : Obj) :
    Binds r k v ↔ ∃ s ∈ active r, mag s = k ∧ s.2 = v := by
  constructor
  · rintro ⟨i, h1, h2, h3, h4⟩
    exact ⟨slotAt r i, slotAt_mem hlen h1 h2, h3, h4⟩
  · rintro ⟨s, hs, h3, h4⟩
    obtain ⟨i, h1, h2, rfl⟩ := (mem_active_iff hlen s).mp hs
    exact ⟨i, h1, h2, h3, h4⟩

theorem binds_unique {r : PRec} {K : Nat} (h : WFIdx r K) {k : Nat} {v w : Obj}
    (h1 : Binds r k v) (h2 : Binds r k w) : v = w := by
  obtain ⟨i, i1, i2, i3, i4⟩ := h1
  obtain ⟨j, j1, j2, j3, j4⟩ := h2
  have : i = j := by
    by_contra hne
    rcases Nat.lt_or_gt_of_ne hne with hlt | hlt
    · exact h.distinct i j i1 hlt j2 (by rw [i3, j3])
    · exact h.distinct j i j1 hlt i2 (by rw [i3, j3])
  subst this
  rw [← i4, ← j4]

theorem binds_sort {r : PRec} (h : WellFormed r) (b : Bool) (k : Nat) (v : Obj) :
    Binds (SortPRecRNam r b) k v ↔ Binds r k v := by
  obtain ⟨h1, _, _, h4, _, h6, _⟩ := sort_active h b
  rw [binds_iff_mem (by rw [h1, h4]; exact h.1), binds_iff_mem h.1]
  constructor
  · rintro ⟨s, hs, hk, hv⟩
    have := h6.mem_iff.mp hs
    rw [List.mem_map] at this
    obtain ⟨t, ht, rfl⟩ := this
    exact ⟨t, ht, by rw [← hk, mag_normSlot], by rw [← hv]; rfl⟩
  · rintro ⟨t, ht, hk, hv⟩
    exact ⟨normSlot t, h6.mem_iff.mpr (List.mem_map_of_mem _ ht), by rw [mag_normSlot, hk],
      by rw [← hv]; rfl⟩

theorem hasKey_sort {r : PRec} (h : WellFormed r) (b : Bool) (k : Nat) :
    HasKey (SortPRecRNam r b) k ↔ HasKey r k := by
  simp only [hasKey_iff_binds, binds_sort h b]

/-- A record whose slots are all in the sorted encoding, read slot by slot. -/
theorem wfIdx_of_cleanL {r : PRec} (hlen : r.len ≤ r.slots.length) (h : CleanL (active r)) :
    WFIdx r r.len := by
  obtain ⟨K, hK⟩ := (wellFormed_of_cleanL hlen h).index
  have hneg : ∀ i, 1 ≤ i → i ≤ r.len → GET_RNAM_PREC r i < 0 :=
    fun i h1 h2 => h.1 _ (slotAt_mem hlen h1 h2)
  have : K = r.len := by
    by_contra hne
    have h1 := hK.hK
    have := hK.pos (K + 1) (by omega) (by omega)
    have := hneg (K + 1) (by omega) (by omega)
    omega
  subst this
  exact hK

/-- `FindPRec` without cleanup: the record is untouched, the return value tells
whether some slot holds the name, and a hit yields the position of that slot. -/
theorem find_noclean {r : PRec} {K : Nat} (h : WFIdx r K) (k p : Nat) :
    (FindPRec r k p false).bag = r ∧
    (((FindPRec r k p false).ret = 1 ∧ 1 ≤ (FindPRec r k p false).pos ∧
        (FindPRec r k p false).pos ≤ r.len ∧
        (GET_RNAM_PREC r (FindPRec r k p false).pos).natAbs = k) ∨
      ((FindPRec r k p false).ret = 0 ∧
        ∀ i, 1 ≤ i → i ≤ r.len → (GET_RNAM_PREC r i).natAbs ≠ k)) := by
  have hK := h.hK
  unfold FindPRec
  simp only [LEN_PREC]
  by_cases hd : r.len > 0 ∧ GET_RNAM_PREC r r.len > 0
  · rw [if_pos hd]
    simp only [Bool.false_eq_true, if_false]
    have hKlt : K < r.len := by
      by_contra hc
      have := h.neg r.len (by omega) (by omega)
      omega
    have hsb := scanBack_spec r k K (fun h1 => h.neg K h1 (le_refl _)) r.len hK
      (fun j h1 h2 => h.pos j h1 h2)
    split
    · rename_i j hj
      rw [hj] at hsb
      refine ⟨rfl, Or.inl ⟨rfl, by show 1 ≤ j; omega, hsb.2.1, ?_⟩⟩
      show (GET_RNAM_PREC r j).natAbs = k
      rw [hsb.2.2]; rfl
    · rename_i hj
      rw [hj] at hsb
      refine ⟨rfl, Or.inr ⟨rfl, ?_⟩⟩
      intro i h1 h2
      have := hsb.2 i h1 h2
      have := h.pos i (by omega) h2
      omega
    · rename_i j hj
      rw [hj] at hsb
      obtain ⟨rfl, hK1, hsc⟩ := hsb
      refine ⟨rfl, ?_⟩
      have hb := binSearch_spec r k j h.mono (j + 1 - 1) 1 (j + 1) (le_refl _) (by omega)
        (le_refl _) (by omega) (fun i h1 h2 => by omega) (fun i h1 h2 => by omega)
      rcases hb with ⟨b1, b2, b3, b4⟩ | ⟨b1, b2, b3, b4, b5⟩
      · refine Or.inl ⟨b1, b2, ?_, ?_⟩
        · show (binSearch r k (j + 1 - 1) 1 (j + 1)).2 ≤ r.len
          omega
        · show (GET_RNAM_PREC r (binSearch r k (j + 1 - 1) 1 (j + 1)).2).natAbs = k
          omega
      · refine Or.inr ⟨b1, ?_⟩
        intro i h1 h2
        by_cases hij : i ≤ j
        · have hn := h.neg i h1 hij
          by_cases hlt : i < (binSearch r k (j + 1 - 1) 1 (j + 1)).2
          · have := b4 i h1 hlt; omega
          · have := b5 i (by omega) hij; omega
        · have := hsc i (by omega) h2
          have := h.pos i (by omega) h2
          omega
  · rw [if_neg hd]
    refine ⟨rfl, ?_⟩
    have hKeq : K = r.len := by
      by_contra hc
      have := h.pos r.len (by omega) (le_refl _)
      omega
    subst hKeq
    have hb := binSearch_spec r k r.len h.mono (r.len + 1 - 1) 1 (r.len + 1) (le_refl _)
      (by omega) (le_refl _) (by omega) (fun i h1 h2 => by omega) (fun i h1 h2 => by omega)
    rcases hb with ⟨b1, b2, b3, b4⟩ | ⟨b1, b2, b3, b4, b5⟩
    · refine Or.inl ⟨b1, b2, b3, ?_⟩
      show (GET_RNAM_PREC r (binSearch r k (r.len + 1 - 1) 1 (r.len + 1)).2).natAbs = k
      omega
    · refine Or.inr ⟨b1, ?_⟩
      intro i h1 h2
      have hn := h.neg i h1 h2
      by_cases hlt : i < (binSearch r k (r.len + 1 - 1) 1 (r.len + 1)).2
      · have := b4 i h1 hlt; omega
      · have := b5 i (by omega) h2; omega

/-- On a well-formed record whose last name is not positive `SortPRecRNam`
returns at once. -/
theorem sort_of_not_dirty {r : PRec} (h : WellFormed r)
    (hd : ¬ (r.len > 0 ∧ GET_RNAM_PREC r r.len > 0)) (b : Bool) : SortPRecRNam r b = r := by
  obtain ⟨K, hK⟩ := h.index
  unfold SortPRecRNam
  simp only [LEN_PREC]
  rw [if_pos]
  by_cases h0 : r.len = 0
  · exact Or.inl h0
  · right
    by_cases hKl : K = r.len
    · exact hK.neg r.len (by omega) (by omega)
    · have := hK.pos r.len (by have := hK.hK; omega) (le_refl _)
      omega

/-- `FindPRec` with cleanup: the record is reconciled and then searched. -/
theorem find_clean {r : PRec} (h : WellFormed r) (k p : Nat) :
    (FindPRec r k p true).bag = SortPRecRNam r false ∧
    (((FindPRec r k p true).ret = 1 ∧ 1 ≤ (FindPRec r k p true).pos ∧
        (FindPRec r k p true).pos ≤ r.len ∧
        (GET_RNAM_PREC (SortPRecRNam r false) (FindPRec r k p true).pos).natAbs = k) ∨
      ((FindPRec r k p true).ret = 0 ∧ 1 ≤ (FindPRec r k p true).pos ∧
        (FindPRec r k p true).pos ≤ r.len + 1 ∧
        (∀ i, 1 ≤ i → i < (FindPRec r k p true).pos →
          (GET_RNAM_PREC (SortPRecRNam r false) i).natAbs < k) ∧
        (∀ i, (FindPRec r k p true).pos ≤ i → i ≤ r.len →
          k < (GET_RNAM_PREC (SortPRecRNam r false) i).natAbs))) := by
  obtain ⟨h1, _, _, h4, _, _, h7⟩ := sort_active h false
  have hI := wfIdx_of_cleanL (by rw [h1, h4]; exact h.1) h7
  rw [h1] at hI
  have hb := binSearch_spec (SortPRecRNam r false) k r.len hI.mono (r.len + 1 - 1) 1 (r.len + 1)
    (le_refl _) (by omega) (le_refl _) (by omega) (fun i h1 h2 => by omega)
    (fun i h1 h2 => by omega)
  have key : FindPRec r k p true =
      { ret := (binSearch (SortPRecRNam r false) k (r.len + 1 - 1) 1 (r.len + 1)).1,
        pos := (binSearch (SortPRecRNam r false) k (r.len + 1 - 1) 1 (r.len + 1)).2,
        bag := SortPRecRNam r false } := by
    unfold FindPRec
    simp only [LEN_PREC]
    by_cases hd : r.len > 0 ∧ GET_RNAM_PREC r r.len > 0
    · rw [if_pos hd]; simp only [if_true]
    · rw [if_neg hd, sort_of_not_dirty h hd]
  rw [key]
  refine ⟨rfl, ?_⟩
  rcases hb with ⟨b1, b2, b3, b4⟩ | ⟨b1, b2, b3, b4, b5⟩
  · refine Or.inl ⟨b1, b2, b3, ?_⟩
    show (GET_RNAM_PREC (SortPRecRNam r false)
      (binSearch (SortPRecRNam r false) k (r.len + 1 - 1) 1 (r.len + 1)).2).natAbs = k
    omega
  · refine Or.inr ⟨b1, b2, b3, ?_, ?_⟩
    · intro i i1 i2
      have i3 : i < (binSearch (SortPRecRNam r false) k (r.len + 1 - 1) 1 (r.len + 1)).2 := i2
      have := b4 i i1 i3
      have := hI.neg i i1 (by omega)
      omega
    · intro i i1 i2
      have i3 : (binSearch (SortPRecRNam r false) k (r.len + 1 - 1) 1 (r.len + 1)).2 ≤ i := i1
      have := b5 i i3 i2
      have := hI.neg i (by omega) i2
      omega

theorem getD_set (l : List Slot) (i j : Nat) (x : Slot) :
    (l.set i x).getD j (0, 0) = if i = j ∧ j < l.length then x else l.getD j (0, 0) := by
  rw [List.getD_eq_getElem?_getD, List.getD_eq_getElem?_getD, List.getElem?_set]
  by_cases h : i = j
  · subst h
    by_cases h2 : i < l.length
    · simp [h2]
    · have : l[i]? = none := List.getElem?_eq_none (by omega)
      simp [h2, this]
  · simp [h]

theorem slotAt_zero (r : PRec) : slotAt r 0 = (0, 0) := rfl

theorem slotAt_of_gt (r : PRec) (j : Nat) (h : r.slots.length < j) : slotAt r j = (0, 0) := by
  obtain ⟨i, rfl⟩ : ∃ i, j = i + 1 := ⟨j - 1, by omega⟩
  rw [slotAt_succ, List.getD_eq_default _ _ (by omega)]

theorem slotAt_set_rnam (r : PRec) (i j : Nat) (x : Int) :
    slotAt (SET_RNAM_PREC r i x) j =
      if j = i ∧ 1 ≤ i ∧ i ≤ r.slots.length then (x, (slotAt r i).2) else slotAt r j := by
  cases i with
  | zero => simp [SET_RNAM_PREC]
  | succ i =>
    cases j with
    | zero => simp [slotAt_zero]
    | succ j =>
      simp only [slotAt_succ, SET_RNAM_PREC, getD_set]
      by_cases h : i = j
      · subst h
        by_cases h2 : i < r.slots.length
        · rw [if_pos ⟨rfl, h2⟩, if_pos ⟨rfl, by omega, by omega⟩]
        · rw [if_neg (by omega), if_neg (by omega)]
      · rw [if_neg (by omega), if_neg (by omega)]

theorem slotAt_set_elm (r : PRec) (i j : Nat) (v : Obj) :
    slotAt (SET_ELM_PREC r i v) j =
      if j = i ∧ 1 ≤ i ∧ i ≤ r.slots.length then ((slotAt r i).1, v) else slotAt r j := by
  cases i with
  | zero => simp [SET_ELM_PREC]
  | succ i =>
    cases j with
    | zero => simp [slotAt_zero]
    | succ j =>
      simp only [slotAt_succ, SET_ELM_PREC, getD_set]
      by_cases h : i = j
      · subst h
        by_cases h2 : i < r.slots.length
        · rw [if_pos ⟨rfl, h2⟩, if_pos ⟨rfl, by omega, by omega⟩]
        · rw [if_neg (by omega), if_neg (by omega)]
      · rw [if_neg (by omega), if_neg (by omega)]

theorem frame_set_rnam (r : PRec) (i : Nat) (x : Int) :
    (SET_RNAM_PREC r i x).len = r.len ∧ (SET_RNAM_PREC r i x).size = r.size ∧
    (SET_RNAM_PREC r i x).tnum = r.tnum ∧
    (SET_RNAM_PREC r i x).slots.length = r.slots.length := by
  cases i with
  | zero => simp [SET_RNAM_PREC]
  | succ i => simp [SET_RNAM_PREC]

theorem frame_set_elm (r : PRec) (i : Nat) (v : Obj) :
    (SET_ELM_PREC r i v).len = r.len ∧ (SET_ELM_PREC r i v).size = r.size ∧
    (SET_ELM_PREC r i v).tnum = r.tnum ∧
    (SET_ELM_PREC r i v).slots.length = r.slots.length := by
  cases i with
  | zero => simp [SET_ELM_PREC]
  | succ i => simp [SET_ELM_PREC]

theorem rnam_eq_slotAt (r : PRec) (i : Nat) : GET_RNAM_PREC r i = (slotAt r i).1 := rfl

theorem elm_eq_slotAt (r : PRec) (i : Nat) : GET_ELM_PREC r i = (slotAt r i).2 := rfl

/-- The copy loop of `UnbPRec`, slot by slot. -/
theorem shiftDown_spec : ∀ (n : Nat) (r : PRec) (i : Nat), 1 ≤ i → i + n ≤ r.slots.length →
    (shiftDown r i n).len = r.len ∧ (shiftDown r i n).size = r.size ∧
    (shiftDown r i n).tnum = r.tnum ∧
    (shiftDown r i n).slots.length = r.slots.length ∧
    ∀ j, slotAt (shiftDown r i n) j =
      if i ≤ j ∧ j < i + n then slotAt r (j + 1) else slotAt r j := by
  intro n
  induction n with
  | zero =>
    intro r i _ _
    have hsd : shiftDown r i 0 = r := by cases i <;> rfl
    rw [hsd]
    refine ⟨rfl, rfl, rfl, rfl, ?_⟩
    intro j
    rw [if_neg (by omega)]
  | succ n ih =>
    intro r i hi hlen
    simp only [shiftDown]
    have f1 := frame_set_rnam r i (GET_RNAM_PREC r (i + 1))
    have f2 := frame_set_elm (SET_RNAM_PREC r i (GET_RNAM_PREC r (i + 1))) i
      (GET_ELM_PREC (SET_RNAM_PREC r i (GET_RNAM_PREC r (i + 1))) (i + 1))
    obtain ⟨e1, e2, e3, e4, e5⟩ := ih (SET_ELM_PREC (SET_RNAM_PREC r i (GET_RNAM_PREC r (i + 1))) i
      (GET_ELM_PREC (SET_RNAM_PREC r i (GET_RNAM_PREC r (i + 1))) (i + 1))) (i + 1) (by omega)
      (by rw [f2.2.2.2, f1.2.2.2]; omega)
    refine ⟨by rw [e1, f2.1, f1.1], by rw [e2, f2.2.1, f1.2.1], by rw [e3, f2.2.2.1, f1.2.2.1],
      by rw [e4, f2.2.2.2, f1.2.2.2], ?_⟩
    intro j
    rw [e5 j]
    have hs : ∀ m, slotAt (SET_ELM_PREC (SET_RNAM_PREC r i (GET_RNAM_PREC r (i + 1))) i
        (GET_ELM_PREC (SET_RNAM_PREC r i (GET_RNAM_PREC r (i + 1))) (i + 1))) m =
        if m = i then slotAt r (i + 1) else slotAt r m := by
      intro m
      rw [slotAt_set_elm, f1.2.2.2]
      by_cases hm : m = i
      · rw [if_pos ⟨hm, hi, by omega⟩, if_pos hm]
        rw [elm_eq_slotAt, slotAt_set_rnam, slotAt_set_rnam]
        rw [if_pos ⟨rfl, hi, by omega⟩, if_neg (by omega), rnam_eq_slotAt]
      · rw [if_neg (by omega), if_neg hm, slotAt_set_rnam, if_neg (by omega)]
    by_cases hj : i + 1 ≤ j ∧ j < i + 1 + n
    · rw [if_pos hj, if_pos (by omega), hs, if_neg (by omega)]
    · rw [if_neg hj, hs]
      by_cases hji : j = i
      · rw [if_pos hji, if_pos (by omega), hji]
      · rw [if_neg hji, if_neg (by omega)]

theorem slotsIn_mono {a b : Nat} (h : a ≤ b) : slotsIn a ≤ slotsIn b := by
  simp only [slotsIn, sizeofObj]
  have : a / 8 ≤ b / 8 := Nat.div_le_div_right h
  omega

theorem capacityOf_le_slotsIn (s : Nat) : capacityOf s ≤ slotsIn s := by
  simp only [slotsIn, capacityOf, sizeofObj]
  omega

/-- `GrowPRec`: the bag is large enough afterwards, never smaller than before,
and no word of the old bag changes. -/
theorem grow_spec (r : PRec) (need : Nat) (hb : BagOK r) :
    (GrowPRec r need).1.len = r.len ∧ (GrowPRec r need).1.tnum = r.tnum ∧
    BagOK (GrowPRec r need).1 ∧ need ≤ capacityOf (GrowPRec r need).1.size ∧
    r.size ≤ (GrowPRec r need).1.size ∧
    r.slots.length ≤ (GrowPRec r need).1.slots.length ∧
    (∀ j, slotAt (GrowPRec r need).1 j = slotAt r j) := by
  unfold GrowPRec
  simp only [SIZE_OBJ, LEN_PREC, sizeofObj]
  by_cases h : r.size ≥ (2 * need + 2) * 8
  · rw [if_pos h]
    refine ⟨rfl, rfl, hb, ?_, le_refl _, le_refl _, fun j => rfl⟩
    simp only [capacityOf, sizeofObj]
    omega
  · rw [if_neg h]
    generalize hns : (if (2 * need + 2) * 8 < ((5 * r.len + 3) / 4 + 1) * 2 * 8 + 2
      then ((5 * r.len + 3) / 4 + 1) * 2 * 8 + 2 else (2 * need + 2) * 8) = newsize
    have hn1 : (2 * need + 2) * 8 ≤ newsize := by
      rw [← hns]; split <;> omega
    have hn2 : newsize = (2 * need + 2) * 8 ∨
        (newsize = ((5 * r.len + 3) / 4 + 1) * 2 * 8 + 2 ∧
          (2 * need + 2) * 8 < ((5 * r.len + 3) / 4 + 1) * 2 * 8 + 2) := by
      rw [← hns]; split
      · right; exact ⟨rfl, by assumption⟩
      · left; rfl
    have hmono : slotsIn r.size ≤ slotsIn newsize := slotsIn_mono (by omega)
    have hsl : (ResizeBag r newsize).slots =
        r.slots ++ List.replicate (slotsIn newsize - r.slots.length) (0, 0) := by
      simp only [ResizeBag]
      rw [List.take_of_length_le]
      simp only [List.length_append, List.length_replicate]
      rw [hb]; omega
    refine ⟨rfl, rfl, ?_, ?_, ?_, ?_, ?_⟩
    · simp only [BagOK, hsl, List.length_append, List.length_replicate]
      show r.slots.length + (slotsIn newsize - r.slots.length) = slotsIn newsize
      rw [hb]; omega
    · show need ≤ capacityOf newsize
      simp only [capacityOf, sizeofObj]
      rcases hn2 with h2 | ⟨h2, h3⟩
      · rw [h2]; omega
      · rw [h2]; omega
    · show r.size ≤ newsize
      omega
    · rw [hsl]; simp
    · intro j
      cases j with
      | zero => rfl
      | succ j =>
        rw [slotAt_succ, slotAt_succ, hsl]
        by_cases hj : j < r.slots.length
        · rw [List.getD_append _ _ _ _ hj]
        · rw [List.getD_append_right _ _ _ _ (by omega), List.getD_eq_default r.slots _ (by omega)]
          rw [List.getD_eq_getElem?_getD, List.getElem?_replicate]
          split <;> rfl

theorem active_getD {r : PRec} (hlen : r.len ≤ r.slots.length) {j : Nat} (hj : j < r.len) :
    (active r).getD j (0, 0) = slotAt r (j + 1) := (slotAt_active hlen hj).symm

/-- The slot-by-slot reading of well-formedness implies the predicate. -/
theorem wellFormed_of_index {r : PRec} {K : Nat} (h : WFIdx r K) : WellFormed r := by
  have hlen := h.hlen
  have hK := h.hK
  have hl := length_active hlen
  have hkey : ∀ j, j < r.len → ((active r).getD j (0, 0)).1 = GET_RNAM_PREC r (j + 1) := by
    intro j hj
    rw [active_getD hlen hj]; rfl
  refine ⟨hlen, K, hK, ?_, ?_, ?_, ?_⟩
  · intro s hs
    obtain ⟨j, hj, rfl⟩ := List.mem_iff_getElem.mp hs
    have hjK : j < K := by simp only [List.length_take] at hj; omega
    rw [← List.getD_eq_getElem _ (0, 0) hj, getD_take hjK, hkey j (by omega)]
    exact h.neg (j + 1) (by omega) (by omega)
  · rw [List.pairwise_iff_getElem]
    intro i j hi hj hij
    have hiK : i < K := by simp only [List.length_take] at hi; omega
    have hjK : j < K := by simp only [List.length_take] at hj; omega
    rw [← List.getD_eq_getElem _ (0, 0) hi, ← List.getD_eq_getElem _ (0, 0) hj,
      getD_take hiK, getD_take hjK]
    simp only [mag]
    rw [hkey i (by omega), hkey j (by omega)]
    have := h.mono (i + 1) (j + 1) (by omega) (by omega) (by omega)
    have := h.neg (i + 1) (by omega) (by omega)
    have := h.neg (j + 1) (by omega) (by omega)
    omega
  · intro s hs
    obtain ⟨j, hj, rfl⟩ := List.mem_iff_getElem.mp hs
    have hjK : K + j < r.len := by simp only [List.length_drop] at hj; omega
    rw [← List.getD_eq_getElem _ (0, 0) hj, getD_drop, hkey (K + j) hjK]
    exact h.pos (K + j + 1) (by omega) (by omega)
  · rw [List.Nodup, List.pairwise_map, List.pairwise_iff_getElem]
    intro i j hi hj hij
    rw [← List.getD_eq_getElem _ (0, 0) hi, ← List.getD_eq_getElem _ (0, 0) hj]
    simp only [mag]
    rw [hkey i (by omega), hkey j (by omega)]
    exact h.distinct (i + 1) (j + 1) (by omega) (by omega) (by omega)

theorem WFIdx.congr {r r' : PRec} {K : Nat} (h : WFIdx r K) (hl : r'.len = r.len)
    (hs : r'.slots.length = r.slots.length)
    (hn : ∀ j, GET_RNAM_PREC r' j = GET_RNAM_PREC r j) : WFIdx r' K := by
  refine ⟨by rw [hl]; exact h.hK, by rw [hl, hs]; exact h.hlen, ?_, ?_, ?_, ?_⟩
  · intro i h1 h2; rw [hn]; exact h.neg i h1 h2
  · intro i j h1 h2 h3; rw [hn, hn]; exact h.mono i j h1 h2 h3
  · intro i h1 h2; rw [hn]; exact h.pos i h1 (by omega)
  · intro i j h1 h2 h3; rw [hn, hn]; exact h.distinct i j h1 h2 (by omega)

theorem WFIdx.key_inj {r : PRec} {K : Nat} (h : WFIdx r K) {i j : Nat} (hi : 1 ≤ i)
    (hi2 : i ≤ r.len) (hj : 1 ≤ j) (hj2 : j ≤ r.len)
    (he : (GET_RNAM_PREC r i).natAbs = (GET_RNAM_PREC r j).natAbs) : i = j := by
  by_contra hne
  rcases Nat.lt_or_gt_of_ne hne with hlt | hlt
  · exact h.distinct i j hi hlt hj2 he
  · exact h.distinct j i hj hlt hi2 he.symm

/-- The optional cleanup at the start of `AssPRec`. -/
theorem ass_cleanup {r : PRec} (h : WellFormed r) :
    WellFormed (if r.len % 1000 = 0 then SortPRecRNam r false else r) ∧
    (if r.len % 1000 = 0 then SortPRecRNam r false else r).len = r.len ∧
    (if r.len % 1000 = 0 then SortPRecRNam r false else r).size = r.size ∧
    (if r.len % 1000 = 0 then SortPRecRNam r false else r).slots.length = r.slots.length ∧
    ∀ k v, Binds (if r.len % 1000 = 0 then SortPRecRNam r false else r) k v ↔ Binds r k v := by
  split
  · obtain ⟨h1, h2, _, h4, _, _, _⟩ := sort_active h false
    exact ⟨sort_wellFormed h false, h1, h2, h4, fun k v => binds_sort h false k v⟩
  · exact ⟨h, rfl, rfl, rfl, fun k v => Iff.rfl⟩

/-- `AssPRec` on a well-formed record. -/
theorem ass_spec {r : PRec} (h : WellFormed r) (hb : BagOK r) (k : Nat) (hk : 0 < k) (v : Obj) :
    WellFormed (AssPRec r k v) ∧ BagOK (AssPRec r k v) ∧
    (∀ k' v', Binds (AssPRec r k v) k' v' ↔ (k' = k ∧ v' = v) ∨ (k' ≠ k ∧ Binds r k' v')) ∧
    r.size ≤ (AssPRec r k v).size ∧
    (HasKey r k → (AssPRec r k v).len = r.len ∧ (AssPRec r k v).size = r.size) ∧
    (¬ HasKey r k → (AssPRec r k v).len = r.len + 1 ∧
      r.len + 1 ≤ capacityOf (AssPRec r k v).size) := by
  obtain ⟨w0, l0, s0, sl0, b0⟩ := ass_cleanup h
  unfold AssPRec
  simp only [LEN_PREC]
  generalize (if r.len % 1000 = 0 then SortPRecRNam r false else r) = r0 at w0 l0 s0 sl0 b0
  obtain ⟨K, hI⟩ := w0.index
  have hb0 : BagOK r0 := by simp only [BagOK] at hb ⊢; rw [sl0, s0]; exact hb
  obtain ⟨fb, hf⟩ := find_noclean hI k 0
  have hhas : HasKey r k ↔ HasKey r0 k := by
    simp only [hasKey_iff_binds, b0]
  rcases hf with ⟨f1, f2, f3, f4⟩ | ⟨f1, f5⟩
  · -- the component exists: only the value changes
    have hk0 : HasKey r0 k := ⟨_, f2, f3, f4⟩
    rw [if_neg (by omega), fb]
    generalize (FindPRec r0 k 0 false).pos = p at f2 f3 f4 hk0
    have fr := frame_set_elm r0 p v
    have hsl : ∀ j, slotAt (SET_ELM_PREC r0 p v) j =
        if j = p then ((slotAt r0 p).1, v) else slotAt r0 j := by
      intro j
      rw [slotAt_set_elm]
      by_cases hj : j = p
      · rw [if_pos ⟨hj, f2, by have := hI.hlen; omega⟩, if_pos hj]
      · rw [if_neg (by omega), if_neg hj]
    have hn : ∀ j, GET_RNAM_PREC (SET_ELM_PREC r0 p v) j = GET_RNAM_PREC r0 j := by
      intro j
      rw [rnam_eq_slotAt, hsl]
      split
      · rename_i hj; rw [hj]; rfl
      · rfl
    have hI2 := hI.congr fr.1 fr.2.2.2 hn
    refine ⟨wellFormed_of_index hI2, ?_, ?_, by rw [fr.2.1, s0], ?_, ?_⟩
    · simp only [BagOK]; rw [fr.2.2.2, fr.2.1]; exact hb0
    · intro k' v'
      rw [← b0]
      constructor
      · rintro ⟨j, j1, j2, j3, j4⟩
        rw [fr.1] at j2
        rw [hn] at j3
        rw [elm_eq_slotAt, hsl] at j4
        by_cases hj : j = p
        · subst hj
          rw [if_pos rfl] at j4
          exact Or.inl ⟨by omega, j4.symm⟩
        · rw [if_neg hj] at j4
          refine Or.inr ⟨?_, j, j1, j2, j3, j4⟩
          intro hkk
          exact hj (hI.key_inj j1 j2 f2 f3 (by omega))
      · rintro (⟨rfl, rfl⟩ | ⟨hne, j, j1, j2, j3, j4⟩)
        · refine ⟨p, f2, by rw [fr.1]; exact f3, by rw [hn]; exact f4, ?_⟩
          rw [elm_eq_slotAt, hsl, if_pos rfl]
        · have hj : j ≠ p := by
            intro hjp; subst hjp; omega
          refine ⟨j, j1, by rw [fr.1]; exact j2, by rw [hn]; exact j3, ?_⟩
          rw [elm_eq_slotAt, hsl, if_neg hj]; exact j4
    · intro _
      exact ⟨by rw [fr.1, l0], by rw [fr.2.1, s0]⟩
    · intro hno
      exact absurd (hhas.mpr hk0) hno
  · -- a new component is appended
    have hk0 : ¬ HasKey r0 k := by
      rintro ⟨i, i1, i2, i3⟩
      exact f5 i i1 i2 i3
    rw [if_pos f1, fb]
    obtain ⟨g1, _, g3, g4, g5, g6, g7⟩ := grow_spec r0 (r.len + 1) hb0
    generalize (GrowPRec r0 (r.len + 1)).1 = g at g1 g3 g4 g5 g6 g7
    have hroom : r.len + 1 ≤ g.slots.length := by
      have := capacityOf_le_slotsIn g.size
      rw [g3]; omega
    have fr1 := frame_set_rnam g (r.len + 1) (k : Int)
    have fr3 := frame_set_elm (SET_LEN_PREC (SET_RNAM_PREC g (r.len + 1) (k : Int)) (r.len + 1))
      (r.len + 1) v
    generalize hres : SET_ELM_PREC (SET_LEN_PREC (SET_RNAM_PREC g (r.len + 1) (k : Int))
      (r.len + 1)) (r.len + 1) v = res at fr3
    have hsl : ∀ j, slotAt res j = if j = r.len + 1 then ((k : Int), v) else slotAt r0 j := by
      intro j
      rw [← hres, slotAt_set_elm]
      simp only [SET_LEN_PREC]
      rw [fr1.2.2.2]
      by_cases hj : j = r.len + 1
      · rw [if_pos ⟨hj, by omega, hroom⟩, if_pos hj]
        have : (slotAt { SET_RNAM_PREC g (r.len + 1) (k : Int) with len := r.len + 1 }
            (r.len + 1)) = slotAt (SET_RNAM_PREC g (r.len + 1) (k : Int)) (r.len + 1) := rfl
        rw [this, slotAt_set_rnam, if_pos ⟨rfl, by omega, hroom⟩]
      · rw [if_neg (by omega), if_neg hj]
        have : (slotAt { SET_RNAM_PREC g (r.len + 1) (k : Int) with len := r.len + 1 } j) =
            slotAt (SET_RNAM_PREC g (r.len + 1) (k : Int)) j := rfl
        rw [this, slotAt_set_rnam, if_neg (by omega), g7]
    have hlen : res.len = r.len + 1 := fr3.1
    have hsize : res.size = g.size := fr3.2.1.trans fr1.2.1
    have hslen : res.slots.length = g.slots.length := fr3.2.2.2.trans fr1.2.2.2
    have hI2 : WFIdx res K := by
      have hK := hI.hK
      refine ⟨by omega, by rw [hlen, hslen]; exact hroom, ?_, ?_, ?_, ?_⟩
      · intro i i1 i2
        rw [rnam_eq_slotAt, hsl, if_neg (by omega)]
        exact hI.neg i i1 i2
      · intro i j i1 i2 i3
        rw [rnam_eq_slotAt, rnam_eq_slotAt, hsl, hsl, if_neg (by omega), if_neg (by omega)]
        exact hI.mono i j i1 i2 i3
      · intro i i1 i2
        rw [rnam_eq_slotAt, hsl]
        split
        · show (0 : Int) < (k : Int); omega
        · exact hI.pos i i1 (by omega)
      · intro i j i1 i2 i3
        rw [rnam_eq_slotAt, rnam_eq_slotAt, hsl, hsl, if_neg (by omega)]
        split
        · have := f5 i i1 (by omega)
          show (slotAt r0 i).1.natAbs ≠ (k : Int).natAbs
          rw [← rnam_eq_slotAt]
          omega
        · exact hI.distinct i j i1 i2 (by omega)
    refine ⟨wellFormed_of_index hI2, ?_, ?_, by rw [hsize, ← s0]; exact g5, ?_, ?_⟩
    · simp only [BagOK]; rw [hslen, hsize]; exact g3
    · intro k' v'
      rw [← b0]
      constructor
      · rintro ⟨j, j1, j2, j3, j4⟩
        rw [rnam_eq_slotAt, hsl] at j3
        rw [elm_eq_slotAt, hsl] at j4
        by_cases hj : j = r.len + 1
        · rw [if_pos hj] at j3 j4
          refine Or.inl ⟨?_, j4.symm⟩
          simp only at j3; omega
        · rw [if_neg hj] at j3 j4
          refine Or.inr ⟨?_, j, j1, by omega, j3, j4⟩
          intro hkk
          exact f5 j j1 (by omega) (by rw [rnam_eq_slotAt, j3, hkk])
      · rintro (⟨rfl, rfl⟩ | ⟨hne, j, j1, j2, j3, j4⟩)
        · refine ⟨r.len + 1, by omega, by omega, ?_, ?_⟩
          · rw [rnam_eq_slotAt, hsl, if_pos rfl]; simp
          · rw [elm_eq_slotAt, hsl, if_pos rfl]
        · refine ⟨j, j1, by omega, ?_, ?_⟩
          · rw [rnam_eq_slotAt, hsl, if_neg (by omega)]; exact j3
          · rw [elm_eq_slotAt, hsl, if_neg (by omega)]; exact j4
    · intro hyes
      exact absurd (hhas.mp hyes) hk0
    · intro _
      exact ⟨hlen, by rw [hsize]; exact g4⟩

/-- `UnbPRec` on a well-formed record. -/
theorem unb_spec {r : PRec} (h : WellFormed r) (k : Nat) :
    WellFormed (UnbPRec r k) ∧ (BagOK r → BagOK (UnbPRec r k)) ∧
    (∀ k' v', Binds (UnbPRec r k) k' v' ↔ (k' ≠ k ∧ Binds r k' v')) ∧
    (UnbPRec r k).size = r.size ∧ (UnbPRec r k).len ≤ r.len ∧
    (HasKey r k → (UnbPRec r k).len + 1 = r.len) ∧
    CleanL (active (UnbPRec r k)) := by
  obtain ⟨s1, s2, _, s4, _, _, s7⟩ := sort_active h false
  have hw := sort_wellFormed h false
  have hI := wfIdx_of_cleanL (by rw [s1, s4]; exact h.1) s7
  obtain ⟨fb, hf⟩ := find_clean h k 0
  have hbs := fun k v => binds_sort h false k v
  have hhas := hasKey_sort h false k
  unfold UnbPRec
  simp only [LEN_PREC]
  rw [fb]
  generalize SortPRecRNam r false = r' at s1 s2 s4 s7 hw hI hf hbs hhas
  rcases hf with ⟨f1, f2, f3, f4⟩ | ⟨f1, f2, f3, f4, f5⟩
  · rw [if_pos (by omega)]
    generalize (FindPRec r k 0 true).pos = p at f2 f3 f4
    rw [← s1] at f3
    have hlen' := hI.hlen
    obtain ⟨d1, d2, d3, d4, d5⟩ := shiftDown_spec (r'.len - p) r' p f2 (by omega)
    generalize shiftDown r' p (r'.len - p) = sd at d1 d2 d3 d4 d5
    have fr1 := frame_set_rnam sd r'.len 0
    have fr2 := frame_set_elm (SET_RNAM_PREC sd r'.len 0) r'.len 0
    have hlq : (SET_ELM_PREC (SET_RNAM_PREC sd r'.len 0) r'.len 0).len = r'.len :=
      fr2.1.trans (fr1.1.trans d1)
    rw [hlq]
    generalize hres : SET_LEN_PREC (SET_ELM_PREC (SET_RNAM_PREC sd r'.len 0) r'.len 0)
      (r'.len - 1) = res
    have hrl : res.len = r'.len - 1 := by rw [← hres]; rfl
    have hrs : res.size = r'.size := by
      rw [← hres]; exact (fr2.2.1.trans fr1.2.1).trans d2
    have hrsl : res.slots.length = r'.slots.length := by
      rw [← hres]; exact (fr2.2.2.2.trans fr1.2.2.2).trans d4
    have hsl : ∀ j, j < r'.len → slotAt res j = if p ≤ j then slotAt r' (j + 1) else slotAt r' j := by
      intro j hj
      have e1 : slotAt res j = slotAt (SET_ELM_PREC (SET_RNAM_PREC sd r'.len 0) r'.len 0) j := by
        rw [← hres]; rfl
      rw [e1, slotAt_set_elm, if_neg (by omega), slotAt_set_rnam, if_neg (by omega), d5]
      by_cases hpj : p ≤ j
      · rw [if_pos ⟨hpj, by omega⟩, if_pos hpj]
      · rw [if_neg (by omega), if_neg hpj]
    have hI2 : WFIdx res (r'.len - 1) := by
      refine ⟨by omega, by omega, ?_, ?_, ?_, ?_⟩
      · intro i i1 i2
        rw [rnam_eq_slotAt, hsl i (by omega)]
        split
        · exact hI.neg (i + 1) (by omega) (by omega)
        · exact hI.neg i i1 (by omega)
      · intro i j i1 i2 i3
        rw [rnam_eq_slotAt, rnam_eq_slotAt, hsl i (by omega), hsl j (by omega)]
        by_cases hpi : p ≤ i
        · rw [if_pos hpi, if_pos (by omega)]
          exact hI.mono (i + 1) (j + 1) (by omega) (by omega) (by omega)
        · rw [if_neg hpi]
          split
          · exact hI.mono i (j + 1) i1 (by omega) (by omega)
          · exact hI.mono i j i1 i2 (by omega)
      · intro i i1 i2; omega
      · intro i j i1 i2 i3
        rw [rnam_eq_slotAt, rnam_eq_slotAt, hsl i (by omega), hsl j (by omega)]
        by_cases hpi : p ≤ i
        · rw [if_pos hpi, if_pos (by omega)]
          exact hI.distinct (i + 1) (j + 1) (by omega) (by omega) (by omega)
        · rw [if_neg hpi]
          split
          · exact hI.distinct i (j + 1) i1 (by omega) (by omega)
          · exact hI.distinct i j i1 i2 (by omega)
    have hwf := wellFormed_of_index hI2
    refine ⟨hwf, ?_, ?_, by rw [hrs, s2], by omega, fun _ => by omega, ?_⟩
    · intro hb
      simp only [BagOK] at hb ⊢
      rw [hrsl, hrs, s4, s2]; exact hb
    · intro k' v'
      rw [← hbs]
      constructor
      · rintro ⟨j, j1, j2, j3, j4⟩
        rw [rnam_eq_slotAt, hsl j (by omega)] at j3
        rw [elm_eq_slotAt, hsl j (by omega)] at j4
        by_cases hpj : p ≤ j
        · rw [if_pos hpj] at j3 j4
          refine ⟨?_, j + 1, by omega, by omega, j3, j4⟩
          intro hkk
          have := hI.key_inj (i := j + 1) (j := p) (by omega) (by omega) f2 f3
            (by rw [rnam_eq_slotAt, j3, hkk, f4])
          omega
        · rw [if_neg hpj] at j3 j4
          refine ⟨?_, j, j1, by omega, j3, j4⟩
          intro hkk
          have := hI.key_inj (i := j) (j := p) j1 (by omega) f2 f3
            (by rw [rnam_eq_slotAt, j3, hkk, f4])
          omega
      · rintro ⟨hne, j, j1, j2, j3, j4⟩
        have hjp : j ≠ p := by
          intro hjp; subst hjp; omega
        by_cases hpj : p ≤ j
        · refine ⟨j - 1, by omega, by omega, ?_, ?_⟩
          · rw [rnam_eq_slotAt, hsl (j - 1) (by omega), if_pos (by omega),
              show j - 1 + 1 = j by omega]
            exact j3
          · rw [elm_eq_slotAt, hsl (j - 1) (by omega), if_pos (by omega),
              show j - 1 + 1 = j by omega]
            exact j4
        · refine ⟨j, j1, by omega, ?_, ?_⟩
          · rw [rnam_eq_slotAt, hsl j (by omega), if_neg hpj]; exact j3
          · rw [elm_eq_slotAt, hsl j (by omega), if_neg hpj]; exact j4
    · have hlen2 : res.len ≤ res.slots.length := hI2.hlen
      refine cleanL_of_mag (fun s hs => ?_) ?_
      · obtain ⟨i, i1, i2, rfl⟩ := (mem_active_iff hlen2 s).mp hs
        exact hI2.neg i i1 (by omega)
      · rw [List.pairwise_iff_getElem]
        intro i j hi hj hij
        rw [length_active hlen2] at hi hj
        rw [← List.getD_eq_getElem _ (0, 0), ← List.getD_eq_getElem _ (0, 0),
          active_getD hlen2 hi, active_getD hlen2 hj]
        have := hI2.mono (i + 1) (j + 1) (by omega) (by omega) (by omega)
        have := hI2.neg (i + 1) (by omega) (by omega)
        have := hI2.neg (j + 1) (by omega) (by omega)
        simp only [mag]
        rw [← rnam_eq_slotAt, ← rnam_eq_slotAt]
        omega
  · rw [if_neg (by omega)]
    have hno : ∀ i, 1 ≤ i → i ≤ r'.len → (GET_RNAM_PREC r' i).natAbs ≠ k := by
      intro i i1 i2
      rw [s1] at i2
      by_cases hlt : i < (FindPRec r k 0 true).pos
      · have := f4 i i1 hlt; omega
      · have := f5 i (by omega) i2; omega
    refine ⟨hw, ?_, ?_, s2, by omega, ?_, s7⟩
    · intro hb
      simp only [BagOK] at hb ⊢
      rw [s4, s2]; exact hb
    · intro k' v'
      rw [← hbs]
      constructor
      · rintro ⟨j, j1, j2, j3, j4⟩
        refine ⟨?_, j, j1, j2, j3, j4⟩
        intro hkk
        exact hno j j1 j2 (by rw [j3, hkk])
      · rintro ⟨_, hb⟩
        exact hb
    · intro hk
      obtain ⟨i, i1, i2, i3⟩ := hhas.mpr hk
      exact absurd i3 (hno i i1 i2)

theorem lastOp_concat (ops : List Op) (o : Op) (k : Nat) :
    lastOp (ops ++ [o]) k = if o.key = k then some o else lastOp ops k := by
  simp only [lastOp, List.filter_append]
  by_cases h : o.key = k
  · simp [h]
  · simp [h]

theorem runOps_concat (r : PRec) (ops : List Op) (o : Op) :
    runOps r (ops ++ [o]) = applyOp (runOps r ops) o := by
  simp [runOps, List.foldl_append]

theorem wellFormed_new (c : Nat) : WellFormed (NEW_PREC c) := by
  refine ⟨Nat.zero_le _, 0, le_refl _, ?_, ?_, ?_, ?_⟩ <;>
    simp [NEW_PREC, NewBag, SET_LEN_PREC, active]

theorem bagOK_new (c : Nat) : BagOK (NEW_PREC c) := by
  simp [BagOK, NEW_PREC, NewBag, SET_LEN_PREC]

theorem capacity_new (c : Nat) : capacity (NEW_PREC c) = c := by
  simp only [capacity, capacityOf, NEW_PREC, NewBag, SET_LEN_PREC, sizeofObj]
  omega

/-- What holds after every sequence of `Set` and `Delete` on a new record. -/
theorem runOps_invariant (c : Nat) (ops : List Op) (hpos : ∀ o ∈ ops, 0 < o.key) :
    WellFormed (runOps (NEW_PREC c) ops) ∧ BagOK (runOps (NEW_PREC c) ops) ∧
    (runOps (NEW_PREC c) ops).len ≤ capacity (runOps (NEW_PREC c) ops) ∧
    ∀ k v, Binds (runOps (NEW_PREC c) ops) k v ↔ lastOp ops k = some (Op.set k v) := by
  induction ops using List.reverseRecOn with
  | nil =>
    refine ⟨wellFormed_new c, bagOK_new c, Nat.zero_le _, ?_⟩
    intro k v
    simp only [runOps, List.foldl_nil, lastOp, List.filter_nil, List.getLast?_nil]
    constructor
    · rintro ⟨i, i1, i2, _⟩
      have : (NEW_PREC c).len = 0 := rfl
      omega
    · intro h; cases h
  | append_singleton ops o ih =>
    obtain ⟨w, b, cap, bd⟩ := ih (fun o ho => hpos o (List.mem_append_left _ ho))
    have hko := hpos o (List.mem_append_right _ (List.mem_singleton_self o))
    rw [runOps_concat]
    generalize runOps (NEW_PREC c) ops = r at w b cap bd
    cases o with
    | set k0 v0 =>
      simp only [applyOp]
      obtain ⟨a1, a2, a3, a4, a5, a6⟩ := ass_spec w b k0 hko v0
      refine ⟨a1, a2, ?_, ?_⟩
      · by_cases hk : HasKey r k0
        · obtain ⟨e1, e2⟩ := a5 hk
          simp only [capacity] at cap ⊢
          rw [e1, e2]; exact cap
        · obtain ⟨e1, e2⟩ := a6 hk
          simp only [capacity]
          rw [e1]; exact e2
      · intro k v
        rw [a3, lastOp_concat, bd]
        simp only [Op.key]
        by_cases hk : k0 = k
        · subst hk
          rw [if_pos rfl]
          constructor
          · rintro (⟨_, rfl⟩ | ⟨hne, _⟩)
            · rfl
            · exact absurd rfl hne
          · intro h
            injection h with h
            injection h with _ h
            exact Or.inl ⟨rfl, h.symm⟩
        · rw [if_neg hk]
          constructor
          · rintro (⟨rfl, _⟩ | ⟨_, h⟩)
            · exact absurd rfl hk
            · exact h
          · intro h; exact Or.inr ⟨fun e => hk e.symm, h⟩
    | delete k0 =>
      simp only [applyOp]
      obtain ⟨u1, u2, u3, u4, u5, _, _⟩ := unb_spec w k0
      refine ⟨u1, u2 b, ?_, ?_⟩
      · simp only [capacity] at cap ⊢
        rw [u4]; omega
      · intro k v
        rw [u3, lastOp_concat, bd]
        simp only [Op.key]
        by_cases hk : k0 = k
        · subst hk
          simp
        · rw [if_neg hk]
          constructor
          · intro h; exact h.2
          · intro h; exact ⟨fun e => hk e.symm, h⟩

/-- `IsbPRec` on a well-formed record. -/
theorem isb_spec {r : PRec} (h : WellFormed r) (k : Nat) :
    (IsbPRec r k).1 = SortPRecRNam r false ∧
    ((IsbPRec r k).2 = 1 ↔ HasKey r k) ∧ ((IsbPRec r k).2 = 0 ↔ ¬ HasKey r k) := by
  obtain ⟨fb, hf⟩ := find_clean h k 0
  obtain ⟨s1, _⟩ := sort_active h false
  have hhas := hasKey_sort h false k
  simp only [IsbPRec]
  refine ⟨fb, ?_⟩
  rcases hf with ⟨f1, f2, f3, f4⟩ | ⟨f1, f2, f3, f4, f5⟩
  · have hk : HasKey r k := hhas.mp ⟨_, f2, by rw [s1]; exact f3, f4⟩
    rw [f1]
    exact ⟨⟨fun _ => hk, fun _ => rfl⟩, ⟨fun h0 => absurd h0 (by decide), fun h0 => absurd hk h0⟩⟩
  · have hk : ¬ HasKey r k := by
      intro hk
      obtain ⟨i, i1, i2, i3⟩ := hhas.mpr hk
      rw [s1] at i2
      by_cases hlt : i < (FindPRec r k 0 true).pos
      · have := f4 i i1 hlt; omega
      · have := f5 i (by omega) i2; omega
    rw [f1]
    exact ⟨⟨fun h0 => absurd h0 (by decide), fun h0 => absurd h0 hk⟩, ⟨fun _ => hk, fun _ => rfl⟩⟩

/-- `ElmPRec` on a well-formed record. -/
theorem elm_spec {r : PRec} (h : WellFormed r) (k : Nat) :
    (ElmPRec r k).1 = SortPRecRNam r false ∧
    (∀ v, Binds r k v → (ElmPRec r k).2 = Except.ok v) ∧
    (¬ HasKey r k → (ElmPRec r k).2 = Except.error RecError.UnassignedComponent) := by
  obtain ⟨fb, hf⟩ := find_clean h k 0
  obtain ⟨s1, _⟩ := sort_active h false
  have hhas := hasKey_sort h false k
  obtain ⟨K, hI⟩ := h.index
  simp only [ElmPRec]
  rcases hf with ⟨f1, f2, f3, f4⟩ | ⟨f1, f2, f3, f4, f5⟩
  · rw [if_pos (by omega), fb]
    have hb : Binds r k (GET_ELM_PREC (SortPRecRNam r false) (FindPRec r k 0 true).pos) :=
      (binds_sort h false k _).mp ⟨_, f2, by rw [s1]; exact f3, f4, rfl⟩
    refine ⟨rfl, ?_, ?_⟩
    · intro v hv
      rw [binds_unique hI hb hv]
    · intro hno
      exact absurd ((hasKey_iff_binds r k).mpr ⟨_, hb⟩) hno
  · have hk : ¬ HasKey r k := by
      intro hk
      obtain ⟨i, i1, i2, i3⟩ := hhas.mpr hk
      rw [s1] at i2
      by_cases hlt : i < (FindPRec r k 0 true).pos
      · have := f4 i i1 hlt; omega
      · have := f5 i (by omega) i2; omega
    rw [if_neg (by omega)]
    refine ⟨fb, ?_, fun _ => rfl⟩
    intro v hv
    exact absurd ((hasKey_iff_binds r k).mpr ⟨v, hv⟩) hk

theorem fullScan_spec (r : PRec) (k : Nat) :
    ((fullScan r k).isSome = true ↔ HasKey r k) ∧
    (∀ i, fullScan r k = some i → 1 ≤ i ∧ i ≤ r.len ∧ (GET_RNAM_PREC r i).natAbs = k) := by
  simp only [fullScan, LEN_PREC]
  constructor
  · rw [Option.isSome_map', List.find?_isSome]
    constructor
    · rintro ⟨i, hi, hp⟩
      rw [List.mem_range] at hi
      exact ⟨i + 1, by omega, by omega, of_decide_eq_true hp⟩
    · rintro ⟨i, i1, i2, i3⟩
      refine ⟨i - 1, List.mem_range.mpr (by omega), ?_⟩
      rw [show i - 1 + 1 = i by omega]
      exact decide_eq_true i3
  · intro i hi
    rw [Option.map_eq_some'] at hi
    obtain ⟨j, hj, rfl⟩ := hi
    have h1 := List.find?_some hj
    have h2 := List.mem_of_find?_eq_some hj
    rw [List.mem_range] at h2
    exact ⟨by omega, by omega, of_decide_eq_true h1⟩

theorem wellFormed_demoRec : WellFormed demoRec :=
  ⟨by decide, 3, by decide, by decide, by decide, by decide, by decide⟩

theorem bagOK_demoRec : BagOK demoRec := by
  unfold BagOK; decide

theorem demoOps_pos : ∀ o ∈ demoOps, 0 < o.key := by decide

/-- Claim C1: after any finite sequence of `Set`/`Delete` operations with positive
names on a new record, `IsbPRec` answers 1 for `k` exactly when the last
operation on `k` in the sequence is a `Set` (and 0 otherwise). -/
theorem has_reflects_net_effect (c : Nat) (ops : List Op) (hpos : ∀ o ∈ ops, 0 < o.key)
    (k : Nat) :
    ((IsbPRec (runOps (NEW_PREC c) ops) k).2 = 1 ↔ ∃ v, lastOp ops k = some (Op.set k v)) ∧
    ((IsbPRec (runOps (NEW_PREC c) ops) k).2 = 0 ↔
      ¬ ∃ v, lastOp ops k = some (Op.set k v)) := by
  obtain ⟨w, _, _, bd⟩ := runOps_invariant c ops hpos
  obtain ⟨_, i1, i2⟩ := isb_spec w k
  have e : HasKey (runOps (NEW_PREC c) ops) k ↔ ∃ v, lastOp ops k = some (Op.set k v) := by
    rw [hasKey_iff_binds]
    exact exists_congr (fun v => bd k v)
  rw [i1, i2, e]
  exact ⟨Iff.rfl, Iff.rfl⟩

theorem has_reflects_net_effect_witness :
    (∀ o ∈ demoOps, 0 < o.key) ∧
    (((IsbPRec (runOps (NEW_PREC 0) demoOps) 5).2 = 1 ↔
        ∃ v, lastOp demoOps 5 = some (Op.set 5 v)) ∧
      ((IsbPRec (runOps (NEW_PREC 0) demoOps) 5).2 = 0 ↔
        ¬ ∃ v, lastOp demoOps 5 = some (Op.set 5 v))) :=
  ⟨demoOps_pos, has_reflects_net_effect 0 demoOps demoOps_pos 5⟩

/-- Claim C2: on a record reached from a new record by `Set`/`Delete` operations,
`ElmPRec` returns exactly `v` when the last operation on `k` was `Set(k, v)`, and
signals the unassigned-component error when `k` was never touched or was last
deleted. -/
theorem get_returns_last_set_or_error (c : Nat) (ops : List Op)
    (hpos : ∀ o ∈ ops, 0 < o.key) (k : Nat) :
    (∀ v, lastOp ops k = some (Op.set k v) →
      (ElmPRec (runOps (NEW_PREC c) ops) k).2 = Except.ok v) ∧
    ((lastOp ops k = none ∨ lastOp ops k = some (Op.delete k)) →
      (ElmPRec (runOps (NEW_PREC c) ops) k).2 =
        Except.error RecError.UnassignedComponent) := by
  obtain ⟨w, _, _, bd⟩ := runOps_invariant c ops hpos
  obtain ⟨_, e1, e2⟩ := elm_spec w k
  refine ⟨fun v hv => e1 v ((bd k v).mpr hv), ?_⟩
  intro hl
  apply e2
  rw [hasKey_iff_binds]
  rintro ⟨v, hv⟩
  have := (bd k v).mp hv
  rcases hl with hl | hl
  · rw [hl] at this; cases this
  · rw [hl] at this; cases this

theorem get_returns_last_set_or_error_witness :
    (∀ o ∈ demoOps, 0 < o.key) ∧
    ((∀ v, lastOp demoOps 3 = some (Op.set 3 v) →
        (ElmPRec (runOps (NEW_PREC 0) demoOps) 3).2 = Except.ok v) ∧
      ((lastOp demoOps 3 = none ∨ lastOp demoOps 3 = some (Op.delete 3)) →
        (ElmPRec (runOps (NEW_PREC 0) demoOps) 3).2 =
          Except.error RecError.UnassignedComponent)) :=
  ⟨demoOps_pos, get_returns_last_set_or_error 0 demoOps demoOps_pos 3⟩

/-- Claim C3: after `SortPRecRNam` on a well-formed record, with either value of
`inplace`, each of the `N` slots holds a negative name and the magnitudes are
strictly increasing from slot 1 to slot `N`. -/
theorem sort_all_negative_increasing (r : PRec) (h : WellFormed r) (inplace : Bool) :
    (∀ i, 1 ≤ i → i ≤ LEN_PREC (SortPRecRNam r inplace) →
      GET_RNAM_PREC (SortPRecRNam r inplace) i < 0) ∧
    (∀ i j, 1 ≤ i → i < j → j ≤ LEN_PREC (SortPRecRNam r inplace) →
      (GET_RNAM_PREC (SortPRecRNam r inplace) i).natAbs <
        (GET_RNAM_PREC (SortPRecRNam r inplace) j).natAbs) := by
  obtain ⟨s1, _, _, s4, _, _, s7⟩ := sort_active h inplace
  have hI := wfIdx_of_cleanL (by rw [s1, s4]; exact h.1) s7
  simp only [LEN_PREC]
  refine ⟨fun i i1 i2 => hI.neg i i1 i2, ?_⟩
  intro i j i1 i2 i3
  have := hI.mono i j i1 i2 i3
  have := hI.neg i i1 (by omega)
  have := hI.neg j (by omega) i3
  omega

theorem sort_all_negative_increasing_witness :
    WellFormed demoRec ∧
    ((∀ i, 1 ≤ i → i ≤ LEN_PREC (SortPRecRNam demoRec true) →
        GET_RNAM_PREC (SortPRecRNam demoRec true) i < 0) ∧
      (∀ i j, 1 ≤ i → i < j → j ≤ LEN_PREC (SortPRecRNam demoRec true) →
        (GET_RNAM_PREC (SortPRecRNam demoRec true) i).natAbs <
          (GET_RNAM_PREC (SortPRecRNam demoRec true) j).natAbs)) :=
  ⟨wellFormed_demoRec, sort_all_negative_increasing demoRec wellFormed_demoRec true⟩

/-- Claim C4: `SortPRecRNam` on a well-formed record, with either value of
`inplace`, keeps the length, and the slots afterwards are a permutation of the
slots before as (magnitude, value) pairs, so each name is bound to the same
value as before. -/
theorem sort_keeps_length_and_bindings (r : PRec) (h : WellFormed r) (inplace : Bool) :
    LEN_PREC (SortPRecRNam r inplace) = LEN_PREC r ∧
    ((active (SortPRecRNam r inplace)).map (fun s => (mag s, s.2))).Perm
      ((active r).map (fun s => (mag s, s.2))) ∧
    (∀ k v, Binds (SortPRecRNam r inplace) k v ↔ Binds r k v) := by
  obtain ⟨s1, _, _, _, _, s6, _⟩ := sort_active h inplace
  refine ⟨s1, ?_, fun k v => binds_sort h inplace k v⟩
  have := s6.map (fun s : Slot => (mag s, s.2))
  rw [List.map_map] at this
  have e : ((fun s : Slot => (mag s, s.2)) ∘ normSlot) = (fun s : Slot => (mag s, s.2)) := by
    funext s
    simp only [Function.comp, mag_normSlot]
    rfl
  rw [e] at this
  exact this

theorem sort_keeps_length_and_bindings_witness :
    WellFormed demoRec ∧
    (LEN_PREC (SortPRecRNam demoRec false) = LEN_PREC demoRec ∧
      ((active (SortPRecRNam demoRec false)).map (fun s => (mag s, s.2))).Perm
        ((active demoRec).map (fun s => (mag s, s.2))) ∧
      (∀ k v, Binds (SortPRecRNam demoRec false) k v ↔ Binds demoRec k v)) :=
  ⟨wellFormed_demoRec, sort_keeps_length_and_bindings demoRec wellFormed_demoRec false⟩

/-- Claim C5: on a well-formed record the allocating merge (`inplace = 0`) and the
in-place merge (`inplace = 1`) of `SortPRecRNam` leave the same record: the same
name word and the same value in every slot. -/
theorem sort_inplace_agrees (r : PRec) (h : WellFormed r) :
    SortPRecRNam r false = SortPRecRNam r true :=
  sort_inplace_eq h

theorem sort_inplace_agrees_witness :
    WellFormed demoRec ∧ SortPRecRNam demoRec false = SortPRecRNam demoRec true :=
  ⟨wellFormed_demoRec, sort_inplace_agrees demoRec wellFormed_demoRec⟩

/-- Claim C6: on a well-formed record `FindPRec` with cleanup reports a hit exactly
when a full linear scan of the `N` slots finds the name, and on a hit the
returned position is, in the record after the call, the slot that holds the
name together with the value bound to it. -/
theorem find_cleanup_agrees_with_scan (r : PRec) (h : WellFormed r) (k pos : Nat) :
    ((FindPRec r k pos true).ret = 1 ↔ (fullScan r k).isSome = true) ∧
    ((FindPRec r k pos true).ret = 0 ↔ fullScan r k = none) ∧
    ((FindPRec r k pos true).ret = 1 →
      1 ≤ (FindPRec r k pos true).pos ∧
      (FindPRec r k pos true).pos ≤ LEN_PREC (FindPRec r k pos true).bag ∧
      (GET_RNAM_PREC (FindPRec r k pos true).bag (FindPRec r k pos true).pos).natAbs = k ∧
      ∀ i, fullScan r k = some i →
        GET_ELM_PREC (FindPRec r k pos true).bag (FindPRec r k pos true).pos =
          GET_ELM_PREC r i) := by
  obtain ⟨fb, hf⟩ := find_clean h k pos
  obtain ⟨s1, _⟩ := sort_active h false
  have hhas := hasKey_sort h false k
  obtain ⟨fs1, fs2⟩ := fullScan_spec r k
  obtain ⟨K, hI⟩ := h.index
  have hnone : fullScan r k = none ↔ ¬ HasKey r k := by
    rw [← fs1]
    cases fullScan r k <;> simp
  rw [fs1, hnone, fb]
  simp only [LEN_PREC]
  rcases hf with ⟨f1, f2, f3, f4⟩ | ⟨f1, f2, f3, f4, f5⟩
  · have hk : HasKey r k := hhas.mp ⟨_, f2, by rw [s1]; exact f3, f4⟩
    rw [f1]
    refine ⟨⟨fun _ => hk, fun _ => rfl⟩, ⟨fun h0 => absurd h0 (by decide), fun h0 => absurd hk h0⟩,
      fun _ => ⟨f2, by rw [s1]; exact f3, f4, ?_⟩⟩
    intro i hi
    obtain ⟨i1, i2, i3⟩ := fs2 i hi
    have hb : Binds r k (GET_ELM_PREC (SortPRecRNam r false) (FindPRec r k pos true).pos) :=
      (binds_sort h false k _).mp ⟨_, f2, by rw [s1]; exact f3, f4, rfl⟩
    exact binds_unique hI hb ⟨i, i1, i2, i3, rfl⟩
  · have hk : ¬ HasKey r k := by
      intro hk
      obtain ⟨i, i1, i2, i3⟩ := hhas.mpr hk
      rw [s1] at i2
      by_cases hlt : i < (FindPRec r k pos true).pos
      · have := f4 i i1 hlt; omega
      · have := f5 i (by omega) i2; omega
    rw [f1]
    exact ⟨⟨fun h0 => absurd h0 (by decide), fun h0 => absurd h0 hk⟩, ⟨fun _ => hk, fun _ => rfl⟩,
      fun h0 => absurd h0 (by decide)⟩

theorem find_cleanup_agrees_with_scan_witness :
    WellFormed demoRec ∧
    (((FindPRec demoRec 4 0 true).ret = 1 ↔ (fullScan demoRec 4).isSome = true) ∧
      ((FindPRec demoRec 4 0 true).ret = 0 ↔ fullScan demoRec 4 = none) ∧
      ((FindPRec demoRec 4 0 true).ret = 1 →
        1 ≤ (FindPRec demoRec 4 0 true).pos ∧
        (FindPRec demoRec 4 0 true).pos ≤ LEN_PREC (FindPRec demoRec 4 0 true).bag ∧
        (GET_RNAM_PREC (FindPRec demoRec 4 0 true).bag
          (FindPRec demoRec 4 0 true).pos).natAbs = 4 ∧
        ∀ i, fullScan demoRec 4 = some i →
          GET_ELM_PREC (FindPRec demoRec 4 0 true).bag (FindPRec demoRec 4 0 true).pos =
            GET_ELM_PREC demoRec i)) :=
  ⟨wellFormed_demoRec, find_cleanup_agrees_with_scan demoRec wellFormed_demoRec 4 0⟩

/-- Claim C7: on a well-formed record (dirty suffix or not) `FindPRec` without
cleanup leaves the record as it is, reports a hit exactly when one of the `N`
slots holds the name, and on a hit returns the position of that slot. -/
theorem find_nocleanup_correct (r : PRec) (h : WellFormed r) (k pos : Nat) :
    (FindPRec r k pos false).bag = r ∧
    ((FindPRec r k pos false).ret = 1 ↔ HasKey r k) ∧
    ((FindPRec r k pos false).ret = 0 ↔ ¬ HasKey r k) ∧
    ((FindPRec r k pos false).ret = 1 →
      1 ≤ (FindPRec r k pos false).pos ∧ (FindPRec r k pos false).pos ≤ LEN_PREC r ∧
      (GET_RNAM_PREC r (FindPRec r k pos false).pos).natAbs = k) := by
  obtain ⟨K, hI⟩ := h.index
  obtain ⟨fb, hf⟩ := find_noclean hI k pos
  refine ⟨fb, ?_⟩
  simp only [LEN_PREC]
  rcases hf with ⟨f1, f2, f3, f4⟩ | ⟨f1, f5⟩
  · have hk : HasKey r k := ⟨_, f2, f3, f4⟩
    rw [f1]
    exact ⟨⟨fun _ => hk, fun _ => rfl⟩, ⟨fun h0 => absurd h0 (by decide), fun h0 => absurd hk h0⟩,
      fun _ => ⟨f2, f3, f4⟩⟩
  · have hk : ¬ HasKey r k := by
      rintro ⟨i, i1, i2, i3⟩
      exact f5 i i1 i2 i3
    rw [f1]
    exact ⟨⟨fun h0 => absurd h0 (by decide), fun h0 => absurd h0 hk⟩, ⟨fun _ => hk, fun _ => rfl⟩,
      fun h0 => absurd h0 (by decide)⟩

theorem find_nocleanup_correct_witness :
    WellFormed demoRec ∧
    ((FindPRec demoRec 1 0 false).bag = demoRec ∧
      ((FindPRec demoRec 1 0 false).ret = 1 ↔ HasKey demoRec 1) ∧
      ((FindPRec demoRec 1 0 false).ret = 0 ↔ ¬ HasKey demoRec 1) ∧
      ((FindPRec demoRec 1 0 false).ret = 1 →
        1 ≤ (FindPRec demoRec 1 0 false).pos ∧
        (FindPRec demoRec 1 0 false).pos ≤ LEN_PREC demoRec ∧
        (GET_RNAM_PREC demoRec (FindPRec demoRec 1 0 false).pos).natAbs = 1)) :=
  ⟨wellFormed_demoRec, find_nocleanup_correct demoRec wellFormed_demoRec 1 0⟩

/-- Claim C8: on the well-formed record made by `AssPRec(NEW_PREC(1), 5, 50)`, whose
single name 5 is still positive, `FindPRec` without cleanup misses the absent
name 3 and returns 0 without writing the position: whatever `*pos` held on
entry is still there, it is not set to the insertion index 1. -/
theorem find_nocleanup_miss_leaves_pos :
    demoDirty = AssPRec (NEW_PREC 1) 5 50 ∧ WellFormed demoDirty ∧ ¬ HasKey demoDirty 3 ∧
    ∀ pos, (FindPRec demoDirty 3 pos false).ret = 0 ∧
      (FindPRec demoDirty 3 pos false).pos = pos := by
  refine ⟨by decide, ⟨by decide, 0, by decide, by decide, by decide, by decide, by decide⟩,
    ?_, ?_⟩
  · rintro ⟨i, i1, i2, i3⟩
    have : i = 1 := by
      have : demoDirty.len = 1 := rfl
      omega
    subst this
    revert i3
    decide
  · intro pos
    exact ⟨rfl, rfl⟩

/-- Claim C9: the well-formedness predicate holds for a new record and is
preserved by `AssPRec`, `UnbPRec`, `IsbPRec`, `ElmPRec`, `InnerRecNames` and
`SortPRecRNam` (the component area being the memory of the bag throughout). -/
theorem wellFormed_is_invariant (r : PRec) (h : WellFormed r) (hb : BagOK r) (c k : Nat)
    (hk : 0 < k) (v : Obj) (inplace : Bool) :
    (WellFormed (NEW_PREC c) ∧ BagOK (NEW_PREC c)) ∧
    (WellFormed (AssPRec r k v) ∧ BagOK (AssPRec r k v)) ∧
    (WellFormed (UnbPRec r k) ∧ BagOK (UnbPRec r k)) ∧
    (WellFormed (IsbPRec r k).1 ∧ BagOK (IsbPRec r k).1) ∧
    (WellFormed (ElmPRec r k).1 ∧ BagOK (ElmPRec r k).1) ∧
    (WellFormed (InnerRecNames r).1 ∧ BagOK (InnerRecNames r).1) ∧
    (WellFormed (SortPRecRNam r inplace) ∧ BagOK (SortPRecRNam r inplace)) := by
  have hsort : ∀ b, WellFormed (SortPRecRNam r b) ∧ BagOK (SortPRecRNam r b) := by
    intro b
    obtain ⟨_, s2, _, s4, _⟩ := sort_active h b
    refine ⟨sort_wellFormed h b, ?_⟩
    simp only [BagOK] at hb ⊢
    rw [s4, s2]; exact hb
  obtain ⟨a1, a2, _⟩ := ass_spec h hb k hk v
  obtain ⟨u1, u2, _⟩ := unb_spec h k
  obtain ⟨i1, _⟩ := isb_spec h k
  obtain ⟨e1, _⟩ := elm_spec h k
  refine ⟨⟨wellFormed_new c, bagOK_new c⟩, ⟨a1, a2⟩, ⟨u1, u2 hb⟩, ?_, ?_, hsort false, hsort inplace⟩
  · rw [i1]; exact hsort false
  · rw [e1]; exact hsort false

theorem wellFormed_is_invariant_witness :
    (WellFormed demoRec ∧ BagOK demoRec ∧ 0 < 6) ∧
    ((WellFormed (NEW_PREC 2) ∧ BagOK (NEW_PREC 2)) ∧
      (WellFormed (AssPRec demoRec 6 60) ∧ BagOK (AssPRec demoRec 6 60)) ∧
      (WellFormed (UnbPRec demoRec 6) ∧ BagOK (UnbPRec demoRec 6)) ∧
      (WellFormed (IsbPRec demoRec 6).1 ∧ BagOK (IsbPRec demoRec 6).1) ∧
      (WellFormed (ElmPRec demoRec 6).1 ∧ BagOK (ElmPRec demoRec 6).1) ∧
      (WellFormed (InnerRecNames demoRec).1 ∧ BagOK (InnerRecNames demoRec).1) ∧
      (WellFormed (SortPRecRNam demoRec true) ∧ BagOK (SortPRecRNam demoRec true))) :=
  ⟨⟨wellFormed_demoRec, bagOK_demoRec, by decide⟩,
    wellFormed_is_invariant demoRec wellFormed_demoRec bagOK_demoRec 2 6 (by decide) 60 true⟩

theorem capacityOf_mono {a b : Nat} (h : a ≤ b) : capacityOf a ≤ capacityOf b := by
  simp only [capacityOf, sizeofObj]
  have : a / 8 ≤ b / 8 := Nat.div_le_div_right h
  omega

/-- Claim C10: a record made by `NEW_PREC(c)` has capacity `c`, and after any
sequence of `Set`/`Delete` operations the length does not exceed the capacity
`(size/sizeof(Obj) - 2) / 2`; a `Set` of a new name on a full record enlarges
the bag, so that the new length is again within the capacity. -/
theorem length_within_capacity (c : Nat) (ops : List Op) (hpos : ∀ o ∈ ops, 0 < o.key) :
    capacity (NEW_PREC c) = c ∧
    LEN_PREC (runOps (NEW_PREC c) ops) ≤ capacity (runOps (NEW_PREC c) ops) ∧
    (∀ k v, 0 < k → ¬ HasKey (runOps (NEW_PREC c) ops) k →
      LEN_PREC (runOps (NEW_PREC c) ops) = capacity (runOps (NEW_PREC c) ops) →
      SIZE_OBJ (runOps (NEW_PREC c) ops) < SIZE_OBJ (AssPRec (runOps (NEW_PREC c) ops) k v) ∧
      LEN_PREC (AssPRec (runOps (NEW_PREC c) ops) k v) =
        LEN_PREC (runOps (NEW_PREC c) ops) + 1 ∧
      LEN_PREC (AssPRec (runOps (NEW_PREC c) ops) k v) ≤
        capacity (AssPRec (runOps (NEW_PREC c) ops) k v)) := by
  obtain ⟨w, b, cap, _⟩ := runOps_invariant c ops hpos
  refine ⟨capacity_new c, cap, ?_⟩
  intro k v hk hno hfull
  obtain ⟨_, _, _, _, _, a6⟩ := ass_spec w b k hk v
  obtain ⟨e1, e2⟩ := a6 hno
  simp only [LEN_PREC, SIZE_OBJ, capacity] at hfull ⊢
  refine ⟨?_, e1, by rw [e1]; exact e2⟩
  by_contra hc
  have := capacityOf_mono (Nat.le_of_not_lt hc)
  omega

theorem length_within_capacity_witness :
    (∀ o ∈ demoOps, 0 < o.key) ∧
    (capacity (NEW_PREC 0) = 0 ∧
      LEN_PREC (runOps (NEW_PREC 0) demoOps) ≤ capacity (runOps (NEW_PREC 0) demoOps) ∧
      (∀ k v, 0 < k → ¬ HasKey (runOps (NEW_PREC 0) demoOps) k →
        LEN_PREC (runOps (NEW_PREC 0) demoOps) = capacity (runOps (NEW_PREC 0) demoOps) →
        SIZE_OBJ (runOps (NEW_PREC 0) demoOps) <
          SIZE_OBJ (AssPRec (runOps (NEW_PREC 0) demoOps) k v) ∧
        LEN_PREC (AssPRec (runOps (NEW_PREC 0) demoOps) k v) =
          LEN_PREC (runOps (NEW_PREC 0) demoOps) + 1 ∧
        LEN_PREC (AssPRec (runOps (NEW_PREC 0) demoOps) k v) ≤
          capacity (AssPRec (runOps (NEW_PREC 0) demoOps) k v))) :=
  ⟨demoOps_pos, length_within_capacity 0 demoOps demoOps_pos⟩

theorem grow_ret (r : PRec) (need : Nat) :
    ((GrowPRec r need).2 = 0 ∧ (GrowPRec r need).1.size = r.size) ∨
    ((GrowPRec r need).2 = 1 ∧ r.size < (GrowPRec r need).1.size) := by
  unfold GrowPRec
  simp only [SIZE_OBJ, LEN_PREC, sizeofObj]
  by_cases h : r.size ≥ (2 * need + 2) * 8
  · rw [if_pos h]; exact Or.inl ⟨rfl, rfl⟩
  · rw [if_neg h]
    right
    refine ⟨rfl, ?_⟩
    show r.size < (if (2 * need + 2) * 8 < ((5 * r.len + 3) / 4 + 1) * 2 * 8 + 2
      then ((5 * r.len + 3) / 4 + 1) * 2 * 8 + 2 else (2 * need + 2) * 8)
    split <;> omega

/-- The capacity after `GrowPRec` had to enlarge the bag. -/
theorem grow_capacity_enlarged (r : PRec) (need : Nat) (h : (GrowPRec r need).2 = 1) :
    capacity (GrowPRec r need).1 = max need ((5 * LEN_PREC r + 3) / 4) := by
  unfold GrowPRec at h ⊢
  simp only [SIZE_OBJ, LEN_PREC, sizeofObj] at h ⊢
  by_cases hs : r.size ≥ (2 * need + 2) * 8
  · rw [if_pos hs] at h; simp at h
  · rw [if_neg hs]
    show capacityOf (if (2 * need + 2) * 8 < ((5 * r.len + 3) / 4 + 1) * 2 * 8 + 2
      then ((5 * r.len + 3) / 4 + 1) * 2 * 8 + 2 else (2 * need + 2) * 8) = _
    simp only [capacityOf, sizeofObj]
    split
    · rw [max_def]; split <;> omega
    · rw [max_def]; split <;> omega

theorem toInt_toUInt (x : Int) (h1 : -2 ^ 63 ≤ x) (h2 : x < 2 ^ 63) : toInt (toUInt x) = x := by
  simp only [toInt, toUInt]
  have e : ((x % 2 ^ 64).toNat : Int) = x % 2 ^ 64 := Int.toNat_of_nonneg (Int.emod_nonneg _ (by norm_num))
  have hlt : x % 2 ^ 64 < 2 ^ 64 := Int.emod_lt_of_pos _ (by norm_num)
  have hm : (x % 2 ^ 64).toNat % 2 ^ 64 = (x % 2 ^ 64).toNat := Nat.mod_eq_of_lt (by omega)
  rw [hm]
  split <;> omega

theorem saveLoop_eq (r : PRec) : ∀ (n i : Nat) (out : List SaveItem),
    saveLoop r i n out = out ++ saveItems r i n := by
  intro n
  induction n with
  | zero => intro i out; simp [saveLoop, saveItems]
  | succ n ih =>
    intro i out
    simp only [saveLoop, saveItems, SaveUInt, SaveSubObj]
    rw [ih]
    simp

/-- `loadLoop` on the items written by `saveLoop`. -/
theorem loadLoop_saveItems (r : PRec) (rest : List SaveItem) : ∀ (n : Nat) (t : PRec) (i : Nat),
    1 ≤ i → i + n ≤ t.slots.length + 1 →
    (loadLoop t i n (saveItems r i n ++ rest)).2 = rest ∧
    (loadLoop t i n (saveItems r i n ++ rest)).1.len = t.len ∧
    (loadLoop t i n (saveItems r i n ++ rest)).1.size = t.size ∧
    (loadLoop t i n (saveItems r i n ++ rest)).1.tnum = t.tnum ∧
    (loadLoop t i n (saveItems r i n ++ rest)).1.slots.length = t.slots.length ∧
    ∀ j, slotAt (loadLoop t i n (saveItems r i n ++ rest)).1 j =
      if i ≤ j ∧ j < i + n then (toInt (toUInt (GET_RNAM_PREC r j)), GET_ELM_PREC r j)
      else slotAt t j := by
  intro n
  induction n with
  | zero =>
    intro t i _ _
    have e : loadLoop t i 0 (saveItems r i 0 ++ rest) = (t, rest) := by
      simp [loadLoop, saveItems]
    rw [e]
    refine ⟨rfl, rfl, rfl, rfl, rfl, ?_⟩
    intro j
    rw [if_neg (by omega)]
  | succ n ih =>
    intro t i hi hroom
    simp only [loadLoop, saveItems, List.cons_append, LoadUInt, LoadSubObj]
    have f1 := frame_set_rnam t i (toInt (toUInt (GET_RNAM_PREC r i)))
    have f2 := frame_set_elm (SET_RNAM_PREC t i (toInt (toUInt (GET_RNAM_PREC r i)))) i
      (GET_ELM_PREC r i)
    obtain ⟨e1, e2, e3, e4, e5, e6⟩ := ih (SET_ELM_PREC
      (SET_RNAM_PREC t i (toInt (toUInt (GET_RNAM_PREC r i)))) i (GET_ELM_PREC r i)) (i + 1)
      (by omega) (by rw [f2.2.2.2, f1.2.2.2]; omega)
    refine ⟨e1, e2.trans (f2.1.trans f1.1), e3.trans (f2.2.1.trans f1.2.1),
      e4.trans (f2.2.2.1.trans f1.2.2.1), e5.trans (f2.2.2.2.trans f1.2.2.2), ?_⟩
    intro j
    rw [e6 j]
    by_cases hj : i + 1 ≤ j ∧ j < i + 1 + n
    · rw [if_pos hj, if_pos (by omega)]
    · rw [if_neg hj, slotAt_set_elm, f1.2.2.2]
      by_cases hji : j = i
      · rw [if_pos ⟨hji, hi, by omega⟩, if_pos (by omega), slotAt_set_rnam,
          if_pos ⟨rfl, hi, by omega⟩, hji]
      · rw [if_neg (by omega), if_neg (by omega), slotAt_set_rnam, if_neg (by omega)]

theorem eqLoop_iff (EQ : Obj → Obj → Bool) (l r : PRec) : ∀ (n i : Nat),
    eqLoop EQ l r i n = true ↔
      ∀ j, i ≤ j → j < i + n →
        GET_RNAM_PREC l j = GET_RNAM_PREC r j ∧
        EQ (GET_ELM_PREC l j) (GET_ELM_PREC r j) = true := by
  intro n
  induction n with
  | zero =>
    intro i
    simp only [eqLoop, true_iff]
    intro j h1 h2; omega
  | succ n ih =>
    intro i
    simp only [eqLoop]
    by_cases hk : GET_RNAM_PREC l i = GET_RNAM_PREC r i
    · by_cases hv : EQ (GET_ELM_PREC l i) (GET_ELM_PREC r i) = true
      · rw [if_neg (by simpa using hk), if_neg (by simpa using hv), ih]
        constructor
        · intro h j h1 h2
          by_cases hj : j = i
          · subst hj; exact ⟨hk, hv⟩
          · exact h j (by omega) (by omega)
        · intro h j h1 h2
          exact h j (by omega) (by omega)
      · rw [if_neg (by simpa using hk), if_pos (by simpa using hv)]
        constructor
        · intro h; cases h
        · intro h; exact absurd (h i (le_refl _) (by omega)).2 hv
    · rw [if_pos hk]
      constructor
      · intro h; cases h
      · intro h; exact absurd (h i (le_refl _) (by omega)).1 hk

/-- What `FuncEQ_PREC_DEFAULT` computes. -/
theorem funcEQ_iff (EQ : Obj → Obj → Bool) (l r : PRec) :
    FuncEQ_PREC_DEFAULT EQ l r = true ↔
      IS_PREC_REP l = true ∧ IS_PREC_REP r = true ∧ LEN_PREC l = LEN_PREC r ∧
      ∀ j, 1 ≤ j → j ≤ LEN_PREC r →
        GET_RNAM_PREC l j = GET_RNAM_PREC r j ∧
        EQ (GET_ELM_PREC l j) (GET_ELM_PREC r j) = true := by
  unfold FuncEQ_PREC_DEFAULT
  by_cases h1 : IS_PREC_REP l = true
  · by_cases h2 : IS_PREC_REP r = true
    · by_cases h3 : LEN_PREC l = LEN_PREC r
      · rw [if_neg (by simpa using h1), if_neg (by simpa using h2), if_neg (by simpa using h3),
          eqLoop_iff]
        constructor
        · intro h
          exact ⟨h1, h2, h3, fun j j1 j2 => h j j1 (by omega)⟩
        · intro h j j1 j2
          exact h.2.2.2 j j1 (by omega)
      · rw [if_neg (by simpa using h1), if_neg (by simpa using h2), if_pos h3]
        constructor
        · intro h; cases h
        · intro h; exact absurd h.2.2.1 h3
    · rw [if_neg (by simpa using h1), if_pos h2]
      constructor
      · intro h; cases h
      · intro h; exact absurd h.2.1 h2
  · rw [if_pos h1]
    constructor
    · intro h; cases h
    · intro h; exact absurd h.1 h1

theorem ltLoop_false (NAME : Nat → String) (EQ LT : Obj → Obj → Bool) (l r : PRec) :
    ∀ (n i : Nat),
      (∀ j, i ≤ j → j < i + n → j ≤ LEN_PREC l ∧ GET_RNAM_PREC l j = GET_RNAM_PREC r j ∧
        (EQ (GET_ELM_PREC l j) (GET_ELM_PREC r j) = true ∨
          LT (GET_ELM_PREC l j) (GET_ELM_PREC r j) = false)) →
      ltLoop NAME EQ LT l r i n = false := by
  intro n
  induction n with
  | zero => intro i _; rfl
  | succ n ih =>
    intro i h
    obtain ⟨h1, h2, h3⟩ := h i (le_refl _) (by omega)
    simp only [ltLoop]
    rw [if_neg (by omega), if_neg (by simpa using h2)]
    by_cases hv : EQ (GET_ELM_PREC l i) (GET_ELM_PREC r i) = true
    · rw [if_neg (by simpa using hv)]
      exact ih (i + 1) (fun j j1 j2 => h j (by omega) (by omega))
    · rw [if_pos (by simpa using hv)]
      rcases h3 with h3 | h3
      · exact absurd h3 hv
      · exact h3

theorem ltLoop_true_of_shorter (NAME : Nat → String) (EQ LT : Obj → Obj → Bool) (l r : PRec) :
    ∀ (n i : Nat), i ≤ LEN_PREC l + 1 → LEN_PREC l + 1 < i + n →
      (∀ j, i ≤ j → j ≤ LEN_PREC l → GET_RNAM_PREC l j = GET_RNAM_PREC r j ∧
        EQ (GET_ELM_PREC l j) (GET_ELM_PREC r j) = true) →
      ltLoop NAME EQ LT l r i n = true := by
  intro n
  induction n with
  | zero => intro i h1 h2 _; omega
  | succ n ih =>
    intro i h1 h2 h
    simp only [ltLoop]
    by_cases hl : LEN_PREC l < i
    · rw [if_pos hl]
    · obtain ⟨k1, k2⟩ := h i (le_refl _) (by omega)
      rw [if_neg hl, if_neg (by simpa using k1), if_neg (by simpa using k2)]
      exact ih (i + 1) (by omega) (by omega) (fun j j1 j2 => h j (by omega) j2)

theorem funcLT_of_records (NAME : Nat → String) (EQ LT : Obj → Obj → Bool) (l r : PRec)
    (hl : IS_PREC_REP l = true) (hr : IS_PREC_REP r = true) :
    FuncLT_PREC_DEFAULT NAME EQ LT l r = ltLoop NAME EQ LT l r 1 (LEN_PREC r) := by
  unfold FuncLT_PREC_DEFAULT
  rw [if_neg (by simp [hl, hr]), if_neg (by simp [hl, hr])]

theorem demoEQ_refl (v : Obj) : demoEQ v v = true := by simp [demoEQ]

theorem demoEQ_symm (v w : Obj) : demoEQ v w = demoEQ w v := by
  simp only [demoEQ]
  by_cases h : v = w
  · subst h; rfl
  · have h2 : ¬ w = v := fun e => h e.symm
    simp [h, h2]

theorem demoLT_of_demoEQ (v w : Obj) (h : demoEQ v w = true) :
    demoLT v w = false ∧ demoLT w v = false := by
  simp only [demoEQ, beq_iff_eq] at h
  subst h
  simp [demoLT]

theorem strcmp_self (s : String) : strcmp s s = 0 := by
  have h : compare s s = Ordering.eq := by
    rw [compare_eq_iff_eq]
  simp [strcmp, h]

/-- Claim C11: after `GrowPRec(r, n)` the capacity is at least `n`, the bag is not
smaller than before, the length and all slots are unchanged, and the return
value is 0 exactly when the size did not change and 1 exactly when the bag was
enlarged. -/
theorem grow_contract (r : PRec) (hb : BagOK r) (need : Nat) :
    need ≤ capacity (GrowPRec r need).1 ∧
    SIZE_OBJ r ≤ SIZE_OBJ (GrowPRec r need).1 ∧
    LEN_PREC (GrowPRec r need).1 = LEN_PREC r ∧
    (∀ i, 1 ≤ i → i ≤ LEN_PREC r →
      GET_RNAM_PREC (GrowPRec r need).1 i = GET_RNAM_PREC r i ∧
      GET_ELM_PREC (GrowPRec r need).1 i = GET_ELM_PREC r i) ∧
    ((GrowPRec r need).2 = 0 ↔ SIZE_OBJ (GrowPRec r need).1 = SIZE_OBJ r) ∧
    ((GrowPRec r need).2 = 1 ↔ SIZE_OBJ r < SIZE_OBJ (GrowPRec r need).1) := by
  obtain ⟨g1, _, _, g4, g5, _, g7⟩ := grow_spec r need hb
  simp only [capacity, SIZE_OBJ, LEN_PREC]
  refine ⟨g4, g5, g1, ?_, ?_, ?_⟩
  · intro i _ _
    have := g7 i
    simp only [slotAt, Prod.mk.injEq] at this
    exact this
  · rcases grow_ret r need with ⟨h1, h2⟩ | ⟨h1, h2⟩
    · rw [h1, h2]; exact ⟨fun _ => rfl, fun _ => rfl⟩
    · rw [h1]
      exact ⟨fun h => absurd h (by decide), fun h => by omega⟩
  · rcases grow_ret r need with ⟨h1, h2⟩ | ⟨h1, h2⟩
    · rw [h1, h2]
      exact ⟨fun h => absurd h (by decide), fun h => by omega⟩
    · rw [h1]; exact ⟨fun _ => h2, fun _ => rfl⟩

theorem grow_contract_witness :
    BagOK demoFull ∧
    (5 ≤ capacity (GrowPRec demoFull 5).1 ∧
      SIZE_OBJ demoFull ≤ SIZE_OBJ (GrowPRec demoFull 5).1 ∧
      LEN_PREC (GrowPRec demoFull 5).1 = LEN_PREC demoFull ∧
      (∀ i, 1 ≤ i → i ≤ LEN_PREC demoFull →
        GET_RNAM_PREC (GrowPRec demoFull 5).1 i = GET_RNAM_PREC demoFull i ∧
        GET_ELM_PREC (GrowPRec demoFull 5).1 i = GET_ELM_PREC demoFull i) ∧
      ((GrowPRec demoFull 5).2 = 0 ↔ SIZE_OBJ (GrowPRec demoFull 5).1 = SIZE_OBJ demoFull) ∧
      ((GrowPRec demoFull 5).2 = 1 ↔ SIZE_OBJ demoFull < SIZE_OBJ (GrowPRec demoFull 5).1)) :=
  ⟨by unfold BagOK; decide, grow_contract demoFull (by unfold BagOK; decide) 5⟩

/-- Claim C12: on the full record of length 4 made by four `Set` calls on
`NEW_PREC(4)`, `GrowPRec(rec, 5)` enlarges the bag to 98 bytes, which is a
capacity of 5 slots and not the `max(5, ceil(5*4/4) + 1) = 6` slots of the
claim: the header is added as 2 bytes instead of 2 words. -/
theorem grow_capacity_misses_target :
    demoFull = runOps (NEW_PREC 4) [Op.set 1 10, Op.set 2 20, Op.set 3 30, Op.set 4 40] ∧
    capacity demoFull = 4 ∧ (GrowPRec demoFull 5).2 = 1 ∧
    SIZE_OBJ (GrowPRec demoFull 5).1 = 98 ∧ capacity (GrowPRec demoFull 5).1 = 5 ∧
    max 5 ((5 * LEN_PREC demoFull + 3) / 4 + 1) = 6 := by
  decide

/-- Claim C13: the well-formed records `demoDirty` (made by `AssPRec(NEW_PREC(1), 5, 50)`)
and `demoClean` (the same record after `IsbPRec` reconciled it) have equal
length and the same reconciled view, yet `FuncEQ_PREC_DEFAULT` returns false
for them: it compares the raw name words 5 and -5. -/
theorem eq_default_compares_raw_names :
    demoDirty = AssPRec (NEW_PREC 1) 5 50 ∧ demoClean = (IsbPRec demoDirty 5).1 ∧
    WellFormed demoDirty ∧ WellFormed demoClean ∧
    IS_PREC_REP demoDirty = true ∧ IS_PREC_REP demoClean = true ∧
    LEN_PREC demoDirty = LEN_PREC demoClean ∧
    SortPRecRNam demoDirty false = SortPRecRNam demoClean false ∧
    FuncEQ_PREC_DEFAULT demoEQ demoDirty demoClean = false :=
  ⟨by decide, by decide,
    ⟨by decide, 0, by decide, by decide, by decide, by decide, by decide⟩,
    ⟨by decide, 1, by decide, by decide, by decide, by decide, by decide⟩,
    by decide, by decide, by decide, by decide, by decide⟩

/-- Claim C14: the records built by `Set(1,1); Set(2,2)` and by `Set(2,2); Set(1,1)`
are not equal for `FuncEQ_PREC_DEFAULT`, although their reconciled views are
the same record (which the function does find equal). -/
theorem eq_default_depends_on_insertion_order :
    demoAB = runOps (NEW_PREC 0) [Op.set 1 1, Op.set 2 2] ∧
    demoBA = runOps (NEW_PREC 0) [Op.set 2 2, Op.set 1 1] ∧
    FuncEQ_PREC_DEFAULT demoEQ demoAB demoBA = false ∧
    SortPRecRNam demoAB false = SortPRecRNam demoBA false ∧
    FuncEQ_PREC_DEFAULT demoEQ (SortPRecRNam demoAB false) (SortPRecRNam demoBA false) = true :=
  ⟨by decide, by decide, by decide, by decide, by decide⟩

/-- Claim C15: when the equality of values is reflexive and symmetric,
`FuncEQ_PREC_DEFAULT` is reflexive on records and symmetric on all operands. -/
theorem eq_default_reflexive_symmetric (EQ : Obj → Obj → Bool)
    (hrefl : ∀ v, EQ v v = true) (hsymm : ∀ v w, EQ v w = EQ w v)
    (r a b : PRec) (hr : IS_PREC_REP r = true) :
    FuncEQ_PREC_DEFAULT EQ r r = true ∧
    FuncEQ_PREC_DEFAULT EQ a b = FuncEQ_PREC_DEFAULT EQ b a := by
  constructor
  · rw [funcEQ_iff]
    exact ⟨hr, hr, rfl, fun j _ _ => ⟨rfl, hrefl _⟩⟩
  · have key : ∀ x y, FuncEQ_PREC_DEFAULT EQ x y = true → FuncEQ_PREC_DEFAULT EQ y x = true := by
      intro x y h
      rw [funcEQ_iff] at h ⊢
      obtain ⟨h1, h2, h3, h4⟩ := h
      refine ⟨h2, h1, h3.symm, ?_⟩
      intro j j1 j2
      obtain ⟨k1, k2⟩ := h4 j j1 (by omega)
      exact ⟨k1.symm, by rw [hsymm]; exact k2⟩
    cases hab : FuncEQ_PREC_DEFAULT EQ a b
    · cases hba : FuncEQ_PREC_DEFAULT EQ b a
      · rfl
      · rw [key b a hba] at hab; cases hab
    · exact (key a b hab).symm

theorem eq_default_reflexive_symmetric_witness :
    ((∀ v, demoEQ v v = true) ∧ (∀ v w, demoEQ v w = demoEQ w v) ∧
      IS_PREC_REP demoRec = true) ∧
    (FuncEQ_PREC_DEFAULT demoEQ demoRec demoRec = true ∧
      FuncEQ_PREC_DEFAULT demoEQ demoDirty demoClean =
        FuncEQ_PREC_DEFAULT demoEQ demoClean demoDirty) :=
  ⟨⟨demoEQ_refl, demoEQ_symm, by decide⟩,
    eq_default_reflexive_symmetric demoEQ demoEQ_refl demoEQ_symm demoRec demoDirty demoClean
      (by decide)⟩

/-- Claim C16: when the order of values never orders two equal values, two
operands that `FuncEQ_PREC_DEFAULT` finds equal are not ordered by
`FuncLT_PREC_DEFAULT`, in either direction. -/
theorem lt_default_consistent_with_eq (NAME : Nat → String) (EQ LT : Obj → Obj → Bool)
    (hval : ∀ v w, EQ v w = true → LT v w = false ∧ LT w v = false)
    (a b : PRec) (heq : FuncEQ_PREC_DEFAULT EQ a b = true) :
    FuncLT_PREC_DEFAULT NAME EQ LT a b = false ∧
    FuncLT_PREC_DEFAULT NAME EQ LT b a = false := by
  rw [funcEQ_iff] at heq
  obtain ⟨h1, h2, h3, h4⟩ := heq
  rw [funcLT_of_records NAME EQ LT a b h1 h2, funcLT_of_records NAME EQ LT b a h2 h1]
  constructor
  · apply ltLoop_false
    intro j j1 j2
    obtain ⟨k1, k2⟩ := h4 j (by omega) (by omega)
    exact ⟨by omega, k1, Or.inl k2⟩
  · apply ltLoop_false
    intro j j1 j2
    obtain ⟨k1, k2⟩ := h4 j (by omega) (by omega)
    exact ⟨by omega, k1.symm, Or.inr (hval _ _ k2).2⟩

theorem lt_default_consistent_with_eq_witness :
    ((∀ v w, demoEQ v w = true → demoLT v w = false ∧ demoLT w v = false) ∧
      FuncEQ_PREC_DEFAULT demoEQ demoRec demoRec = true) ∧
    (FuncLT_PREC_DEFAULT demoName demoEQ demoLT demoRec demoRec = false ∧
      FuncLT_PREC_DEFAULT demoName demoEQ demoLT demoRec demoRec = false) :=
  ⟨⟨demoLT_of_demoEQ, by decide⟩,
    lt_default_consistent_with_eq demoName demoEQ demoLT demoLT_of_demoEQ demoRec demoRec
      (by decide)⟩

/-- Claim C17: with identity and the order of machine words on values (a strict
total order compatible with equality) and any name table, the well-formed
records `demoP1` (name 5 unsorted, value 1), `demoN2` (name 5 sorted, value 2)
and `demoP2` (name 5 unsorted, value 2) satisfy: `demoP1` and `demoN2` are not
ordered, `demoN2` and `demoP2` are not ordered, but `demoP1` is less than
`demoP2`; so being unordered is not transitive for `FuncLT_PREC_DEFAULT`. -/
theorem lt_default_not_weak_order :
    demoP1 = AssPRec (NEW_PREC 1) 5 1 ∧ demoP2 = AssPRec (NEW_PREC 1) 5 2 ∧
    demoN2 = (IsbPRec demoP2 5).1 ∧
    WellFormed demoP1 ∧ WellFormed demoN2 ∧ WellFormed demoP2 ∧
    ∀ NAME : Nat → String,
      FuncLT_PREC_DEFAULT NAME demoEQ demoLT demoP1 demoN2 = false ∧
      FuncLT_PREC_DEFAULT NAME demoEQ demoLT demoN2 demoP1 = false ∧
      FuncLT_PREC_DEFAULT NAME demoEQ demoLT demoN2 demoP2 = false ∧
      FuncLT_PREC_DEFAULT NAME demoEQ demoLT demoP2 demoN2 = false ∧
      FuncLT_PREC_DEFAULT NAME demoEQ demoLT demoP1 demoP2 = true := by
  refine ⟨by decide, by decide, by decide,
    ⟨by decide, 0, by decide, by decide, by decide, by decide, by decide⟩,
    ⟨by decide, 1, by decide, by decide, by decide, by decide, by decide⟩,
    ⟨by decide, 0, by decide, by decide, by decide, by decide, by decide⟩, ?_⟩
  intro NAME
  have h5 : (5 : Int).natAbs = 5 := rfl
  have h5n : (-5 : Int).natAbs = 5 := rfl
  refine ⟨?_, ?_, ?_, ?_, ?_⟩ <;>
    simp [FuncLT_PREC_DEFAULT, ltLoop, IS_PREC_REP, TNUM_OBJ, LEN_PREC, GET_RNAM_PREC,
      GET_ELM_PREC, demoP1, demoN2, demoP2, T_PREC, IMMUTABLE, strcmp_self, demoEQ, demoLT]

/-- Claim C18: when the record `a` is strictly shorter than the record `b` and
agrees with it in name and value at every position `1 .. len(a)`,
`FuncLT_PREC_DEFAULT` returns true for `(a, b)` and false for `(b, a)`. -/
theorem lt_default_prefix_first (NAME : Nat → String) (EQ LT : Obj → Obj → Bool)
    (a b : PRec) (ha : IS_PREC_REP a = true) (hb : IS_PREC_REP b = true)
    (hlen : LEN_PREC a < LEN_PREC b)
    (h : ∀ i, 1 ≤ i → i ≤ LEN_PREC a →
      GET_RNAM_PREC a i = GET_RNAM_PREC b i ∧
      EQ (GET_ELM_PREC a i) (GET_ELM_PREC b i) = true ∧
      EQ (GET_ELM_PREC b i) (GET_ELM_PREC a i) = true) :
    FuncLT_PREC_DEFAULT NAME EQ LT a b = true ∧
    FuncLT_PREC_DEFAULT NAME EQ LT b a = false := by
  rw [funcLT_of_records NAME EQ LT a b ha hb, funcLT_of_records NAME EQ LT b a hb ha]
  constructor
  · apply ltLoop_true_of_shorter
    · omega
    · omega
    · intro j j1 j2
      obtain ⟨k1, k2, _⟩ := h j j1 j2
      exact ⟨k1, k2⟩
  · apply ltLoop_false
    intro j j1 j2
    obtain ⟨k1, _, k3⟩ := h j (by omega) (by omega)
    exact ⟨by omega, k1.symm, Or.inl k3⟩

theorem lt_default_prefix_first_witness :
    (IS_PREC_REP demoClean = true ∧ IS_PREC_REP demoLonger = true ∧
      LEN_PREC demoClean < LEN_PREC demoLonger ∧
      (∀ i, 1 ≤ i → i ≤ LEN_PREC demoClean →
        GET_RNAM_PREC demoClean i = GET_RNAM_PREC demoLonger i ∧
        demoEQ (GET_ELM_PREC demoClean i) (GET_ELM_PREC demoLonger i) = true ∧
        demoEQ (GET_ELM_PREC demoLonger i) (GET_ELM_PREC demoClean i) = true)) ∧
    (FuncLT_PREC_DEFAULT demoName demoEQ demoLT demoClean demoLonger = true ∧
      FuncLT_PREC_DEFAULT demoName demoEQ demoLT demoLonger demoClean = false) :=
  have h : ∀ i, 1 ≤ i → i ≤ LEN_PREC demoClean →
      GET_RNAM_PREC demoClean i = GET_RNAM_PREC demoLonger i ∧
      demoEQ (GET_ELM_PREC demoClean i) (GET_ELM_PREC demoLonger i) = true ∧
      demoEQ (GET_ELM_PREC demoLonger i) (GET_ELM_PREC demoClean i) = true := by
    intro i h1 h2
    have h3 : i ≤ 1 := h2
    have h4 : i = 1 := by omega
    rw [h4]
    decide
  ⟨⟨by decide, by decide, by decide, h⟩,
    lt_default_prefix_first demoName demoEQ demoLT demoClean demoLonger (by decide) (by decide)
      (by decide) h⟩

/-- The one-component record `demoClean` against `demoLonger`, which has the same
first component and a second one: the loop compares the name and the value of
slot 1, finds them equal and returns at slot 2 because the left record is
shorter; in the other direction the loop ends behind slot 1 with false.  With
another value in slot 1 the value comparison decides. -/
theorem lt_default_prefix_demo :
    GET_RNAM_PREC demoClean 1 = -5 ∧ GET_RNAM_PREC demoLonger 1 = -5 ∧
    GET_ELM_PREC demoClean 1 = 50 ∧ GET_ELM_PREC demoLonger 1 = 50 ∧
    ltLoop demoName demoEQ demoLT demoClean demoLonger 1 2 =
      ltLoop demoName demoEQ demoLT demoClean demoLonger 2 1 ∧
    FuncLT_PREC_DEFAULT demoName demoEQ demoLT demoClean demoLonger = true ∧
    FuncLT_PREC_DEFAULT demoName demoEQ demoLT demoLonger demoClean = false ∧
    FuncLT_PREC_DEFAULT demoName demoEQ demoLT (SET_ELM_PREC demoClean 1 51) demoLonger = false ∧
    FuncLT_PREC_DEFAULT demoName demoEQ demoLT (SET_ELM_PREC demoClean 1 49) demoLonger = true := by
  decide

/-- Claim C19: `LoadPRec` on what `SavePRec` wrote for a record yields, in any bag
with room for the components, the same length and in every slot `1 .. N` the
same raw name word and the same value reference; no reconcile takes place.
The name words are machine words (64 bit, signed reading). -/
theorem save_load_roundtrip (r target : PRec) (rest : List SaveItem)
    (hw : ∀ i, 1 ≤ i → i ≤ LEN_PREC r →
      -2 ^ 63 ≤ GET_RNAM_PREC r i ∧ GET_RNAM_PREC r i < 2 ^ 63)
    (hroom : LEN_PREC r ≤ target.slots.length) :
    (LoadPRec target (SavePRec r [] ++ rest)).2 = rest ∧
    LEN_PREC (LoadPRec target (SavePRec r [] ++ rest)).1 = LEN_PREC r ∧
    ∀ i, 1 ≤ i → i ≤ LEN_PREC r →
      GET_RNAM_PREC (LoadPRec target (SavePRec r [] ++ rest)).1 i = GET_RNAM_PREC r i ∧
      GET_ELM_PREC (LoadPRec target (SavePRec r [] ++ rest)).1 i = GET_ELM_PREC r i := by
  have hs : SavePRec r [] ++ rest =
      SaveItem.uint r.len :: (saveItems r 1 r.len ++ rest) := by
    simp [SavePRec, SaveUInt, LEN_PREC, saveLoop_eq]
  have hl : LoadPRec target (SavePRec r [] ++ rest) =
      loadLoop (SET_LEN_PREC target r.len) 1 r.len (saveItems r 1 r.len ++ rest) := by
    rw [hs]; rfl
  rw [hl]
  simp only [LEN_PREC] at hw hroom ⊢
  obtain ⟨e1, e2, _, _, _, e6⟩ := loadLoop_saveItems r rest r.len (SET_LEN_PREC target r.len) 1
    (le_refl _) (by show 1 + r.len ≤ target.slots.length + 1; omega)
  refine ⟨e1, e2, ?_⟩
  intro i i1 i2
  have := e6 i
  rw [if_pos ⟨i1, by omega⟩, toInt_toUInt _ (hw i i1 i2).1 (hw i i1 i2).2] at this
  simp only [slotAt, Prod.mk.injEq] at this
  exact this

theorem save_load_roundtrip_witness :
    ((∀ i, 1 ≤ i → i ≤ LEN_PREC demoRec →
        -2 ^ 63 ≤ GET_RNAM_PREC demoRec i ∧ GET_RNAM_PREC demoRec i < 2 ^ 63) ∧
      LEN_PREC demoRec ≤ (NEW_PREC 5).slots.length) ∧
    ((LoadPRec (NEW_PREC 5) (SavePRec demoRec [] ++ [])).2 = [] ∧
      LEN_PREC (LoadPRec (NEW_PREC 5) (SavePRec demoRec [] ++ [])).1 = LEN_PREC demoRec ∧
      ∀ i, 1 ≤ i → i ≤ LEN_PREC demoRec →
        GET_RNAM_PREC (LoadPRec (NEW_PREC 5) (SavePRec demoRec [] ++ [])).1 i =
          GET_RNAM_PREC demoRec i ∧
        GET_ELM_PREC (LoadPRec (NEW_PREC 5) (SavePRec demoRec [] ++ [])).1 i =
          GET_ELM_PREC demoRec i) :=
  have hw : ∀ i, 1 ≤ i → i ≤ LEN_PREC demoRec →
      -2 ^ 63 ≤ GET_RNAM_PREC demoRec i ∧ GET_RNAM_PREC demoRec i < 2 ^ 63 := by
    intro i h1 h2
    have h3 : LEN_PREC demoRec = 5 := rfl
    have h4 : i = 1 ∨ i = 2 ∨ i = 3 ∨ i = 4 ∨ i = 5 := by omega
    rcases h4 with rfl | rfl | rfl | rfl | rfl <;> decide
  ⟨⟨hw, by decide⟩, save_load_roundtrip demoRec (NEW_PREC 5) [] hw (by decide)⟩

theorem isBagRef_handleOf (i : Nat) : isBagRef (handleOf i) = true := by
  simp only [isBagRef, handleOf, Bool.and_eq_true, beq_iff_eq, bne_iff_ne, ne_eq]
  constructor
  · show (2 * i + 2) % 2 = 0
    omega
  · show ¬ (2 * i + 2 = 0)
    omega

theorem indexOf_handleOf (i : Nat) : indexOf (handleOf i) = i := by
  show (2 * i + 2) / 2 - 1 = i
  omega

theorem handleOf_indexOf {o : Nat} (h : isBagRef o = true) : handleOf (indexOf o) = o := by
  simp only [isBagRef, Bool.and_eq_true, beq_iff_eq, bne_iff_ne, ne_eq] at h
  have h1 : o % 2 = 0 := h.1
  have h2 : ¬ (o = 0) := h.2
  show 2 * (o / 2 - 1) + 2 = o
  omega

theorem indexOf_inj {a b : Obj} (ha : isBagRef a = true) (hb : isBagRef b = true)
    (h : indexOf a = indexOf b) : a = b := by
  rw [← handleOf_indexOf ha, ← handleOf_indexOf hb, h]

theorem bagOf_of_not_ref (h : Heap) {o : Obj} (ho : ¬ isBagRef o = true) : bagOf h o = voidBag := by
  simp [bagOf, ho]

theorem bagOf_of_not_valid (h : Heap) {o : Obj} (ho : ¬ ValidRef h o) : bagOf h o = voidBag := by
  by_cases hr : isBagRef o = true
  · have : h.length ≤ indexOf o := by
      by_contra hc
      exact ho ⟨hr, by omega⟩
    simp only [bagOf, hr, if_true]
    exact List.getD_eq_default _ _ this
  · exact bagOf_of_not_ref h hr

theorem length_setBag (h : Heap) (o : Obj) (b : PRec) : (setBag h o b).length = h.length := by
  simp only [setBag]
  split <;> simp

theorem length_onBag (h : Heap) (o : Obj) (f : PRec → PRec) : (onBag h o f).length = h.length :=
  length_setBag h o _

theorem heap_getD_set (l : Heap) (i j : Nat) (x : PRec) :
    (l.set i x).getD j voidBag = if i = j ∧ j < l.length then x else l.getD j voidBag := by
  rw [List.getD_eq_getElem?_getD, List.getD_eq_getElem?_getD, List.getElem?_set]
  by_cases h : i = j
  · subst h
    by_cases h2 : i < l.length
    · simp [h2]
    · have : l[i]? = none := List.getElem?_eq_none (by omega)
      simp [h2, this]
  · simp [h]

theorem bagOf_setBag (h : Heap) {o : Obj} (ho : ValidRef h o) (b : PRec) (v : Obj) :
    bagOf (setBag h o b) v = if v = o then b else bagOf h v := by
  by_cases hv : isBagRef v = true
  · simp only [bagOf, setBag, ho.1, hv, if_true, heap_getD_set]
    by_cases he : v = o
    · subst he
      rw [if_pos ⟨rfl, ho.2⟩, if_pos rfl]
    · rw [if_neg he, if_neg]
      rintro ⟨h1, _⟩
      exact he (indexOf_inj hv ho.1 h1.symm)
  · rw [bagOf_of_not_ref _ hv, bagOf_of_not_ref _ hv, if_neg]
    intro he
    rw [he] at hv
    exact hv ho.1

theorem bagOf_onBag (h : Heap) {o : Obj} (ho : ValidRef h o) (f : PRec → PRec) (v : Obj) :
    bagOf (onBag h o f) v = if v = o then f (bagOf h o) else bagOf h v :=
  bagOf_setBag h ho _ v

theorem validRef_setBag (h : Heap) (o : Obj) (b : PRec) (v : Obj) :
    ValidRef (setBag h o b) v ↔ ValidRef h v := by
  simp only [ValidRef, length_setBag]

theorem validRef_onBag (h : Heap) (o : Obj) (f : PRec → PRec) (v : Obj) :
    ValidRef (onBag h o f) v ↔ ValidRef h v :=
  validRef_setBag h o _ v

theorem validRef_new (h : Heap) : ¬ ValidRef h (handleOf h.length) := by
  rintro ⟨_, h2⟩
  rw [indexOf_handleOf] at h2
  omega

theorem validRef_alloc_new (h : Heap) (b : PRec) : ValidRef (h ++ [b]) (handleOf h.length) :=
  ⟨isBagRef_handleOf _, by rw [indexOf_handleOf]; simp⟩

theorem validRef_mono {h h1 : Heap} (hl : h.length ≤ h1.length) {v : Obj} (hv : ValidRef h v) :
    ValidRef h1 v := ⟨hv.1, by have := hv.2; omega⟩

theorem bagOf_alloc (h : Heap) (b : PRec) (v : Obj) :
    bagOf (h ++ [b]) v = if v = handleOf h.length then b else bagOf h v := by
  by_cases hv : isBagRef v = true
  · by_cases he : v = handleOf h.length
    · subst he
      rw [if_pos rfl]
      simp [bagOf, isBagRef_handleOf, indexOf_handleOf]
    · rw [if_neg he]
      simp only [bagOf, hv, if_true]
      by_cases hlt : indexOf v < h.length
      · rw [List.getD_append _ _ _ _ hlt]
      · have hne : indexOf v ≠ h.length := by
          intro hc
          exact he (by rw [← handleOf_indexOf hv, hc])
        rw [List.getD_eq_default _ _ (by simp; omega), List.getD_eq_default _ _ (by omega)]
  · rw [bagOf_of_not_ref _ hv, bagOf_of_not_ref _ hv, if_neg]
    intro he
    rw [he] at hv
    exact hv (isBagRef_handleOf _)

theorem get_rnam_set_rnam (r : PRec) (i j : Nat) (x : Int) :
    GET_RNAM_PREC (SET_RNAM_PREC r i x) j =
      if j = i ∧ 1 ≤ i ∧ i ≤ r.slots.length then x else GET_RNAM_PREC r j := by
  rw [rnam_eq_slotAt, slotAt_set_rnam]
  by_cases hc : j = i ∧ 1 ≤ i ∧ i ≤ r.slots.length
  · rw [if_pos hc, if_pos hc]
  · rw [if_neg hc, if_neg hc]
    rfl

theorem get_elm_set_rnam (r : PRec) (i j : Nat) (x : Int) :
    GET_ELM_PREC (SET_RNAM_PREC r i x) j = GET_ELM_PREC r j := by
  rw [elm_eq_slotAt, slotAt_set_rnam]
  by_cases hc : j = i ∧ 1 ≤ i ∧ i ≤ r.slots.length
  · rw [if_pos hc]
    obtain ⟨rfl, _, _⟩ := hc
    rfl
  · rw [if_neg hc]
    rfl

theorem get_rnam_set_elm (r : PRec) (i j : Nat) (x : Obj) :
    GET_RNAM_PREC (SET_ELM_PREC r i x) j = GET_RNAM_PREC r j := by
  rw [rnam_eq_slotAt, slotAt_set_elm]
  by_cases hc : j = i ∧ 1 ≤ i ∧ i ≤ r.slots.length
  · rw [if_pos hc]
    obtain ⟨rfl, _, _⟩ := hc
    rfl
  · rw [if_neg hc]
    rfl

theorem get_elm_set_elm (r : PRec) (i j : Nat) (x : Obj) :
    GET_ELM_PREC (SET_ELM_PREC r i x) j =
      if j = i ∧ 1 ≤ i ∧ i ≤ r.slots.length then x else GET_ELM_PREC r j := by
  rw [elm_eq_slotAt, slotAt_set_elm]
  by_cases hc : j = i ∧ 1 ≤ i ∧ i ≤ r.slots.length
  · rw [if_pos hc, if_pos hc]
  · rw [if_neg hc, if_neg hc]
    rfl

theorem copying_ne : ¬ (T_PREC = T_PREC + COPYING) := by decide

theorem CopyKeep.keep_refl (b : PRec) : CopyKeep b b := ⟨rfl, rfl, rfl, rfl⟩

theorem CopyKeep.keep_symm {b b1 : PRec} (k : CopyKeep b b1) : CopyKeep b1 b :=
  ⟨k.1.symm, k.2.1.symm, k.2.2.1.symm, k.2.2.2.symm⟩

theorem CopyKeep.keep_of_eq {b b1 : PRec} (e : b1 = b) : CopyKeep b b1 := by
  rw [e]
  exact CopyKeep.keep_refl b

/-- A marker survives when the record keeps its bag and the bag it points to
keeps its type, its size and its first name word. -/
theorem Forwarded.transfer {h0 h h1 : Heap} {T : Nat} {v c : Obj} (f : Forwarded h0 h T v c)
    (hval : ValidRef h1 c) (hv : bagOf h1 v = bagOf h v)
    (hc : CopyKeep (bagOf h c) (bagOf h1 c)) : Forwarded h0 h1 T v c where
  mutRec := f.mutRec
  valid := hval
  fresh := f.fresh
  tnum := by rw [hv]; exact f.tnum
  len := by rw [hv]; exact f.len
  ptr := by rw [hv]; exact f.ptr
  elms := by rw [hv]; exact f.elms
  names := by rw [hv]; exact f.names
  ctnum := by rw [hc.1]; exact f.ctnum
  room := by rw [hc.2.2.1]; exact f.room
  vroom := by rw [hv]; exact f.vroom
  csize := by rw [hc.2.1]; exact f.csize
  shape := by rw [hv]; exact f.shape
  cname := fun hp => by rw [hc.2.2.2]; exact f.cname hp

theorem Forwarded.changed {h0 h : Heap} {T : Nat} {v c : Obj} (f : Forwarded h0 h T v c) :
    bagOf h v ≠ bagOf h0 v := by
  intro e
  have h1 := f.tnum
  rw [e, f.mutRec.2] at h1
  exact copying_ne h1

theorem Forwarded.ptr_inj {h0 h : Heap} {T : Nat} {v c c1 : Obj} (f : Forwarded h0 h T v c)
    (g : Forwarded h0 h T v c1) : c = c1 := by
  have h1 := f.ptr.symm.trans g.ptr
  exact_mod_cast h1

theorem SlotDone.slot_frame {h0 h h1 : Heap} {T : Nat} {v c : Obj} {i : Nat}
    (s : SlotDone h0 h T v c i)
    (hf : ∀ u cu, Forwarded h0 h T u cu → Forwarded h0 h1 T u cu)
    (hc : bagOf h1 c = bagOf h c) : SlotDone h0 h1 T v c i := by
  unfold SlotDone at s ⊢
  rw [hc]
  exact ⟨s.1, fun m => hf _ _ (s.2.1 m), s.2.2⟩

theorem Complete.copy_frame {h0 h h1 : Heap} {T : Nat} {w : Obj} (cp : Complete h0 h T w)
    (hf : ∀ u cu, Forwarded h0 h T u cu → Forwarded h0 h1 T u cu)
    (hc : ∀ cw, Forwarded h0 h T w cw → bagOf h1 cw = bagOf h cw) : Complete h0 h1 T w := by
  obtain ⟨c, f, hl, hs⟩ := cp
  refine ⟨c, hf _ _ f, ?_, fun i h1 h2 => (hs i h1 h2).slot_frame hf (hc c f)⟩
  rw [hc c f]
  exact hl

theorem FwdMono.keeps {h0 h h1 : Heap} {T : Nat} (m : FwdMono h0 h h1 T) {w : Obj}
    (cp : Complete h0 h T w) : Complete h0 h1 T w :=
  cp.copy_frame (fun u cu f => (m.2 u cu f).1) (fun cw f => (m.2 w cw f).2)

theorem FwdMonoX.keeps_but {h0 h h1 : Heap} {T : Nat} {x : Obj} (m : FwdMonoX h0 h h1 T x)
    {w : Obj} (hw : w ≠ x) (cp : Complete h0 h T w) : Complete h0 h1 T w :=
  cp.copy_frame (fun u cu f => (m.2 u cu f).1) (fun cw f => (m.2 w cw f).2 hw)

theorem FwdMono.fwd_refl (h0 h : Heap) (T : Nat) : FwdMono h0 h h T :=
  ⟨le_refl _, fun _ _ f => ⟨f, rfl⟩⟩

theorem FwdMono.fwd_trans {h0 h h1 h2 : Heap} {T : Nat} (m : FwdMono h0 h h1 T)
    (n : FwdMono h0 h1 h2 T) : FwdMono h0 h h2 T :=
  ⟨le_trans m.1 n.1, fun v c f =>
    ⟨(n.2 v c (m.2 v c f).1).1, (n.2 v c (m.2 v c f).1).2.trans (m.2 v c f).2⟩⟩

theorem FwdMono.toX {h0 h h1 : Heap} {T : Nat} (m : FwdMono h0 h h1 T) (x : Obj) :
    FwdMonoX h0 h h1 T x :=
  ⟨m.1, fun v c f => ⟨(m.2 v c f).1, fun _ => (m.2 v c f).2⟩⟩

theorem FwdMonoX.fwdx_trans {h0 h h1 h2 : Heap} {T : Nat} {x : Obj} (m : FwdMonoX h0 h h1 T x)
    (n : FwdMonoX h0 h1 h2 T x) : FwdMonoX h0 h h2 T x :=
  ⟨le_trans m.1 n.1, fun v c f =>
    ⟨(n.2 v c (m.2 v c f).1).1, fun hv =>
      ((n.2 v c (m.2 v c f).1).2 hv).trans ((m.2 v c f).2 hv)⟩⟩

/-- A record is given its marker: one new bag, one changed record. -/
theorem forward_step {h0 h h3 : Heap} {T : Nat} {v : Obj} (inv : FwdInv h0 h T)
    (unt : bagOf h v = bagOf h0 v) (hlen : h3.length = h.length + 1)
    (hsame : ∀ u, u ≠ v → u ≠ handleOf h.length → bagOf h3 u = bagOf h u)
    (fw : Forwarded h0 h3 T v (handleOf h.length)) :
    FwdInv h0 h3 T ∧ FwdMono h0 h h3 T ∧
    (∀ u cu, Forwarded h0 h3 T u cu → u = v ∨ Forwarded h0 h T u cu) := by
  have hnew : ¬ ValidRef h (handleOf h.length) := validRef_new h
  have hv0 : ValidRef h0 v := fw.mutRec.1
  have hle : h.length ≤ h3.length := by omega
  have keep : ∀ u cu, Forwarded h0 h T u cu →
      Forwarded h0 h3 T u cu ∧ bagOf h3 cu = bagOf h cu := by
    intro u cu f
    have hu1 : u ≠ v := by
      intro e
      rw [e] at f
      exact f.changed unt
    have hu2 : u ≠ handleOf h.length := by
      intro e
      rw [e] at f
      exact hnew (validRef_mono inv.1 f.mutRec.1)
    have hc1 : cu ≠ v := by
      intro e
      rw [e] at f
      exact f.fresh hv0
    have hc2 : cu ≠ handleOf h.length := by
      intro e
      rw [e] at f
      exact hnew f.valid
    have e1 := hsame u hu1 hu2
    have e2 := hsame cu hc1 hc2
    exact ⟨f.transfer (validRef_mono hle f.valid) e1 (CopyKeep.keep_of_eq e2), e2⟩
  have back : ∀ u cu, Forwarded h0 h3 T u cu → u ≠ v → Forwarded h0 h T u cu := by
    intro u cu f hu1
    have hu0 := f.mutRec.1
    have hu2 : u ≠ handleOf h.length := by
      intro e
      rw [e] at hu0
      exact hnew (validRef_mono inv.1 hu0)
    have e1 := hsame u hu1 hu2
    have hc1 : cu ≠ v := by
      intro e
      rw [e] at f
      exact f.fresh hv0
    have hc2 : cu ≠ handleOf h.length := by
      intro e
      rcases inv.2.1 u hu0 with e0 | ⟨c1, f1⟩
      · have h1 := f.tnum
        rw [e1, e0, f.mutRec.2] at h1
        exact copying_ne h1
      · have h1 := f1.ptr
        rw [← e1, f.ptr] at h1
        have h2 : cu = c1 := by exact_mod_cast h1
        rw [← h2, e] at f1
        exact hnew f1.valid
    have e2 := hsame cu hc1 hc2
    have hval : ValidRef h cu := by
      refine ⟨f.valid.1, ?_⟩
      have h1 := f.valid.2
      rw [hlen] at h1
      have h2 : indexOf cu ≠ h.length := by
        intro e
        apply hc2
        rw [← handleOf_indexOf f.valid.1, e]
      omega
    exact f.transfer hval e1.symm (CopyKeep.keep_of_eq e2.symm)
  refine ⟨⟨le_trans inv.1 hle, ?_, ?_⟩, ⟨hle, keep⟩, ?_⟩
  · intro u hu
    by_cases huv : u = v
    · right
      rw [huv]
      exact ⟨_, fw⟩
    · have hu2 : u ≠ handleOf h.length := by
        intro e
        rw [e] at hu
        exact hnew (validRef_mono inv.1 hu)
      rcases inv.2.1 u hu with e0 | ⟨c1, f1⟩
      · left
        rw [hsame u huv hu2, e0]
      · right
        exact ⟨c1, (keep u c1 f1).1⟩
  · intro u w cu f g
    by_cases huv : u = v
    · by_cases hwv : w = v
      · rw [huv, hwv]
      · exfalso
        rw [huv] at f
        have e : handleOf h.length = cu := fw.ptr_inj f
        rw [← e] at g
        exact hnew (back w _ g hwv).valid
    · by_cases hwv : w = v
      · exfalso
        rw [hwv] at g
        have e : handleOf h.length = cu := fw.ptr_inj g
        rw [← e] at f
        exact hnew (back u _ f huv).valid
      · exact inv.2.2 u w cu (back u cu f huv) (back w cu g hwv)
  · intro u cu f
    by_cases huv : u = v
    · exact Or.inl huv
    · exact Or.inr (back u cu f huv)

/-- A write into the unfinished copy `c` of `v` that keeps its type, its size and
its first name word. -/
theorem copy_write {h0 h : Heap} {T : Nat} {v c : Obj} (inv : FwdInv h0 h T)
    (fw : Forwarded h0 h T v c) (g : PRec → PRec) (hk : CopyKeep (bagOf h c) (g (bagOf h c))) :
    FwdInv h0 (onBag h c g) T ∧ FwdMonoX h0 h (onBag h c g) T v ∧
    (∀ u cu, Forwarded h0 (onBag h c g) T u cu → Forwarded h0 h T u cu) ∧
    (∀ u, bagOf (onBag h c g) u = if u = c then g (bagOf h c) else bagOf h u) := by
  have hb : ∀ u, bagOf (onBag h c g) u = if u = c then g (bagOf h c) else bagOf h u :=
    fun u => bagOf_onBag h fw.valid g u
  have hl : (onBag h c g).length = h.length := length_onBag h c g
  have hkk : ∀ cu, CopyKeep (bagOf h cu) (bagOf (onBag h c g) cu) := by
    intro cu
    rw [hb cu]
    by_cases e : cu = c
    · rw [if_pos e, e]
      exact hk
    · rw [if_neg e]
      exact CopyKeep.keep_refl _
  have hv : ∀ u, ValidRef h0 u → bagOf (onBag h c g) u = bagOf h u := by
    intro u hu
    rw [hb u, if_neg]
    intro e
    rw [e] at hu
    exact fw.fresh hu
  have keep : ∀ u cu, Forwarded h0 h T u cu → Forwarded h0 (onBag h c g) T u cu :=
    fun u cu f => f.transfer ((validRef_onBag h c g cu).2 f.valid) (hv u f.mutRec.1) (hkk cu)
  have back : ∀ u cu, Forwarded h0 (onBag h c g) T u cu → Forwarded h0 h T u cu :=
    fun u cu f => f.transfer ((validRef_onBag h c g cu).1 f.valid) (hv u f.mutRec.1).symm
      (hkk cu).keep_symm
  refine ⟨⟨by rw [hl]; exact inv.1, ?_, ?_⟩, ⟨by rw [hl], ?_⟩, back, hb⟩
  · intro u hu
    rcases inv.2.1 u hu with e0 | ⟨c1, f1⟩
    · left
      rw [hv u hu, e0]
    · right
      exact ⟨c1, keep u c1 f1⟩
  · intro u w cu f1 f2
    exact inv.2.2 u w cu (back u cu f1) (back w cu f2)
  · intro u cu f
    refine ⟨keep u cu f, fun huv => ?_⟩
    rw [hb cu, if_neg]
    intro e
    rw [e] at f
    exact huv (inv.2.2 u v c f fw)

theorem get_rnam_retype (b : PRec) (t i : Nat) :
    GET_RNAM_PREC (RetypeBag b t) i = GET_RNAM_PREC b i := by
  cases i <;> rfl

theorem get_elm_retype (b : PRec) (t i : Nat) :
    GET_ELM_PREC (RetypeBag b t) i = GET_ELM_PREC b i := by
  cases i <;> rfl

theorem get_rnam_set_len (b : PRec) (t i : Nat) :
    GET_RNAM_PREC (SET_LEN_PREC b t) i = GET_RNAM_PREC b i := by
  cases i <;> rfl

theorem get_elm_set_len (b : PRec) (t i : Nat) :
    GET_ELM_PREC (SET_LEN_PREC b t) i = GET_ELM_PREC b i := by
  cases i <;> rfl

theorem slots_newBag (t s : Nat) : (NewBag t s).slots.length = slotsIn s := by
  simp [NewBag]

theorem slots_resizeBag (b : PRec) (s : Nat) : (ResizeBag b s).slots.length = slotsIn s := by
  simp only [ResizeBag, List.length_take, List.length_append, List.length_replicate]
  omega

theorem slotsIn_pos (s : Nat) (hs : 16 ≤ s) : 1 ≤ slotsIn (s + sizeofObj) := by
  simp only [slotsIn, sizeofObj]
  omega

/-- The first steps of `CopyPRec` on a non-empty record that has no marker yet:
the copy is allocated and gets the first name, the record gets its marker. -/
theorem begin_nonempty {h0 h : Heap} {T : Nat} {v : Obj} (ok : HeapOK h0) (inv : FwdInv h0 h T)
    (mv : IsMutRec h0 v) (unt : bagOf h v = bagOf h0 v) (hpos : 0 < (bagOf h0 v).len)
    (a h1 h2 h3 : Heap) (ea : a = h ++ [NewBag T (SIZE_OBJ (bagOf h v))])
    (e1 : h1 = onBag a (handleOf h.length)
      (fun b => SET_RNAM_PREC b 1 (GET_RNAM_PREC (bagOf a v) 1)))
    (e2 : h2 = onBag h1 v (fun b => SET_RNAM_PREC b 1 ((handleOf h.length : Obj) : Int)))
    (e3 : h3 = onBag h2 v (fun b => RetypeBag b (TNUM_OBJ b + COPYING))) :
    h3.length = h.length + 1 ∧
    (∀ u, u ≠ v → u ≠ handleOf h.length → bagOf h3 u = bagOf h u) ∧
    Forwarded h0 h3 T v (handleOf h.length) ∧ (bagOf h3 v).len = (bagOf h0 v).len := by
  have hv0 := mv.1
  have hvh : ValidRef h v := validRef_mono inv.1 hv0
  have hnew := validRef_new h
  have hvc : v ≠ handleOf h.length := by
    intro e
    rw [e] at hvh
    exact hnew hvh
  obtain ⟨_, _, hrec⟩ := ok v hv0
  obtain ⟨hsz, hbok, hroom, _⟩ := hrec mv.2
  have la : a.length = h.length + 1 := by rw [ea]; simp
  have ba : ∀ u, bagOf a u =
      if u = handleOf h.length then NewBag T (SIZE_OBJ (bagOf h v)) else bagOf h u := by
    rw [ea]
    exact bagOf_alloc h _
  have vca : ValidRef a (handleOf h.length) := by
    rw [ea]
    exact validRef_alloc_new h _
  have l1 : h1.length = a.length := by rw [e1]; exact length_onBag _ _ _
  have b1 := bagOf_onBag a vca (fun b => SET_RNAM_PREC b 1 (GET_RNAM_PREC (bagOf a v) 1))
  rw [← e1] at b1
  have vv1 : ValidRef h1 v := ⟨hvh.1, by rw [l1, la]; have := hvh.2; omega⟩
  have l2 : h2.length = h1.length := by rw [e2]; exact length_onBag _ _ _
  have b2 := bagOf_onBag h1 vv1 (fun b => SET_RNAM_PREC b 1 ((handleOf h.length : Obj) : Int))
  rw [← e2] at b2
  have vv2 : ValidRef h2 v := ⟨hvh.1, by rw [l2, l1, la]; have := hvh.2; omega⟩
  have l3 : h3.length = h2.length := by rw [e3]; exact length_onBag _ _ _
  have b3 := bagOf_onBag h2 vv2 (fun b => RetypeBag b (TNUM_OBJ b + COPYING))
  rw [← e3] at b3
  have hav : bagOf a v = bagOf h0 v := by rw [ba, if_neg hvc, unt]
  have h1v : bagOf h1 v = bagOf h0 v := by rw [b1, if_neg hvc, hav]
  have bv : bagOf h3 v = RetypeBag (SET_RNAM_PREC (bagOf h0 v) 1 ((handleOf h.length : Obj) : Int))
      (TNUM_OBJ (SET_RNAM_PREC (bagOf h0 v) 1 ((handleOf h.length : Obj) : Int)) + COPYING) := by
    rw [b3, if_pos rfl, b2, if_pos rfl, h1v]
  have bc : bagOf h3 (handleOf h.length) =
      SET_RNAM_PREC (NewBag T (SIZE_OBJ (bagOf h v))) 1 (GET_RNAM_PREC (bagOf h0 v) 1) := by
    rw [b3, if_neg (Ne.symm hvc), b2, if_neg (Ne.symm hvc), b1, if_pos rfl, hav, ba, if_pos rfl]
  have hs1 : 1 ≤ (bagOf h0 v).slots.length := by omega
  refine ⟨by rw [l3, l2, l1, la], ?_, ?_, ?_⟩
  · intro u huv huc
    rw [b3, if_neg huv, b2, if_neg huv, b1, if_neg huc, ba, if_neg huc]
  · refine
      { mutRec := mv
        valid := ⟨isBagRef_handleOf _, by rw [indexOf_handleOf, l3, l2, l1, la]; omega⟩
        fresh := fun hc => hnew (validRef_mono inv.1 hc)
        tnum := ?_, len := ?_, ptr := ?_, elms := ?_, names := ?_, ctnum := ?_, room := ?_,
        vroom := ?_, csize := ?_, shape := ?_, cname := ?_ }
    · rw [bv]
      show TNUM_OBJ _ + COPYING = T_PREC + COPYING
      rw [TNUM_OBJ, (frame_set_rnam _ _ _).2.2.1, mv.2]
    · rw [bv]
      show (SET_RNAM_PREC _ _ _).len = _
      rw [(frame_set_rnam _ _ _).1]
    · rw [bv, get_rnam_retype, get_rnam_set_rnam, if_pos ⟨rfl, le_refl _, hs1⟩]
    · intro i _ _
      rw [bv, get_elm_retype, get_elm_set_rnam]
    · intro i hi _
      rw [bv, get_rnam_retype, get_rnam_set_rnam, if_neg]
      rintro ⟨e, _⟩
      omega
    · rw [bc, (frame_set_rnam _ _ _).2.2.1]
      rfl
    · rw [bc, (frame_set_rnam _ _ _).2.2.2, slots_newBag, SIZE_OBJ, unt, ← hbok]
      exact hroom
    · rw [bv]
      show (bagOf h0 v).len ≤ (SET_RNAM_PREC _ _ _).slots.length
      rw [(frame_set_rnam _ _ _).2.2.2]
      exact hroom
    · rw [bc, (frame_set_rnam _ _ _).2.1]
      show (bagOf h v).size = _
      rw [unt]
    · rw [bv, if_neg (by omega), TNUM_OBJ, (frame_set_rnam _ _ _).2.2.1, mv.2]
    · intro _
      rw [bc, get_rnam_set_rnam, if_pos]
      refine ⟨rfl, le_refl _, ?_⟩
      rw [slots_newBag, SIZE_OBJ, unt, ← hbok]
      exact hs1
  · rw [bv]
    show (SET_RNAM_PREC _ _ _).len = _
    rw [(frame_set_rnam _ _ _).1]

/-- The steps of `CopyPRec` on an empty record that has no marker yet: the copy
is allocated, the record is enlarged by one word and gets its marker. -/
theorem begin_empty {h0 h : Heap} {T : Nat} {v : Obj} (ok : HeapOK h0) (inv : FwdInv h0 h T)
    (mv : IsMutRec h0 v) (unt : bagOf h v = bagOf h0 v) (hzero : (bagOf h0 v).len = 0)
    (a h1 h2 h3 : Heap) (ea : a = h ++ [NewBag T (SIZE_OBJ (bagOf h v))])
    (e1 : h1 = onBag a v (fun b => ResizeBag b (SIZE_OBJ b + sizeofObj)))
    (e2 : h2 = onBag h1 v (fun b => SET_RNAM_PREC b 1 ((handleOf h.length : Obj) : Int)))
    (e3 : h3 = onBag h2 v (fun b => RetypeBag b (TNUM_OBJ b + COPYING))) :
    h3.length = h.length + 1 ∧
    (∀ u, u ≠ v → u ≠ handleOf h.length → bagOf h3 u = bagOf h u) ∧
    Forwarded h0 h3 T v (handleOf h.length) ∧
    (bagOf h3 (handleOf h.length)).len = 0 := by
  have hv0 := mv.1
  have hvh : ValidRef h v := validRef_mono inv.1 hv0
  have hnew := validRef_new h
  have hvc : v ≠ handleOf h.length := by
    intro e
    rw [e] at hvh
    exact hnew hvh
  obtain ⟨_, _, hrec⟩ := ok v hv0
  obtain ⟨hsz, hbok, hroom, _⟩ := hrec mv.2
  have la : a.length = h.length + 1 := by rw [ea]; simp
  have ba : ∀ u, bagOf a u =
      if u = handleOf h.length then NewBag T (SIZE_OBJ (bagOf h v)) else bagOf h u := by
    rw [ea]
    exact bagOf_alloc h _
  have vva : ValidRef a v := ⟨hvh.1, by rw [la]; have := hvh.2; omega⟩
  have l1 : h1.length = a.length := by rw [e1]; exact length_onBag _ _ _
  have b1 := bagOf_onBag a vva (fun b => ResizeBag b (SIZE_OBJ b + sizeofObj))
  rw [← e1] at b1
  have vv1 : ValidRef h1 v := ⟨hvh.1, by rw [l1, la]; have := hvh.2; omega⟩
  have l2 : h2.length = h1.length := by rw [e2]; exact length_onBag _ _ _
  have b2 := bagOf_onBag h1 vv1 (fun b => SET_RNAM_PREC b 1 ((handleOf h.length : Obj) : Int))
  rw [← e2] at b2
  have vv2 : ValidRef h2 v := ⟨hvh.1, by rw [l2, l1, la]; have := hvh.2; omega⟩
  have l3 : h3.length = h2.length := by rw [e3]; exact length_onBag _ _ _
  have b3 := bagOf_onBag h2 vv2 (fun b => RetypeBag b (TNUM_OBJ b + COPYING))
  rw [← e3] at b3
  have hav : bagOf a v = bagOf h0 v := by rw [ba, if_neg hvc, unt]
  have bv : bagOf h3 v = RetypeBag (SET_RNAM_PREC
        (ResizeBag (bagOf h0 v) (SIZE_OBJ (bagOf h0 v) + sizeofObj)) 1
        ((handleOf h.length : Obj) : Int))
      (TNUM_OBJ (SET_RNAM_PREC (ResizeBag (bagOf h0 v) (SIZE_OBJ (bagOf h0 v) + sizeofObj)) 1
        ((handleOf h.length : Obj) : Int)) + COPYING) := by
    rw [b3, if_pos rfl, b2, if_pos rfl, b1, if_pos rfl, hav]
  have bc : bagOf h3 (handleOf h.length) = NewBag T (SIZE_OBJ (bagOf h v)) := by
    rw [b3, if_neg (Ne.symm hvc), b2, if_neg (Ne.symm hvc), b1, if_neg (Ne.symm hvc), ba,
      if_pos rfl]
  refine ⟨by rw [l3, l2, l1, la], ?_, ?_, ?_⟩
  · intro u huv huc
    rw [b3, if_neg huv, b2, if_neg huv, b1, if_neg huv, ba, if_neg huc]
  · refine
      { mutRec := mv
        valid := ⟨isBagRef_handleOf _, by rw [indexOf_handleOf, l3, l2, l1, la]; omega⟩
        fresh := fun hc => hnew (validRef_mono inv.1 hc)
        tnum := ?_, len := ?_, ptr := ?_, elms := ?_, names := ?_, ctnum := ?_, room := ?_,
        vroom := ?_, csize := ?_, shape := ?_, cname := ?_ }
    · rw [bv]
      show TNUM_OBJ _ + COPYING = T_PREC + COPYING
      rw [TNUM_OBJ, (frame_set_rnam _ _ _).2.2.1]
      show (bagOf h0 v).tnum + COPYING = _
      rw [mv.2]
    · rw [bv]
      show (SET_RNAM_PREC _ _ _).len = _
      rw [(frame_set_rnam _ _ _).1]
      rfl
    · rw [bv, get_rnam_retype, get_rnam_set_rnam, if_pos]
      refine ⟨rfl, le_refl _, ?_⟩
      rw [slots_resizeBag]
      exact slotsIn_pos _ hsz
    · intro i h1 h2
      omega
    · intro i h1 h2
      omega
    · rw [bc]
      rfl
    · rw [hzero]
      exact Nat.zero_le _
    · rw [hzero]
      exact Nat.zero_le _
    · rw [bc]
      show (bagOf h v).size = _
      rw [unt]
    · rw [bv, if_pos hzero, TNUM_OBJ, (frame_set_rnam _ _ _).2.2.1]
      show RetypeBag _ ((bagOf h0 v).tnum + COPYING) = _
      rw [mv.2]
    · intro hp
      omega
  · rw [bc]
    rfl

theorem Step.step_trans {h0 h h1 h2 : Heap} {T : Nat} {rank : Obj → Nat} {v : Obj}
    (s : Step h0 h h1 T rank v) (t : Step h0 h1 h2 T rank v) : Step h0 h h2 T rank v := by
  refine ⟨s.1.fwdx_trans t.1, fun u cu f => ?_⟩
  rcases t.2 u cu f with f1 | hr
  · exact s.2 u cu f1
  · exact Or.inr hr

theorem inProgress_write {h0 h : Heap} {T : Nat} {rank : Obj → Nat} {v c : Obj} {i : Nat}
    (p : InProgress h0 h T rank v c i) (g : PRec → PRec)
    (hk : CopyKeep (bagOf h c) (g (bagOf h c)))
    (hg : ∀ k, 1 ≤ k → k < i →
      GET_RNAM_PREC (g (bagOf h c)) k = GET_RNAM_PREC (bagOf h c) k ∧
      GET_ELM_PREC (g (bagOf h c)) k = GET_ELM_PREC (bagOf h c) k) :
    InProgress h0 (onBag h c g) T rank v c i ∧ Step h0 h (onBag h c g) T rank v ∧
    bagOf (onBag h c g) c = g (bagOf h c) := by
  obtain ⟨inv, dn, fw, sl⟩ := p
  obtain ⟨inv1, mono, back, hb⟩ := copy_write inv fw g hk
  have hbc : bagOf (onBag h c g) c = g (bagOf h c) := by rw [hb, if_pos rfl]
  refine ⟨⟨inv1, ?_, (mono.2 v c fw).1, ?_⟩, ⟨mono, fun u cu f => Or.inl (back u cu f)⟩, hbc⟩
  · intro u cu f hr
    have f0 := back u cu f
    have huv : u ≠ v := by
      intro e
      rw [e] at hr
      exact lt_irrefl _ hr
    exact mono.keeps_but huv (dn u cu f0 hr)
  · intro k h1 h2
    obtain ⟨s1, s2, s3⟩ := sl k h1 h2
    obtain ⟨g1, g2⟩ := hg k h1 h2
    unfold SlotDone
    rw [hbc, g1, g2]
    exact ⟨s1, fun m => (mono.2 _ _ (s2 m)).1, s3⟩

theorem inProgress_child {h0 h : Heap} {T : Nat} {rank : Obj → Nat} {v c : Obj} {i : Nat}
    {COPY : Heap → Obj → Option (Heap × Obj)}
    (p : InProgress h0 h T rank v c i) (spec : CopySpec h0 T rank (rank v) COPY) (x : Obj)
    (hx1 : isBagRef x = true → ValidRef h0 x) (hx2 : IsMutRec h0 x → rank x < rank v) :
    ∃ h2 tmp, COPY h x = some (h2, tmp) ∧ InProgress h0 h2 T rank v c i ∧
      Step h0 h h2 T rank v ∧ bagOf h2 c = bagOf h c ∧
      (IsMutRec h0 x → Forwarded h0 h2 T x tmp) ∧ (¬ IsMutRec h0 x → tmp = x) := by
  obtain ⟨inv, dn, fw, sl⟩ := p
  obtain ⟨h2, tmp, e, inv2, mono, nw, dn2, r1, r2⟩ := spec h x inv dn hx1 hx2
  exact ⟨h2, tmp, e, ⟨inv2, dn2, (mono.2 v c fw).1, fun k h1 h2 =>
    (sl k h1 h2).slot_frame (fun u cu f => (mono.2 u cu f).1) (mono.2 v c fw).2⟩,
    ⟨mono.toX v, nw⟩, (mono.2 v c fw).2, r1, r2⟩

theorem inProgress_extend {h0 h : Heap} {T : Nat} {rank : Obj → Nat} {v c : Obj} {i : Nat}
    (p : InProgress h0 h T rank v c i) (s : SlotDone h0 h T v c i) :
    InProgress h0 h T rank v c (i + 1) := by
  obtain ⟨inv, dn, fw, sl⟩ := p
  refine ⟨inv, dn, fw, fun k h1 h2 => ?_⟩
  by_cases e : k = i
  · rw [e]
    exact s
  · exact sl k h1 (by omega)

/-- The loop of `CopyPRec` finishes the slots `i` to `N` of the copy. -/
theorem copyLoop_spec {h0 : Heap} {T : Nat} {rank : Obj → Nat} {v c : Obj}
    {COPY : Heap → Obj → Option (Heap × Obj)} (spec : CopySpec h0 T rank (rank v) COPY)
    (hch : ∀ i, 1 ≤ i → i ≤ (bagOf h0 v).len →
      (isBagRef (GET_ELM_PREC (bagOf h0 v) i) = true → ValidRef h0 (GET_ELM_PREC (bagOf h0 v) i)) ∧
      (IsMutRec h0 (GET_ELM_PREC (bagOf h0 v) i) → rank (GET_ELM_PREC (bagOf h0 v) i) < rank v)) :
    ∀ (n i : Nat) (h : Heap), 2 ≤ i → i + n = (bagOf h0 v).len + 1 →
      InProgress h0 h T rank v c i →
      ∃ h1, copyLoop COPY v c i n h = some h1 ∧
        InProgress h0 h1 T rank v c ((bagOf h0 v).len + 1) ∧ Step h0 h h1 T rank v ∧
        (bagOf h1 c).len = (bagOf h c).len := by
  intro n
  induction n with
  | zero =>
    intro i h _ hn p
    have e : i = (bagOf h0 v).len + 1 := by omega
    rw [← e]
    exact ⟨h, rfl, p, ⟨⟨le_refl _, fun u cu f => ⟨f, fun _ => rfl⟩⟩, fun u cu f => Or.inl f⟩, rfl⟩
  | succ n ih =>
    intro i h hi2 hn p
    have hi : i ≤ (bagOf h0 v).len := by omega
    have fw := p.2.2.1
    have hname : GET_RNAM_PREC (bagOf h v) i = GET_RNAM_PREC (bagOf h0 v) i := fw.names i hi2 hi
    have hroom : i ≤ (bagOf h c).slots.length := le_trans hi fw.room
    -- the name of slot `i`
    obtain ⟨p1, st1, bc1⟩ := inProgress_write p
      (fun b => SET_RNAM_PREC b i (GET_RNAM_PREC (bagOf h v) i))
      ⟨(frame_set_rnam _ _ _).2.2.1, (frame_set_rnam _ _ _).2.1, (frame_set_rnam _ _ _).2.2.2, by
        rw [get_rnam_set_rnam, if_neg]
        rintro ⟨e, _⟩
        omega⟩
      (fun k _ hk => ⟨by
        rw [get_rnam_set_rnam, if_neg]
        rintro ⟨e, _⟩
        omega, get_elm_set_rnam _ _ _ _⟩)
    have fw1 := p1.2.2.1
    have helm := fw1.elms i (by omega) hi
    -- the value of slot `i`
    obtain ⟨h2, tmp, e2, p2, st2, bc2, r1, r2⟩ := inProgress_child p1 spec
      (GET_ELM_PREC (bagOf h0 v) i) (hch i (by omega) hi).1 (hch i (by omega) hi).2
    have fw2 := p2.2.2.1
    have hroom2 : i ≤ (bagOf h2 c).slots.length := le_trans hi fw2.room
    obtain ⟨p3, st3, bc3⟩ := inProgress_write p2 (fun b => SET_ELM_PREC b i tmp)
      ⟨(frame_set_elm _ _ _).2.2.1, (frame_set_elm _ _ _).2.1, (frame_set_elm _ _ _).2.2.2,
        get_rnam_set_elm _ _ _ _⟩
      (fun k _ hk => ⟨get_rnam_set_elm _ _ _ _, by
        rw [get_elm_set_elm, if_neg]
        rintro ⟨e, _⟩
        omega⟩)
    have sd : SlotDone h0 (onBag h2 c (fun b => SET_ELM_PREC b i tmp)) T v c i := by
      unfold SlotDone
      rw [bc3]
      refine ⟨?_, ?_, ?_⟩
      · show GET_RNAM_PREC (SET_ELM_PREC (bagOf h2 c) i tmp) i = _
        rw [get_rnam_set_elm, bc2, bc1]
        show GET_RNAM_PREC (SET_RNAM_PREC (bagOf h c) i _) i = _
        rw [get_rnam_set_rnam, if_pos ⟨rfl, by omega, hroom⟩, hname]
      · intro m
        show Forwarded h0 _ T _ (GET_ELM_PREC (SET_ELM_PREC (bagOf h2 c) i tmp) i)
        rw [get_elm_set_elm, if_pos ⟨rfl, by omega, hroom2⟩]
        exact (st3.1.2 _ _ (r1 m)).1
      · intro m
        show GET_ELM_PREC (SET_ELM_PREC (bagOf h2 c) i tmp) i = _
        rw [get_elm_set_elm, if_pos ⟨rfl, by omega, hroom2⟩]
        exact r2 m
    obtain ⟨h4, e4, p4, st4, l4⟩ := ih (i + 1) _ (by omega) (by omega) (inProgress_extend p3 sd)
    refine ⟨h4, ?_, p4, (st1.step_trans st2).step_trans (st3.step_trans st4), ?_⟩
    · simp only [copyLoop]
      rw [helm, e2]
      exact e4
    · rw [l4, bc3]
      show (SET_ELM_PREC (bagOf h2 c) i tmp).len = _
      rw [(frame_set_elm _ _ _).1, bc2, bc1]
      exact (frame_set_rnam _ _ _).1

theorem children_ok {h0 : Heap} {rank : Obj → Nat} {R : Nat} {v : Obj} (ok : HeapOK h0)
    (ac : Acyclic h0 rank R) (mv : IsMutRec h0 v) (hR : rank v ≤ R) :
    ∀ i, 1 ≤ i → i ≤ (bagOf h0 v).len →
      (isBagRef (GET_ELM_PREC (bagOf h0 v) i) = true → ValidRef h0 (GET_ELM_PREC (bagOf h0 v) i)) ∧
      (IsMutRec h0 (GET_ELM_PREC (bagOf h0 v) i) →
        rank (GET_ELM_PREC (bagOf h0 v) i) < rank v) := by
  intro i h1 h2
  obtain ⟨_, _, hrec⟩ := ok v mv.1
  obtain ⟨_, _, _, hval⟩ := hrec mv.2
  exact ⟨hval i h1 h2, ac v mv hR i h1 h2⟩

/-- `CopyPRec` on a mutable record that has no marker yet. -/
theorem copyPRecWith_spec {h0 : Heap} {rank : Obj → Nat} {R : Nat} {v : Obj} {mutFlag : Bool}
    {COPY : Heap → Obj → Option (Heap × Obj)} {h : Heap} {ρ : Nat}
    (ok : HeapOK h0) (ac : Acyclic h0 rank R) (hR : rank v ≤ R)
    (spec : CopySpec h0 (copyType mutFlag) rank (rank v) COPY)
    (inv : FwdInv h0 h (copyType mutFlag)) (dn : FwdDone h0 h (copyType mutFlag) rank ρ)
    (mv : IsMutRec h0 v) (hρ : rank v < ρ) (unt : bagOf h v = bagOf h0 v) :
    ∃ h1 c, CopyPRecWith COPY h v mutFlag = some (h1, c) ∧ FwdInv h0 h1 (copyType mutFlag) ∧
      FwdMono h0 h h1 (copyType mutFlag) ∧ FwdNew h0 h h1 (copyType mutFlag) rank ρ ∧
      FwdDone h0 h1 (copyType mutFlag) rank ρ ∧ Forwarded h0 h1 (copyType mutFlag) v c := by
  have hm : ¬ (IS_MUTABLE_OBJ (bagOf h v) = false) := by
    rw [unt]
    simp [IS_MUTABLE_OBJ, mv.2]
  have hT : (if mutFlag = true then TNUM_OBJ (bagOf h v)
      else IMMUTABLE_TNUM (TNUM_OBJ (bagOf h v))) = copyType mutFlag := by
    rw [TNUM_OBJ, unt, mv.2]
    rfl
  have hnv : ∀ u cu, Forwarded h0 h (copyType mutFlag) u cu → u ≠ v := by
    intro u cu f e
    rw [e] at f
    exact f.changed unt
  by_cases hz : (bagOf h0 v).len = 0
  · have hl : LEN_PREC (bagOf h v) = 0 := by
      rw [unt]
      exact hz
    obtain ⟨hlen, hsame, fw, hcl⟩ := begin_empty ok inv mv unt hz _ _ _ _ rfl rfl rfl rfl
    obtain ⟨inv3, mono3, back3⟩ := forward_step inv unt hlen hsame fw
    refine ⟨_, handleOf h.length, ?_, inv3, mono3, ?_, ?_, fw⟩
    · simp only [CopyPRecWith, if_neg hm, if_pos hl, hT, allocBag]
    · intro u cu f
      rcases back3 u cu f with e | f0
      · right
        rw [e]
        exact hρ
      · exact Or.inl f0
    · intro u cu f hr
      rcases back3 u cu f with e | f0
      · rw [e]
        refine ⟨_, fw, by rw [hcl, hz], fun i h1 h2 => ?_⟩
        omega
      · exact mono3.keeps (dn u cu f0 hr)
  · have hpos : 0 < (bagOf h0 v).len := by omega
    have hl : ¬ (LEN_PREC (bagOf h v) = 0) := by
      rw [unt]
      exact hz
    have hch := children_ok ok ac mv hR
    obtain ⟨h3, e3⟩ : ∃ h3 : Heap, h3 = onBag (onBag (onBag
        (h ++ [NewBag (copyType mutFlag) (SIZE_OBJ (bagOf h v))]) (handleOf h.length)
        (fun b => SET_RNAM_PREC b 1 (GET_RNAM_PREC
          (bagOf (h ++ [NewBag (copyType mutFlag) (SIZE_OBJ (bagOf h v))]) v) 1)))
        v (fun b => SET_RNAM_PREC b 1 ((handleOf h.length : Obj) : Int)))
        v (fun b => RetypeBag b (TNUM_OBJ b + COPYING)) := ⟨_, rfl⟩
    obtain ⟨hlen, hsame, fw, hlv⟩ := begin_nonempty ok inv mv unt hpos _ _ _ h3 rfl rfl rfl e3
    obtain ⟨inv3, mono3, back3⟩ := forward_step inv unt hlen hsame fw
    have p3 : InProgress h0 h3 (copyType mutFlag) rank v (handleOf h.length) 1 := by
      refine ⟨inv3, ?_, fw, fun k h1 h2 => ?_⟩
      · intro u cu f hr
        rcases back3 u cu f with e | f0
        · rw [e] at hr
          exact absurd hr (lt_irrefl _)
        · exact mono3.keeps (dn u cu f0 (lt_trans hr hρ))
      · omega
    have helm := fw.elms 1 (le_refl _) hpos
    obtain ⟨h4, tmp, e4, p4, st4, bc4, r1, r2⟩ := inProgress_child p3 spec
      (GET_ELM_PREC (bagOf h0 v) 1) (hch 1 (le_refl _) hpos).1 (hch 1 (le_refl _) hpos).2
    have fw4 := p4.2.2.1
    obtain ⟨p5, st5, bc5⟩ := inProgress_write p4
      (fun b => SET_LEN_PREC b (LEN_PREC (bagOf h4 v)))
      ⟨rfl, rfl, rfl, get_rnam_set_len _ _ _⟩
      (fun k _ _ => ⟨get_rnam_set_len _ _ _, get_elm_set_len _ _ _⟩)
    obtain ⟨p6, st6, bc6⟩ := inProgress_write p5 (fun b => SET_ELM_PREC b 1 tmp)
      ⟨(frame_set_elm _ _ _).2.2.1, (frame_set_elm _ _ _).2.1, (frame_set_elm _ _ _).2.2.2,
        get_rnam_set_elm _ _ _ _⟩
      (fun k _ hk => ⟨get_rnam_set_elm _ _ _ _, by
        rw [get_elm_set_elm, if_neg]
        rintro ⟨e, _⟩
        omega⟩)
    have hroom4 : 1 ≤ (bagOf h4 (handleOf h.length)).slots.length := le_trans hpos fw4.room
    have hb6 : bagOf (onBag (onBag h4 (handleOf h.length)
          (fun b => SET_LEN_PREC b (LEN_PREC (bagOf h4 v))))
          (handleOf h.length) (fun b => SET_ELM_PREC b 1 tmp)) (handleOf h.length) =
        SET_ELM_PREC (SET_LEN_PREC (bagOf h4 (handleOf h.length)) (LEN_PREC (bagOf h4 v))) 1 tmp := by
      rw [bc6, bc5]
    have sd : SlotDone h0 (onBag (onBag h4 (handleOf h.length)
          (fun b => SET_LEN_PREC b (LEN_PREC (bagOf h4 v))))
          (handleOf h.length) (fun b => SET_ELM_PREC b 1 tmp)) (copyType mutFlag) v
          (handleOf h.length) 1 := by
      unfold SlotDone
      rw [hb6]
      refine ⟨?_, ?_, ?_⟩
      · rw [get_rnam_set_elm, get_rnam_set_len]
        exact fw4.cname hpos
      · intro m
        rw [get_elm_set_elm, if_pos ⟨rfl, le_refl _, hroom4⟩]
        exact (st6.1.2 _ _ ((st5.1.2 _ _ (r1 m)).1)).1
      · intro m
        rw [get_elm_set_elm, if_pos ⟨rfl, le_refl _, hroom4⟩]
        exact r2 m
    have hlen6 : LEN_PREC (bagOf (onBag (onBag h4 (handleOf h.length)
          (fun b => SET_LEN_PREC b (LEN_PREC (bagOf h4 v))))
          (handleOf h.length) (fun b => SET_ELM_PREC b 1 tmp)) (handleOf h.length)) =
        (bagOf h0 v).len := by
      rw [hb6]
      show (SET_ELM_PREC _ _ _).len = _
      rw [(frame_set_elm _ _ _).1]
      exact fw4.len
    obtain ⟨h7, e7, p7, st7, l7⟩ := copyLoop_spec spec hch ((bagOf h0 v).len - 1) 2 _
      (le_refl _) (by omega) (inProgress_extend p6 sd)
    have st : Step h0 h3 h7 (copyType mutFlag) rank v := ((st4.step_trans st5).step_trans st6).step_trans st7
    refine ⟨h7, handleOf h.length, ?_, p7.1, ?_, ?_, ?_, p7.2.2.1⟩
    · simp only [CopyPRecWith, if_neg hm, if_neg hl, hT, allocBag]
      rw [← e3, helm, e4]
      simp only []
      rw [hlen6, e7]
    · refine ⟨le_trans mono3.1 st.1.1, fun u cu f => ?_⟩
      obtain ⟨f3, b3⟩ := mono3.2 u cu f
      obtain ⟨f7, b7⟩ := st.1.2 u cu f3
      exact ⟨f7, (b7 (hnv u cu f)).trans b3⟩
    · intro u cu f
      rcases st.2 u cu f with f3 | hr
      · rcases back3 u cu f3 with e | f0
        · right
          rw [e]
          exact hρ
        · exact Or.inl f0
      · exact Or.inr (lt_trans hr hρ)
    · intro u cu f hr
      rcases st.2 u cu f with f3 | hr2
      · rcases back3 u cu f3 with e | f0
        · rw [e]
          refine ⟨_, p7.2.2.1, ?_, fun i h1 h2 => p7.2.2.2 i h1 (by omega)⟩
          rw [l7]
          exact hlen6
        · exact st.1.keeps_but (hnv u cu f0) (mono3.keeps (dn u cu f0 hr))
      · exact p7.2.1 u cu f hr2

/-- A value that is no mutable record of `h0` is read, in the forward phase, as a
bag without marker that is not mutable. -/
theorem tnum_of_not_mutRec {h0 h : Heap} {T : Nat} {x : Obj} (ok : HeapOK h0)
    (inv : FwdInv h0 h T) (hx1 : isBagRef x = true → ValidRef h0 x) (mx : ¬ IsMutRec h0 x) :
    (bagOf h x).tnum ≠ T_PREC ∧ (bagOf h x).tnum ≠ T_PREC + COPYING ∧
    (bagOf h x).tnum ≠ T_PREC + IMMUTABLE + COPYING := by
  by_cases hr : isBagRef x = true
  · have hv := hx1 hr
    rcases inv.2.1 x hv with e | ⟨c, f⟩
    · rw [e]
      obtain ⟨o1, o2, _⟩ := ok x hv
      exact ⟨fun e1 => mx ⟨hv, e1⟩, o1, o2⟩
    · exact absurd f.mutRec mx
  · rw [bagOf_of_not_ref h hr]
    decide

/-- `COPY_OBJ` with recursion depth above `ρ` meets its specification on the
values of rank below `ρ`. -/
theorem copy_obj_spec {h0 : Heap} {rank : Obj → Nat} {R : Nat} {mutFlag : Bool}
    (ok : HeapOK h0) (ac : Acyclic h0 rank R) :
    ∀ (fuel ρ : Nat), ρ ≤ R + 1 → ρ + 1 ≤ fuel →
      CopySpec h0 (copyType mutFlag) rank ρ (fun h x => COPY_OBJ fuel h x mutFlag) := by
  intro fuel
  induction fuel with
  | zero =>
    intro ρ _ h2
    omega
  | succ fuel ih =>
    intro ρ hρ1 hρ2 h x inv dn hx1 hx2
    by_cases mx : IsMutRec h0 x
    · have hr := hx2 mx
      rcases inv.2.1 x mx.1 with unt | ⟨cx, fx⟩
      · have spec := ih (rank x) (by omega) (by omega)
        obtain ⟨h1, c, e, inv1, mono, nw, dn1, fw⟩ :=
          copyPRecWith_spec ok ac (by omega) spec inv dn mx hr unt
        refine ⟨h1, c, ?_, inv1, mono, nw, dn1, fun _ => fw, fun n => absurd mx n⟩
        show COPY_OBJ (fuel + 1) h x mutFlag = _
        simp only [COPY_OBJ]
        rw [if_pos (Or.inl (by rw [TNUM_OBJ, unt]; exact mx.2))]
        exact e
      · refine ⟨h, cx, ?_, inv, FwdMono.fwd_refl _ _ _, fun u cu f => Or.inl f, dn, fun _ => fx,
          fun n => absurd mx n⟩
        show COPY_OBJ (fuel + 1) h x mutFlag = _
        have ht : TNUM_OBJ (bagOf h x) = T_PREC + COPYING := fx.tnum
        simp only [COPY_OBJ]
        rw [if_neg (by rw [ht]; decide), if_pos (Or.inl ht)]
        simp only [CopyPRecCopy, fx.ptr, Int.toNat_ofNat]
    · obtain ⟨t1, t2, t3⟩ := tnum_of_not_mutRec ok inv hx1 mx
      refine ⟨h, x, ?_, inv, FwdMono.fwd_refl _ _ _, fun u cu f => Or.inl f, dn,
        fun m => absurd m mx, fun _ => rfl⟩
      show COPY_OBJ (fuel + 1) h x mutFlag = _
      simp only [COPY_OBJ, TNUM_OBJ]
      by_cases hi : (bagOf h x).tnum = T_PREC + IMMUTABLE
      · rw [if_pos (Or.inr hi)]
        have hm : IS_MUTABLE_OBJ (bagOf h x) = false := by
          simp only [IS_MUTABLE_OBJ, hi]
          decide
        simp only [CopyPRecWith, hm, if_true]
      · rw [if_neg (by rintro (e | e); exact t1 e; exact hi e),
          if_neg (by rintro (e | e); exact t2 e; exact t3 e)]

theorem Restored.rest_of_eq {h0 h h1 : Heap} {u : Obj} (r : Restored h0 h u)
    (e : bagOf h1 u = bagOf h u) : Restored h0 h1 u := by
  unfold Restored at r ⊢
  rw [e]
  exact r

theorem Restored.rest_mono {h0 h h1 : Heap} {u : Obj} (r : Restored h0 h u) (m : CMono h h1) :
    Restored h0 h1 u := by
  refine r.rest_of_eq (m u ?_)
  rw [r.1]
  exact copying_ne

theorem CMono.clean_refl (h : Heap) : CMono h h := fun _ _ => rfl

theorem CMono.clean_trans {h h1 h2 : Heap} (m : CMono h h1) (n : CMono h1 h2) : CMono h h2 := by
  intro u hu
  have e1 := m u hu
  have e2 := n u (by rw [e1]; exact hu)
  rw [e2, e1]

theorem CNew.cnew_refl (h : Heap) (rank : Obj → Nat) (ρ : Nat) : CNew h h rank ρ :=
  fun _ => Or.inl rfl

theorem CNew.cnew_trans {h h1 h2 : Heap} {rank : Obj → Nat} {ρ : Nat} (m : CNew h h1 rank ρ)
    (n : CNew h1 h2 rank ρ) : CNew h h2 rank ρ := by
  intro u
  rcases n u with e2 | r
  · rcases m u with e1 | r
    · exact Or.inl (e2.trans e1)
    · exact Or.inr r
  · exact Or.inr r

/-- One record loses its marker. -/
theorem restore_step {h0 h1 h h2 : Heap} {T : Nat} {x cx : Obj} (ci : CInv h0 h1 h T)
    (fx : Forwarded h0 h1 T x cx) (hl : h2.length = h.length)
    (hsame : ∀ u, u ≠ x → bagOf h2 u = bagOf h u)
    (hcop : (bagOf h x).tnum = T_PREC + COPYING) (rs : Restored h0 h2 x) :
    CInv h0 h1 h2 T ∧ CMono h h2 := by
  refine ⟨⟨by rw [hl]; exact ci.1, ?_, ?_⟩, ?_⟩
  · intro u hu
    have hux : u ≠ x := by
      intro e
      rw [e] at hu
      exact hu fx.mutRec.1
    rw [hsame u hux]
    exact ci.2.1 u hu
  · intro u hu
    by_cases hux : u = x
    · right
      rw [hux]
      exact ⟨⟨cx, fx⟩, rs⟩
    · rcases ci.2.2 u hu with e | ⟨f, r⟩
      · left
        rw [hsame u hux]
        exact e
      · right
        exact ⟨f, r.rest_of_eq (hsame u hux)⟩
  · intro u hu
    apply hsame
    intro e
    rw [e] at hu
    exact hu hcop

/-- The loop of `CleanPRecCopy` restores the records among the values of the
slots `i` to `N`. -/
theorem cleanLoop_spec {h0 h1 : Heap} {T : Nat} {rank : Obj → Nat} {x : Obj}
    {CLEAN : Heap → Obj → Option Heap} (spec : CleanSpec h0 h1 T rank (rank x) CLEAN)
    (hch : ∀ i, 1 ≤ i → i ≤ (bagOf h0 x).len →
      (isBagRef (GET_ELM_PREC (bagOf h0 x) i) = true → ValidRef h0 (GET_ELM_PREC (bagOf h0 x) i)) ∧
      (IsMutRec h0 (GET_ELM_PREC (bagOf h0 x) i) →
        rank (GET_ELM_PREC (bagOf h0 x) i) < rank x ∧
        ∃ c, Forwarded h0 h1 T (GET_ELM_PREC (bagOf h0 x) i) c)) :
    ∀ (n i : Nat) (h : Heap), 1 ≤ i → i + n = (bagOf h0 x).len + 1 →
      CInv h0 h1 h T → CDone h0 h1 h T rank (rank x) → Restored h0 h x →
      (∀ k, 1 ≤ k → k < i → IsMutRec h0 (GET_ELM_PREC (bagOf h0 x) k) →
        Restored h0 h (GET_ELM_PREC (bagOf h0 x) k)) →
      ∃ h2, cleanLoop CLEAN x i n h = some h2 ∧ CInv h0 h1 h2 T ∧
        CDone h0 h1 h2 T rank (rank x) ∧ CMono h h2 ∧ CNew h h2 rank (rank x) ∧
        ∀ k, 1 ≤ k → k ≤ (bagOf h0 x).len → IsMutRec h0 (GET_ELM_PREC (bagOf h0 x) k) →
          Restored h0 h2 (GET_ELM_PREC (bagOf h0 x) k) := by
  intro n
  induction n with
  | zero =>
    intro i h _ hn ci cd _ sl
    exact ⟨h, rfl, ci, cd, CMono.clean_refl h, CNew.cnew_refl h rank _, fun k h1 h2 => sl k h1 (by omega)⟩
  | succ n ih =>
    intro i h hi1 hn ci cd rx sl
    have hi : i ≤ (bagOf h0 x).len := by omega
    have helm : GET_ELM_PREC (bagOf h x) i = GET_ELM_PREC (bagOf h0 x) i := (rx.2.2 i hi1 hi).2
    obtain ⟨h2, e2, ci2, cd2, m2, n2, r2⟩ := spec h (GET_ELM_PREC (bagOf h0 x) i) ci cd
      (hch i hi1 hi).1 (hch i hi1 hi).2
    obtain ⟨h3, e3, ci3, cd3, m3, n3, r3⟩ := ih (i + 1) h2 (by omega) (by omega) ci2 cd2
      (rx.rest_mono m2) (fun k h1 h2 m => by
        by_cases e : k = i
        · rw [e] at m ⊢
          exact r2 m
        · exact (sl k h1 (by omega) m).rest_mono m2)
    refine ⟨h3, ?_, ci3, cd3, m2.clean_trans m3, n2.cnew_trans n3, r3⟩
    simp only [cleanLoop]
    rw [helm, e2]
    exact e3

theorem children_copied {h0 h1 : Heap} {T : Nat} {rank : Obj → Nat} {R : Nat} {x cx : Obj}
    (ok : HeapOK h0) (ac : Acyclic h0 rank R) (cp : Copied h0 h1 T rank R)
    (fx : Forwarded h0 h1 T x cx) :
    ∀ i, 1 ≤ i → i ≤ (bagOf h0 x).len →
      (isBagRef (GET_ELM_PREC (bagOf h0 x) i) = true → ValidRef h0 (GET_ELM_PREC (bagOf h0 x) i)) ∧
      (IsMutRec h0 (GET_ELM_PREC (bagOf h0 x) i) →
        rank (GET_ELM_PREC (bagOf h0 x) i) < rank x ∧
        ∃ c, Forwarded h0 h1 T (GET_ELM_PREC (bagOf h0 x) i) c) := by
  intro i h1i h2i
  obtain ⟨cm, hR⟩ := cp.2 x cx fx
  obtain ⟨c, _, _, sl⟩ := cm
  have hc := children_ok ok ac fx.mutRec hR i h1i h2i
  exact ⟨hc.1, fun m => ⟨hc.2 m, _, (sl i h1i h2i).2.1 m⟩⟩

/-- `CleanPRecCopy` on a record that has a marker. -/
theorem cleanPRecCopyWith_spec {h0 h1 : Heap} {T : Nat} {rank : Obj → Nat} {R : Nat}
    {x cx : Obj} {CLEAN : Heap → Obj → Option Heap} {h : Heap} {ρ : Nat}
    (ok : HeapOK h0) (ac : Acyclic h0 rank R) (cp : Copied h0 h1 T rank R)
    (spec : CleanSpec h0 h1 T rank (rank x) CLEAN) (ci : CInv h0 h1 h T)
    (cd : CDone h0 h1 h T rank ρ) (fx : Forwarded h0 h1 T x cx) (hρ : rank x < ρ)
    (unt : bagOf h x = bagOf h1 x) :
    ∃ h2, CleanPRecCopyWith CLEAN h x = some h2 ∧ CInv h0 h1 h2 T ∧
      CDone h0 h1 h2 T rank ρ ∧ CMono h h2 ∧ CNew h h2 rank ρ ∧ Restored h0 h2 x := by
  have mx := fx.mutRec
  have hvh : ValidRef h x := ⟨mx.1.1, by
    rw [ci.1]
    have h1 := mx.1.2
    have h2 := cp.1.1
    omega⟩
  have hcop : (bagOf h x).tnum = T_PREC + COPYING := by
    rw [unt]
    exact fx.tnum
  have hlenx : (bagOf h x).len = (bagOf h0 x).len := by
    rw [unt]
    exact fx.len
  have hch := children_copied ok ac cp fx
  by_cases hz : (bagOf h0 x).len = 0
  · have hl : LEN_PREC (bagOf h x) = 0 := by
      rw [LEN_PREC, hlenx]
      exact hz
    obtain ⟨ha, ea⟩ : ∃ ha : Heap,
      ha = onBag h x (fun b => ResizeBag b (SIZE_OBJ b - sizeofObj)) := ⟨_, rfl⟩
    obtain ⟨hb, eb⟩ : ∃ hb : Heap,
      hb = onBag ha x (fun b => RetypeBag b (TNUM_OBJ b - COPYING)) := ⟨_, rfl⟩
    have la : ha.length = h.length := by rw [ea]; exact length_onBag _ _ _
    have ba := bagOf_onBag h hvh (fun b => ResizeBag b (SIZE_OBJ b - sizeofObj))
    rw [← ea] at ba
    have vva : ValidRef ha x := ⟨hvh.1, by rw [la]; exact hvh.2⟩
    have lb : hb.length = ha.length := by rw [eb]; exact length_onBag _ _ _
    have bb := bagOf_onBag ha vva (fun b => RetypeBag b (TNUM_OBJ b - COPYING))
    rw [← eb] at bb
    have bx : bagOf hb x = RetypeBag (ResizeBag (bagOf h x) (SIZE_OBJ (bagOf h x) - sizeofObj))
        (TNUM_OBJ (ResizeBag (bagOf h x) (SIZE_OBJ (bagOf h x) - sizeofObj)) - COPYING) := by
      rw [bb, if_pos rfl, ba, if_pos rfl]
    have rs : Restored h0 hb x := by
      unfold Restored
      rw [bx]
      refine ⟨?_, ?_, fun i h1i h2i => ?_⟩
      · show (bagOf h x).tnum - COPYING = T_PREC
        rw [hcop]
        rfl
      · exact hlenx
      · omega
    have hsame : ∀ u, u ≠ x → bagOf hb u = bagOf h u := by
      intro u hu
      rw [bb, if_neg hu, ba, if_neg hu]
    obtain ⟨cib, mb⟩ := restore_step ci fx (by rw [lb, la]) hsame hcop rs
    refine ⟨hb, ?_, cib, ?_, mb, ?_, rs⟩
    · simp only [CleanPRecCopyWith, if_pos hl]
      rw [← ea, ← eb]
    · intro u cu fu ru hr i h1i h2i m
      by_cases hux : u = x
      · rw [hux] at h2i
        omega
      · exact (cd u cu fu (ru.rest_of_eq (hsame u hux).symm) hr i h1i h2i m).rest_mono mb
    · intro u
      by_cases hux : u = x
      · right
        rw [hux]
        exact hρ
      · exact Or.inl (hsame u hux)
  · have hpos : 0 < (bagOf h0 x).len := by omega
    have hl : ¬ (LEN_PREC (bagOf h x) = 0) := by
      rw [LEN_PREC, hlenx]
      exact hz
    obtain ⟨ha, ea⟩ : ∃ ha : Heap, ha = onBag h x (fun b =>
      SET_RNAM_PREC b 1 (GET_RNAM_PREC (bagOf h (GET_RNAM_PREC b 1).toNat) 1)) := ⟨_, rfl⟩
    obtain ⟨hb, eb⟩ : ∃ hb : Heap,
      hb = onBag ha x (fun b => RetypeBag b (TNUM_OBJ b - COPYING)) := ⟨_, rfl⟩
    have la : ha.length = h.length := by rw [ea]; exact length_onBag _ _ _
    have ba := bagOf_onBag h hvh (fun b =>
      SET_RNAM_PREC b 1 (GET_RNAM_PREC (bagOf h (GET_RNAM_PREC b 1).toNat) 1))
    rw [← ea] at ba
    have vva : ValidRef ha x := ⟨hvh.1, by rw [la]; exact hvh.2⟩
    have lb : hb.length = ha.length := by rw [eb]; exact length_onBag _ _ _
    have bb := bagOf_onBag ha vva (fun b => RetypeBag b (TNUM_OBJ b - COPYING))
    rw [← eb] at bb
    have hptr : (GET_RNAM_PREC (bagOf h x) 1).toNat = cx := by
      rw [unt, fx.ptr, Int.toNat_ofNat]
    have hname : GET_RNAM_PREC (bagOf h cx) 1 = GET_RNAM_PREC (bagOf h0 x) 1 := by
      rw [ci.2.1 cx fx.fresh]
      exact fx.cname hpos
    have bx : bagOf hb x = RetypeBag (SET_RNAM_PREC (bagOf h x) 1 (GET_RNAM_PREC (bagOf h0 x) 1))
        (TNUM_OBJ (SET_RNAM_PREC (bagOf h x) 1 (GET_RNAM_PREC (bagOf h0 x) 1)) - COPYING) := by
      rw [bb, if_pos rfl, ba, if_pos rfl]
      simp only [hptr, hname]
    have hroom : 1 ≤ (bagOf h x).slots.length := by
      rw [unt]
      exact le_trans hpos fx.vroom
    have rs : Restored h0 hb x := by
      unfold Restored
      rw [bx]
      refine ⟨?_, ?_, fun i h1i h2i => ⟨?_, ?_⟩⟩
      · show TNUM_OBJ (SET_RNAM_PREC _ _ _) - COPYING = T_PREC
        rw [TNUM_OBJ, (frame_set_rnam _ _ _).2.2.1, hcop]
        rfl
      · show (SET_RNAM_PREC _ _ _).len = _
        rw [(frame_set_rnam _ _ _).1]
        exact hlenx
      · rw [get_rnam_retype, get_rnam_set_rnam]
        by_cases e : i = 1
        · rw [if_pos ⟨e, le_refl _, hroom⟩, e]
        · rw [if_neg (fun hc => e hc.1), unt]
          exact fx.names i (by omega) h2i
      · rw [get_elm_retype, get_elm_set_rnam, unt]
        exact fx.elms i h1i h2i
    have hsame : ∀ u, u ≠ x → bagOf hb u = bagOf h u := by
      intro u hu
      rw [bb, if_neg hu, ba, if_neg hu]
    obtain ⟨cib, mb⟩ := restore_step ci fx (by rw [lb, la]) hsame hcop rs
    have cdb : CDone h0 h1 hb T rank (rank x) := by
      intro u cu fu ru hr i h1i h2i m
      have hux : u ≠ x := by
        intro e
        rw [e] at hr
        exact lt_irrefl _ hr
      exact (cd u cu fu (ru.rest_of_eq (hsame u hux).symm) (lt_trans hr hρ) i h1i h2i m).rest_mono mb
    have helm : GET_ELM_PREC (bagOf hb x) 1 = GET_ELM_PREC (bagOf h0 x) 1 :=
      (rs.2.2 1 (le_refl _) hpos).2
    obtain ⟨h3, e3, ci3, cd3, m3, n3, r3⟩ := spec hb (GET_ELM_PREC (bagOf h0 x) 1) cib cdb
      (hch 1 (le_refl _) hpos).1 (hch 1 (le_refl _) hpos).2
    have rs3 : Restored h0 h3 x := rs.rest_mono m3
    obtain ⟨h4, e4, ci4, cd4, m4, n4, r4⟩ := cleanLoop_spec spec hch ((bagOf h0 x).len - 1) 2 h3
      (by omega) (by omega) ci3 cd3 rs3 (fun k h1k h2k m => by
        have e : k = 1 := by omega
        rw [e] at m ⊢
        exact r3 m)
    have m34 : CMono hb h4 := m3.clean_trans m4
    have n34 : CNew hb h4 rank (rank x) := n3.cnew_trans n4
    refine ⟨h4, ?_, ci4, ?_, mb.clean_trans m34, ?_, rs.rest_mono m34⟩
    · simp only [CleanPRecCopyWith, if_neg hl]
      rw [← ea, ← eb, helm, e3]
      simp only []
      rw [LEN_PREC, rs3.2.1]
      exact e4
    · intro u cu fu ru hr i h1i h2i m
      by_cases hux : u = x
      · rw [hux] at h2i m ⊢
        exact r4 i h1i h2i m
      · rcases n34 u with e | hr2
        · have ru0 : Restored h0 h u := (ru.rest_of_eq e.symm).rest_of_eq (hsame u hux).symm
          exact (cd u cu fu ru0 hr i h1i h2i m).rest_mono (mb.clean_trans m34)
        · exact cd4 u cu fu ru hr2 i h1i h2i m
    · intro u
      by_cases hux : u = x
      · right
        rw [hux]
        exact hρ
      · rcases n34 u with e | hr2
        · exact Or.inl (e.trans (hsame u hux))
        · exact Or.inr (lt_trans hr2 hρ)

/-- `CLEAN_OBJ` with recursion depth above `ρ` meets its specification on the
values of rank below `ρ`. -/
theorem clean_obj_spec {h0 h1 : Heap} {T : Nat} {rank : Obj → Nat} {R : Nat}
    (ok : HeapOK h0) (ac : Acyclic h0 rank R) (cp : Copied h0 h1 T rank R) :
    ∀ (fuel ρ : Nat), ρ ≤ R + 1 → ρ + 1 ≤ fuel →
      CleanSpec h0 h1 T rank ρ (fun h x => CLEAN_OBJ fuel h x) := by
  intro fuel
  induction fuel with
  | zero =>
    intro ρ _ h2
    omega
  | succ fuel ih =>
    intro ρ hρ1 hρ2 h x ci cd hx1 hx2
    by_cases mx : IsMutRec h0 x
    · obtain ⟨hr, cx, fx⟩ := hx2 mx
      rcases ci.2.2 x mx.1 with unt | ⟨_, rs⟩
      · have spec := ih (rank x) (by omega) (by omega)
        obtain ⟨h2, e, ci2, cd2, m2, n2, rs2⟩ :=
          cleanPRecCopyWith_spec ok ac cp spec ci cd fx hr unt
        refine ⟨h2, ?_, ci2, cd2, m2, n2, fun _ => rs2⟩
        show CLEAN_OBJ (fuel + 1) h x = _
        have ht : TNUM_OBJ (bagOf h x) = T_PREC + COPYING := by
          rw [TNUM_OBJ, unt]
          exact fx.tnum
        simp only [CLEAN_OBJ]
        rw [if_neg (by rw [ht]; decide), if_pos (Or.inl ht)]
        exact e
      · refine ⟨h, ?_, ci, cd, CMono.clean_refl h, CNew.cnew_refl h rank ρ, fun _ => rs⟩
        show CLEAN_OBJ (fuel + 1) h x = _
        simp only [CLEAN_OBJ, TNUM_OBJ]
        rw [if_pos (Or.inl rs.1)]
    · have e : bagOf h x = bagOf h1 x := by
        by_cases hv : ValidRef h0 x
        · rcases ci.2.2 x hv with e | ⟨⟨c, f⟩, _⟩
          · exact e
          · exact absurd f.mutRec mx
        · exact ci.2.1 x hv
      obtain ⟨t1, t2, t3⟩ := tnum_of_not_mutRec ok cp.1 hx1 mx
      rw [← e] at t1 t2 t3
      refine ⟨h, ?_, ci, cd, CMono.clean_refl h, CNew.cnew_refl h rank ρ, fun m => absurd m mx⟩
      show CLEAN_OBJ (fuel + 1) h x = _
      simp only [CLEAN_OBJ, TNUM_OBJ]
      by_cases hi : (bagOf h x).tnum = T_PREC + IMMUTABLE
      · rw [if_pos (Or.inr hi)]
      · rw [if_neg (by rintro (e | e); exact t1 e; exact hi e),
          if_neg (by rintro (e | e); exact t2 e; exact t3 e)]

theorem EQ_self (fuel : Nat) (h : Heap) (a : Obj) : EQ fuel h a a = true := by
  unfold EQ
  rw [if_pos rfl]

theorem EQ_succ (fuel : Nat) (h : Heap) {a b : Obj} (hab : a ≠ b) :
    EQ (fuel + 1) h a b = FuncEQ_PREC_DEFAULT (fun x y => EQ fuel h x y) (bagOf h a) (bagOf h b) := by
  rw [EQ, if_neg hab]

theorem copyType_cases (mutFlag : Bool) :
    copyType mutFlag = T_PREC ∨ copyType mutFlag = T_PREC + IMMUTABLE := by
  cases mutFlag <;> decide

/-- After both phases every restored record is equal to its copy. -/
theorem eq_copy {h0 h1 h2 : Heap} {mutFlag : Bool} {rank : Obj → Nat} {R : Nat}
    (ac : Acyclic h0 rank R)
    (cp : Copied h0 h1 (copyType mutFlag) rank R) (ci : CInv h0 h1 h2 (copyType mutFlag))
    (cd : CDone h0 h1 h2 (copyType mutFlag) rank (R + 1)) :
    ∀ (fuel : Nat) (u cu : Obj), Forwarded h0 h1 (copyType mutFlag) u cu → Restored h0 h2 u →
      rank u < fuel → EQ fuel h2 u cu = true := by
  intro fuel
  induction fuel with
  | zero =>
    intro u cu _ _ hr
    omega
  | succ fuel ih =>
    intro u cu fu ru hr
    have hne : u ≠ cu := by
      intro e
      have h1 := fu.mutRec.1
      rw [e] at h1
      exact fu.fresh h1
    obtain ⟨cm, hR⟩ := cp.2 u cu fu
    obtain ⟨c, fc, hlen, sl⟩ := cm
    have ec : c = cu := fc.ptr_inj fu
    rw [ec] at hlen sl
    have hbc : bagOf h2 cu = bagOf h1 cu := ci.2.1 cu fu.fresh
    rw [EQ_succ fuel h2 hne, funcEQ_iff]
    refine ⟨?_, ?_, ?_, fun j h1j h2j => ?_⟩
    · simp only [IS_PREC_REP, ru.1]
      decide
    · rw [hbc]
      simp only [IS_PREC_REP, fu.ctnum]
      rcases copyType_cases mutFlag with e | e <;> rw [e] <;> decide
    · rw [LEN_PREC, LEN_PREC, hbc, hlen]
      exact ru.2.1
    · rw [LEN_PREC, hbc, hlen] at h2j
      obtain ⟨s1, s2, s3⟩ := sl j h1j h2j
      obtain ⟨n1, n2⟩ := ru.2.2 j h1j h2j
      rw [hbc, n1, n2, s1]
      refine ⟨rfl, ?_⟩
      by_cases m : IsMutRec h0 (GET_ELM_PREC (bagOf h0 u) j)
      · have hrk := ac u fu.mutRec hR j h1j h2j m
        exact ih _ _ (s2 m) (cd u cu fu ru (by omega) j h1j h2j m) (by omega)
      · rw [s3 m]
        exact EQ_self _ _ _

/-- Both phases of a structural copy of a mutable record with an acyclic value
graph: the call returns, the record is restored, and the copy is finished and
equal to it. -/
theorem copyObj_spec {h0 : Heap} {rank : Obj → Nat} {r : Obj} {fuel : Nat} (mutFlag : Bool)
    (ok : HeapOK h0) (mr : IsMutRec h0 r) (ac : Acyclic h0 rank (rank r))
    (hf : rank r + 2 ≤ fuel) :
    ∃ h1 h2 c, CopyObj fuel h0 r mutFlag = some (h2, c) ∧
      Forwarded h0 h1 (copyType mutFlag) r c ∧ Complete h0 h1 (copyType mutFlag) r ∧
      bagOf h2 c = bagOf h1 c ∧ Restored h0 h2 r ∧
      ∀ n, rank r < n → EQ n h2 r c = true := by
  have nofw : ∀ u cu, ¬ Forwarded h0 h0 (copyType mutFlag) u cu := fun u cu f => f.fresh f.valid
  have inv0 : FwdInv h0 h0 (copyType mutFlag) :=
    ⟨le_refl _, fun v _ => Or.inl rfl, fun v w c f _ => absurd f (nofw v c)⟩
  have dn0 : FwdDone h0 h0 (copyType mutFlag) rank (rank r + 1) :=
    fun v c f _ => absurd f (nofw v c)
  obtain ⟨h1, c, e1, inv1, mono, nw, dn1, fr, _⟩ :=
    copy_obj_spec ok ac fuel (rank r + 1) (le_refl _) (by omega) h0 r inv0 dn0
      (fun _ => mr.1) (fun _ => by omega)
  have cp : Copied h0 h1 (copyType mutFlag) rank (rank r) := by
    refine ⟨inv1, fun u cu f => ?_⟩
    have hr : rank u < rank r + 1 := (nw u cu f).resolve_left (nofw u cu)
    exact ⟨dn1 u cu f hr, by omega⟩
  have ci0 : CInv h0 h1 h1 (copyType mutFlag) := ⟨rfl, fun _ _ => rfl, fun _ _ => Or.inl rfl⟩
  have cd0 : CDone h0 h1 h1 (copyType mutFlag) rank (rank r + 1) := by
    intro u cu f ru
    have h1 := f.tnum
    rw [ru.1] at h1
    exact absurd h1 copying_ne
  obtain ⟨h2, e2, ci2, cd2, m2, n2, rs⟩ :=
    clean_obj_spec ok ac cp fuel (rank r + 1) (le_refl _) (by omega) h1 r ci0 cd0
      (fun _ => mr.1) (fun _ => ⟨by omega, c, fr mr⟩)
  refine ⟨h1, h2, c, ?_, fr mr, (cp.2 r c (fr mr)).1, ci2.2.1 c (fr mr).fresh, rs mr,
    fun n hn => eq_copy ac cp ci2 cd2 n r c (fr mr) (rs mr) hn⟩
  simp only [CopyObj, e1, e2]

/-- Claim C20: in a workspace without markers whose mutable records are well
formed, let `r` be a mutable record whose value graph is acyclic (`rank`
decreases along every reference from a mutable record to a mutable record).
Then `CopyObj`, the forward phase `COPY_OBJ` (`CopyPRec`) followed by the clean
phase `CLEAN_OBJ` (`CleanPRecCopy`), returns with recursion depth `rank r + 2`
or more; afterwards `r` has again its length, names and values, and the result
`c` is a new bag that `EQ`, through `FuncEQ_PREC_DEFAULT`, finds equal to `r`:
it has the length of `r`, the raw name of `r` at every position and at every
position a value equal to the value of `r`. -/
theorem deepcopy_equal (h0 : Heap) (rank : Obj → Nat) (r : Obj) (fuel : Nat) (mutFlag : Bool)
    (ok : HeapOK h0) (mr : IsMutRec h0 r) (ac : Acyclic h0 rank (rank r))
    (hf : rank r + 2 ≤ fuel) :
    ∃ h2 c, CopyObj fuel h0 r mutFlag = some (h2, c) ∧ ¬ ValidRef h0 c ∧
      TNUM_OBJ (bagOf h2 r) = T_PREC ∧
      LEN_PREC (bagOf h2 r) = LEN_PREC (bagOf h0 r) ∧
      (∀ i, 1 ≤ i → i ≤ LEN_PREC (bagOf h0 r) →
        GET_RNAM_PREC (bagOf h2 r) i = GET_RNAM_PREC (bagOf h0 r) i ∧
        GET_ELM_PREC (bagOf h2 r) i = GET_ELM_PREC (bagOf h0 r) i) ∧
      IS_PREC_REP (bagOf h2 c) = true ∧
      LEN_PREC (bagOf h2 c) = LEN_PREC (bagOf h0 r) ∧
      (∀ i, 1 ≤ i → i ≤ LEN_PREC (bagOf h0 r) →
        GET_RNAM_PREC (bagOf h2 c) i = GET_RNAM_PREC (bagOf h0 r) i ∧
        EQ fuel h2 (GET_ELM_PREC (bagOf h0 r) i) (GET_ELM_PREC (bagOf h2 c) i) = true) ∧
      FuncEQ_PREC_DEFAULT (fun x y => EQ fuel h2 x y) (bagOf h2 r) (bagOf h2 c) = true ∧
      EQ fuel h2 r c = true := by
  obtain ⟨h1, h2, c, e, fw, _, _, rs, heq⟩ := copyObj_spec mutFlag ok mr ac hf
  have hne : r ≠ c := by
    intro e1
    have h3 := mr.1
    rw [e1] at h3
    exact fw.fresh h3
  have hfe := heq (fuel + 1) (by omega)
  rw [EQ_succ fuel h2 hne] at hfe
  obtain ⟨_, q2, q3, q4⟩ := (funcEQ_iff _ _ _).1 hfe
  have hl : LEN_PREC (bagOf h2 c) = LEN_PREC (bagOf h0 r) := by
    rw [← q3]
    exact rs.2.1
  refine ⟨h2, c, e, fw.fresh, rs.1, rs.2.1, rs.2.2, q2, hl, fun i h1i h2i => ?_, hfe,
    heq fuel (by omega)⟩
  obtain ⟨n1, n2⟩ := rs.2.2 i h1i h2i
  obtain ⟨p1, p2⟩ := q4 i h1i (by rw [hl]; exact h2i)
  rw [n1] at p1
  rw [n2] at p2
  exact ⟨p1.symm, p2⟩

theorem deepcopy_equal_witness :
    (HeapOK demoHeap ∧ IsMutRec demoHeap 2 ∧ Acyclic demoHeap demoRank (demoRank 2) ∧
      demoRank 2 + 2 ≤ 3) ∧
    ∃ h2 c, CopyObj 3 demoHeap 2 true = some (h2, c) ∧ ¬ ValidRef demoHeap c ∧
      TNUM_OBJ (bagOf h2 2) = T_PREC ∧
      LEN_PREC (bagOf h2 2) = LEN_PREC (bagOf demoHeap 2) ∧
      (∀ i, 1 ≤ i → i ≤ LEN_PREC (bagOf demoHeap 2) →
        GET_RNAM_PREC (bagOf h2 2) i = GET_RNAM_PREC (bagOf demoHeap 2) i ∧
        GET_ELM_PREC (bagOf h2 2) i = GET_ELM_PREC (bagOf demoHeap 2) i) ∧
      IS_PREC_REP (bagOf h2 c) = true ∧
      LEN_PREC (bagOf h2 c) = LEN_PREC (bagOf demoHeap 2) ∧
      (∀ i, 1 ≤ i → i ≤ LEN_PREC (bagOf demoHeap 2) →
        GET_RNAM_PREC (bagOf h2 c) i = GET_RNAM_PREC (bagOf demoHeap 2) i ∧
        EQ 3 h2 (GET_ELM_PREC (bagOf demoHeap 2) i) (GET_ELM_PREC (bagOf h2 c) i) = true) ∧
      FuncEQ_PREC_DEFAULT (fun x y => EQ 3 h2 x y) (bagOf h2 2) (bagOf h2 c) = true ∧
      EQ 3 h2 2 c = true := by
  have three : ∀ v : Nat, ValidRef demoHeap v → v = 2 ∨ v = 4 ∨ v = 6 := by
    intro v hv
    obtain ⟨h1, h2⟩ := hv
    simp only [isBagRef, Bool.and_eq_true, beq_iff_eq, bne_iff_ne, ne_eq] at h1
    have h3 : v % 2 = 0 := h1.1
    have h4 : ¬ (v = 0) := h1.2
    have h5 : v / 2 - 1 < 3 := h2
    omega
  have ok : HeapOK demoHeap := by
    intro v hv
    rcases three v hv with e | e | e
    · rw [e]
      refine ⟨by decide, by decide, fun _ => ⟨by decide, by unfold BagOK; decide, by decide,
        fun i h1 h2 => ?_⟩⟩
      have h3 : i ≤ 4 := h2
      interval_cases i <;> unfold ValidRef <;> decide
    · rw [e]
      refine ⟨by decide, by decide, fun _ => ⟨by decide, by unfold BagOK; decide, by decide,
        fun i h1 h2 => ?_⟩⟩
      have h3 : i ≤ 1 := h2
      interval_cases i
      unfold ValidRef
      decide
    · rw [e]
      refine ⟨by decide, by decide, fun _ => ⟨by decide, by unfold BagOK; decide, by decide,
        fun i h1 h2 => ?_⟩⟩
      have h3 : i ≤ 0 := h2
      omega
  have mr : IsMutRec demoHeap 2 := by
    unfold IsMutRec ValidRef
    decide
  have ac : Acyclic demoHeap demoRank (demoRank 2) := by
    intro v mv _ i h1 h2
    rcases three v mv.1 with e | e | e
    · rw [e] at h2 ⊢
      have h3 : i ≤ 4 := h2
      interval_cases i <;> unfold IsMutRec ValidRef <;> decide
    · rw [e] at h2 ⊢
      have h3 : i ≤ 1 := h2
      interval_cases i
      unfold IsMutRec ValidRef
      decide
    · rw [e] at h2
      have h3 : i ≤ 0 := h2
      omega
  exact ⟨⟨ok, mr, ac, by decide⟩, deepcopy_equal demoHeap demoRank 2 3 true ok mr ac (by decide)⟩

/-- The copy of the record of handle 2 of `demoHeap`: three new bags, the shared
record of handle 4 copied once (handle 10), the workspace before them restored;
a recursion depth of 2 is too small. -/
theorem copyObj_demo :
    CopyObj 3 demoHeap 2 true = some (demoHeap ++
      [{ tnum := 0, size := 80, len := 4, slots := [(-1, 3), (-2, 10), (3, 10), (5, 12)] },
       { tnum := 0, size := 32, len := 1, slots := [(-7, 9)] },
       { tnum := 0, size := 16, len := 0, slots := [] }], 8) ∧
    CopyObj 2 demoHeap 2 true = none := by
  decide

theorem sort_tnum (r : PRec) (b : Bool) : (SortPRecRNam r b).tnum = r.tnum := by
  unfold SortPRecRNam
  simp only []
  split_ifs <;> rfl

theorem find_tnum (r : PRec) (k p : Nat) (b : Bool) : (FindPRec r k p b).bag.tnum = r.tnum := by
  unfold FindPRec
  simp only []
  split_ifs
  · exact sort_tnum r false
  · split <;> rfl
  · rfl

theorem isb_tnum (r : PRec) (k : Nat) : (IsbPRec r k).1.tnum = r.tnum := find_tnum r k 0 true

theorem elm_tnum (r : PRec) (k : Nat) : (ElmPRec r k).1.tnum = r.tnum := by
  unfold ElmPRec
  simp only []
  split_ifs <;> exact find_tnum r k 0 true

theorem names_tnum (r : PRec) : (InnerRecNames r).1.tnum = r.tnum := sort_tnum r false

theorem copy_of_immutable (COPY : Heap → Obj → Option (Heap × Obj)) (h : Heap) (r : Obj)
    (mutFlag : Bool) (hi : (bagOf h r).tnum = T_PREC + IMMUTABLE) :
    CopyPRecWith COPY h r mutFlag = some (h, r) := by
  have hm : IS_MUTABLE_OBJ (bagOf h r) = false := by
    simp only [IS_MUTABLE_OBJ, hi]
    decide
  simp only [CopyPRecWith, hm, if_true]

/-- Claim C27: for an immutable record `rec`, whatever the name and the value,
`ASS_REC` goes to `AssPRecImm` and `UNB_REC` to `UnbPRecImm`; both signal the
error for an immutable record and return the record as it was (type, size,
length and every slot). -/
theorem immutable_set_delete_rejected (rec : PRec) (rnam : Nat) (val : Obj)
    (hi : TNUM_OBJ rec = T_PREC + IMMUTABLE) :
    ASS_REC rec rnam val = some (AssPRecImm rec rnam val) ∧
    UNB_REC rec rnam = some (UnbPRecImm rec rnam) ∧
    AssPRecImm rec rnam val = (rec, Except.error RecError.ImmutableViolation) ∧
    UnbPRecImm rec rnam = (rec, Except.error RecError.ImmutableViolation) := by
  have h0 : ¬ (TNUM_OBJ rec = T_PREC) := by
    rw [hi]
    decide
  refine ⟨?_, ?_, rfl, rfl⟩
  · simp only [ASS_REC, if_neg h0, if_pos hi]
  · simp only [UNB_REC, if_neg h0, if_pos hi]

theorem immutable_set_delete_rejected_witness :
    TNUM_OBJ demoImm = T_PREC + IMMUTABLE ∧
    (ASS_REC demoImm 5 7 = some (AssPRecImm demoImm 5 7) ∧
      UNB_REC demoImm 5 = some (UnbPRecImm demoImm 5) ∧
      AssPRecImm demoImm 5 7 = (demoImm, Except.error RecError.ImmutableViolation) ∧
      UnbPRecImm demoImm 5 = (demoImm, Except.error RecError.ImmutableViolation)) :=
  ⟨by decide, immutable_set_delete_rejected demoImm 5 7 (by decide)⟩

/-- Claim C26: a record in the immutable representation is in the immutable
representation after every operation this module installs for it: `ASS_REC`
and `UNB_REC` (which only signal the error), `ISB_REC`, `ELM_REC`,
`FuncREC_NAMES` and `SortPRecRNam` (which may reorder the slots but keep the
type), and, in a workspace, `COPY_OBJ` and `CopyPRec` (which return the record
itself and leave the workspace as it is, so no marker is set), `CLEAN_OBJ` and
`MakeImmutable` (which do nothing); `SavePRec` only reads the record. -/
theorem immutable_is_stable (rec : PRec) (rnam : Nat) (val : Obj) (inplace : Bool)
    (h : Heap) (r : Obj) (fuel : Nat) (mutFlag : Bool)
    (hi : TNUM_OBJ rec = T_PREC + IMMUTABLE) (hr : bagOf h r = rec) :
    (∃ res, ASS_REC rec rnam val = some res ∧ TNUM_OBJ res.1 = T_PREC + IMMUTABLE) ∧
    (∃ res, UNB_REC rec rnam = some res ∧ TNUM_OBJ res.1 = T_PREC + IMMUTABLE) ∧
    (∃ res, ISB_REC rec rnam = some res ∧ TNUM_OBJ res.1 = T_PREC + IMMUTABLE) ∧
    (∃ res, ELM_REC rec rnam = some res ∧ TNUM_OBJ res.1 = T_PREC + IMMUTABLE) ∧
    (∃ res, FuncREC_NAMES rec = some res ∧ TNUM_OBJ res.1 = T_PREC + IMMUTABLE) ∧
    TNUM_OBJ (SortPRecRNam rec inplace) = T_PREC + IMMUTABLE ∧
    COPY_OBJ (fuel + 1) h r mutFlag = some (h, r) ∧
    CopyPRec fuel h r mutFlag = some (h, r) ∧
    CLEAN_OBJ (fuel + 1) h r = some h ∧
    MakeImmutable (fuel + 1) h r = some h := by
  have h0 : ¬ (TNUM_OBJ rec = T_PREC) := by
    rw [hi]
    decide
  have hb : (bagOf h r).tnum = T_PREC + IMMUTABLE := by
    rw [hr]
    exact hi
  have hb2 : TNUM_OBJ (bagOf h r) = T_PREC + IMMUTABLE := hb
  have hc := copy_of_immutable (fun h1 o => COPY_OBJ fuel h1 o mutFlag) h r mutFlag hb
  refine ⟨⟨AssPRecImm rec rnam val, by simp only [ASS_REC, if_neg h0, if_pos hi], hi⟩,
    ⟨UnbPRecImm rec rnam, by simp only [UNB_REC, if_neg h0, if_pos hi], hi⟩,
    ⟨IsbPRec rec rnam, by simp only [ISB_REC, if_pos (Or.inr hi)], (isb_tnum rec rnam).trans hi⟩,
    ⟨ElmPRec rec rnam, by simp only [ELM_REC, if_pos (Or.inr hi)], (elm_tnum rec rnam).trans hi⟩,
    ⟨InnerRecNames rec, by simp only [FuncREC_NAMES, if_pos (Or.inr hi)],
      (names_tnum rec).trans hi⟩,
    (sort_tnum rec inplace).trans hi, ?_, hc, ?_, ?_⟩
  · simp only [COPY_OBJ]
    rw [if_pos (Or.inr hb2)]
    exact hc
  · simp only [CLEAN_OBJ]
    rw [if_pos (Or.inr hb2)]
  · have hm : ¬ (IS_MUTABLE_OBJ (bagOf h r) = true) := by
      simp only [IS_MUTABLE_OBJ, hb]
      decide
    simp only [MakeImmutable, if_neg hm]

theorem immutable_is_stable_witness :
    (TNUM_OBJ demoImm = T_PREC + IMMUTABLE ∧ bagOf [demoImm] 2 = demoImm) ∧
    ((∃ res, ASS_REC demoImm 5 7 = some res ∧ TNUM_OBJ res.1 = T_PREC + IMMUTABLE) ∧
    (∃ res, UNB_REC demoImm 5 = some res ∧ TNUM_OBJ res.1 = T_PREC + IMMUTABLE) ∧
    (∃ res, ISB_REC demoImm 5 = some res ∧ TNUM_OBJ res.1 = T_PREC + IMMUTABLE) ∧
    (∃ res, ELM_REC demoImm 5 = some res ∧ TNUM_OBJ res.1 = T_PREC + IMMUTABLE) ∧
    (∃ res, FuncREC_NAMES demoImm = some res ∧ TNUM_OBJ res.1 = T_PREC + IMMUTABLE) ∧
    TNUM_OBJ (SortPRecRNam demoImm false) = T_PREC + IMMUTABLE ∧
    COPY_OBJ (0 + 1) [demoImm] 2 true = some ([demoImm], 2) ∧
    CopyPRec 0 [demoImm] 2 true = some ([demoImm], 2) ∧
    CLEAN_OBJ (0 + 1) [demoImm] 2 = some [demoImm] ∧
    MakeImmutable (0 + 1) [demoImm] 2 = some [demoImm]) :=
  ⟨⟨by decide, by decide⟩,
    immutable_is_stable demoImm 5 7 false [demoImm] 2 0 true (by decide) (by decide)⟩

theorem two_sets_spec (c a b : Nat) (v1 v2 : Obj) (ha : 0 < a) (hb : 0 < b) (hab : a ≠ b) :
    WellFormed (AssPRec (AssPRec (NEW_PREC c) b v1) a v2) ∧
    (AssPRec (AssPRec (NEW_PREC c) b v1) a v2).len = 2 ∧
    ∀ k v, Binds (AssPRec (AssPRec (NEW_PREC c) b v1) a v2) k v ↔
      (k = a ∧ v = v2) ∨ (k = b ∧ v = v1) := by
  have w0 := wellFormed_new c
  have b0 := bagOK_new c
  have l0 : (NEW_PREC c).len = 0 := rfl
  have n0 : ∀ k v, ¬ Binds (NEW_PREC c) k v := by
    rintro k v ⟨i, h1, h2, _⟩
    rw [l0] at h2
    omega
  obtain ⟨w1, b1, hb1, _, _, hl1⟩ := ass_spec w0 b0 b hb v1
  have nk0 : ¬ HasKey (NEW_PREC c) b := by
    rintro ⟨i, h1, h2, _⟩
    rw [l0] at h2
    omega
  have l1 := (hl1 nk0).1
  obtain ⟨w2, _, hb2, _, _, hl2⟩ := ass_spec w1 b1 a ha v2
  have nk1 : ¬ HasKey (AssPRec (NEW_PREC c) b v1) a := by
    intro hk
    obtain ⟨v, hv⟩ := (hasKey_iff_binds _ _).1 hk
    rcases (hb1 a v).1 hv with ⟨e, _⟩ | ⟨_, hn⟩
    · exact hab e
    · exact n0 a v hn
  refine ⟨w2, by rw [(hl2 nk1).1, l1, l0], fun k v => ?_⟩
  rw [hb2 k v, hb1 k v]
  constructor
  · rintro (h | ⟨_, h | ⟨_, h⟩⟩)
    · exact Or.inl h
    · exact Or.inr h
    · exact absurd h (n0 k v)
  · rintro (h | h)
    · exact Or.inl h
    · refine Or.inr ⟨?_, Or.inl h⟩
      rw [h.1]
      exact fun e => hab e.symm

theorem names_fst (r : PRec) : (InnerRecNames r).1 = SortPRecRNam r false := rfl

/-- The names of a reconciled record of length 2 with the keys `a` and `b`. -/
theorem names_of_two {r : PRec} (wf : WellFormed r) (hl : r.len = 2) (a b : Nat)
    (hk : ∀ k, HasKey r k ↔ k = a ∨ k = b) :
    (InnerRecNames r).2 = if a < b then [(a : Int), (b : Int)] else [(b : Int), (a : Int)] := by
  obtain ⟨sl, _, _, _, _, _, cl⟩ := sort_active wf false
  have ws := sort_wellFormed wf false
  obtain ⟨K, wK⟩ := ws.index
  have hlen := wK.hlen
  have hmem : ∀ i, 1 ≤ i → i ≤ (SortPRecRNam r false).len →
      GET_RNAM_PREC (SortPRecRNam r false) i < 0 := by
    intro i h1 h2
    exact cl.1 _ ((mem_active_iff hlen _).2 ⟨i, h1, h2, rfl⟩)
  have hK : K = 2 := by
    have h1 := wK.hK
    rw [sl, hl] at h1
    by_contra hne
    have h2 := wK.pos 2 (by omega) (by rw [sl, hl])
    have h3 := hmem 2 (by omega) (by rw [sl, hl])
    omega
  have n1 := wK.neg 1 (le_refl _) (by omega)
  have n2 := wK.neg 2 (by omega) (by omega)
  have n12 := wK.mono 1 2 (le_refl _) (by omega) (by omega)
  have hks : ∀ k, HasKey (SortPRecRNam r false) k ↔ k = a ∨ k = b := fun k =>
    (hasKey_sort wf false k).trans (hk k)
  have k1 := (hks _).1 ⟨1, le_refl _, by rw [sl, hl]; omega, rfl⟩
  have k2 := (hks _).1 ⟨2, by omega, by rw [sl, hl], rfl⟩
  have e : (InnerRecNames r).2 = [-GET_RNAM_PREC (SortPRecRNam r false) 1,
      -GET_RNAM_PREC (SortPRecRNam r false) 2] := by
    simp only [InnerRecNames, LEN_PREC, sl, hl]
    rfl
  rw [e]
  generalize GET_RNAM_PREC (SortPRecRNam r false) 1 = x at *
  generalize GET_RNAM_PREC (SortPRecRNam r false) 2 = y at *
  split_ifs with hlt
  · have e1 : -x = (a : Int) := by omega
    have e2 : -y = (b : Int) := by omega
    rw [e1, e2]
  · have e1 : -x = (b : Int) := by omega
    have e2 : -y = (a : Int) := by omega
    rw [e1, e2]

/-- Claim C30 (what the code does): after `AssPRec(r, b, v1)` and `AssPRec(r, a, v2)`
on a new record, for distinct positive identifiers `a` and `b`, `InnerRecNames`
lists the two names in increasing order of their identifiers, `a` before `b`
only when `a < b`; `ElmPRec(r, a)` is `v2` in both cases, before and after the
names were listed. -/
theorem names_example_by_identifier (c a b : Nat) (v1 v2 : Obj) (ha : 0 < a) (hb : 0 < b)
    (hab : a ≠ b) :
    (InnerRecNames (AssPRec (AssPRec (NEW_PREC c) b v1) a v2)).2 =
      (if a < b then [(a : Int), (b : Int)] else [(b : Int), (a : Int)]) ∧
    (ElmPRec (AssPRec (AssPRec (NEW_PREC c) b v1) a v2) a).2 = Except.ok v2 ∧
    (ElmPRec (InnerRecNames (AssPRec (AssPRec (NEW_PREC c) b v1) a v2)).1 a).2 =
      Except.ok v2 := by
  obtain ⟨wf, hl, hbd⟩ := two_sets_spec c a b v1 v2 ha hb hab
  have hk : ∀ k, HasKey (AssPRec (AssPRec (NEW_PREC c) b v1) a v2) k ↔ k = a ∨ k = b := by
    intro k
    rw [hasKey_iff_binds]
    constructor
    · rintro ⟨v, hv⟩
      rcases (hbd k v).1 hv with h | h
      · exact Or.inl h.1
      · exact Or.inr h.1
    · rintro (h | h)
      · exact ⟨v2, (hbd k v2).2 (Or.inl ⟨h, rfl⟩)⟩
      · exact ⟨v1, (hbd k v1).2 (Or.inr ⟨h, rfl⟩)⟩
  have ba : Binds (AssPRec (AssPRec (NEW_PREC c) b v1) a v2) a v2 :=
    (hbd a v2).2 (Or.inl ⟨rfl, rfl⟩)
  refine ⟨names_of_two wf hl a b hk, (elm_spec wf a).2.1 v2 ba, ?_⟩
  rw [names_fst]
  exact (elm_spec (sort_wellFormed wf false) a).2.1 v2 ((binds_sort wf false a v2).2 ba)

theorem names_example_by_identifier_witness :
    (0 < 2 ∧ 0 < 1 ∧ 2 ≠ 1) ∧
    ((InnerRecNames (AssPRec (AssPRec (NEW_PREC 0) 1 1) 2 2)).2 =
      (if 2 < 1 then [((2 : Nat) : Int), ((1 : Nat) : Int)]
        else [((1 : Nat) : Int), ((2 : Nat) : Int)]) ∧
    (ElmPRec (AssPRec (AssPRec (NEW_PREC 0) 1 1) 2 2) 2).2 = Except.ok 2 ∧
    (ElmPRec (InnerRecNames (AssPRec (AssPRec (NEW_PREC 0) 1 1) 2 2)).1 2).2 =
      Except.ok 2) :=
  ⟨by decide, names_example_by_identifier 0 2 1 1 2 (by decide) (by decide) (by decide)⟩

/-- Claim C30 (counterexample): with the identifier 2 for the name `a` and 1 for
the name `b`, `Set(r, b, 1); Set(r, a, 2)` on a new record gives the names
`b, a` and not `a, b`. -/
theorem names_example_fails :
    (InnerRecNames (AssPRec (AssPRec (NEW_PREC 0) 1 1) 2 2)).2 = [1, 2] ∧
    (InnerRecNames (AssPRec (AssPRec (NEW_PREC 0) 1 1) 2 2)).2.map
      (fun x => nameAB x.natAbs) = ["b", "a"] ∧
    (InnerRecNames (AssPRec (AssPRec (NEW_PREC 0) 1 1) 2 2)).2.map
      (fun x => nameAB x.natAbs) ≠ ["a", "b"] ∧
    (ElmPRec (AssPRec (AssPRec (NEW_PREC 0) 1 1) 2 2) 2).2 = Except.ok 2 :=
  ⟨by decide, by decide, by decide, rfl⟩

theorem validRef_of_tnum {h : Heap} {v : Obj} (hv : (bagOf h v).tnum ≠ 255) : ValidRef h v := by
  by_contra hc
  rw [bagOf_of_not_valid h hc] at hv
  exact hv rfl

theorem validRef_of_rep {h : Heap} {v : Obj}
    (hv : IS_PREC_REP (bagOf h v) = true ∨ TNUM_OBJ (bagOf h v) = T_COMOBJ) : ValidRef h v := by
  apply validRef_of_tnum
  intro e
  rcases hv with h1 | h1
  · simp only [IS_PREC_REP, e] at h1
    exact absurd h1 (by decide)
  · rw [TNUM_OBJ, e] at h1
    exact absurd h1 (by decide)

theorem SameView.view_refl (h : Heap) : SameView h h := fun _ => ⟨rfl, fun _ _ => Iff.rfl⟩

theorem SameView.view_trans {h h1 h2 : Heap} (s : SameView h h1) (t : SameView h1 h2) :
    SameView h h2 :=
  fun v => ⟨(t v).1.trans (s v).1, fun k x => ((t v).2 k x).trans ((s v).2 k x)⟩

theorem Supplies.view_congr {g : Globals} {h h1 : Heap} (s : SameView h h1) {rec : Obj} {op : Nat}
    {m : Obj} : Supplies g h1 rec op m ↔ Supplies g h rec op m := by
  have rep : ∀ v, IS_PREC_REP (bagOf h1 v) = IS_PREC_REP (bagOf h v) := by
    intro v
    simp only [IS_PREC_REP, (s v).1]
  unfold Supplies
  rw [rep rec]
  refine and_congr Iff.rfl (exists_congr fun o => and_congr ((s rec).2 _ o) ?_)
  refine exists_congr fun o2 => and_congr ?_ (and_congr (by rw [rep o2]) ((s o2).2 _ m))
  rw [TNUM_OBJ, TNUM_OBJ, (s o).1]
  by_cases hc : (bagOf h o).tnum = T_COMOBJ
  · rw [if_pos hc, if_pos hc]
    exact (s o).2 _ o2
  · rw [if_neg hc, if_neg hc]

/-- A lookup with cleanup in the bag of `v`: the bag is replaced by the
reconciled one, and the result says whether `k` is bound. -/
theorem find_heap {h : Heap} {v : Obj} (wf : WellFormed (bagOf h v)) (hv : ValidRef h v)
    (k p : Nat) :
    (∀ u, bagOf (setBag h v (FindPRec (bagOf h v) k p true).bag) u =
      if u = v then SortPRecRNam (bagOf h v) false else bagOf h u) ∧
    ((FindPRec (bagOf h v) k p true).ret ≠ 0 →
      Binds (bagOf h v) k
        (GET_ELM_PREC (SortPRecRNam (bagOf h v) false) (FindPRec (bagOf h v) k p true).pos)) ∧
    ((FindPRec (bagOf h v) k p true).ret = 0 → ¬ HasKey (bagOf h v) k) := by
  obtain ⟨hbag, hres⟩ := find_clean wf k p
  obtain ⟨sl, _⟩ := sort_active wf false
  refine ⟨fun u => ?_, fun hr => ?_, fun hr => ?_⟩
  · rw [bagOf_setBag h hv, hbag]
  · rcases hres with ⟨_, h1, h2, h3⟩ | ⟨h0, _⟩
    · exact (binds_sort wf false k _).1 ⟨_, h1, by rw [sl]; exact h2, h3, rfl⟩
    · exact absurd h0 hr
  · rcases hres with ⟨h1, _⟩ | ⟨_, h1, h2, h3, h4⟩
    · rw [h1] at hr
      exact absurd hr (by decide)
    · intro hk
      obtain ⟨i, i1, i2, i3⟩ := (hasKey_sort wf false k).2 hk
      rw [sl] at i2
      by_cases hlt : i < (FindPRec (bagOf h v) k p true).pos
      · have := h3 i i1 hlt
        omega
      · have := h4 i (by omega) i2
        omega

theorem sameView_sort {h h1 : Heap} {v : Obj} (wf : WellFormed (bagOf h v))
    (hb : ∀ u, bagOf h1 u = if u = v then SortPRecRNam (bagOf h v) false else bagOf h u) :
    SameView h h1 ∧ (RecWF h → RecWF h1) := by
  have sv : SameView h h1 := by
    intro u
    rw [hb u]
    by_cases e : u = v
    · rw [if_pos e, e]
      exact ⟨sort_tnum _ _, fun k x => binds_sort wf false k x⟩
    · rw [if_neg e]
      exact ⟨rfl, fun _ _ => Iff.rfl⟩
  refine ⟨sv, fun rw0 u hu => ?_⟩
  have hu0 : IS_PREC_REP (bagOf h u) = true ∨ TNUM_OBJ (bagOf h u) = T_COMOBJ := by
    simp only [IS_PREC_REP, TNUM_OBJ, (sv u).1] at hu
    exact hu
  rw [hb u]
  by_cases e : u = v
  · rw [if_pos e]
    exact sort_wellFormed wf false
  · rw [if_neg e]
    exact rw0 u hu0

/-- The last part of `MethodPRec`: the value bound to `op` in the record `o2`. -/
theorem methodOf_spec {h : Heap} (rw0 : RecWF h) (o2 : Obj) (op p : Nat) :
    SameView h (methodOf h o2 op p).1 ∧ RecWF (methodOf h o2 op p).1 ∧
    (IS_PREC_REP (bagOf h o2) = true → ∀ m, Binds (bagOf h o2) op m →
      (methodOf h o2 op p).2 = m) ∧
    ((¬ (IS_PREC_REP (bagOf h o2) = true) ∨ ¬ HasKey (bagOf h o2) op) →
      (methodOf h o2 op p).2 = 0) := by
  by_cases hrep : IS_PREC_REP (bagOf h o2) = true
  · have wf := rw0 o2 (Or.inl hrep)
    have hv := validRef_of_rep (Or.inl hrep)
    obtain ⟨hb, hfound, hmiss⟩ := find_heap wf hv op p
    obtain ⟨sv, rw1⟩ := sameView_sort wf hb
    obtain ⟨K, wK⟩ := wf.index
    by_cases hr : (FindPRec (bagOf h o2) op p true).ret = 0
    · have e : methodOf h o2 op p = (setBag h o2 (FindPRec (bagOf h o2) op p true).bag, 0) := by
        simp only [methodOf, hrep, not_true_eq_false, if_false, hr, if_true]
      rw [e]
      refine ⟨sv, rw1 rw0, fun _ m hm => ?_, fun _ => rfl⟩
      exact absurd ((hasKey_iff_binds _ _).2 ⟨m, hm⟩) (hmiss hr)
    · have e : methodOf h o2 op p = (setBag h o2 (FindPRec (bagOf h o2) op p true).bag,
          GET_ELM_PREC (SortPRecRNam (bagOf h o2) false)
            (FindPRec (bagOf h o2) op p true).pos) := by
        simp only [methodOf, hrep, not_true_eq_false, if_false, hr, hb o2, if_true]
      rw [e]
      refine ⟨sv, rw1 rw0, fun _ m hm => binds_unique wK (hfound hr) hm, ?_⟩
      rintro (hc | hc)
      · exact absurd hrep hc
      · exact absurd ((hasKey_iff_binds _ _).2 ⟨_, hfound hr⟩) hc
  · have e : methodOf h o2 op p = (h, 0) := by
      unfold methodOf
      rw [if_pos hrep]
    rw [e]
    exact ⟨SameView.view_refl h, rw0, fun hc => absurd hc hrep, fun _ => rfl⟩

theorem rep_congr {h h1 : Heap} (s : SameView h h1) (v : Obj) :
    IS_PREC_REP (bagOf h1 v) = IS_PREC_REP (bagOf h v) := by
  simp only [IS_PREC_REP, (s v).1]

/-- The last part of `MethodPRec`, once the operations record `o2` is known. -/
theorem method_tail {g : Globals} {h h1 : Heap} (sv : SameView h h1) (rw1 : RecWF h1)
    (rec : Obj) (op : Nat) (o2 : Obj) (p : Nat)
    (hs : ∀ m, Supplies g h rec op m ↔
      (IS_PREC_REP (bagOf h o2) = true ∧ Binds (bagOf h o2) op m)) :
    SameView h (methodOf h1 o2 op p).1 ∧ RecWF (methodOf h1 o2 op p).1 ∧
    (∀ m, Supplies g h rec op m → (methodOf h1 o2 op p).2 = m) ∧
    ((¬ ∃ m, Supplies g h rec op m) → (methodOf h1 o2 op p).2 = 0) := by
  obtain ⟨sv3, rw3, hit, miss⟩ := methodOf_spec rw1 o2 op p
  refine ⟨sv.view_trans sv3, rw3, fun m hm => ?_, fun hn => ?_⟩
  · obtain ⟨h1r, h1b⟩ := (hs m).1 hm
    exact hit (by rw [rep_congr sv]; exact h1r) m (((sv o2).2 op m).2 h1b)
  · apply miss
    by_contra hc
    push_neg at hc
    obtain ⟨c1, c2⟩ := hc
    obtain ⟨m, hm⟩ := (hasKey_iff_binds _ _).1 c2
    exact hn ⟨m, (hs m).2 ⟨by rw [← rep_congr sv]; exact c1, ((sv o2).2 op m).1 hm⟩⟩

/-- `MethodPRec` returns the handler the record supplies, and 0 if it supplies
none; the workspace keeps its types and bindings. -/
theorem methodPRec_spec (g : Globals) {h : Heap} (rw0 : RecWF h) (rec : Obj) (op : Nat) :
    SameView h (MethodPRec g h rec op).1 ∧ RecWF (MethodPRec g h rec op).1 ∧
    (∀ m, Supplies g h rec op m → (MethodPRec g h rec op).2 = m) ∧
    ((¬ ∃ m, Supplies g h rec op m) → (MethodPRec g h rec op).2 = 0) := by
  by_cases hrep : IS_PREC_REP (bagOf h rec) = true
  · have wf := rw0 rec (Or.inl hrep)
    have hv := validRef_of_rep (Or.inl hrep)
    obtain ⟨K, wK⟩ := wf.index
    obtain ⟨hb, hfound, hmiss⟩ := find_heap wf hv g.OperationsRNam 0
    obtain ⟨h1, e1⟩ : ∃ h1 : Heap,
      h1 = setBag h rec (FindPRec (bagOf h rec) g.OperationsRNam 0 true).bag := ⟨_, rfl⟩
    rw [← e1] at hb
    obtain ⟨sv1, rw1⟩ := sameView_sort wf hb
    by_cases hr : (FindPRec (bagOf h rec) g.OperationsRNam 0 true).ret = 0
    · have e : MethodPRec g h rec op = (h1, 0) := by
        unfold MethodPRec
        rw [if_neg (not_not.2 hrep)]
        simp only []
        rw [if_pos hr, e1]
      rw [e]
      refine ⟨sv1, rw1 rw0, fun m hm => ?_, fun _ => rfl⟩
      obtain ⟨_, o, ho, _⟩ := hm
      exact absurd ((hasKey_iff_binds _ _).2 ⟨o, ho⟩) (hmiss hr)
    · obtain ⟨o, eo⟩ : ∃ o : Obj, o = GET_ELM_PREC (bagOf h1 rec)
        (FindPRec (bagOf h rec) g.OperationsRNam 0 true).pos := ⟨_, rfl⟩
      have ho : Binds (bagOf h rec) g.OperationsRNam o := by
        rw [eo, hb rec, if_pos rfl]
        exact hfound hr
      by_cases hc : TNUM_OBJ (bagOf h1 o) = T_COMOBJ
      · have hc0 : TNUM_OBJ (bagOf h o) = T_COMOBJ := by
          rw [TNUM_OBJ, ← (sv1 o).1]
          exact hc
        have wfo := rw1 rw0 o (Or.inr hc)
        have wfo0 := rw0 o (Or.inr hc0)
        obtain ⟨Ko, wKo⟩ := wfo0.index
        have hvo := validRef_of_rep (Or.inr hc)
        obtain ⟨hb2, hfound2, hmiss2⟩ := find_heap wfo hvo g.COMPONENTSRNam
          (FindPRec (bagOf h rec) g.OperationsRNam 0 true).pos
        obtain ⟨h2, e2⟩ : ∃ h2 : Heap, h2 = setBag h1 o (FindPRec (bagOf h1 o) g.COMPONENTSRNam
          (FindPRec (bagOf h rec) g.OperationsRNam 0 true).pos true).bag := ⟨_, rfl⟩
        rw [← e2] at hb2
        obtain ⟨sv2, rw2⟩ := sameView_sort wfo hb2
        by_cases hr2 : (FindPRec (bagOf h1 o) g.COMPONENTSRNam
            (FindPRec (bagOf h rec) g.OperationsRNam 0 true).pos true).ret = 0
        · have e : MethodPRec g h rec op = (h2, 0) := by
            unfold MethodPRec
            rw [if_neg (not_not.2 hrep)]
            simp only []
            rw [if_neg hr, ← e1, ← eo, if_pos hc, if_pos hr2, e2]
          rw [e]
          refine ⟨sv1.view_trans sv2, rw2 (rw1 rw0), fun m hm => ?_, fun _ => rfl⟩
          obtain ⟨_, o', ho', o2, h2c, _⟩ := hm
          have eoo : o' = o := binds_unique wK ho' ho
          rw [eoo, if_pos hc0] at h2c
          exact absurd ((hasKey_iff_binds _ _).2 ⟨o2, ((sv1 o).2 _ o2).2 h2c⟩) (hmiss2 hr2)
        · obtain ⟨o2, eo2⟩ : ∃ o2 : Obj, o2 = GET_ELM_PREC (bagOf h2 o)
            (FindPRec (bagOf h1 o) g.COMPONENTSRNam
              (FindPRec (bagOf h rec) g.OperationsRNam 0 true).pos true).pos := ⟨_, rfl⟩
          have ho2 : Binds (bagOf h o) g.COMPONENTSRNam o2 := by
            rw [eo2, hb2 o, if_pos rfl]
            exact ((sv1 o).2 _ _).1 (hfound2 hr2)
          have e : MethodPRec g h rec op = methodOf h2 o2 op
              (FindPRec (bagOf h1 o) g.COMPONENTSRNam
                (FindPRec (bagOf h rec) g.OperationsRNam 0 true).pos true).pos := by
            unfold MethodPRec
            rw [if_neg (not_not.2 hrep)]
            simp only []
            rw [if_neg hr, ← e1, ← eo, if_pos hc, if_neg hr2, ← e2, ← eo2]
          rw [e]
          refine method_tail (sv1.view_trans sv2) (rw2 (rw1 rw0)) rec op o2 _ (fun m => ?_)
          constructor
          · rintro ⟨_, o', ho', o2', h2c, h2r, h2b⟩
            have eoo : o' = o := binds_unique wK ho' ho
            rw [eoo, if_pos hc0] at h2c
            have eo22 : o2' = o2 := binds_unique wKo h2c ho2
            rw [eo22] at h2r h2b
            exact ⟨h2r, h2b⟩
          · rintro ⟨h2r, h2b⟩
            exact ⟨hrep, o, ho, o2, by rw [if_pos hc0]; exact ho2, h2r, h2b⟩
      · have hc0 : ¬ (TNUM_OBJ (bagOf h o) = T_COMOBJ) := by
          rw [TNUM_OBJ, ← (sv1 o).1]
          exact hc
        have e : MethodPRec g h rec op = methodOf h1 o op
            (FindPRec (bagOf h rec) g.OperationsRNam 0 true).pos := by
          unfold MethodPRec
          rw [if_neg (not_not.2 hrep)]
          simp only []
          rw [if_neg hr, ← e1, ← eo, if_neg hc]
        rw [e]
        refine method_tail sv1 (rw1 rw0) rec op o _ (fun m => ?_)
        constructor
        · rintro ⟨_, o', ho', o2', h2c, h2r, h2b⟩
          have eoo : o' = o := binds_unique wK ho' ho
          rw [eoo, if_neg hc0] at h2c
          rw [h2c] at h2r h2b
          exact ⟨h2r, h2b⟩
        · rintro ⟨h2r, h2b⟩
          exact ⟨hrep, o, ho, o, by rw [if_neg hc0], h2r, h2b⟩
  · have e : MethodPRec g h rec op = (h, 0) := by
      unfold MethodPRec
      rw [if_pos hrep]
    rw [e]
    exact ⟨SameView.view_refl h, rw0, fun m hm => absurd hm.1 hrep, fun _ => rfl⟩

theorem recWF_demoMethods : RecWF demoMethods := by
  intro v hv
  have hval := validRef_of_rep hv
  have five : ∀ v : Nat, ValidRef demoMethods v → v = 2 ∨ v = 4 ∨ v = 6 ∨ v = 8 ∨ v = 10 := by
    intro v hv
    obtain ⟨h1, h2⟩ := hv
    simp only [isBagRef, Bool.and_eq_true, beq_iff_eq, bne_iff_ne, ne_eq] at h1
    have h3 : v % 2 = 0 := h1.1
    have h4 : ¬ (v = 0) := h1.2
    have h5 : v / 2 - 1 < 5 := h2
    omega
  rcases five v hval with e | e | e | e | e <;> rw [e]
  · exact ⟨by decide, 0, by decide, by decide, by decide, by decide, by decide⟩
  · exact ⟨by decide, 2, by decide, by decide, by decide, by decide, by decide⟩
  · exact ⟨by decide, 1, by decide, by decide, by decide, by decide, by decide⟩
  · exact ⟨by decide, 1, by decide, by decide, by decide, by decide, by decide⟩
  · exact ⟨by decide, 0, by decide, by decide, by decide, by decide, by decide⟩

/-- Claim C28: in a workspace whose records and component objects are well
formed, `MethodPRec(rec, op)` returns `m` whenever `rec` supplies the handler
`m` for `op` (it is a record with an `operations` slot whose value, or for a
component object the value of its `COMPONENTS` slot, is a record binding `op`
to `m`), and 0 in every other case; so a result other than 0 is a handler that
`rec` supplies. -/
theorem method_lookup (g : Globals) (h : Heap) (rec : Obj) (op : Nat) (wf : RecWF h) :
    (∀ m, Supplies g h rec op m → (MethodPRec g h rec op).2 = m) ∧
    ((¬ ∃ m, Supplies g h rec op m) → (MethodPRec g h rec op).2 = 0) ∧
    ((MethodPRec g h rec op).2 ≠ 0 → Supplies g h rec op (MethodPRec g h rec op).2) := by
  obtain ⟨_, _, hit, miss⟩ := methodPRec_spec g wf rec op
  refine ⟨hit, miss, fun hne => ?_⟩
  by_contra hc
  by_cases hex : ∃ m, Supplies g h rec op m
  · obtain ⟨m, hm⟩ := hex
    rw [hit m hm] at hc
    exact hc hm
  · exact hne (miss hex)

theorem method_lookup_witness :
    RecWF demoMethods ∧
    ((∀ m, Supplies demoGlobals demoMethods 8 14 m →
        (MethodPRec demoGlobals demoMethods 8 14).2 = m) ∧
      ((¬ ∃ m, Supplies demoGlobals demoMethods 8 14 m) →
        (MethodPRec demoGlobals demoMethods 8 14).2 = 0) ∧
      ((MethodPRec demoGlobals demoMethods 8 14).2 ≠ 0 →
        Supplies demoGlobals demoMethods 8 14 (MethodPRec demoGlobals demoMethods 8 14).2)) :=
  ⟨recWF_demoMethods, method_lookup demoGlobals demoMethods 8 14 recWF_demoMethods⟩

/-- The handlers found in `demoMethods`: through the operations record, through
the component object, and none for a record without operations, for a name the
operations record does not bind, and for an immediate object. -/
theorem methodPRec_demo :
    (MethodPRec demoGlobals demoMethods 2 14).2 = 103 ∧
    (MethodPRec demoGlobals demoMethods 8 14).2 = 103 ∧
    (MethodPRec demoGlobals demoMethods 2 13).2 = 101 ∧
    (MethodPRec demoGlobals demoMethods 6 14).2 = 0 ∧
    (MethodPRec demoGlobals demoMethods 2 15).2 = 0 ∧
    (MethodPRec demoGlobals demoMethods 5 14).2 = 0 := by
  decide

/-- The search of the two sided entry points: the right operand's method, else the
left operand's. -/
theorem two_sided_search (g : Globals) {h : Heap} (wf : RecWF h) (op : Nat)
    (left right m : Obj) :
    (Supplies g h right op m → (MethodPRec g h right op).2 = m) ∧
    ((∀ m1, Supplies g h right op m1 → m1 = 0) → Supplies g h left op m →
      (MethodPRec g h right op).2 = 0 ∧
      (MethodPRec g (MethodPRec g h right op).1 left op).2 = m) := by
  obtain ⟨sv, rw1, hit, miss⟩ := methodPRec_spec g wf right op
  refine ⟨hit m, fun hno hl => ?_⟩
  have hz : (MethodPRec g h right op).2 = 0 := by
    by_cases hex : ∃ m1, Supplies g h right op m1
    · obtain ⟨m1, h1⟩ := hex
      rw [hit m1 h1]
      exact hno m1 h1
    · exact miss hex
  obtain ⟨_, _, hit2, _⟩ := methodPRec_spec g rw1 left op
  exact ⟨hz, hit2 m ((Supplies.view_congr sv).2 hl)⟩

/-- Claim C29 (what the code does): in a workspace whose records and component
objects are well formed, the ten entry points for sum, difference, product,
quotient, left quotient, power, commutator, remainder, equality and ordering
call the handler of the right operand with `(left, right)` if it supplies one,
and otherwise the handler of the left operand if that supplies one; the entry
point for membership asks the right operand only and reports that it has no
method when the right operand supplies none. -/
theorem operators_try_right_then_left (g : Globals) (NAME_RNAM : Nat → String)
    (EQ LT : Heap → Obj → Obj → Bool) (h : Heap) (wf : RecWF h) :
    RightThenLeft g h g.SumRNam (FuncSUM_PREC g) ∧
    RightThenLeft g h g.DiffRNam (FuncDIFF_PREC g) ∧
    RightThenLeft g h g.ProdRNam (FuncPROD_PREC g) ∧
    RightThenLeft g h g.QuoRNam (FuncQUO_PREC g) ∧
    RightThenLeft g h g.LQuoRNam (FuncLQUO_PREC g) ∧
    RightThenLeft g h g.PowRNam (FuncPOW_PREC g) ∧
    RightThenLeft g h g.CommRNam (FuncCOMM_PREC g) ∧
    RightThenLeft g h g.ModRNam (FuncMOD_PREC g) ∧
    RightThenLeft g h g.EqRNam (FuncEQ_PREC g EQ) ∧
    RightThenLeft g h g.LtRNam (FuncLT_PREC g NAME_RNAM EQ LT) ∧
    RightOnly g h g.InRNam (FuncIN_PREC g) := by
  have key : ∀ (op : Nat) (F : Heap → Obj → Obj → Heap × Outcome),
      (∀ left right, (MethodPRec g h right op).2 ≠ 0 →
        (F h left right).2 = Outcome.CALL_2ARGS (MethodPRec g h right op).2 left right) →
      (∀ left right, (MethodPRec g h right op).2 = 0 →
        (MethodPRec g (MethodPRec g h right op).1 left op).2 ≠ 0 →
        (F h left right).2 = Outcome.CALL_2ARGS
          (MethodPRec g (MethodPRec g h right op).1 left op).2 left right) →
      RightThenLeft g h op F := by
    intro op F h1 h2 left right m hm
    obtain ⟨s1, s2⟩ := two_sided_search g wf op left right m
    refine ⟨fun hs => ?_, fun hno hl => ?_⟩
    · have e := s1 hs
      have := h1 left right (by rw [e]; exact hm)
      rw [e] at this
      exact this
    · obtain ⟨e1, e2⟩ := s2 hno hl
      have := h2 left right e1 (by rw [e2]; exact hm)
      rw [e2] at this
      exact this
  refine ⟨key _ _ ?_ ?_, key _ _ ?_ ?_, key _ _ ?_ ?_, key _ _ ?_ ?_, key _ _ ?_ ?_, key _ _ ?_ ?_, key _ _ ?_ ?_, key _ _ ?_ ?_, key _ _ ?_ ?_, key _ _ ?_ ?_, ?_⟩
  · intro left right hne
    simp only [FuncSUM_PREC, if_pos hne]
  · intro left right hz hne
    have hz2 : ¬ ((MethodPRec g h right g.SumRNam).2 ≠ 0) := not_not.2 hz
    simp only [FuncSUM_PREC, if_neg hz2, if_pos hne]
  · intro left right hne
    simp only [FuncDIFF_PREC, if_pos hne]
  · intro left right hz hne
    have hz2 : ¬ ((MethodPRec g h right g.DiffRNam).2 ≠ 0) := not_not.2 hz
    simp only [FuncDIFF_PREC, if_neg hz2, if_pos hne]
  · intro left right hne
    simp only [FuncPROD_PREC, if_pos hne]
  · intro left right hz hne
    have hz2 : ¬ ((MethodPRec g h right g.ProdRNam).2 ≠ 0) := not_not.2 hz
    simp only [FuncPROD_PREC, if_neg hz2, if_pos hne]
  · intro left right hne
    simp only [FuncQUO_PREC, if_pos hne]
  · intro left right hz hne
    have hz2 : ¬ ((MethodPRec g h right g.QuoRNam).2 ≠ 0) := not_not.2 hz
    simp only [FuncQUO_PREC, if_neg hz2, if_pos hne]
  · intro left right hne
    simp only [FuncLQUO_PREC, if_pos hne]
  · intro left right hz hne
    have hz2 : ¬ ((MethodPRec g h right g.LQuoRNam).2 ≠ 0) := not_not.2 hz
    simp only [FuncLQUO_PREC, if_neg hz2, if_pos hne]
  · intro left right hne
    simp only [FuncPOW_PREC, if_pos hne]
  · intro left right hz hne
    have hz2 : ¬ ((MethodPRec g h right g.PowRNam).2 ≠ 0) := not_not.2 hz
    simp only [FuncPOW_PREC, if_neg hz2, if_pos hne]
  · intro left right hne
    simp only [FuncCOMM_PREC, if_pos hne]
  · intro left right hz hne
    have hz2 : ¬ ((MethodPRec g h right g.CommRNam).2 ≠ 0) := not_not.2 hz
    simp only [FuncCOMM_PREC, if_neg hz2, if_pos hne]
  · intro left right hne
    simp only [FuncMOD_PREC, if_pos hne]
  · intro left right hz hne
    have hz2 : ¬ ((MethodPRec g h right g.ModRNam).2 ≠ 0) := not_not.2 hz
    simp only [FuncMOD_PREC, if_neg hz2, if_pos hne]
  · intro left right hne
    simp only [FuncEQ_PREC, if_pos hne]
  · intro left right hz hne
    have hz2 : ¬ ((MethodPRec g h right g.EqRNam).2 ≠ 0) := not_not.2 hz
    simp only [FuncEQ_PREC, if_neg hz2, if_pos hne]
  · intro left right hne
    simp only [FuncLT_PREC, if_pos hne]
  · intro left right hz hne
    have hz2 : ¬ ((MethodPRec g h right g.LtRNam).2 ≠ 0) := not_not.2 hz
    simp only [FuncLT_PREC, if_neg hz2, if_pos hne]
  · intro left right
    obtain ⟨_, _, hit, miss⟩ := methodPRec_spec g wf right g.InRNam
    refine ⟨fun m hm hs => ?_, fun hno => ?_⟩
    · have e := hit m hs
      have hne : (MethodPRec g h right g.InRNam).2 ≠ 0 := by
        rw [e]
        exact hm
      simp only [FuncIN_PREC, e, if_pos hm]
    · have hz : (MethodPRec g h right g.InRNam).2 = 0 := by
        by_cases hex : ∃ m1, Supplies g h right g.InRNam m1
        · obtain ⟨m1, h1⟩ := hex
          rw [hit m1 h1]
          exact hno m1 h1
        · exact miss hex
      have hz2 : ¬ ((MethodPRec g h right g.InRNam).2 ≠ 0) := not_not.2 hz
      simp only [FuncIN_PREC, if_neg hz2]

theorem operators_try_right_then_left_witness :
    RecWF demoMethods ∧
    (RightThenLeft demoGlobals demoMethods demoGlobals.SumRNam (FuncSUM_PREC demoGlobals) ∧
    RightThenLeft demoGlobals demoMethods demoGlobals.DiffRNam (FuncDIFF_PREC demoGlobals) ∧
    RightThenLeft demoGlobals demoMethods demoGlobals.ProdRNam (FuncPROD_PREC demoGlobals) ∧
    RightThenLeft demoGlobals demoMethods demoGlobals.QuoRNam (FuncQUO_PREC demoGlobals) ∧
    RightThenLeft demoGlobals demoMethods demoGlobals.LQuoRNam (FuncLQUO_PREC demoGlobals) ∧
    RightThenLeft demoGlobals demoMethods demoGlobals.PowRNam (FuncPOW_PREC demoGlobals) ∧
    RightThenLeft demoGlobals demoMethods demoGlobals.CommRNam (FuncCOMM_PREC demoGlobals) ∧
    RightThenLeft demoGlobals demoMethods demoGlobals.ModRNam (FuncMOD_PREC demoGlobals) ∧
    RightThenLeft demoGlobals demoMethods demoGlobals.EqRNam (FuncEQ_PREC demoGlobals (EQ 3)) ∧
    RightThenLeft demoGlobals demoMethods demoGlobals.LtRNam 
      (FuncLT_PREC demoGlobals demoName (EQ 3) (fun _ => demoLT)) ∧
    RightOnly demoGlobals demoMethods demoGlobals.InRNam (FuncIN_PREC demoGlobals)) :=
  ⟨recWF_demoMethods, operators_try_right_then_left demoGlobals demoName (EQ 3)
    (fun _ => demoLT) demoMethods recWF_demoMethods⟩

/-- Claim C29 (counterexample): in `demoMethods` the record of handle 2 supplies
the handler 101 for `in` and the record of handle 6 supplies none; with 2 as
left and 6 as right operand `FuncIN_PREC` never asks the left operand and
reports that it has no method, while `FuncSUM_PREC` on the same operands calls
the handler 103 that the left operand supplies for `+`. -/
theorem membership_ignores_left_handler :
    (MethodPRec demoGlobals demoMethods 2 demoGlobals.InRNam).2 = 101 ∧
    (MethodPRec demoGlobals demoMethods 6 demoGlobals.InRNam).2 = 0 ∧
    (FuncIN_PREC demoGlobals demoMethods 2 6).2 = Outcome.TRY_NEXT_METHOD ∧
    (FuncIN_PREC demoGlobals demoMethods 2 6).2 ≠ Outcome.CALL_2ARGS 101 2 6 ∧
    (FuncSUM_PREC demoGlobals demoMethods 2 6).2 = Outcome.CALL_2ARGS 103 2 6 := by
  decide

theorem stack_bound {h0 h : Heap} {T : Nat} {S : List Obj} (st : StackOK h0 h T S) :
    S.length ≤ h0.length := by
  have hv : ∀ s ∈ S, ValidRef h0 s := by
    intro s hs
    obtain ⟨c, f⟩ := st.2 s hs
    exact f.mutRec.1
  have hnd : (S.map indexOf).Nodup := by
    refine List.Nodup.map_on ?_ st.1
    intro a ha b hb e
    exact indexOf_inj (hv a ha).1 (hv b hb).1 e
  have hsub : S.map indexOf ⊆ List.range h0.length := by
    intro i hi
    obtain ⟨s, hs, e⟩ := List.mem_map.1 hi
    rw [← e]
    exact List.mem_range.2 (hv s hs).2
  have := (List.subperm_of_subset hnd hsub).length_le
  simpa using this

theorem StackOK.stack_mono {h0 h h1 : Heap} {T : Nat} {S : List Obj} {x : Obj}
    (st : StackOK h0 h T S) (m : FwdMonoX h0 h h1 T x) : StackOK h0 h1 T S :=
  ⟨st.1, fun s hs => by
    obtain ⟨c, f⟩ := st.2 s hs
    exact ⟨c, (m.2 s c f).1⟩⟩

theorem inProgressS_write {h0 h : Heap} {T : Nat} {S : List Obj} {v c : Obj} {i : Nat}
    (p : InProgressS h0 h T S v c i) (g : PRec → PRec)
    (hk : CopyKeep (bagOf h c) (g (bagOf h c)))
    (hg : ∀ k, 1 ≤ k → k < i →
      GET_RNAM_PREC (g (bagOf h c)) k = GET_RNAM_PREC (bagOf h c) k ∧
      GET_ELM_PREC (g (bagOf h c)) k = GET_ELM_PREC (bagOf h c) k) :
    InProgressS h0 (onBag h c g) T S v c i ∧ FwdMonoX h0 h (onBag h c g) T v ∧
    bagOf (onBag h c g) c = g (bagOf h c) := by
  obtain ⟨inv, dn, st, fw, sl⟩ := p
  obtain ⟨inv1, mono, back, hb⟩ := copy_write inv fw g hk
  have hbc : bagOf (onBag h c g) c = g (bagOf h c) := by rw [hb, if_pos rfl]
  refine ⟨⟨inv1, ?_, st.stack_mono mono, (mono.2 v c fw).1, ?_⟩, mono, hbc⟩
  · intro u cu f hr
    have f0 := back u cu f
    have huv : u ≠ v := by
      intro e
      rw [e] at hr
      exact hr (List.mem_cons_self _ _)
    exact mono.keeps_but huv (dn u cu f0 hr)
  · intro k h1 h2
    obtain ⟨s1, s2, s3⟩ := sl k h1 h2
    obtain ⟨g1, g2⟩ := hg k h1 h2
    unfold SlotDone
    rw [hbc, g1, g2]
    exact ⟨s1, fun m => (mono.2 _ _ (s2 m)).1, s3⟩

theorem inProgressS_child {h0 h : Heap} {T : Nat} {S : List Obj} {v c : Obj} {i : Nat}
    {COPY : Heap → Obj → Option (Heap × Obj)}
    (p : InProgressS h0 h T S v c i) (spec : CopySpecS h0 T (v :: S) COPY) (x : Obj)
    (hx1 : isBagRef x = true → ValidRef h0 x) :
    ∃ h2 tmp, COPY h x = some (h2, tmp) ∧ InProgressS h0 h2 T S v c i ∧
      FwdMonoX h0 h h2 T v ∧ bagOf h2 c = bagOf h c ∧
      (IsMutRec h0 x → Forwarded h0 h2 T x tmp) ∧ (¬ IsMutRec h0 x → tmp = x) := by
  obtain ⟨inv, dn, st, fw, sl⟩ := p
  obtain ⟨h2, tmp, e, inv2, mono, dn2, r1, r2⟩ := spec h x inv dn st hx1
  exact ⟨h2, tmp, e, ⟨inv2, dn2, st.stack_mono (mono.toX v), (mono.2 v c fw).1, fun k h1 h2 =>
    (sl k h1 h2).slot_frame (fun u cu f => (mono.2 u cu f).1) (mono.2 v c fw).2⟩,
    mono.toX v, (mono.2 v c fw).2, r1, r2⟩

theorem inProgressS_extend {h0 h : Heap} {T : Nat} {S : List Obj} {v c : Obj} {i : Nat}
    (p : InProgressS h0 h T S v c i) (s : SlotDone h0 h T v c i) :
    InProgressS h0 h T S v c (i + 1) := by
  obtain ⟨inv, dn, st, fw, sl⟩ := p
  refine ⟨inv, dn, st, fw, fun k h1 h2 => ?_⟩
  by_cases e : k = i
  · rw [e]
    exact s
  · exact sl k h1 (by omega)

/-- The loop of `CopyPRec` finishes the slots `i` to `N` of the copy, whatever
the value graph. -/
theorem copyLoop_total {h0 : Heap} {T : Nat} {S : List Obj} {v c : Obj}
    {COPY : Heap → Obj → Option (Heap × Obj)} (spec : CopySpecS h0 T (v :: S) COPY)
    (hch : ∀ i, 1 ≤ i → i ≤ (bagOf h0 v).len →
      isBagRef (GET_ELM_PREC (bagOf h0 v) i) = true → ValidRef h0 (GET_ELM_PREC (bagOf h0 v) i)) :
    ∀ (n i : Nat) (h : Heap), 2 ≤ i → i + n = (bagOf h0 v).len + 1 →
      InProgressS h0 h T S v c i →
      ∃ h1, copyLoop COPY v c i n h = some h1 ∧
        InProgressS h0 h1 T S v c ((bagOf h0 v).len + 1) ∧ FwdMonoX h0 h h1 T v ∧
        (bagOf h1 c).len = (bagOf h c).len := by
  intro n
  induction n with
  | zero =>
    intro i h _ hn p
    have e : i = (bagOf h0 v).len + 1 := by omega
    rw [← e]
    exact ⟨h, rfl, p, ⟨le_refl _, fun u cu f => ⟨f, fun _ => rfl⟩⟩, rfl⟩
  | succ n ih =>
    intro i h hi2 hn p
    have hi : i ≤ (bagOf h0 v).len := by omega
    have fw := p.2.2.2.1
    have hname : GET_RNAM_PREC (bagOf h v) i = GET_RNAM_PREC (bagOf h0 v) i := fw.names i hi2 hi
    have hroom : i ≤ (bagOf h c).slots.length := le_trans hi fw.room
    -- the name of slot `i`
    obtain ⟨p1, st1, bc1⟩ := inProgressS_write p
      (fun b => SET_RNAM_PREC b i (GET_RNAM_PREC (bagOf h v) i))
      ⟨(frame_set_rnam _ _ _).2.2.1, (frame_set_rnam _ _ _).2.1, (frame_set_rnam _ _ _).2.2.2, by
        rw [get_rnam_set_rnam, if_neg]
        rintro ⟨e, _⟩
        omega⟩
      (fun k _ hk => ⟨by
        rw [get_rnam_set_rnam, if_neg]
        rintro ⟨e, _⟩
        omega, get_elm_set_rnam _ _ _ _⟩)
    have fw1 := p1.2.2.2.1
    have helm := fw1.elms i (by omega) hi
    -- the value of slot `i`
    obtain ⟨h2, tmp, e2, p2, st2, bc2, r1, r2⟩ := inProgressS_child p1 spec
      (GET_ELM_PREC (bagOf h0 v) i) (hch i (by omega) hi)
    have fw2 := p2.2.2.2.1
    have hroom2 : i ≤ (bagOf h2 c).slots.length := le_trans hi fw2.room
    obtain ⟨p3, st3, bc3⟩ := inProgressS_write p2 (fun b => SET_ELM_PREC b i tmp)
      ⟨(frame_set_elm _ _ _).2.2.1, (frame_set_elm _ _ _).2.1, (frame_set_elm _ _ _).2.2.2,
        get_rnam_set_elm _ _ _ _⟩
      (fun k _ hk => ⟨get_rnam_set_elm _ _ _ _, by
        rw [get_elm_set_elm, if_neg]
        rintro ⟨e, _⟩
        omega⟩)
    have sd : SlotDone h0 (onBag h2 c (fun b => SET_ELM_PREC b i tmp)) T v c i := by
      unfold SlotDone
      rw [bc3]
      refine ⟨?_, ?_, ?_⟩
      · show GET_RNAM_PREC (SET_ELM_PREC (bagOf h2 c) i tmp) i = _
        rw [get_rnam_set_elm, bc2, bc1]
        show GET_RNAM_PREC (SET_RNAM_PREC (bagOf h c) i _) i = _
        rw [get_rnam_set_rnam, if_pos ⟨rfl, by omega, hroom⟩, hname]
      · intro m
        show Forwarded h0 _ T _ (GET_ELM_PREC (SET_ELM_PREC (bagOf h2 c) i tmp) i)
        rw [get_elm_set_elm, if_pos ⟨rfl, by omega, hroom2⟩]
        exact (st3.2 _ _ (r1 m)).1
      · intro m
        show GET_ELM_PREC (SET_ELM_PREC (bagOf h2 c) i tmp) i = _
        rw [get_elm_set_elm, if_pos ⟨rfl, by omega, hroom2⟩]
        exact r2 m
    obtain ⟨h4, e4, p4, st4, l4⟩ := ih (i + 1) _ (by omega) (by omega) (inProgressS_extend p3 sd)
    refine ⟨h4, ?_, p4, (st1.fwdx_trans st2).fwdx_trans (st3.fwdx_trans st4), ?_⟩
    · simp only [copyLoop]
      rw [helm, e2]
      exact e4
    · rw [l4, bc3]
      show (SET_ELM_PREC (bagOf h2 c) i tmp).len = _
      rw [(frame_set_elm _ _ _).1, bc2, bc1]
      exact (frame_set_rnam _ _ _).1

theorem children_valid {h0 : Heap} {v : Obj} (ok : HeapOK h0) (mv : IsMutRec h0 v) :
    ∀ i, 1 ≤ i → i ≤ (bagOf h0 v).len →
      isBagRef (GET_ELM_PREC (bagOf h0 v) i) = true →
      ValidRef h0 (GET_ELM_PREC (bagOf h0 v) i) := by
  intro i h1 h2
  obtain ⟨_, _, hrec⟩ := ok v mv.1
  obtain ⟨_, _, _, hval⟩ := hrec mv.2
  exact hval i h1 h2

/-- `CopyPRec` on a mutable record that has no marker yet, whatever the value
graph. -/
theorem copyPRecWith_total {h0 : Heap} {S : List Obj} {v : Obj} {mutFlag : Bool}
    {COPY : Heap → Obj → Option (Heap × Obj)} {h : Heap}
    (ok : HeapOK h0) (spec : CopySpecS h0 (copyType mutFlag) (v :: S) COPY)
    (inv : FwdInv h0 h (copyType mutFlag)) (dn : FwdDoneS h0 h (copyType mutFlag) S)
    (st : StackOK h0 h (copyType mutFlag) S)
    (mv : IsMutRec h0 v) (unt : bagOf h v = bagOf h0 v) :
    ∃ h1, CopyPRecWith COPY h v mutFlag = some (h1, handleOf h.length) ∧
      FwdInv h0 h1 (copyType mutFlag) ∧
      FwdMono h0 h h1 (copyType mutFlag) ∧ FwdDoneS h0 h1 (copyType mutFlag) S ∧
      Forwarded h0 h1 (copyType mutFlag) v (handleOf h.length) := by
  have hm : ¬ (IS_MUTABLE_OBJ (bagOf h v) = false) := by
    rw [unt]
    simp [IS_MUTABLE_OBJ, mv.2]
  have hT : (if mutFlag = true then TNUM_OBJ (bagOf h v)
      else IMMUTABLE_TNUM (TNUM_OBJ (bagOf h v))) = copyType mutFlag := by
    rw [TNUM_OBJ, unt, mv.2]
    rfl
  have hnv : ∀ u cu, Forwarded h0 h (copyType mutFlag) u cu → u ≠ v := by
    intro u cu f e
    rw [e] at f
    exact f.changed unt
  have hvS : v ∉ S := by
    intro hc
    obtain ⟨c, f⟩ := st.2 v hc
    exact hnv v c f rfl
  by_cases hz : (bagOf h0 v).len = 0
  · have hl : LEN_PREC (bagOf h v) = 0 := by
      rw [unt]
      exact hz
    obtain ⟨hlen, hsame, fw, hcl⟩ := begin_empty ok inv mv unt hz _ _ _ _ rfl rfl rfl rfl
    obtain ⟨inv3, mono3, back3⟩ := forward_step inv unt hlen hsame fw
    refine ⟨_, ?_, inv3, mono3, ?_, fw⟩
    · simp only [CopyPRecWith, if_neg hm, if_pos hl, hT, allocBag]
    · intro u cu f hr
      rcases back3 u cu f with e | f0
      · rw [e]
        refine ⟨_, fw, by rw [hcl, hz], fun i h1 h2 => ?_⟩
        omega
      · exact mono3.keeps (dn u cu f0 hr)
  · have hpos : 0 < (bagOf h0 v).len := by omega
    have hl : ¬ (LEN_PREC (bagOf h v) = 0) := by
      rw [unt]
      exact hz
    have hch := children_valid ok mv
    obtain ⟨h3, e3⟩ : ∃ h3 : Heap, h3 = onBag (onBag (onBag
        (h ++ [NewBag (copyType mutFlag) (SIZE_OBJ (bagOf h v))]) (handleOf h.length)
        (fun b => SET_RNAM_PREC b 1 (GET_RNAM_PREC
          (bagOf (h ++ [NewBag (copyType mutFlag) (SIZE_OBJ (bagOf h v))]) v) 1)))
        v (fun b => SET_RNAM_PREC b 1 ((handleOf h.length : Obj) : Int)))
        v (fun b => RetypeBag b (TNUM_OBJ b + COPYING)) := ⟨_, rfl⟩
    obtain ⟨hlen, hsame, fw, hlv⟩ := begin_nonempty ok inv mv unt hpos _ _ _ h3 rfl rfl rfl e3
    obtain ⟨inv3, mono3, back3⟩ := forward_step inv unt hlen hsame fw
    have p3 : InProgressS h0 h3 (copyType mutFlag) S v (handleOf h.length) 1 := by
      refine ⟨inv3, ?_, ⟨List.nodup_cons.2 ⟨hvS, st.1⟩, ?_⟩, fw, fun k h1 h2 => ?_⟩
      · intro u cu f hr
        rcases back3 u cu f with e | f0
        · rw [e] at hr
          exact absurd (List.mem_cons_self _ _) hr
        · exact mono3.keeps (dn u cu f0 (fun hc => hr (List.mem_cons_of_mem _ hc)))
      · intro s hs
        rcases List.mem_cons.1 hs with e | hs1
        · rw [e]
          exact ⟨_, fw⟩
        · obtain ⟨c, f⟩ := st.2 s hs1
          exact ⟨c, (mono3.2 s c f).1⟩
      · omega
    have helm := fw.elms 1 (le_refl _) hpos
    obtain ⟨h4, tmp, e4, p4, st4, bc4, r1, r2⟩ := inProgressS_child p3 spec
      (GET_ELM_PREC (bagOf h0 v) 1) (hch 1 (le_refl _) hpos)
    have fw4 := p4.2.2.2.1
    obtain ⟨p5, st5, bc5⟩ := inProgressS_write p4
      (fun b => SET_LEN_PREC b (LEN_PREC (bagOf h4 v)))
      ⟨rfl, rfl, rfl, get_rnam_set_len _ _ _⟩
      (fun k _ _ => ⟨get_rnam_set_len _ _ _, get_elm_set_len _ _ _⟩)
    obtain ⟨p6, st6, bc6⟩ := inProgressS_write p5 (fun b => SET_ELM_PREC b 1 tmp)
      ⟨(frame_set_elm _ _ _).2.2.1, (frame_set_elm _ _ _).2.1, (frame_set_elm _ _ _).2.2.2,
        get_rnam_set_elm _ _ _ _⟩
      (fun k _ hk => ⟨get_rnam_set_elm _ _ _ _, by
        rw [get_elm_set_elm, if_neg]
        rintro ⟨e, _⟩
        omega⟩)
    have hroom4 : 1 ≤ (bagOf h4 (handleOf h.length)).slots.length := le_trans hpos fw4.room
    have hb6 : bagOf (onBag (onBag h4 (handleOf h.length)
          (fun b => SET_LEN_PREC b (LEN_PREC (bagOf h4 v))))
          (handleOf h.length) (fun b => SET_ELM_PREC b 1 tmp)) (handleOf h.length) =
        SET_ELM_PREC (SET_LEN_PREC (bagOf h4 (handleOf h.length)) (LEN_PREC (bagOf h4 v))) 1 tmp := by
      rw [bc6, bc5]
    have sd : SlotDone h0 (onBag (onBag h4 (handleOf h.length)
          (fun b => SET_LEN_PREC b (LEN_PREC (bagOf h4 v))))
          (handleOf h.length) (fun b => SET_ELM_PREC b 1 tmp)) (copyType mutFlag) v
          (handleOf h.length) 1 := by
      unfold SlotDone
      rw [hb6]
      refine ⟨?_, ?_, ?_⟩
      · rw [get_rnam_set_elm, get_rnam_set_len]
        exact fw4.cname hpos
      · intro m
        rw [get_elm_set_elm, if_pos ⟨rfl, le_refl _, hroom4⟩]
        exact (st6.2 _ _ ((st5.2 _ _ (r1 m)).1)).1
      · intro m
        rw [get_elm_set_elm, if_pos ⟨rfl, le_refl _, hroom4⟩]
        exact r2 m
    have hlen6 : LEN_PREC (bagOf (onBag (onBag h4 (handleOf h.length)
          (fun b => SET_LEN_PREC b (LEN_PREC (bagOf h4 v))))
          (handleOf h.length) (fun b => SET_ELM_PREC b 1 tmp)) (handleOf h.length)) =
        (bagOf h0 v).len := by
      rw [hb6]
      show (SET_ELM_PREC _ _ _).len = _
      rw [(frame_set_elm _ _ _).1]
      exact fw4.len
    obtain ⟨h7, e7, p7, st7, l7⟩ := copyLoop_total spec hch ((bagOf h0 v).len - 1) 2 _
      (le_refl _) (by omega) (inProgressS_extend p6 sd)
    have stt : FwdMonoX h0 h3 h7 (copyType mutFlag) v :=
      ((st4.fwdx_trans st5).fwdx_trans st6).fwdx_trans st7
    refine ⟨h7, ?_, p7.1, ?_, ?_, p7.2.2.2.1⟩
    · simp only [CopyPRecWith, if_neg hm, if_neg hl, hT, allocBag]
      rw [← e3, helm, e4]
      simp only []
      rw [hlen6, e7]
    · refine ⟨le_trans mono3.1 stt.1, fun u cu f => ?_⟩
      obtain ⟨f3, b3⟩ := mono3.2 u cu f
      obtain ⟨f7, b7⟩ := stt.2 u cu f3
      exact ⟨f7, (b7 (hnv u cu f)).trans b3⟩
    · intro u cu f hr
      by_cases huv : u = v
      · rw [huv]
        refine ⟨_, p7.2.2.2.1, ?_, fun i h1 h2 => p7.2.2.2.2 i h1 (by omega)⟩
        rw [l7]
        exact hlen6
      · exact p7.2.1 u cu f (fun hc => by
          rcases List.mem_cons.1 hc with e | hs
          · exact huv e
          · exact hr hs)

/-- `COPY_OBJ` returns for every value graph when its recursion depth exceeds the
number of bags that are not being copied. -/
theorem copy_obj_total {h0 : Heap} {mutFlag : Bool} (ok : HeapOK h0) :
    ∀ (fuel : Nat) (S : List Obj), h0.length + 1 ≤ fuel + S.length →
      CopySpecS h0 (copyType mutFlag) S (fun h x => COPY_OBJ fuel h x mutFlag) := by
  intro fuel
  induction fuel with
  | zero =>
    intro S hS h x inv dn st _
    have := stack_bound st
    omega
  | succ fuel ih =>
    intro S hS h x inv dn st hx1
    by_cases mx : IsMutRec h0 x
    · rcases inv.2.1 x mx.1 with unt | ⟨cx, fx⟩
      · have spec := ih (x :: S) (by simp only [List.length_cons]; omega)
        obtain ⟨h1, e, inv1, mono, dn1, fw⟩ := copyPRecWith_total ok spec inv dn st mx unt
        refine ⟨h1, _, ?_, inv1, mono, dn1, fun _ => fw, fun n => absurd mx n⟩
        show COPY_OBJ (fuel + 1) h x mutFlag = _
        simp only [COPY_OBJ]
        rw [if_pos (Or.inl (by rw [TNUM_OBJ, unt]; exact mx.2))]
        exact e
      · refine ⟨h, cx, ?_, inv, FwdMono.fwd_refl _ _ _, dn, fun _ => fx, fun n => absurd mx n⟩
        show COPY_OBJ (fuel + 1) h x mutFlag = _
        have ht : TNUM_OBJ (bagOf h x) = T_PREC + COPYING := fx.tnum
        simp only [COPY_OBJ]
        rw [if_neg (by rw [ht]; decide), if_pos (Or.inl ht)]
        simp only [CopyPRecCopy, fx.ptr, Int.toNat_ofNat]
    · obtain ⟨t1, t2, t3⟩ := tnum_of_not_mutRec ok inv hx1 mx
      refine ⟨h, x, ?_, inv, FwdMono.fwd_refl _ _ _, dn, fun m => absurd m mx, fun _ => rfl⟩
      show COPY_OBJ (fuel + 1) h x mutFlag = _
      simp only [COPY_OBJ, TNUM_OBJ]
      by_cases hi : (bagOf h x).tnum = T_PREC + IMMUTABLE
      · rw [if_pos (Or.inr hi)]
        have hm : IS_MUTABLE_OBJ (bagOf h x) = false := by
          simp only [IS_MUTABLE_OBJ, hi]
          decide
        simp only [CopyPRecWith, hm, if_true]
      · rw [if_neg (by rintro (e | e); exact t1 e; exact hi e),
          if_neg (by rintro (e | e); exact t2 e; exact t3 e)]

/-- The forward phase on a mutable record of a workspace without markers, for any
value graph: `CopyPRec` returns the next free handle, and every record that
carries a marker afterwards has a finished copy. -/
theorem copyPRec_total {h0 : Heap} {r : Obj} (mutFlag : Bool) {fuel : Nat} (ok : HeapOK h0)
    (mr : IsMutRec h0 r) (hf : h0.length ≤ fuel) :
    ∃ h1, CopyPRec fuel h0 r mutFlag = some (h1, handleOf h0.length) ∧
      FwdInv h0 h1 (copyType mutFlag) ∧
      Forwarded h0 h1 (copyType mutFlag) r (handleOf h0.length) ∧
      ∀ u cu, Forwarded h0 h1 (copyType mutFlag) u cu → Complete h0 h1 (copyType mutFlag) u := by
  have nofw : ∀ u cu, ¬ Forwarded h0 h0 (copyType mutFlag) u cu := fun u cu f => f.fresh f.valid
  have inv0 : FwdInv h0 h0 (copyType mutFlag) :=
    ⟨le_refl _, fun v _ => Or.inl rfl, fun v w c f _ => absurd f (nofw v c)⟩
  have dn0 : FwdDoneS h0 h0 (copyType mutFlag) [] := fun v c f _ => absurd f (nofw v c)
  have st0 : StackOK h0 h0 (copyType mutFlag) [] :=
    ⟨List.nodup_nil, fun s hs => absurd hs (List.not_mem_nil s)⟩
  have spec : CopySpecS h0 (copyType mutFlag) [r] (fun h x => COPY_OBJ fuel h x mutFlag) :=
    copy_obj_total ok fuel [r] (by simp only [List.length_singleton]; omega)
  obtain ⟨h1, e, inv1, _, dn1, fw⟩ := copyPRecWith_total ok spec inv0 dn0 st0 mr rfl
  exact ⟨h1, e, inv1, fw, fun u cu f => dn1 u cu f (List.not_mem_nil u)⟩

/-- After the forward phase every mutable record reached from `r` carries a
marker. -/
theorem reach_forwarded {h0 h1 : Heap} {T : Nat} {r c : Obj} (fr : Forwarded h0 h1 T r c)
    (hall : ∀ u cu, Forwarded h0 h1 T u cu → Complete h0 h1 T u) :
    ∀ u, ReachMut h0 r u → IsMutRec h0 u → ∃ cu, Forwarded h0 h1 T u cu := by
  intro u hu
  induction hu with
  | root => exact fun _ => ⟨c, fr⟩
  | step v i _ mv h1i h2i ih =>
    intro mu
    obtain ⟨cv, fv⟩ := ih mv
    obtain ⟨c1, f1, _, sl⟩ := hall v cv fv
    exact ⟨_, (sl i h1i h2i).2.1 mu⟩

/-- Claim C22: in a workspace without markers whose mutable records are well
formed, let slot `i` of the mutable record `r` hold `r` itself.  The forward
phase `CopyPRec` returns (a recursion depth of the number of bags is enough),
and slot `i` of the copy `c` holds `c`, which is a new bag and not `r`. -/
theorem copy_of_self_reference (h0 : Heap) (r : Obj) (i fuel : Nat) (mutFlag : Bool)
    (ok : HeapOK h0) (mr : IsMutRec h0 r) (h1i : 1 ≤ i) (h2i : i ≤ LEN_PREC (bagOf h0 r))
    (hs : GET_ELM_PREC (bagOf h0 r) i = r) (hf : h0.length ≤ fuel) :
    ∃ h1 c, CopyPRec fuel h0 r mutFlag = some (h1, c) ∧ GET_ELM_PREC (bagOf h1 c) i = c ∧
      c ≠ r ∧ ¬ ValidRef h0 c ∧ GET_ELM_PREC (bagOf h1 c) i ≠ r := by
  obtain ⟨h1, e, _, fr, hall⟩ := copyPRec_total mutFlag ok mr hf
  obtain ⟨c1, f1, _, sl⟩ := hall r _ fr
  have ec : c1 = handleOf h0.length := f1.ptr_inj fr
  rw [ec] at sl
  have hne : handleOf h0.length ≠ r := by
    intro hc
    have := fr.fresh
    rw [hc] at this
    exact this mr.1
  have hfi := (sl i h1i h2i).2.1 (by rw [hs]; exact mr)
  rw [hs] at hfi
  have ei := hfi.ptr_inj fr
  exact ⟨h1, _, e, ei, hne, fr.fresh, by rw [ei]; exact hne⟩

/-- Claim C23 (what the code does): for a mutable record `r` of a workspace
without markers whose mutable records are well formed, `CopyPRec(r, mut)`
returns a new bag that is a record of the size, length and names of `r` and is
mutable exactly when `mut` is set; for an immutable record `r` it returns `r`
itself and leaves the workspace as it is, whatever `mut`. -/
theorem copy_result_mutability (h0 : Heap) (r : Obj) (fuel : Nat) (mutFlag : Bool)
    (ok : HeapOK h0) (hv : ValidRef h0 r) (hf : h0.length ≤ fuel) :
    (TNUM_OBJ (bagOf h0 r) = T_PREC →
      ∃ h1 c, CopyPRec fuel h0 r mutFlag = some (h1, c) ∧ ¬ ValidRef h0 c ∧ ValidRef h1 c ∧
        IS_PREC_REP (bagOf h1 c) = true ∧ IS_MUTABLE_OBJ (bagOf h1 c) = mutFlag ∧
        SIZE_OBJ (bagOf h1 c) = SIZE_OBJ (bagOf h0 r) ∧
        LEN_PREC (bagOf h1 c) = LEN_PREC (bagOf h0 r) ∧
        ∀ i, 1 ≤ i → i ≤ LEN_PREC (bagOf h0 r) →
          GET_RNAM_PREC (bagOf h1 c) i = GET_RNAM_PREC (bagOf h0 r) i) ∧
    (TNUM_OBJ (bagOf h0 r) = T_PREC + IMMUTABLE →
      CopyPRec fuel h0 r mutFlag = some (h0, r)) := by
  refine ⟨fun ht => ?_, fun ht => copy_of_immutable _ h0 r mutFlag ht⟩
  have mr : IsMutRec h0 r := ⟨hv, ht⟩
  obtain ⟨h1, e, _, fr, hall⟩ := copyPRec_total mutFlag ok mr hf
  obtain ⟨c1, f1, hl, sl⟩ := hall r _ fr
  have ec : c1 = handleOf h0.length := f1.ptr_inj fr
  rw [ec] at hl sl
  refine ⟨h1, _, e, fr.fresh, fr.valid, ?_, ?_, fr.csize, hl, fun i h1i h2i => (sl i h1i h2i).1⟩
  · simp only [IS_PREC_REP, fr.ctnum]
    cases mutFlag <;> decide
  · simp only [IS_MUTABLE_OBJ, fr.ctnum]
    cases mutFlag <;> decide

theorem heapOK_demoHeap : HeapOK demoHeap := by
  have three : ∀ v : Nat, ValidRef demoHeap v → v = 2 ∨ v = 4 ∨ v = 6 := by
    intro v hv
    obtain ⟨h1, h2⟩ := hv
    simp only [isBagRef, Bool.and_eq_true, beq_iff_eq, bne_iff_ne, ne_eq] at h1
    have h3 : v % 2 = 0 := h1.1
    have h4 : ¬ (v = 0) := h1.2
    have h5 : v / 2 - 1 < 3 := h2
    omega
  intro v hv
  rcases three v hv with e | e | e
  · rw [e]
    refine ⟨by decide, by decide, fun _ => ⟨by decide, by unfold BagOK; decide, by decide,
      fun i h1 h2 => ?_⟩⟩
    have h3 : i ≤ 4 := h2
    interval_cases i <;> unfold ValidRef <;> decide
  · rw [e]
    refine ⟨by decide, by decide, fun _ => ⟨by decide, by unfold BagOK; decide, by decide,
      fun i h1 h2 => ?_⟩⟩
    have h3 : i ≤ 1 := h2
    interval_cases i
    unfold ValidRef
    decide
  · rw [e]
    refine ⟨by decide, by decide, fun _ => ⟨by decide, by unfold BagOK; decide, by decide,
      fun i h1 h2 => ?_⟩⟩
    have h3 : i ≤ 0 := h2
    omega

theorem heapOK_demoSelf : HeapOK demoSelf := by
  have one : ∀ v : Nat, ValidRef demoSelf v → v = 2 := by
    intro v hv
    obtain ⟨h1, h2⟩ := hv
    simp only [isBagRef, Bool.and_eq_true, beq_iff_eq, bne_iff_ne, ne_eq] at h1
    have h3 : v % 2 = 0 := h1.1
    have h4 : ¬ (v = 0) := h1.2
    have h5 : v / 2 - 1 < 1 := h2
    omega
  intro v hv
  rw [one v hv]
  refine ⟨by decide, by decide, fun _ => ⟨by decide, by unfold BagOK; decide, by decide,
    fun i h1 h2 => ?_⟩⟩
  have h3 : i ≤ 2 := h2
  interval_cases i <;> unfold ValidRef <;> decide

theorem isMutRec_demoHeap : IsMutRec demoHeap 2 := by
  unfold IsMutRec ValidRef
  decide

theorem isMutRec_demoSelf : IsMutRec demoSelf 2 := by
  unfold IsMutRec ValidRef
  decide

theorem copy_of_self_reference_witness :
    (HeapOK demoSelf ∧ IsMutRec demoSelf 2 ∧ 1 ≤ 2 ∧ 2 ≤ LEN_PREC (bagOf demoSelf 2) ∧
      GET_ELM_PREC (bagOf demoSelf 2) 2 = 2 ∧ demoSelf.length ≤ 1) ∧
    (∃ h1 c, CopyPRec 1 demoSelf 2 true = some (h1, c) ∧ GET_ELM_PREC (bagOf h1 c) 2 = c ∧
      c ≠ 2 ∧ ¬ ValidRef demoSelf c ∧ GET_ELM_PREC (bagOf h1 c) 2 ≠ 2) :=
  ⟨⟨heapOK_demoSelf, isMutRec_demoSelf, by decide, by decide, by decide, by decide⟩,
    copy_of_self_reference demoSelf 2 2 1 true heapOK_demoSelf isMutRec_demoSelf (by decide)
      (by decide) (by decide) (by decide)⟩

theorem copy_result_mutability_witness :
    (HeapOK demoHeap ∧ ValidRef demoHeap 2 ∧ demoHeap.length ≤ 3) ∧
    ((TNUM_OBJ (bagOf demoHeap 2) = T_PREC →
      ∃ h1 c, CopyPRec 3 demoHeap 2 false = some (h1, c) ∧ ¬ ValidRef demoHeap c ∧ ValidRef h1 c ∧
        IS_PREC_REP (bagOf h1 c) = true ∧ IS_MUTABLE_OBJ (bagOf h1 c) = false ∧
        SIZE_OBJ (bagOf h1 c) = SIZE_OBJ (bagOf demoHeap 2) ∧
        LEN_PREC (bagOf h1 c) = LEN_PREC (bagOf demoHeap 2) ∧
        ∀ i, 1 ≤ i → i ≤ LEN_PREC (bagOf demoHeap 2) →
          GET_RNAM_PREC (bagOf h1 c) i = GET_RNAM_PREC (bagOf demoHeap 2) i) ∧
    (TNUM_OBJ (bagOf demoHeap 2) = T_PREC + IMMUTABLE →
      CopyPRec 3 demoHeap 2 false = some (demoHeap, 2))) :=
  ⟨⟨heapOK_demoHeap, isMutRec_demoHeap.1, by decide⟩,
    copy_result_mutability demoHeap 2 3 false heapOK_demoHeap isMutRec_demoHeap.1 (by decide)⟩

/-- Claim C23 (counterexample): `CopyPRec` on the immutable record `demoImm` with
`mut` set returns the record itself, which is no new bag and is not mutable. -/
theorem copy_of_immutable_is_itself :
    TNUM_OBJ (bagOf [demoImm] 2) = T_PREC + IMMUTABLE ∧
    CopyPRec 1 [demoImm] 2 true = some ([demoImm], 2) ∧
    COPY_OBJ 1 [demoImm] 2 true = some ([demoImm], 2) ∧
    IS_MUTABLE_OBJ (bagOf [demoImm] 2) = false ∧
    indexOf 2 < [demoImm].length := by
  decide

/-- The forward phase on `demoHeap`: the record of handle 4, which two slots of
the record of handle 2 hold, is copied once (handle 10), and a recursion depth of
1 is too small. -/
theorem copyPRec_demo :
    CopyPRec 2 demoHeap 2 true = some (
      [{ tnum := 2, size := 80, len := 4, slots := [(8, 3), (-2, 4), (3, 4), (5, 6)] },
       { tnum := 2, size := 32, len := 1, slots := [(10, 9)] },
       { tnum := 2, size := 24, len := 0, slots := [(12, 0)] },
       { tnum := 0, size := 80, len := 4, slots := [(-1, 3), (-2, 10), (3, 10), (5, 12)] },
       { tnum := 0, size := 32, len := 1, slots := [(-7, 9)] },
       { tnum := 0, size := 16, len := 0, slots := [] }], 8) ∧
    CopyPRec 1 demoHeap 2 true = none := by
  decide

/-- The forward phase on the record that holds itself: both slots of the copy
hold the copy. -/
theorem copyPRec_self_demo :
    CopyPRec 1 demoSelf 2 true = some (
      [{ tnum := 2, size := 48, len := 2, slots := [(4, 2), (-2, 2)] },
       { tnum := 0, size := 48, len := 2, slots := [(-1, 4), (-2, 4)] }], 4) := by
  decide

theorem nodup_bound {h0 : Heap} {S : List Obj} (hn : S.Nodup) (hv : ∀ s ∈ S, ValidRef h0 s) :
    S.length ≤ h0.length := by
  have hnd : (S.map indexOf).Nodup := by
    refine List.Nodup.map_on ?_ hn
    intro a ha b hb e
    exact indexOf_inj (hv a ha).1 (hv b hb).1 e
  have hsub : S.map indexOf ⊆ List.range h0.length := by
    intro i hi
    obtain ⟨s, hs, e⟩ := List.mem_map.1 hi
    rw [← e]
    exact List.mem_range.2 (hv s hs).2
  have := (List.subperm_of_subset hnd hsub).length_le
  simpa using this

theorem RestoredX.restx_of_eq {h0 h h1 : Heap} {u : Obj} (r : RestoredX h0 h u)
    (e : bagOf h1 u = bagOf h u) : RestoredX h0 h1 u := by
  unfold RestoredX at r ⊢
  rw [e]
  exact r

theorem RestoredX.restx_mono {h0 h h1 : Heap} {u : Obj} (r : RestoredX h0 h u)
    (m : CMono h h1) : RestoredX h0 h1 u := by
  refine r.restx_of_eq (m u ?_)
  rw [r.1]
  exact copying_ne

theorem CStackOK.cstack_mono {h0 h h1 : Heap} {S : List Obj} (st : CStackOK h0 h S)
    (m : CMono h h1) : CStackOK h0 h1 S :=
  ⟨st.1, fun s hs => ⟨(st.2 s hs).1, by
    rw [m s (by rw [(st.2 s hs).2]; exact copying_ne)]
    exact (st.2 s hs).2⟩⟩

/-- One record loses its marker. -/
theorem restoreX_step {h0 h1 h h2 : Heap} {T : Nat} {x cx : Obj} (ci : CInvX h0 h1 h T)
    (fx : Forwarded h0 h1 T x cx) (hl : h2.length = h.length)
    (hsame : ∀ u, u ≠ x → bagOf h2 u = bagOf h u)
    (hcop : (bagOf h x).tnum = T_PREC + COPYING) (rs : RestoredX h0 h2 x) :
    CInvX h0 h1 h2 T ∧ CMono h h2 := by
  refine ⟨⟨by rw [hl]; exact ci.1, ?_, ?_⟩, ?_⟩
  · intro u hu
    have hux : u ≠ x := by
      intro e
      rw [e] at hu
      exact hu fx.mutRec.1
    rw [hsame u hux]
    exact ci.2.1 u hu
  · intro u hu
    by_cases hux : u = x
    · right
      rw [hux]
      exact ⟨⟨cx, fx⟩, rs⟩
    · rcases ci.2.2 u hu with e | ⟨f, r⟩
      · left
        rw [hsame u hux]
        exact e
      · right
        exact ⟨f, r.restx_of_eq (hsame u hux)⟩
  · intro u hu
    apply hsame
    intro e
    rw [e] at hu
    exact hu hcop

theorem set_rnam_restore (b : PRec) (c : Int) (t : Nat) :
    RetypeBag (SET_RNAM_PREC (RetypeBag (SET_RNAM_PREC b 1 c) t) 1 (GET_RNAM_PREC b 1)) b.tnum
      = b := by
  obtain ⟨tn, sz, ln, sl⟩ := b
  cases sl with
  | nil => simp [RetypeBag, SET_RNAM_PREC]
  | cons s rest => simp [RetypeBag, SET_RNAM_PREC, GET_RNAM_PREC]

/-- The loop of `CleanPRecCopy` restores the records among the values of the
slots `i` to `N`, whatever the value graph. -/
theorem cleanLoop_total {h0 h1 : Heap} {T : Nat} {S : List Obj} {x : Obj}
    {CLEAN : Heap → Obj → Option Heap} (spec : CleanSpecS h0 h1 T (x :: S) CLEAN)
    (hch : ∀ i, 1 ≤ i → i ≤ (bagOf h0 x).len →
      (isBagRef (GET_ELM_PREC (bagOf h0 x) i) = true → ValidRef h0 (GET_ELM_PREC (bagOf h0 x) i)) ∧
      (IsMutRec h0 (GET_ELM_PREC (bagOf h0 x) i) →
        ∃ c, Forwarded h0 h1 T (GET_ELM_PREC (bagOf h0 x) i) c)) :
    ∀ (n i : Nat) (h : Heap), 1 ≤ i → i + n = (bagOf h0 x).len + 1 →
      CInvX h0 h1 h T → CDoneS h0 h1 h T (x :: S) → CStackOK h0 h (x :: S) →
      RestoredX h0 h x →
      (∀ k, 1 ≤ k → k < i → IsMutRec h0 (GET_ELM_PREC (bagOf h0 x) k) →
        RestoredX h0 h (GET_ELM_PREC (bagOf h0 x) k)) →
      ∃ h2, cleanLoop CLEAN x i n h = some h2 ∧ CInvX h0 h1 h2 T ∧
        CDoneS h0 h1 h2 T (x :: S) ∧ CMono h h2 ∧
        ∀ k, 1 ≤ k → k ≤ (bagOf h0 x).len → IsMutRec h0 (GET_ELM_PREC (bagOf h0 x) k) →
          RestoredX h0 h2 (GET_ELM_PREC (bagOf h0 x) k) := by
  intro n
  induction n with
  | zero =>
    intro i h _ hn ci cd _ _ sl
    exact ⟨h, rfl, ci, cd, CMono.clean_refl h, fun k h1 h2 => sl k h1 (by omega)⟩
  | succ n ih =>
    intro i h hi1 hn ci cd st rx sl
    have hi : i ≤ (bagOf h0 x).len := by omega
    have helm : GET_ELM_PREC (bagOf h x) i = GET_ELM_PREC (bagOf h0 x) i :=
      (rx.2.2.2.2.1 i hi1 hi).2
    obtain ⟨h2, e2, ci2, cd2, m2, r2⟩ := spec h (GET_ELM_PREC (bagOf h0 x) i) ci cd st
      (hch i hi1 hi).1 (hch i hi1 hi).2
    obtain ⟨h3, e3, ci3, cd3, m3, r3⟩ := ih (i + 1) h2 (by omega) (by omega) ci2 cd2
      (st.cstack_mono m2) (rx.restx_mono m2) (fun k h1 h2 m => by
        by_cases e : k = i
        · rw [e] at m ⊢
          exact r2 m
        · exact (sl k h1 (by omega) m).restx_mono m2)
    refine ⟨h3, ?_, ci3, cd3, m2.clean_trans m3, r3⟩
    simp only [cleanLoop]
    rw [helm, e2]
    exact e3

theorem children_copiedAll {h0 h1 : Heap} {T : Nat} {x cx : Obj}
    (ok : HeapOK h0) (cp : CopiedAll h0 h1 T) (fx : Forwarded h0 h1 T x cx) :
    ∀ i, 1 ≤ i → i ≤ (bagOf h0 x).len →
      (isBagRef (GET_ELM_PREC (bagOf h0 x) i) = true → ValidRef h0 (GET_ELM_PREC (bagOf h0 x) i)) ∧
      (IsMutRec h0 (GET_ELM_PREC (bagOf h0 x) i) →
        ∃ c, Forwarded h0 h1 T (GET_ELM_PREC (bagOf h0 x) i) c) := by
  intro i h1i h2i
  obtain ⟨c, _, _, sl⟩ := cp.2 x cx fx
  exact ⟨children_valid ok fx.mutRec i h1i h2i, fun m => ⟨_, (sl i h1i h2i).2.1 m⟩⟩

/-- `CleanPRecCopy` on a record that has a marker, whatever the value graph. -/
theorem cleanPRecCopyWith_total {h0 h1 : Heap} {T : Nat} {S : List Obj}
    {x cx : Obj} {CLEAN : Heap → Obj → Option Heap} {h : Heap}
    (ok : HeapOK h0) (cp : CopiedAll h0 h1 T)
    (spec : CleanSpecS h0 h1 T (x :: S) CLEAN) (ci : CInvX h0 h1 h T)
    (cd : CDoneS h0 h1 h T S) (st : CStackOK h0 h S) (fx : Forwarded h0 h1 T x cx)
    (unt : bagOf h x = bagOf h1 x) :
    ∃ h2, CleanPRecCopyWith CLEAN h x = some h2 ∧ CInvX h0 h1 h2 T ∧
      CDoneS h0 h1 h2 T S ∧ CMono h h2 ∧ RestoredX h0 h2 x := by
  have mx := fx.mutRec
  have hvh : ValidRef h x := ⟨mx.1.1, by
    rw [ci.1]
    have h1 := mx.1.2
    have h2 := cp.1.1
    omega⟩
  have hcop : (bagOf h x).tnum = T_PREC + COPYING := by
    rw [unt]
    exact fx.tnum
  have hlenx : (bagOf h x).len = (bagOf h0 x).len := by
    rw [unt]
    exact fx.len
  have hxS : x ∉ S := by
    intro hc
    have := (st.2 x hc).2
    rw [hcop] at this
    exact copying_ne this.symm
  have hch := children_copiedAll ok cp fx
  obtain ⟨_, _, hrec⟩ := ok x mx.1
  obtain ⟨hsz, hbok, hroom0, _⟩ := hrec mx.2
  by_cases hz : (bagOf h0 x).len = 0
  · have hl : LEN_PREC (bagOf h x) = 0 := by
      rw [LEN_PREC, hlenx]
      exact hz
    obtain ⟨ha, ea⟩ : ∃ ha : Heap,
      ha = onBag h x (fun b => ResizeBag b (SIZE_OBJ b - sizeofObj)) := ⟨_, rfl⟩
    obtain ⟨hb, eb⟩ : ∃ hb : Heap,
      hb = onBag ha x (fun b => RetypeBag b (TNUM_OBJ b - COPYING)) := ⟨_, rfl⟩
    have la : ha.length = h.length := by rw [ea]; exact length_onBag _ _ _
    have ba := bagOf_onBag h hvh (fun b => ResizeBag b (SIZE_OBJ b - sizeofObj))
    rw [← ea] at ba
    have vva : ValidRef ha x := ⟨hvh.1, by rw [la]; exact hvh.2⟩
    have lb : hb.length = ha.length := by rw [eb]; exact length_onBag _ _ _
    have bb := bagOf_onBag ha vva (fun b => RetypeBag b (TNUM_OBJ b - COPYING))
    rw [← eb] at bb
    have bx : bagOf hb x = RetypeBag (ResizeBag (bagOf h x) (SIZE_OBJ (bagOf h x) - sizeofObj))
        (TNUM_OBJ (ResizeBag (bagOf h x) (SIZE_OBJ (bagOf h x) - sizeofObj)) - COPYING) := by
      rw [bb, if_pos rfl, ba, if_pos rfl]
    have hsize : SIZE_OBJ (bagOf h x) = (bagOf h0 x).size + sizeofObj := by
      rw [unt, fx.shape, if_pos hz]
      show (SET_RNAM_PREC _ _ _).size = _
      rw [(frame_set_rnam _ _ _).2.1]
      rfl
    have rs : RestoredX h0 hb x := by
      unfold RestoredX
      rw [bx]
      refine ⟨?_, ?_, hlenx, ?_, fun i h1i h2i => ?_, fun hp => ?_⟩
      · show (bagOf h x).tnum - COPYING = T_PREC
        rw [hcop]
        rfl
      · show SIZE_OBJ (bagOf h x) - sizeofObj = _
        rw [hsize]
        omega
      · show (ResizeBag _ _).slots.length = _
        rw [slots_resizeBag, hsize, hbok]
        congr 1
      · omega
      · omega
    have hsame : ∀ u, u ≠ x → bagOf hb u = bagOf h u := by
      intro u hu
      rw [bb, if_neg hu, ba, if_neg hu]
    obtain ⟨cib, mb⟩ := restoreX_step ci fx (by rw [lb, la]) hsame hcop rs
    refine ⟨hb, ?_, cib, ?_, mb, rs⟩
    · simp only [CleanPRecCopyWith, if_pos hl]
      rw [← ea, ← eb]
    · intro u cu fu ru hr i h1i h2i m
      by_cases hux : u = x
      · rw [hux] at h2i
        omega
      · exact (cd u cu fu (ru.restx_of_eq (hsame u hux).symm) hr i h1i h2i m).restx_mono mb
  · have hpos : 0 < (bagOf h0 x).len := by omega
    have hl : ¬ (LEN_PREC (bagOf h x) = 0) := by
      rw [LEN_PREC, hlenx]
      exact hz
    obtain ⟨ha, ea⟩ : ∃ ha : Heap, ha = onBag h x (fun b =>
      SET_RNAM_PREC b 1 (GET_RNAM_PREC (bagOf h (GET_RNAM_PREC b 1).toNat) 1)) := ⟨_, rfl⟩
    obtain ⟨hb, eb⟩ : ∃ hb : Heap,
      hb = onBag ha x (fun b => RetypeBag b (TNUM_OBJ b - COPYING)) := ⟨_, rfl⟩
    have la : ha.length = h.length := by rw [ea]; exact length_onBag _ _ _
    have ba := bagOf_onBag h hvh (fun b =>
      SET_RNAM_PREC b 1 (GET_RNAM_PREC (bagOf h (GET_RNAM_PREC b 1).toNat) 1))
    rw [← ea] at ba
    have vva : ValidRef ha x := ⟨hvh.1, by rw [la]; exact hvh.2⟩
    have lb : hb.length = ha.length := by rw [eb]; exact length_onBag _ _ _
    have bb := bagOf_onBag ha vva (fun b => RetypeBag b (TNUM_OBJ b - COPYING))
    rw [← eb] at bb
    have hptr : (GET_RNAM_PREC (bagOf h x) 1).toNat = cx := by
      rw [unt, fx.ptr, Int.toNat_ofNat]
    have hname : GET_RNAM_PREC (bagOf h cx) 1 = GET_RNAM_PREC (bagOf h0 x) 1 := by
      rw [ci.2.1 cx fx.fresh]
      exact fx.cname hpos
    have bx : bagOf hb x = bagOf h0 x := by
      rw [bb, if_pos rfl, ba, if_pos rfl]
      simp only [hptr, hname]
      have e1 : TNUM_OBJ (SET_RNAM_PREC (bagOf h x) 1 (GET_RNAM_PREC (bagOf h0 x) 1)) - COPYING
          = (bagOf h0 x).tnum := by
        rw [TNUM_OBJ, (frame_set_rnam _ _ _).2.2.1, hcop, mx.2]
        rfl
      rw [e1, unt, fx.shape, if_neg hz]
      exact set_rnam_restore _ _ _
    have rs : RestoredX h0 hb x := by
      unfold RestoredX
      rw [bx]
      exact ⟨mx.2, rfl, rfl, rfl, fun _ _ _ => ⟨rfl, rfl⟩, fun _ => rfl⟩
    have hsame : ∀ u, u ≠ x → bagOf hb u = bagOf h u := by
      intro u hu
      rw [bb, if_neg hu, ba, if_neg hu]
    obtain ⟨cib, mb⟩ := restoreX_step ci fx (by rw [lb, la]) hsame hcop rs
    have cdb : CDoneS h0 h1 hb T (x :: S) := by
      intro u cu fu ru hr i h1i h2i m
      have hux : u ≠ x := fun e => hr (by rw [e]; exact List.mem_cons_self _ _)
      exact (cd u cu fu (ru.restx_of_eq (hsame u hux).symm)
        (fun hc => hr (List.mem_cons_of_mem _ hc)) i h1i h2i m).restx_mono mb
    have stb : CStackOK h0 hb (x :: S) := by
      refine ⟨List.nodup_cons.2 ⟨hxS, st.1⟩, fun s hs => ?_⟩
      rcases List.mem_cons.1 hs with e | hs1
      · rw [e]
        exact ⟨mx.1, rs.1⟩
      · exact (st.cstack_mono mb).2 s hs1
    have helm : GET_ELM_PREC (bagOf hb x) 1 = GET_ELM_PREC (bagOf h0 x) 1 := by rw [bx]
    obtain ⟨h3, e3, ci3, cd3, m3, r3⟩ := spec hb (GET_ELM_PREC (bagOf h0 x) 1) cib cdb stb
      (hch 1 (le_refl _) hpos).1 (hch 1 (le_refl _) hpos).2
    have rs3 : RestoredX h0 h3 x := rs.restx_mono m3
    obtain ⟨h4, e4, ci4, cd4, m4, r4⟩ := cleanLoop_total spec hch ((bagOf h0 x).len - 1) 2 h3
      (by omega) (by omega) ci3 cd3 (stb.cstack_mono m3) rs3 (fun k h1k h2k m => by
        have e : k = 1 := by omega
        rw [e] at m ⊢
        exact r3 m)
    have m34 : CMono hb h4 := m3.clean_trans m4
    refine ⟨h4, ?_, ci4, ?_, mb.clean_trans m34, rs.restx_mono m34⟩
    · simp only [CleanPRecCopyWith, if_neg hl]
      rw [← ea, ← eb, helm, e3]
      simp only []
      rw [LEN_PREC, rs3.2.2.1]
      exact e4
    · intro u cu fu ru hr i h1i h2i m
      by_cases hux : u = x
      · rw [hux] at h2i m ⊢
        exact r4 i h1i h2i m
      · exact cd4 u cu fu ru (fun hc => by
          rcases List.mem_cons.1 hc with e | hs
          · exact hux e
          · exact hr hs) i h1i h2i m

/-- `CLEAN_OBJ` returns for every value graph when its recursion depth exceeds the
number of bags that are not being cleaned. -/
theorem clean_obj_total {h0 h1 : Heap} {T : Nat} (ok : HeapOK h0) (cp : CopiedAll h0 h1 T) :
    ∀ (fuel : Nat) (S : List Obj), h0.length + 1 ≤ fuel + S.length →
      CleanSpecS h0 h1 T S (fun h x => CLEAN_OBJ fuel h x) := by
  intro fuel
  induction fuel with
  | zero =>
    intro S hS h x _ _ st _ _
    have := nodup_bound st.1 (fun s hs => (st.2 s hs).1)
    omega
  | succ fuel ih =>
    intro S hS h x ci cd st hx1 hx2
    by_cases mx : IsMutRec h0 x
    · obtain ⟨cx, fx⟩ := hx2 mx
      rcases ci.2.2 x mx.1 with unt | ⟨_, rs⟩
      · have spec := ih (x :: S) (by simp only [List.length_cons]; omega)
        obtain ⟨h2, e, ci2, cd2, m2, rs2⟩ :=
          cleanPRecCopyWith_total ok cp spec ci cd st fx unt
        refine ⟨h2, ?_, ci2, cd2, m2, fun _ => rs2⟩
        show CLEAN_OBJ (fuel + 1) h x = _
        have ht : TNUM_OBJ (bagOf h x) = T_PREC + COPYING := by
          rw [TNUM_OBJ, unt]
          exact fx.tnum
        simp only [CLEAN_OBJ]
        rw [if_neg (by rw [ht]; decide), if_pos (Or.inl ht)]
        exact e
      · refine ⟨h, ?_, ci, cd, CMono.clean_refl h, fun _ => rs⟩
        show CLEAN_OBJ (fuel + 1) h x = _
        simp only [CLEAN_OBJ, TNUM_OBJ]
        rw [if_pos (Or.inl rs.1)]
    · have e : bagOf h x = bagOf h1 x := by
        by_cases hv : ValidRef h0 x
        · rcases ci.2.2 x hv with e | ⟨⟨c, f⟩, _⟩
          · exact e
          · exact absurd f.mutRec mx
        · exact ci.2.1 x hv
      obtain ⟨t1, t2, t3⟩ := tnum_of_not_mutRec ok cp.1 hx1 mx
      rw [← e] at t1 t2 t3
      refine ⟨h, ?_, ci, cd, CMono.clean_refl h, fun m => absurd m mx⟩
      show CLEAN_OBJ (fuel + 1) h x = _
      simp only [CLEAN_OBJ, TNUM_OBJ]
      by_cases hi : (bagOf h x).tnum = T_PREC + IMMUTABLE
      · rw [if_pos (Or.inr hi)]
      · rw [if_neg (by rintro (e | e); exact t1 e; exact hi e),
          if_neg (by rintro (e | e); exact t2 e; exact t3 e)]

/-- The forward phase followed by the clean phase on a mutable record `r` of a
workspace without markers whose mutable records are well formed, for any value
graph: both phases return; between them `r` has the mid-copy type and its
length, and its bag is one word larger if `r` is empty and as large as before
otherwise; afterwards `r` and every mutable record reached from it have again
their type, size, length, and the names and values of their slots, and a
non-empty record has all of its bag again. -/
theorem copy_clean_spec (h0 : Heap) (r : Obj) (fuel : Nat) (mutFlag : Bool)
    (ok : HeapOK h0) (mr : IsMutRec h0 r) (hf : h0.length ≤ fuel) :
    ∃ h1 c h2, CopyPRec fuel h0 r mutFlag = some (h1, c) ∧
      CleanPRecCopy fuel h1 r = some h2 ∧
      TNUM_OBJ (bagOf h1 r) = T_PREC + COPYING ∧
      LEN_PREC (bagOf h1 r) = LEN_PREC (bagOf h0 r) ∧
      (LEN_PREC (bagOf h0 r) = 0 →
        SIZE_OBJ (bagOf h1 r) = SIZE_OBJ (bagOf h0 r) + sizeofObj) ∧
      (0 < LEN_PREC (bagOf h0 r) → SIZE_OBJ (bagOf h1 r) = SIZE_OBJ (bagOf h0 r)) ∧
      ∀ v, ReachMut h0 r v → IsMutRec h0 v →
        TNUM_OBJ (bagOf h2 v) = TNUM_OBJ (bagOf h0 v) ∧
        SIZE_OBJ (bagOf h2 v) = SIZE_OBJ (bagOf h0 v) ∧
        LEN_PREC (bagOf h2 v) = LEN_PREC (bagOf h0 v) ∧
        (∀ i, 1 ≤ i → i ≤ LEN_PREC (bagOf h0 v) →
          GET_RNAM_PREC (bagOf h2 v) i = GET_RNAM_PREC (bagOf h0 v) i ∧
          GET_ELM_PREC (bagOf h2 v) i = GET_ELM_PREC (bagOf h0 v) i) ∧
        (0 < LEN_PREC (bagOf h0 v) → bagOf h2 v = bagOf h0 v) := by
  obtain ⟨h1, e, inv1, fr, hall⟩ := copyPRec_total mutFlag ok mr hf
  have cp : CopiedAll h0 h1 (copyType mutFlag) := ⟨inv1, hall⟩
  have ci0 : CInvX h0 h1 h1 (copyType mutFlag) := ⟨rfl, fun _ _ => rfl, fun _ _ => Or.inl rfl⟩
  have cd0 : CDoneS h0 h1 h1 (copyType mutFlag) [] := by
    intro u cu f ru
    have h1 := f.tnum
    rw [ru.1] at h1
    exact absurd h1 copying_ne
  have st0 : CStackOK h0 h1 [] := ⟨List.nodup_nil, fun s hs => absurd hs (List.not_mem_nil s)⟩
  have spec := clean_obj_total ok cp fuel [r] (by simp only [List.length_singleton]; omega)
  obtain ⟨h2, e2, _, cd2, _, rs⟩ := cleanPRecCopyWith_total ok cp spec ci0 cd0 st0 fr rfl
  have hfw := reach_forwarded fr hall
  have hall2 : ∀ v, ReachMut h0 r v → IsMutRec h0 v → RestoredX h0 h2 v := by
    intro v hv
    induction hv with
    | root => exact fun _ => rs
    | step w i hw mw h1i h2i ih =>
      intro mv
      obtain ⟨cw, fw⟩ := hfw w hw mw
      exact cd2 w cw fw (ih mw) (List.not_mem_nil w) i h1i h2i mv
  have hsz : SIZE_OBJ (bagOf h1 r) = SIZE_OBJ (if (bagOf h0 r).len = 0 then
      ResizeBag (bagOf h0 r) (SIZE_OBJ (bagOf h0 r) + sizeofObj) else bagOf h0 r) := by
    rw [fr.shape]
    show (SET_RNAM_PREC _ _ _).size = _
    rw [(frame_set_rnam _ _ _).2.1]
    rfl
  refine ⟨h1, _, h2, e, e2, fr.tnum, fr.len, fun hz => ?_, fun hp => ?_, fun v hv mv => ?_⟩
  · rw [hsz, if_pos (show (bagOf h0 r).len = 0 from hz)]
    rfl
  · rw [hsz, if_neg (by simp only [LEN_PREC] at hp; omega)]
  · obtain ⟨r1, r2, r3, _, r5, r6⟩ := hall2 v hv mv
    exact ⟨r1.trans mv.2.symm, r2, r3, r5, r6⟩

/-- Claim C24 (failing input): on the empty record `NEW_PREC(1)`, which has room
for one component, `CopyPRec` writes the forwarding pointer into the first name
word and enlarges the bag by one word at its end; `CleanPRecCopy` takes this
last word away again and restores the type, so size, length and type are as
before, but the first name word still holds the handle 4 of the copy where it
was 0. -/
theorem clean_leaves_pointer_in_empty_record :
    NEW_PREC 1 = { tnum := 0, size := 32, len := 0, slots := [(0, 0)] } ∧
    CopyPRec 1 [NEW_PREC 1] 2 true =
      some ([{ tnum := 2, size := 40, len := 0, slots := [(4, 0), (0, 0)] }, NEW_PREC 1], 4) ∧
    CleanPRecCopy 1
        [{ tnum := 2, size := 40, len := 0, slots := [(4, 0), (0, 0)] }, NEW_PREC 1] 2 =
      some [{ tnum := 0, size := 32, len := 0, slots := [(4, 0)] }, NEW_PREC 1] ∧
    GET_RNAM_PREC (NEW_PREC 1) 1 = 0 ∧
    GET_RNAM_PREC { tnum := 0, size := 32, len := 0, slots := [(4, 0)] } 1 = 4 := by
  decide

/-- Both phases on the records of `demoHeap` and on the record that holds
itself: the workspace before the copy is there again, followed by the copies. -/
theorem copy_clean_demo :
    (CopyPRec 2 demoHeap 2 true).bind (fun p => CleanPRecCopy 2 p.1 2) = some (demoHeap ++
      [{ tnum := 0, size := 80, len := 4, slots := [(-1, 3), (-2, 10), (3, 10), (5, 12)] },
       { tnum := 0, size := 32, len := 1, slots := [(-7, 9)] },
       { tnum := 0, size := 16, len := 0, slots := [] }]) ∧
    (CopyPRec 1 demoSelf 2 true).bind (fun p => CleanPRecCopy 1 p.1 2) = some (demoSelf ++
      [{ tnum := 0, size := 48, len := 2, slots := [(-1, 4), (-2, 4)] }]) := by
  decide

theorem finv_elm {h0 h : Heap} (fi : FInv h0 h) (v : Obj) (i : Nat) :
    GET_ELM_PREC (bagOf h v) i = GET_ELM_PREC (bagOf h0 v) i := by
  rcases fi.2 v with e | ⟨_, e⟩
  · rw [e]
  · rw [e]
    exact get_elm_retype _ _ _

theorem finv_rnam {h0 h : Heap} (fi : FInv h0 h) (v : Obj) (i : Nat) :
    GET_RNAM_PREC (bagOf h v) i = GET_RNAM_PREC (bagOf h0 v) i := by
  rcases fi.2 v with e | ⟨_, e⟩
  · rw [e]
  · rw [e]
    exact get_rnam_retype _ _ _

theorem finv_len {h0 h : Heap} (fi : FInv h0 h) (v : Obj) :
    (bagOf h v).len = (bagOf h0 v).len := by
  rcases fi.2 v with e | ⟨_, e⟩
  · rw [e]
  · rw [e]
    rfl

theorem finv_size {h0 h : Heap} (fi : FInv h0 h) (v : Obj) :
    (bagOf h v).size = (bagOf h0 v).size := by
  rcases fi.2 v with e | ⟨_, e⟩
  · rw [e]
  · rw [e]
    rfl

theorem finv_slots {h0 h : Heap} (fi : FInv h0 h) (v : Obj) :
    (bagOf h v).slots = (bagOf h0 v).slots := by
  rcases fi.2 v with e | ⟨_, e⟩
  · rw [e]
  · rw [e]
    rfl

theorem finv_frozen {h0 h : Heap} (fi : FInv h0 h) {v : Obj}
    (m0 : (bagOf h0 v).tnum = T_PREC) (nm : (bagOf h v).tnum ≠ T_PREC) :
    (bagOf h v).tnum = T_PREC + IMMUTABLE := by
  rcases fi.2 v with e | ⟨_, e⟩
  · rw [e] at nm
    exact absurd m0 nm
  · rw [e]
    rfl

theorem finv_mut {h0 h : Heap} (fi : FInv h0 h) {v : Obj} (m : (bagOf h v).tnum = T_PREC) :
    bagOf h v = bagOf h0 v := by
  rcases fi.2 v with e | ⟨_, e⟩
  · exact e
  · rw [e] at m
    exact absurd (show T_PREC + IMMUTABLE = T_PREC from m) (by decide)

theorem finv_keep {h0 h : Heap} (fi : FInv h0 h) {v : Obj} (m : (bagOf h0 v).tnum ≠ T_PREC) :
    bagOf h v = bagOf h0 v := by
  rcases fi.2 v with e | ⟨m0, _⟩
  · exact e
  · exact absurd m0 m

theorem finv_valid {h0 h : Heap} (fi : FInv h0 h) (v : Obj) : ValidRef h v ↔ ValidRef h0 v := by
  unfold ValidRef
  rw [fi.1]

theorem immLoop_spec {h0 : Heap} {rank : Obj → Nat} {R n : Nat} {P : Obj → Prop}
    {MAKE : Heap → Obj → Option Heap} (sp : FreezeSpec h0 rank R n P MAKE) {r : Obj}
    (m0 : (bagOf h0 r).tnum = T_PREC) (ac : Acyclic h0 rank R) (hr : rank r + 1 ≤ n)
    (hR : rank r ≤ R) (pc : PClosed h0 P) (pr : P r) :
    ∀ k i h, FInv h0 h → FClosed h0 h → FOnly h0 P h → 1 ≤ i →
      i + k = (bagOf h0 r).len + 1 →
      ∃ h1, immLoop MAKE r i k h = some h1 ∧ FInv h0 h1 ∧ FClosed h0 h1 ∧ FOnly h0 P h1 ∧
        FMono h h1 ∧
        ∀ j, i ≤ j → j ≤ (bagOf h0 r).len →
          (bagOf h0 (GET_ELM_PREC (bagOf h0 r) j)).tnum = T_PREC →
          (bagOf h1 (GET_ELM_PREC (bagOf h0 r) j)).tnum = T_PREC + IMMUTABLE := by
  have vr : ValidRef h0 r := validRef_of_tnum (by rw [m0]; decide)
  intro k
  induction k with
  | zero =>
    intro i h fi fc fo _ hik
    exact ⟨h, rfl, fi, fc, fo, fun _ x => x, fun j h1 h2 => by omega⟩
  | succ k ih =>
    intro i h fi fc fo hi hik
    have hcond : (bagOf h0 (GET_ELM_PREC (bagOf h0 r) i)).tnum = T_PREC →
        rank (GET_ELM_PREC (bagOf h0 r) i) + 2 ≤ n ∧ rank (GET_ELM_PREC (bagOf h0 r) i) ≤ R ∧
        P (GET_ELM_PREC (bagOf h0 r) i) := by
      intro mc
      have hlt := ac r ⟨vr, m0⟩ hR i hi (by omega)
        ⟨validRef_of_tnum (by rw [mc]; decide), mc⟩
      exact ⟨by omega, by omega, pc r pr ⟨vr, m0⟩ i hi (by omega)⟩
    obtain ⟨h1, e1, fi1, fc1, fo1, fm1, d1⟩ :=
      sp h (GET_ELM_PREC (bagOf h0 r) i) fi fc fo hcond
    obtain ⟨h2, e2, fi2, fc2, fo2, fm2, d2⟩ := ih (i + 1) h1 fi1 fc1 fo1 (by omega) (by omega)
    have e0 : immLoop MAKE r i (k + 1) h = immLoop MAKE r (i + 1) k h1 := by
      simp only [immLoop, finv_elm fi, e1]
    refine ⟨h2, e0.trans e2, fi2, fc2, fo2, fun v hv => fm2 v (fm1 v hv),
      fun j h1j h2j mc => ?_⟩
    by_cases hj : j = i
    · subst hj
      exact fm2 _ (d1 mc)
    · exact d2 j (by omega) h2j mc

theorem makeImmutablePRecWith_spec {h0 : Heap} {rank : Obj → Nat} {R n : Nat}
    {P : Obj → Prop} {MAKE : Heap → Obj → Option Heap} (sp : FreezeSpec h0 rank R n P MAKE)
    {r : Obj} (m0 : (bagOf h0 r).tnum = T_PREC) (ac : Acyclic h0 rank R)
    (hr : rank r + 1 ≤ n) (hR : rank r ≤ R) (pc : PClosed h0 P) (pr : P r) {h : Heap}
    (fi : FInv h0 h) (fc : FClosed h0 h) (fo : FOnly h0 P h) :
    ∃ h2, MakeImmutablePRecWith MAKE h r = some h2 ∧ FInv h0 h2 ∧ FClosed h0 h2 ∧
      FOnly h0 P h2 ∧ FMono h h2 ∧ (bagOf h2 r).tnum = T_PREC + IMMUTABLE := by
  have vr : ValidRef h0 r := validRef_of_tnum (by rw [m0]; decide)
  obtain ⟨h1, e1, fi1, fc1, fo1, fm1, d1⟩ :=
    immLoop_spec sp m0 ac hr hR pc pr (bagOf h0 r).len 1 h fi fc fo (le_refl 1) (by omega)
  have vr1 : ValidRef h1 r := (finv_valid fi1 r).2 vr
  have hb : RetypeBag (bagOf h1 r) (IMMUTABLE_TNUM (TNUM_OBJ (bagOf h1 r))) =
      RetypeBag (bagOf h0 r) (T_PREC + IMMUTABLE) := by
    rcases fi1.2 r with e | ⟨_, e⟩
    · rw [e]
      show RetypeBag (bagOf h0 r) (IMMUTABLE_TNUM (bagOf h0 r).tnum) = _
      rw [m0]
      rfl
    · rw [e]
      have hi : IMMUTABLE_TNUM (T_PREC + IMMUTABLE) = T_PREC + IMMUTABLE := by decide
      show RetypeBag (RetypeBag (bagOf h0 r) (T_PREC + IMMUTABLE))
        (IMMUTABLE_TNUM (T_PREC + IMMUTABLE)) = _
      rw [hi]
      rfl
  have key : ∀ v, bagOf (onBag h1 r (fun b => RetypeBag b (IMMUTABLE_TNUM (TNUM_OBJ b)))) v =
      if v = r then RetypeBag (bagOf h0 r) (T_PREC + IMMUTABLE) else bagOf h1 v := by
    intro v
    rw [bagOf_onBag h1 vr1, hb]
  have fm12 : FMono h1 (onBag h1 r (fun b => RetypeBag b (IMMUTABLE_TNUM (TNUM_OBJ b)))) := by
    intro v hv
    rw [key]
    split_ifs
    · rfl
    · exact hv
  have e0 : MakeImmutablePRecWith MAKE h r =
      some (onBag h1 r (fun b => RetypeBag b (IMMUTABLE_TNUM (TNUM_OBJ b)))) := by
    simp only [MakeImmutablePRecWith, LEN_PREC, finv_len fi, e1]
  refine ⟨_, e0, ⟨?_, fun v => ?_⟩, fun v mv fv i h1i h2i mc => ?_, fun v mv fv => ?_,
    fun v hv => fm12 v (fm1 v hv), ?_⟩
  · rw [length_onBag, fi1.1]
  · rw [key]
    by_cases hv : v = r
    · rw [if_pos hv, hv]
      exact Or.inr ⟨m0, rfl⟩
    · rw [if_neg hv]
      exact fi1.2 v
  · by_cases hv : v = r
    · rw [hv] at h2i mc ⊢
      exact fm12 _ (d1 i h1i h2i mc)
    · rw [key, if_neg hv] at fv
      exact fm12 _ (fc1 v mv fv i h1i h2i mc)
  · by_cases hv : v = r
    · rw [hv]
      exact pr
    · rw [key, if_neg hv] at fv
      exact fo1 v mv fv
  · rw [key, if_pos rfl]
    rfl

theorem makeImmutable_spec (h0 : Heap) (rank : Obj → Nat) (R : Nat) (P : Obj → Prop)
    (ac : Acyclic h0 rank R) (pc : PClosed h0 P) :
    ∀ n, 1 ≤ n → FreezeSpec h0 rank R n P (fun h u => MakeImmutable n h u) := by
  intro n
  induction n with
  | zero =>
    intro h
    omega
  | succ n ih =>
    intro _ h u fi fc fo cond
    by_cases hm : (bagOf h u).tnum = T_PREC
    · have e0 := finv_mut fi hm
      have m0 : (bagOf h0 u).tnum = T_PREC := by
        rw [← e0]
        exact hm
      obtain ⟨c1, c2, c3⟩ := cond m0
      have hmut : IS_MUTABLE_OBJ (bagOf h u) = true := by
        simp only [IS_MUTABLE_OBJ, hm]
        decide
      obtain ⟨h2, e2, fi2, fc2, fo2, fm2, d2⟩ :=
        makeImmutablePRecWith_spec (ih (by omega)) m0 ac (by omega) c2 pc c3 fi fc fo
      refine ⟨h2, ?_, fi2, fc2, fo2, fm2, fun _ => d2⟩
      simp only [MakeImmutable, if_pos hmut]
      exact e2
    · have hmut : ¬ (IS_MUTABLE_OBJ (bagOf h u) = true) := by
        simp only [IS_MUTABLE_OBJ, beq_iff_eq]
        exact hm
      refine ⟨h, ?_, fi, fc, fo, fun _ x => x, fun m0 => finv_frozen fi m0 hm⟩
      simp only [MakeImmutable, if_neg hmut]

theorem isRec_cases {h0 : Heap} {v : Obj} (rv : IsRec h0 v) :
    (bagOf h0 v).tnum = T_PREC ∨ (bagOf h0 v).tnum = T_PREC + IMMUTABLE := by
  have h1 := rv.2
  simp only [IS_PREC_REP, Bool.or_eq_true, beq_iff_eq] at h1
  exact h1

/-- `MakeImmutablePRec` on a mutable record `r` below which the references between
mutable records are acyclic: the call returns, it retypes exactly the mutable
records reached from `r` through slots of mutable records, and nothing else
changes. -/
theorem freeze_spec {h0 : Heap} {rank : Obj → Nat} {r : Obj} {fuel : Nat}
    (mr : IsMutRec h0 r) (ac : Acyclic h0 rank (rank r)) (hf : rank r + 1 ≤ fuel) :
    ∃ h1, MakeImmutablePRec fuel h0 r = some h1 ∧ FInv h0 h1 ∧ FClosed h0 h1 ∧
      FOnly h0 (fun v => ReachMut h0 r v) h1 ∧ (bagOf h1 r).tnum = T_PREC + IMMUTABLE := by
  have fi0 : FInv h0 h0 := ⟨rfl, fun _ => Or.inl rfl⟩
  have fc0 : FClosed h0 h0 := by
    intro v mv fv
    rw [mv] at fv
    exact absurd fv (by decide)
  have fo0 : FOnly h0 (fun v => ReachMut h0 r v) h0 := by
    intro v mv fv
    rw [mv] at fv
    exact absurd fv (by decide)
  have pc : PClosed h0 (fun v => ReachMut h0 r v) :=
    fun v pv mv i h1i h2i => ReachMut.step v i pv mv h1i h2i
  obtain ⟨h1, e1, fi1, fc1, fo1, _, d1⟩ := makeImmutablePRecWith_spec
    (makeImmutable_spec h0 rank (rank r) (fun v => ReachMut h0 r v) ac pc fuel (by omega))
    mr.2 ac hf (le_refl _) pc ReachMut.root fi0 fc0 fo0
  exact ⟨h1, e1, fi1, fc1, fo1, d1⟩

/-- Claim C25 (what the code does): in a workspace without markers, for a mutable
record `r` below which the value graph is acyclic (the rank decreases along
every reference between mutable records), `MakeImmutablePRec` returns as soon
as the recursion depth exceeds the rank of `r`.  Afterwards `r` and every
record reached from `r` through slot values of records that were mutable have
the immutable representation; a mutable record that is not reached this way,
in particular one that is reachable only through a record that was immutable
already, is as it was and still mutable.  Every bag has the length, size and
slots (names and value references) it had, what was no mutable record is as it
was, and the workspace is again without markers.  When no immutable record
held a mutable record before the call, every record reachable from `r` through
slot values has the immutable representation afterwards, and again no
immutable record holds a mutable one. -/
theorem freeze_reached_through_mutable (h0 : Heap) (rank : Obj → Nat) (r : Obj) (fuel : Nat)
    (ok : HeapOK h0) (mr : IsMutRec h0 r) (ac : Acyclic h0 rank (rank r))
    (hf : rank r + 1 ≤ fuel) :
    ∃ h1, MakeImmutablePRec fuel h0 r = some h1 ∧
      (∀ v, ReachMut h0 r v → IsRec h0 v →
        TNUM_OBJ (bagOf h1 v) = T_PREC + IMMUTABLE ∧ IS_MUTABLE_OBJ (bagOf h1 v) = false) ∧
      (∀ v, IsMutRec h0 v → ¬ ReachMut h0 r v →
        bagOf h1 v = bagOf h0 v ∧ IS_MUTABLE_OBJ (bagOf h1 v) = true) ∧
      (∀ v, LEN_PREC (bagOf h1 v) = LEN_PREC (bagOf h0 v) ∧
        SIZE_OBJ (bagOf h1 v) = SIZE_OBJ (bagOf h0 v) ∧
        (bagOf h1 v).slots = (bagOf h0 v).slots ∧
        ∀ i, GET_RNAM_PREC (bagOf h1 v) i = GET_RNAM_PREC (bagOf h0 v) i ∧
          GET_ELM_PREC (bagOf h1 v) i = GET_ELM_PREC (bagOf h0 v) i) ∧
      (∀ v, ¬ IsMutRec h0 v → bagOf h1 v = bagOf h0 v) ∧
      h1.length = h0.length ∧ HeapOK h1 ∧
      (DeepImm h0 →
        (∀ v, Reach h0 r v → IsRec h0 v →
          TNUM_OBJ (bagOf h1 v) = T_PREC + IMMUTABLE ∧ IS_MUTABLE_OBJ (bagOf h1 v) = false) ∧
        DeepImm h1) := by
  obtain ⟨h1, e1, fi1, fc1, fo1, d1⟩ := freeze_spec mr ac hf
  have himm : ∀ v, (bagOf h1 v).tnum = T_PREC + IMMUTABLE →
      IS_MUTABLE_OBJ (bagOf h1 v) = false := by
    intro v hv
    simp only [IS_MUTABLE_OBJ, hv]
    decide
  have hreach : ∀ v, ReachMut h0 r v → IsRec h0 v →
      (bagOf h1 v).tnum = T_PREC + IMMUTABLE := by
    intro v hv
    induction hv with
    | root => exact fun _ => d1
    | step w i _ mw h1i h2i ih =>
      intro rv
      rcases isRec_cases rv with mc | ic
      · have rw : IsRec h0 w := ⟨mw.1, by simp only [IS_PREC_REP, mw.2]; decide⟩
        exact fc1 w mw.2 (ih rw) i h1i h2i mc
      · rw [finv_keep fi1 (by rw [ic]; decide)]
        exact ic
  refine ⟨h1, e1, fun v hv rv => ⟨hreach v hv rv, himm v (hreach v hv rv)⟩,
    fun v mv nv => ?_,
    fun v => ⟨finv_len fi1 v, finv_size fi1 v, finv_slots fi1 v,
      fun i => ⟨finv_rnam fi1 v i, finv_elm fi1 v i⟩⟩,
    fun v nv => ?_, fi1.1, fun v hv => ?_, fun di => ⟨fun v hv rv => ?_,
      fun v iv i h1i h2i => ?_⟩⟩
  · have e : bagOf h1 v = bagOf h0 v := by
      rcases fi1.2 v with e | ⟨m0, e⟩
      · exact e
      · exact absurd (fo1 v m0 (by rw [e]; rfl)) nv
    refine ⟨e, ?_⟩
    simp only [IS_MUTABLE_OBJ, e, mv.2]
    decide
  · by_cases mv : (bagOf h0 v).tnum = T_PREC
    · exact absurd ⟨validRef_of_tnum (by rw [mv]; decide), mv⟩ nv
    · exact finv_keep fi1 mv
  · have hv0 := (finv_valid fi1 v).1 hv
    rcases fi1.2 v with e | ⟨_, e⟩
    · rw [e]
      obtain ⟨o1, o2, o3⟩ := ok v hv0
      refine ⟨o1, o2, fun mv => ?_⟩
      obtain ⟨p1, p2, p3, p4⟩ := o3 mv
      exact ⟨p1, p2, p3, fun i h1i h2i hb => (finv_valid fi1 _).2 (p4 i h1i h2i hb)⟩
    · rw [e]
      refine ⟨?_, ?_, fun mv => ?_⟩
      · show T_PREC + IMMUTABLE ≠ T_PREC + COPYING
        decide
      · show T_PREC + IMMUTABLE ≠ T_PREC + IMMUTABLE + COPYING
        decide
      · exact absurd (show T_PREC + IMMUTABLE = T_PREC from mv) (by decide)
  · have hall : ∀ v, Reach h0 r v → IsRec h0 v → (bagOf h1 v).tnum = T_PREC + IMMUTABLE := by
      intro v hv
      induction hv with
      | root => exact fun _ => d1
      | step w i _ rw h1i h2i ih =>
        intro rv
        rcases isRec_cases rv with mc | ic
        · rcases isRec_cases rw with mw | iw
          · exact fc1 w mw (ih rw) i h1i h2i mc
          · exact absurd mc (di w iw i h1i h2i)
        · rw [finv_keep fi1 (by rw [ic]; decide)]
          exact ic
    exact ⟨hall v hv rv, himm v (hall v hv rv)⟩
  · rw [finv_len fi1] at h2i
    rw [finv_elm fi1]
    intro mc
    have mc0 : (bagOf h0 (GET_ELM_PREC (bagOf h0 v) i)).tnum = T_PREC := by
      rw [← finv_mut fi1 mc]
      exact mc
    by_cases mv : (bagOf h0 v).tnum = T_PREC
    · have := fc1 v mv iv i h1i h2i mc0
      rw [mc] at this
      exact absurd this (by decide)
    · rw [finv_keep fi1 mv] at iv
      exact di v iv i h1i h2i mc0

theorem demoFreeze_ok :
    HeapOK demoFreeze ∧ DeepImm demoFreeze ∧ IsMutRec demoFreeze 2 ∧
    Acyclic demoFreeze demoFreezeRank (demoFreezeRank 2) := by
  have three : ∀ v : Nat, ValidRef demoFreeze v → v = 2 ∨ v = 4 ∨ v = 6 := by
    intro v hv
    obtain ⟨h1, h2⟩ := hv
    simp only [isBagRef, Bool.and_eq_true, beq_iff_eq, bne_iff_ne, ne_eq] at h1
    have h3 : v % 2 = 0 := h1.1
    have h4 : ¬ (v = 0) := h1.2
    have h5 : v / 2 - 1 < 3 := h2
    omega
  refine ⟨fun v hv => ?_, fun v iv i h1 h2 => ?_, ?_, fun v mv _ i h1 h2 => ?_⟩
  · rcases three v hv with e | e | e
    · rw [e]
      refine ⟨by decide, by decide, fun _ => ⟨by decide, by unfold BagOK; decide, by decide,
        fun i h1 h2 => ?_⟩⟩
      have h3 : i ≤ 3 := h2
      interval_cases i <;> unfold ValidRef <;> decide
    · rw [e]
      refine ⟨by decide, by decide, fun _ => ⟨by decide, by unfold BagOK; decide, by decide,
        fun i h1 h2 => ?_⟩⟩
      have h3 : i ≤ 1 := h2
      interval_cases i
      unfold ValidRef
      decide
    · rw [e]
      exact ⟨by decide, by decide, fun hc => absurd hc (by decide)⟩
  · have hv : ValidRef demoFreeze v := validRef_of_tnum (by rw [iv]; decide)
    rcases three v hv with e | e | e
    · rw [e] at iv
      exact absurd iv (by decide)
    · rw [e] at iv
      exact absurd iv (by decide)
    · rw [e] at h2 ⊢
      have h3 : i ≤ 1 := h2
      interval_cases i
      decide
  · unfold IsMutRec ValidRef
    decide
  · rcases three v mv.1 with e | e | e
    · rw [e] at h2 ⊢
      have h3 : i ≤ 3 := h2
      interval_cases i <;> unfold IsMutRec ValidRef <;> decide
    · rw [e] at h2 ⊢
      have h3 : i ≤ 1 := h2
      interval_cases i
      unfold IsMutRec ValidRef
      decide
    · have := mv.2
      rw [e] at this
      exact absurd this (by decide)

theorem freeze_reached_through_mutable_witness :
    (HeapOK demoFreeze ∧ IsMutRec demoFreeze 2 ∧
      Acyclic demoFreeze demoFreezeRank (demoFreezeRank 2) ∧ demoFreezeRank 2 + 1 ≤ 2) ∧
    ∃ h1, MakeImmutablePRec 2 demoFreeze 2 = some h1 ∧
      (∀ v, ReachMut demoFreeze 2 v → IsRec demoFreeze v →
        TNUM_OBJ (bagOf h1 v) = T_PREC + IMMUTABLE ∧ IS_MUTABLE_OBJ (bagOf h1 v) = false) ∧
      (∀ v, IsMutRec demoFreeze v → ¬ ReachMut demoFreeze 2 v →
        bagOf h1 v = bagOf demoFreeze v ∧ IS_MUTABLE_OBJ (bagOf h1 v) = true) ∧
      (∀ v, LEN_PREC (bagOf h1 v) = LEN_PREC (bagOf demoFreeze v) ∧
        SIZE_OBJ (bagOf h1 v) = SIZE_OBJ (bagOf demoFreeze v) ∧
        (bagOf h1 v).slots = (bagOf demoFreeze v).slots ∧
        ∀ i, GET_RNAM_PREC (bagOf h1 v) i = GET_RNAM_PREC (bagOf demoFreeze v) i ∧
          GET_ELM_PREC (bagOf h1 v) i = GET_ELM_PREC (bagOf demoFreeze v) i) ∧
      (∀ v, ¬ IsMutRec demoFreeze v → bagOf h1 v = bagOf demoFreeze v) ∧
      h1.length = demoFreeze.length ∧ HeapOK h1 ∧
      (DeepImm demoFreeze →
        (∀ v, Reach demoFreeze 2 v → IsRec demoFreeze v →
          TNUM_OBJ (bagOf h1 v) = T_PREC + IMMUTABLE ∧ IS_MUTABLE_OBJ (bagOf h1 v) = false) ∧
        DeepImm h1) :=
  ⟨⟨demoFreeze_ok.1, demoFreeze_ok.2.2.1, demoFreeze_ok.2.2.2, by decide⟩,
    freeze_reached_through_mutable demoFreeze demoFreezeRank 2 2 demoFreeze_ok.1
      demoFreeze_ok.2.2.1 demoFreeze_ok.2.2.2 (by decide)⟩

theorem demoShallow_ok :
    HeapOK demoShallow ∧ IsMutRec demoShallow 2 ∧
    Acyclic demoShallow demoShallowRank (demoShallowRank 2) := by
  have three : ∀ v : Nat, ValidRef demoShallow v → v = 2 ∨ v = 4 ∨ v = 6 := by
    intro v hv
    obtain ⟨h1, h2⟩ := hv
    simp only [isBagRef, Bool.and_eq_true, beq_iff_eq, bne_iff_ne, ne_eq] at h1
    have h3 : v % 2 = 0 := h1.1
    have h4 : ¬ (v = 0) := h1.2
    have h5 : v / 2 - 1 < 3 := h2
    omega
  refine ⟨fun v hv => ?_, ?_, fun v mv _ i h1 h2 mc => ?_⟩
  · rcases three v hv with e | e | e
    · rw [e]
      refine ⟨by decide, by decide, fun _ => ⟨by decide, by unfold BagOK; decide, by decide,
        fun i h1 h2 => ?_⟩⟩
      have h3 : i ≤ 1 := h2
      interval_cases i
      unfold ValidRef
      decide
    · rw [e]
      exact ⟨by decide, by decide, fun hc => absurd hc (by decide)⟩
    · rw [e]
      refine ⟨by decide, by decide, fun _ => ⟨by decide, by unfold BagOK; decide, by decide,
        fun i h1 h2 => ?_⟩⟩
      have h3 : i ≤ 1 := h2
      interval_cases i
      unfold ValidRef
      decide
  · unfold IsMutRec ValidRef
    decide
  · rcases three v mv.1 with e | e | e
    · rw [e] at h2 mc
      have h3 : i ≤ 1 := h2
      have h4 : i = 1 := by omega
      rw [h4] at mc
      exact absurd mc.2 (by decide)
    · have := mv.2
      rw [e] at this
      exact absurd this (by decide)
    · rw [e] at h2 mc
      have h3 : i ≤ 1 := h2
      have h4 : i = 1 := by omega
      rw [h4] at mc
      exact absurd mc.1.1 (by decide)

/-- Claim C25 (counterexample): in `demoShallow` the mutable record of handle 2
holds the immutable record of handle 4, which holds the mutable record of
handle 6; the value graph is acyclic (the rank 2, 1, 0 decreases along both
references) and the record 6 is reachable from the record 2 through slot
values.  `MakeImmutablePRec` on the record 2 returns and retypes only the
record 2: `MakeImmutable` does nothing for the record 4, which is not mutable,
so the record 6 is still mutable afterwards. -/
theorem freeze_skips_below_immutable :
    HeapOK demoShallow ∧ IsMutRec demoShallow 2 ∧
    Acyclic demoShallow demoShallowRank (demoShallowRank 2) ∧
    demoShallowRank 4 < demoShallowRank 2 ∧ demoShallowRank 6 < demoShallowRank 4 ∧
    Reach demoShallow 2 6 ∧ IsRec demoShallow 6 ∧
    MakeImmutablePRec 3 demoShallow 2 = some
      [{ tnum := 1, size := 32, len := 1, slots := [(-1, 4)] },
       { tnum := 1, size := 32, len := 1, slots := [(-1, 6)] },
       { tnum := 0, size := 32, len := 1, slots := [(-1, 9)] }] ∧
    MakeImmutablePRec 7 demoShallow 2 = MakeImmutablePRec 3 demoShallow 2 ∧
    TNUM_OBJ (bagOf [{ tnum := 1, size := 32, len := 1, slots := [(-1, 4)] },
       { tnum := 1, size := 32, len := 1, slots := [(-1, 6)] },
       { tnum := 0, size := 32, len := 1, slots := [(-1, 9)] }] 6) = T_PREC ∧
    IS_MUTABLE_OBJ (bagOf [{ tnum := 1, size := 32, len := 1, slots := [(-1, 4)] },
       { tnum := 1, size := 32, len := 1, slots := [(-1, 6)] },
       { tnum := 0, size := 32, len := 1, slots := [(-1, 9)] }] 6) = true := by
  have r2 : IsRec demoShallow 2 := by
    unfold IsRec ValidRef
    decide
  have r4 : IsRec demoShallow 4 := by
    unfold IsRec ValidRef
    decide
  have r6 : IsRec demoShallow 6 := by
    unfold IsRec ValidRef
    decide
  have p4 : Reach demoShallow 2 4 := Reach.step 2 1 Reach.root r2 (by decide) (by decide)
  have p6 : Reach demoShallow 2 6 := Reach.step 4 1 p4 r4 (by decide) (by decide)
  exact ⟨demoShallow_ok.1, demoShallow_ok.2.1, demoShallow_ok.2.2, by decide, by decide, p6, r6,
    by decide, by decide, by decide, by decide⟩

/-- `MakeImmutablePRec` on the record of handle 2 of `demoFreeze`: the two mutable
records are retyped, nothing else changes; with recursion depth 1 the call on
the values does not return in the model. -/
theorem makeImmutablePRec_demo :
    MakeImmutablePRec 2 demoFreeze 2 = some
      [{ tnum := 1, size := 64, len := 3, slots := [(-1, 4), (-2, 4), (-3, 6)] },
       { tnum := 1, size := 32, len := 1, slots := [(-7, 9)] },
       { tnum := 1, size := 32, len := 1, slots := [(-5, 11)] }] ∧
    MakeImmutablePRec 1 demoFreeze 2 = none := by
  decide

/-- `UnbPRec` for a name that is not bound: only the cleanup of `FindPRec` happens. -/
theorem unb_absent {r : PRec} (h : WellFormed r) (k : Nat) (hk : ¬ HasKey r k) :
    UnbPRec r k = SortPRecRNam r false := by
  obtain ⟨s1, _, _, _, _, _, _⟩ := sort_active h false
  obtain ⟨fb, hf⟩ := find_clean h k 0
  have hhas := hasKey_sort h false k
  unfold UnbPRec
  simp only [LEN_PREC]
  rcases hf with ⟨_, f2, f3, f4⟩ | ⟨f1, _⟩
  · exact absurd (hhas.mp ⟨_, f2, by rw [s1]; exact f3, f4⟩) hk
  · rw [if_neg (by omega), fb]

/-- `UnbPRec` for a bound name, slot by slot: the record is sorted, the slots
behind the position `p` of the name move down by one and slot `N` is cleared. -/
theorem unb_frame {r : PRec} (h : WellFormed r) (k : Nat) (hk : HasKey r k) :
    ∃ p, 1 ≤ p ∧ p ≤ r.len ∧ GET_RNAM_PREC (SortPRecRNam r false) p = -(k : Int) ∧
      (UnbPRec r k).len + 1 = r.len ∧ (UnbPRec r k).size = r.size ∧
      (UnbPRec r k).tnum = r.tnum ∧ (UnbPRec r k).slots.length = r.slots.length ∧
      ∀ j, slotAt (UnbPRec r k) j =
        if p ≤ j ∧ j < r.len then slotAt (SortPRecRNam r false) (j + 1)
        else if j = r.len then (0, 0) else slotAt (SortPRecRNam r false) j := by
  obtain ⟨s1, s2, s3, s4, _, _, s7⟩ := sort_active h false
  have hI := wfIdx_of_cleanL (by rw [s1, s4]; exact h.1) s7
  obtain ⟨fb, hf⟩ := find_clean h k 0
  have hhas := hasKey_sort h false k
  unfold UnbPRec
  simp only [LEN_PREC]
  rw [fb]
  generalize SortPRecRNam r false = r' at s1 s2 s3 s4 s7 hI hf hhas
  rcases hf with ⟨f1, f2, f3, f4⟩ | ⟨f1, f2, f3, f4, f5⟩
  · rw [if_pos (by omega)]
    generalize (FindPRec r k 0 true).pos = p at f2 f3 f4
    rw [← s1] at f3
    have hlen' := hI.hlen
    obtain ⟨d1, d2, d3, d4, d5⟩ := shiftDown_spec (r'.len - p) r' p f2 (by omega)
    generalize shiftDown r' p (r'.len - p) = sd at d1 d2 d3 d4 d5
    have fr1 := frame_set_rnam sd r'.len 0
    have fr2 := frame_set_elm (SET_RNAM_PREC sd r'.len 0) r'.len 0
    have hlq : (SET_ELM_PREC (SET_RNAM_PREC sd r'.len 0) r'.len 0).len = r'.len :=
      fr2.1.trans (fr1.1.trans d1)
    rw [hlq]
    generalize hres : SET_LEN_PREC (SET_ELM_PREC (SET_RNAM_PREC sd r'.len 0) r'.len 0)
      (r'.len - 1) = res
    have hrl : res.len = r'.len - 1 := by rw [← hres]; rfl
    have hrs : res.size = r'.size := by
      rw [← hres]; exact (fr2.2.1.trans fr1.2.1).trans d2
    have hrt : res.tnum = r'.tnum := by
      rw [← hres]; exact (fr2.2.2.1.trans fr1.2.2.1).trans d3
    have hrsl : res.slots.length = r'.slots.length := by
      rw [← hres]; exact (fr2.2.2.2.trans fr1.2.2.2).trans d4
    have hneg := hI.neg p f2 f3
    refine ⟨p, f2, by omega, by omega, by omega, by rw [hrs, s2], by rw [hrt, s3],
      by rw [hrsl, s4], fun j => ?_⟩
    have e1 : slotAt res j = slotAt (SET_ELM_PREC (SET_RNAM_PREC sd r'.len 0) r'.len 0) j := by
      rw [← hres]; rfl
    rw [e1, ← s1]
    by_cases hj : j = r'.len
    · rw [slotAt_set_elm, if_pos ⟨hj, by omega, by rw [fr1.2.2.2, d4]; exact hlen'⟩,
        slotAt_set_rnam, if_pos ⟨rfl, by omega, by rw [d4]; exact hlen'⟩,
        if_neg (by omega), if_pos hj]
    · rw [slotAt_set_elm, if_neg (by omega), slotAt_set_rnam, if_neg (by omega), d5,
        if_neg hj]
      by_cases hpj : p ≤ j ∧ j < r'.len
      · rw [if_pos ⟨hpj.1, by omega⟩, if_pos hpj]
      · rw [if_neg (by omega), if_neg hpj]
  · obtain ⟨i, i1, i2, i3⟩ := hhas.mpr hk
    rw [s1] at i2
    by_cases hlt : i < (FindPRec r k 0 true).pos
    · have := f4 i i1 hlt; omega
    · have := f5 i (by omega) i2; omega

/-- `AssPRec`, slot by slot: `r0` is the record after the occasional cleanup at
the start of the call; a new name is appended behind the `N` slots of `r0`, for
a bound name only the value word of its slot changes. -/
theorem ass_frame {r : PRec} (h : WellFormed r) (hb : BagOK r) (k : Nat)
    (v : Obj) :
    (¬ HasKey r k → (AssPRec r k v).len = r.len + 1 ∧
      ∀ j, slotAt (AssPRec r k v) j = if j = r.len + 1 then ((k : Int), v)
        else slotAt (if r.len % 1000 = 0 then SortPRecRNam r false else r) j) ∧
    (HasKey r k → ∃ p, 1 ≤ p ∧ p ≤ r.len ∧
      (GET_RNAM_PREC (if r.len % 1000 = 0 then SortPRecRNam r false else r) p).natAbs = k ∧
      AssPRec r k v =
        SET_ELM_PREC (if r.len % 1000 = 0 then SortPRecRNam r false else r) p v ∧
      (AssPRec r k v).len = r.len ∧ (AssPRec r k v).size = r.size ∧
      (AssPRec r k v).slots.length = r.slots.length ∧
      ∀ j, slotAt (AssPRec r k v) j =
        if j = p then
          ((slotAt (if r.len % 1000 = 0 then SortPRecRNam r false else r) p).1, v)
        else slotAt (if r.len % 1000 = 0 then SortPRecRNam r false else r) j) := by
  obtain ⟨w0, l0, s0, sl0, b0⟩ := ass_cleanup h
  unfold AssPRec
  simp only [LEN_PREC]
  generalize (if r.len % 1000 = 0 then SortPRecRNam r false else r) = r0 at w0 l0 s0 sl0 b0
  obtain ⟨K, hI⟩ := w0.index
  have hb0 : BagOK r0 := by simp only [BagOK] at hb ⊢; rw [sl0, s0]; exact hb
  obtain ⟨fb, hf⟩ := find_noclean hI k 0
  have hhas : HasKey r k ↔ HasKey r0 k := by
    simp only [hasKey_iff_binds, b0]
  rcases hf with ⟨f1, f2, f3, f4⟩ | ⟨f1, f5⟩
  · have hk0 : HasKey r0 k := ⟨_, f2, f3, f4⟩
    rw [if_neg (by omega), fb]
    generalize (FindPRec r0 k 0 false).pos = p at f2 f3 f4 hk0
    have fr := frame_set_elm r0 p v
    refine ⟨fun hno => absurd (hhas.mpr hk0) hno, fun _ => ⟨p, f2, by omega, f4, rfl,
      by rw [fr.1, l0], by rw [fr.2.1, s0], by rw [fr.2.2.2, sl0], fun j => ?_⟩⟩
    rw [slotAt_set_elm]
    by_cases hj : j = p
    · rw [if_pos ⟨hj, f2, by have := hI.hlen; omega⟩, if_pos hj]
    · rw [if_neg (by omega), if_neg hj]
  · have hk0 : ¬ HasKey r0 k := by
      rintro ⟨i, i1, i2, i3⟩
      exact f5 i i1 i2 i3
    rw [if_pos f1, fb]
    obtain ⟨g1, _, g3, g4, g5, g6, g7⟩ := grow_spec r0 (r.len + 1) hb0
    generalize (GrowPRec r0 (r.len + 1)).1 = g at g1 g3 g4 g5 g6 g7
    have hroom : r.len + 1 ≤ g.slots.length := by
      have := capacityOf_le_slotsIn g.size
      rw [g3]; omega
    have fr1 := frame_set_rnam g (r.len + 1) (k : Int)
    have fr3 := frame_set_elm (SET_LEN_PREC (SET_RNAM_PREC g (r.len + 1) (k : Int)) (r.len + 1))
      (r.len + 1) v
    generalize hres : SET_ELM_PREC (SET_LEN_PREC (SET_RNAM_PREC g (r.len + 1) (k : Int))
      (r.len + 1)) (r.len + 1) v = res at fr3
    refine ⟨fun _ => ⟨fr3.1, fun j => ?_⟩, fun hyes => absurd (hhas.mp hyes) hk0⟩
    rw [← hres, slotAt_set_elm]
    simp only [SET_LEN_PREC]
    rw [fr1.2.2.2]
    by_cases hj : j = r.len + 1
    · rw [if_pos ⟨hj, by omega, hroom⟩, if_pos hj]
      have : (slotAt { SET_RNAM_PREC g (r.len + 1) (k : Int) with len := r.len + 1 }
          (r.len + 1)) = slotAt (SET_RNAM_PREC g (r.len + 1) (k : Int)) (r.len + 1) := rfl
      rw [this, slotAt_set_rnam, if_pos ⟨rfl, by omega, hroom⟩]
    · rw [if_neg (by omega), if_neg hj]
      have : (slotAt { SET_RNAM_PREC g (r.len + 1) (k : Int) with len := r.len + 1 } j) =
          slotAt (SET_RNAM_PREC g (r.len + 1) (k : Int)) j := rfl
      rw [this, slotAt_set_rnam, if_neg (by omega), g7]

/-- Claim C32: for a well-formed mutable record `r` of length `N` and a name `k`
bound in `r`, `UnbPRec(r, k)` (reached through `UNB_REC`) gives a record of
length `N-1` with the size (capacity) and type of `r` in which `k` is not
bound and every other name is bound to the value it had; its slots are those of
the sorted record `SortPRecRNam(r)` without the slot `p` of `k`, in the same
order (slots before `p` stay, slots behind move down by one), so all names are
negative and strictly increasing in magnitude, and slot `N` holds the name 0
and the value 0.  If `r` was sorted already (last name negative) the sorted
record is `r` itself. -/
theorem delete_present_key (r : PRec) (k : Nat) (wf : WellFormed r)
    (hm : TNUM_OBJ r = T_PREC) (hk : HasKey r k) :
    UNB_REC r k = some (UnbPRec r k, Except.ok ()) ∧
    LEN_PREC (UnbPRec r k) + 1 = LEN_PREC r ∧
    SIZE_OBJ (UnbPRec r k) = SIZE_OBJ r ∧ capacity (UnbPRec r k) = capacity r ∧
    TNUM_OBJ (UnbPRec r k) = TNUM_OBJ r ∧
    ¬ HasKey (UnbPRec r k) k ∧
    (∀ k' v', k' ≠ k → (Binds (UnbPRec r k) k' v' ↔ Binds r k' v')) ∧
    (∃ p, 1 ≤ p ∧ p ≤ LEN_PREC r ∧ GET_RNAM_PREC (SortPRecRNam r false) p = -(k : Int) ∧
      (∀ j, 1 ≤ j → j < p → slotAt (UnbPRec r k) j = slotAt (SortPRecRNam r false) j) ∧
      (∀ j, p ≤ j → j < LEN_PREC r →
        slotAt (UnbPRec r k) j = slotAt (SortPRecRNam r false) (j + 1))) ∧
    CleanL (active (UnbPRec r k)) ∧
    GET_RNAM_PREC (UnbPRec r k) (LEN_PREC r) = 0 ∧
    GET_ELM_PREC (UnbPRec r k) (LEN_PREC r) = 0 ∧
    (GET_RNAM_PREC r (LEN_PREC r) < 0 → SortPRecRNam r false = r) := by
  obtain ⟨_, _, u3, _, _, _, u7⟩ := unb_spec wf k
  obtain ⟨p, p1, p2, p3, f1, f2, f3, _, f5⟩ := unb_frame wf k hk
  have hN : slotAt (UnbPRec r k) r.len = (0, 0) := by
    rw [f5, if_neg (by omega), if_pos rfl]
  refine ⟨by simp only [UNB_REC, if_pos hm], f1, f2, ?_, f3, ?_, fun k' v' hne => ?_,
    ⟨p, p1, p2, p3, fun j _ hj => ?_, fun j h1 h2 => ?_⟩, u7, ?_, ?_, fun hneg => ?_⟩
  · show capacityOf (UnbPRec r k).size = capacityOf r.size
    rw [f2]
  · intro hc
    obtain ⟨v, hv⟩ := (hasKey_iff_binds _ _).mp hc
    exact ((u3 k v).mp hv).1 rfl
  · rw [u3]
    exact ⟨fun hb => hb.2, fun hb => ⟨hne, hb⟩⟩
  · have hj2 : j < r.len := by
      have : p ≤ r.len := p2
      omega
    rw [f5, if_neg (by omega), if_neg (by omega)]
  · have h3 : j < r.len := h2
    rw [f5, if_pos ⟨h1, h3⟩]
  · show GET_RNAM_PREC (UnbPRec r k) r.len = 0
    rw [rnam_eq_slotAt, hN]
  · show GET_ELM_PREC (UnbPRec r k) r.len = 0
    rw [elm_eq_slotAt, hN]
  · exact sort_of_not_dirty wf (fun hd => by
      have h1 : GET_RNAM_PREC r r.len < 0 := hneg
      have h2 := hd.2
      omega) false

theorem delete_present_key_witness :
    (WellFormed demoRec ∧ TNUM_OBJ demoRec = T_PREC ∧ HasKey demoRec 4) ∧
    (UNB_REC demoRec 4 = some (UnbPRec demoRec 4, Except.ok ()) ∧
    LEN_PREC (UnbPRec demoRec 4) + 1 = LEN_PREC demoRec ∧
    SIZE_OBJ (UnbPRec demoRec 4) = SIZE_OBJ demoRec ∧
    capacity (UnbPRec demoRec 4) = capacity demoRec ∧
    TNUM_OBJ (UnbPRec demoRec 4) = TNUM_OBJ demoRec ∧
    ¬ HasKey (UnbPRec demoRec 4) 4 ∧
    (∀ k' v', k' ≠ 4 → (Binds (UnbPRec demoRec 4) k' v' ↔ Binds demoRec k' v')) ∧
    (∃ p, 1 ≤ p ∧ p ≤ LEN_PREC demoRec ∧
      GET_RNAM_PREC (SortPRecRNam demoRec false) p = -((4 : Nat) : Int) ∧
      (∀ j, 1 ≤ j → j < p →
        slotAt (UnbPRec demoRec 4) j = slotAt (SortPRecRNam demoRec false) j) ∧
      (∀ j, p ≤ j → j < LEN_PREC demoRec →
        slotAt (UnbPRec demoRec 4) j = slotAt (SortPRecRNam demoRec false) (j + 1))) ∧
    CleanL (active (UnbPRec demoRec 4)) ∧
    GET_RNAM_PREC (UnbPRec demoRec 4) (LEN_PREC demoRec) = 0 ∧
    GET_ELM_PREC (UnbPRec demoRec 4) (LEN_PREC demoRec) = 0 ∧
    (GET_RNAM_PREC demoRec (LEN_PREC demoRec) < 0 → SortPRecRNam demoRec false = demoRec)) :=
  ⟨⟨wellFormed_demoRec, by decide, ⟨4, by decide, by decide, by decide⟩⟩,
    delete_present_key demoRec 4 wellFormed_demoRec (by decide)
      ⟨4, by decide, by decide, by decide⟩⟩

/-- `UnbPRec` on `demoRec`: the record is sorted, the slot of the name 4 is taken
out and slot 5 is cleared. -/
theorem unbPRec_demo :
    UnbPRec demoRec 4 =
      { tnum := 0, size := 98, len := 4, slots := [(-1, 10), (-3, 30), (-5, 50), (-7, 70), (0, 0)] } := by
  decide

/-- Claim C34: for a well-formed mutable record `r` of length `N` that is no
multiple of 1000 and a positive name `k`: if `k` is not bound, `AssPRec(r, k, v)`
(reached through `ASS_REC`) has length `N+1`, slot `N+1` holds the positive
name word `k` and the value `v`, and slots `1..N` are as they were; if `k` is
bound at position `p`, the result is `r` with the value word of slot `p`
replaced by `v`: the length, every name word and every other value are as they
were. -/
theorem set_frame_effect (r : PRec) (k : Nat) (v : Obj) (wf : WellFormed r) (hb : BagOK r)
    (hm : TNUM_OBJ r = T_PREC) (hk : 0 < k) (hN : LEN_PREC r % 1000 ≠ 0) :
    ASS_REC r k v = some (AssPRec r k v, Except.ok ()) ∧
    (¬ HasKey r k →
      LEN_PREC (AssPRec r k v) = LEN_PREC r + 1 ∧
      GET_RNAM_PREC (AssPRec r k v) (LEN_PREC r + 1) = (k : Int) ∧
      0 < GET_RNAM_PREC (AssPRec r k v) (LEN_PREC r + 1) ∧
      GET_ELM_PREC (AssPRec r k v) (LEN_PREC r + 1) = v ∧
      ∀ j, 1 ≤ j → j ≤ LEN_PREC r →
        GET_RNAM_PREC (AssPRec r k v) j = GET_RNAM_PREC r j ∧
        GET_ELM_PREC (AssPRec r k v) j = GET_ELM_PREC r j) ∧
    (∀ p, 1 ≤ p → p ≤ LEN_PREC r → (GET_RNAM_PREC r p).natAbs = k →
      AssPRec r k v = SET_ELM_PREC r p v ∧
      LEN_PREC (AssPRec r k v) = LEN_PREC r ∧
      SIZE_OBJ (AssPRec r k v) = SIZE_OBJ r ∧
      GET_ELM_PREC (AssPRec r k v) p = v ∧
      ∀ j, GET_RNAM_PREC (AssPRec r k v) j = GET_RNAM_PREC r j ∧
        (j ≠ p → GET_ELM_PREC (AssPRec r k v) j = GET_ELM_PREC r j)) := by
  have hN2 : ¬ (r.len % 1000 = 0) := hN
  obtain ⟨a1, a2⟩ := ass_frame wf hb k v
  rw [if_neg hN2] at a1 a2
  refine ⟨by simp only [ASS_REC, if_pos hm], fun hno => ?_, fun p p1 p2 p3 => ?_⟩
  · obtain ⟨l1, sl⟩ := a1 hno
    have e : slotAt (AssPRec r k v) (r.len + 1) = ((k : Int), v) := by
      rw [sl, if_pos rfl]
    have e1 : GET_RNAM_PREC (AssPRec r k v) (r.len + 1) = (k : Int) := by
      rw [rnam_eq_slotAt, e]
    refine ⟨l1, e1, ?_, ?_, fun j _ j2 => ?_⟩
    · show 0 < GET_RNAM_PREC (AssPRec r k v) (r.len + 1)
      rw [e1]
      omega
    · show GET_ELM_PREC (AssPRec r k v) (r.len + 1) = v
      rw [elm_eq_slotAt, e]
    · have j3 : j ≤ r.len := j2
      have e2 : slotAt (AssPRec r k v) j = slotAt r j := by
        rw [sl, if_neg (by omega)]
      exact ⟨by rw [rnam_eq_slotAt, e2]; rfl, by rw [elm_eq_slotAt, e2]; rfl⟩
  · obtain ⟨K, hI⟩ := wf.index
    obtain ⟨q, q1, q2, q3, q4, q5, q6, _, sl⟩ := a2 ⟨p, p1, p2, p3⟩
    have hq : q = p := hI.key_inj q1 q2 p1 p2 (by rw [q3, p3])
    rw [hq] at q4 sl
    have e : slotAt (AssPRec r k v) p = ((slotAt r p).1, v) := by
      rw [sl, if_pos rfl]
    refine ⟨q4, q5, q6, by rw [elm_eq_slotAt, e], fun j => ⟨?_, fun hj => ?_⟩⟩
    · rw [rnam_eq_slotAt, sl]
      split
      · rename_i hj
        rw [hj]
        rfl
      · rfl
    · rw [elm_eq_slotAt, sl, if_neg hj]
      rfl

theorem set_frame_effect_witness :
    (WellFormed demoRec ∧ BagOK demoRec ∧ TNUM_OBJ demoRec = T_PREC ∧ 0 < 9 ∧
      LEN_PREC demoRec % 1000 ≠ 0) ∧
    (ASS_REC demoRec 9 90 = some (AssPRec demoRec 9 90, Except.ok ()) ∧
    (¬ HasKey demoRec 9 →
      LEN_PREC (AssPRec demoRec 9 90) = LEN_PREC demoRec + 1 ∧
      GET_RNAM_PREC (AssPRec demoRec 9 90) (LEN_PREC demoRec + 1) = ((9 : Nat) : Int) ∧
      0 < GET_RNAM_PREC (AssPRec demoRec 9 90) (LEN_PREC demoRec + 1) ∧
      GET_ELM_PREC (AssPRec demoRec 9 90) (LEN_PREC demoRec + 1) = 90 ∧
      ∀ j, 1 ≤ j → j ≤ LEN_PREC demoRec →
        GET_RNAM_PREC (AssPRec demoRec 9 90) j = GET_RNAM_PREC demoRec j ∧
        GET_ELM_PREC (AssPRec demoRec 9 90) j = GET_ELM_PREC demoRec j) ∧
    (∀ p, 1 ≤ p → p ≤ LEN_PREC demoRec → (GET_RNAM_PREC demoRec p).natAbs = 9 →
      AssPRec demoRec 9 90 = SET_ELM_PREC demoRec p 90 ∧
      LEN_PREC (AssPRec demoRec 9 90) = LEN_PREC demoRec ∧
      SIZE_OBJ (AssPRec demoRec 9 90) = SIZE_OBJ demoRec ∧
      GET_ELM_PREC (AssPRec demoRec 9 90) p = 90 ∧
      ∀ j, GET_RNAM_PREC (AssPRec demoRec 9 90) j = GET_RNAM_PREC demoRec j ∧
        (j ≠ p → GET_ELM_PREC (AssPRec demoRec 9 90) j = GET_ELM_PREC demoRec j))) :=
  ⟨⟨wellFormed_demoRec, bagOK_demoRec, by decide, by decide, by decide⟩,
    set_frame_effect demoRec 9 90 wellFormed_demoRec bagOK_demoRec (by decide) (by decide)
      (by decide)⟩

/-- `AssPRec` on `demoRec`: a new name is appended in the positive encoding (the
bag is enlarged), a bound name only gets its value replaced. -/
theorem assPRec_demo :
    (AssPRec demoRec 9 90).len = 6 ∧
    (AssPRec demoRec 9 90).slots.take 6 =
      [(-3, 30), (-5, 50), (-7, 70), (4, 40), (1, 10), (9, 90)] ∧
    AssPRec demoRec 4 41 =
      { tnum := 0, size := 98, len := 5, slots := [(-3, 30), (-5, 50), (-7, 70), (4, 41), (1, 10)] } := by
  decide

/-- Claim C36 (what the code does): for a well-formed mutable record `r` and a
name `k` that is not bound in `r`, `UnbPRec(r, k)` (reached through `UNB_REC`)
removes nothing but leaves the record sorted by the cleanup of `FindPRec`: the
result is `SortPRecRNam(r)`, with the length, size, type and bindings of `r`
and all names negative in increasing magnitude; it is `r` itself when `r` was
sorted already (empty, or its last name negative). -/
theorem delete_absent_reconciles (r : PRec) (k : Nat) (wf : WellFormed r)
    (hm : TNUM_OBJ r = T_PREC) (hk : ¬ HasKey r k) :
    UNB_REC r k = some (UnbPRec r k, Except.ok ()) ∧
    UnbPRec r k = SortPRecRNam r false ∧
    LEN_PREC (UnbPRec r k) = LEN_PREC r ∧ SIZE_OBJ (UnbPRec r k) = SIZE_OBJ r ∧
    TNUM_OBJ (UnbPRec r k) = TNUM_OBJ r ∧
    (∀ k' v', Binds (UnbPRec r k) k' v' ↔ Binds r k' v') ∧
    CleanL (active (UnbPRec r k)) ∧
    ((LEN_PREC r = 0 ∨ GET_RNAM_PREC r (LEN_PREC r) < 0) → UnbPRec r k = r) := by
  have e := unb_absent wf k hk
  obtain ⟨s1, s2, s3, _, _, _, s7⟩ := sort_active wf false
  rw [← e] at s1 s2 s3 s7
  refine ⟨by simp only [UNB_REC, if_pos hm], e, s1, s2, s3, fun k' v' => ?_, s7, fun hs => ?_⟩
  · rw [e]
    exact binds_sort wf false k' v'
  · rw [e]
    refine sort_of_not_dirty wf (fun hd => ?_) false
    have h1 := hd.1
    have h2 := hd.2
    rcases hs with h0 | hneg
    · have h3 : r.len = 0 := h0
      omega
    · have h3 : GET_RNAM_PREC r r.len < 0 := hneg
      omega

theorem delete_absent_reconciles_witness :
    (WellFormed demoRec ∧ TNUM_OBJ demoRec = T_PREC ∧ ¬ HasKey demoRec 9) ∧
    (UNB_REC demoRec 9 = some (UnbPRec demoRec 9, Except.ok ()) ∧
    UnbPRec demoRec 9 = SortPRecRNam demoRec false ∧
    LEN_PREC (UnbPRec demoRec 9) = LEN_PREC demoRec ∧
    SIZE_OBJ (UnbPRec demoRec 9) = SIZE_OBJ demoRec ∧
    TNUM_OBJ (UnbPRec demoRec 9) = TNUM_OBJ demoRec ∧
    (∀ k' v', Binds (UnbPRec demoRec 9) k' v' ↔ Binds demoRec k' v') ∧
    CleanL (active (UnbPRec demoRec 9)) ∧
    ((LEN_PREC demoRec = 0 ∨ GET_RNAM_PREC demoRec (LEN_PREC demoRec) < 0) →
      UnbPRec demoRec 9 = demoRec)) :=
  ⟨⟨wellFormed_demoRec, by decide,
      fun hc => absurd ((fullScan_spec demoRec 9).1.mpr hc) (by decide)⟩,
    delete_absent_reconciles demoRec 9 wellFormed_demoRec (by decide)
      (fun hc => absurd ((fullScan_spec demoRec 9).1.mpr hc) (by decide))⟩

/-- Claim C36 (counterexample): `demoDirty` is the well-formed mutable record left
by `AssPRec(NEW_PREC(1), 5, 50)`; it has no component 7, and `UnbPRec` for the
name 7 changes its name word from 5 to -5. -/
theorem delete_absent_changes_slots :
    demoDirty = AssPRec (NEW_PREC 1) 5 50 ∧ WellFormed demoDirty ∧
    TNUM_OBJ demoDirty = T_PREC ∧ ¬ HasKey demoDirty 7 ∧
    UNB_REC demoDirty 7 = some (UnbPRec demoDirty 7, Except.ok ()) ∧
    UnbPRec demoDirty 7 = { tnum := T_PREC, size := 32, len := 1, slots := [(-5, 50)] } ∧
    GET_RNAM_PREC demoDirty 1 = 5 ∧ GET_RNAM_PREC (UnbPRec demoDirty 7) 1 = -5 ∧
    (UnbPRec demoDirty 7).slots ≠ demoDirty.slots :=
  ⟨by decide, ⟨by decide, 0, by decide, by decide, by decide, by decide, by decide⟩,
    by decide, fun hc => absurd ((fullScan_spec demoDirty 7).1.mpr hc) (by decide),
    rfl, by decide, by decide, by decide, by decide⟩

/-- The list of `InnerRecNames` on a well-formed record: one entry per slot of the
sorted record, strictly increasing, and exactly the bound names. -/
theorem names_spec {r : PRec} (wf : WellFormed r) :
    (InnerRecNames r).2.length = r.len ∧
    (InnerRecNames r).2.Pairwise (fun a b => a < b) ∧
    (∀ x, x ∈ (InnerRecNames r).2 ↔ ∃ k : Nat, x = (k : Int) ∧ HasKey r k) ∧
    (∀ x ∈ (InnerRecNames r).2, 0 < x) := by
  obtain ⟨sl, _, _, s4, _, _, cl⟩ := sort_active wf false
  have hI := wfIdx_of_cleanL (by rw [sl, s4]; exact wf.1) cl
  have hhas := hasKey_sort wf false
  have e : (InnerRecNames r).2 = (List.range (SortPRecRNam r false).len).map
      (fun i => -GET_RNAM_PREC (SortPRecRNam r false) (i + 1)) := rfl
  generalize SortPRecRNam r false = s at sl s4 cl hI hhas e
  have hmem : ∀ x, x ∈ (InnerRecNames r).2 ↔ ∃ k : Nat, x = (k : Int) ∧ HasKey r k := by
    intro x
    rw [e, List.mem_map]
    constructor
    · rintro ⟨i, hi, rfl⟩
      rw [List.mem_range] at hi
      have hn := hI.neg (i + 1) (by omega) (by omega)
      refine ⟨(GET_RNAM_PREC s (i + 1)).natAbs, by omega, (hhas _).mp ⟨i + 1, by omega, by omega, rfl⟩⟩
    · rintro ⟨k, rfl, hk⟩
      obtain ⟨i, i1, i2, i3⟩ := (hhas k).mpr hk
      have hn := hI.neg i i1 i2
      refine ⟨i - 1, List.mem_range.mpr (by omega), ?_⟩
      rw [show i - 1 + 1 = i by omega]
      omega
  refine ⟨by rw [e, List.length_map, List.length_range, sl], ?_, hmem, fun x hx => ?_⟩
  · rw [e, List.pairwise_map, List.pairwise_iff_getElem]
    intro i j hi hj hij
    rw [List.length_range] at hi hj
    rw [List.getElem_range, List.getElem_range]
    exact hI.mono (i + 1) (j + 1) (by omega) (by omega) (by omega)
  · rw [e, List.mem_map] at hx
    obtain ⟨i, hi, rfl⟩ := hx
    rw [List.mem_range] at hi
    have hn := hI.neg (i + 1) (by omega) (by omega)
    omega

/-- Two strictly increasing lists of integers with the same members are equal. -/
theorem increasing_ext {l₁ l₂ : List Int} (h1 : l₁.Pairwise (fun a b => a < b))
    (h2 : l₂.Pairwise (fun a b => a < b)) (hm : ∀ x, x ∈ l₁ ↔ x ∈ l₂) : l₁ = l₂ := by
  haveI : IsAntisymm Int (fun a b => a < b) :=
    ⟨fun a b hab hba => absurd hab (not_lt_of_gt hba)⟩
  have n1 : l₁.Nodup := h1.imp (fun h => ne_of_lt h)
  have n2 : l₂.Nodup := h2.imp (fun h => ne_of_lt h)
  exact List.eq_of_perm_of_sorted ((List.perm_ext_iff_of_nodup n1 n2).mpr hm) h1 h2

/-- Claim C33: for a well-formed record `r` of length `N`, `InnerRecNames(r)`
leaves the sorted record `SortPRecRNam(r)` (all names negative and increasing
in magnitude, the bindings of `r`) and returns a list of `N` identifiers that is
strictly increasing, so without repetition, and holds exactly the names bound in
`r`; after `UnbPRec(r, k)` the list is the list of `r` without `k`, in the same
order, one entry shorter when `k` was bound (four entries for a record of five
names). -/
theorem names_sorted_complete (r : PRec) (wf : WellFormed r) :
    (InnerRecNames r).1 = SortPRecRNam r false ∧
    CleanL (active (InnerRecNames r).1) ∧
    (∀ k v, Binds (InnerRecNames r).1 k v ↔ Binds r k v) ∧
    (InnerRecNames r).2.length = LEN_PREC r ∧
    (InnerRecNames r).2.Pairwise (fun a b => a < b) ∧
    (InnerRecNames r).2.Nodup ∧
    (∀ k : Nat, (k : Int) ∈ (InnerRecNames r).2 ↔ HasKey r k) ∧
    (∀ x ∈ (InnerRecNames r).2, ∃ k : Nat, x = (k : Int) ∧ 0 < k ∧ HasKey r k) ∧
    (∀ k : Nat, (InnerRecNames (UnbPRec r k)).2 =
        (InnerRecNames r).2.filter (fun x => decide (x ≠ (k : Int))) ∧
      (HasKey r k → (InnerRecNames (UnbPRec r k)).2.length + 1 = LEN_PREC r) ∧
      (HasKey r k → LEN_PREC r = 5 → (InnerRecNames (UnbPRec r k)).2.length = 4)) := by
  obtain ⟨n1, n2, n3, n4⟩ := names_spec wf
  obtain ⟨_, _, _, _, _, _, cl⟩ := sort_active wf false
  have hlen : ∀ k : Nat, HasKey r k → (InnerRecNames (UnbPRec r k)).2.length + 1 = r.len := by
    intro k hk
    obtain ⟨uw, _, _, _, _, u6, _⟩ := unb_spec wf k
    rw [(names_spec uw).1]
    exact u6 hk
  refine ⟨rfl, cl, fun k v => binds_sort wf false k v, n1, n2, n2.imp (fun h => ne_of_lt h),
    fun k => ?_, fun x hx => ?_, fun k => ⟨?_, hlen k, fun hk h5 => ?_⟩⟩
  · rw [n3]
    constructor
    · rintro ⟨k', e, hk'⟩
      have : k = k' := by omega
      rw [this]
      exact hk'
    · exact fun hk => ⟨k, rfl, hk⟩
  · obtain ⟨k, e, hk⟩ := (n3 x).mp hx
    have := n4 x hx
    exact ⟨k, e, by omega, hk⟩
  · obtain ⟨uw, _, u3, _, _, _, _⟩ := unb_spec wf k
    obtain ⟨_, m2, m3, _⟩ := names_spec uw
    refine increasing_ext m2 (n2.filter _) (fun x => ?_)
    rw [m3, List.mem_filter, n3, decide_eq_true_eq]
    constructor
    · rintro ⟨k', e, hk'⟩
      obtain ⟨v, hv⟩ := (hasKey_iff_binds _ _).mp hk'
      obtain ⟨hne, hb⟩ := (u3 k' v).mp hv
      refine ⟨⟨k', e, (hasKey_iff_binds _ _).mpr ⟨v, hb⟩⟩, ?_⟩
      rw [e]
      intro hc
      exact hne (by omega)
    · rintro ⟨⟨k', e, hk'⟩, hne⟩
      obtain ⟨v, hv⟩ := (hasKey_iff_binds _ _).mp hk'
      refine ⟨k', e, (hasKey_iff_binds _ _).mpr ⟨v, (u3 k' v).mpr ⟨?_, hv⟩⟩⟩
      intro hc
      rw [e, hc] at hne
      exact hne rfl
  · have h1 := hlen k hk
    have h2 : r.len = 5 := h5
    omega

theorem names_sorted_complete_witness :
    WellFormed demoRec ∧
    ((InnerRecNames demoRec).1 = SortPRecRNam demoRec false ∧
    CleanL (active (InnerRecNames demoRec).1) ∧
    (∀ k v, Binds (InnerRecNames demoRec).1 k v ↔ Binds demoRec k v) ∧
    (InnerRecNames demoRec).2.length = LEN_PREC demoRec ∧
    (InnerRecNames demoRec).2.Pairwise (fun a b => a < b) ∧
    (InnerRecNames demoRec).2.Nodup ∧
    (∀ k : Nat, (k : Int) ∈ (InnerRecNames demoRec).2 ↔ HasKey demoRec k) ∧
    (∀ x ∈ (InnerRecNames demoRec).2, ∃ k : Nat, x = (k : Int) ∧ 0 < k ∧ HasKey demoRec k) ∧
    (∀ k : Nat, (InnerRecNames (UnbPRec demoRec k)).2 =
        (InnerRecNames demoRec).2.filter (fun x => decide (x ≠ (k : Int))) ∧
      (HasKey demoRec k → (InnerRecNames (UnbPRec demoRec k)).2.length + 1 = LEN_PREC demoRec) ∧
      (HasKey demoRec k → LEN_PREC demoRec = 5 →
        (InnerRecNames (UnbPRec demoRec k)).2.length = 4))) :=
  ⟨wellFormed_demoRec, names_sorted_complete demoRec wellFormed_demoRec⟩

/-- The record `demoRec` has the five names 3, 5, 7, 4, 1 (the last two not yet
sorted in); `InnerRecNames` lists them as 1, 3, 4, 5, 7 and, after the middle
name 4 was unbound, as 1, 3, 5, 7. -/
theorem names_demo :
    (InnerRecNames demoRec).2 = [1, 3, 4, 5, 7] ∧
    (InnerRecNames (UnbPRec demoRec 4)).2 = [1, 3, 5, 7] ∧
    (InnerRecNames demoRec).1.slots = [(-1, 10), (-3, 30), (-4, 40), (-5, 50), (-7, 70)] := by
  decide

/-- The loop of `FuncLT_PREC_DEFAULT` started at `i0`: when the name words agree
and the values are equal at the positions `i0 .. i-1` and the name words differ
at `i`, the loop returns at `i` with the comparison of the two name texts. -/
theorem ltLoop_first_diff (NAME_RNAM : Nat → String) (EQ LT : Obj → Obj → Bool)
    (a b : PRec) (i : Nat) (h2 : i ≤ LEN_PREC a)
    (hd : GET_RNAM_PREC a i ≠ GET_RNAM_PREC b i) :
    ∀ (n i0 : Nat), i0 ≤ i → i < i0 + n →
      (∀ j, i0 ≤ j → j < i → GET_RNAM_PREC a j = GET_RNAM_PREC b j ∧
        EQ (GET_ELM_PREC a j) (GET_ELM_PREC b j) = true) →
      ltLoop NAME_RNAM EQ LT a b i0 n =
        decide (strcmp (NAME_RNAM (GET_RNAM_PREC a i).natAbs)
          (NAME_RNAM (GET_RNAM_PREC b i).natAbs) > 0) := by
  intro n
  induction n with
  | zero =>
    intro i0 h0 hn
    omega
  | succ n ih =>
    intro i0 h0 hn hpre
    unfold ltLoop
    rw [if_neg (by omega)]
    by_cases hi : i0 = i
    · subst hi
      rw [if_pos hd]
      by_cases hs : strcmp (NAME_RNAM (GET_RNAM_PREC a i0).natAbs)
          (NAME_RNAM (GET_RNAM_PREC b i0).natAbs) > 0
      · rw [if_pos hs, decide_eq_true hs]
      · rw [if_neg hs, decide_eq_false hs]
    · obtain ⟨e1, e2⟩ := hpre i0 (le_refl _) (by omega)
      rw [if_neg (not_not.mpr e1), if_neg (not_not.mpr e2)]
      exact ih (i0 + 1) (by omega) (by omega) (fun j j1 j2 => hpre j (by omega) j2)

theorem lt_first_diff (NAME_RNAM : Nat → String) (EQ LT : Obj → Obj → Bool)
    (a b : PRec) (i : Nat) (ha : IS_PREC_REP a = true) (hb : IS_PREC_REP b = true)
    (h1 : 1 ≤ i) (h2 : i ≤ LEN_PREC a) (h3 : i ≤ LEN_PREC b)
    (hpre : ∀ j, 1 ≤ j → j < i → GET_RNAM_PREC a j = GET_RNAM_PREC b j ∧
      EQ (GET_ELM_PREC a j) (GET_ELM_PREC b j) = true)
    (hd : GET_RNAM_PREC a i ≠ GET_RNAM_PREC b i) :
    FuncLT_PREC_DEFAULT NAME_RNAM EQ LT a b =
      decide (strcmp (NAME_RNAM (GET_RNAM_PREC a i).natAbs)
        (NAME_RNAM (GET_RNAM_PREC b i).natAbs) > 0) := by
  unfold FuncLT_PREC_DEFAULT
  have hn : ¬ (¬ (IS_PREC_REP a = true) ∨ ¬ (IS_PREC_REP b = true)) := by
    rintro (h | h)
    · exact h ha
    · exact h hb
  rw [if_neg (fun h => hn h.1), if_neg (fun h => hn h.1)]
  exact ltLoop_first_diff NAME_RNAM EQ LT a b i h2 hd (LEN_PREC b) 1 h1 (by omega) hpre

/-- Claim C35: for two records `a` and `b` and a position `i` within both lengths
such that at all positions before `i` the stored name words are identical and
the values are equal, and the name words at `i` differ,
`FuncLT_PREC_DEFAULT(a, b)` is true exactly when `strcmp` of the name text of
the name of `a` at `i` and of the name of `b` at `i` is greater than 0; so any
two records with these name words up to `i` and these values before `i` compare
the same way, whatever their values at `i` and their later slots. -/
theorem lt_default_first_difference (NAME_RNAM : Nat → String) (EQ LT : Obj → Obj → Bool)
    (a b : PRec) (i : Nat) (ha : IS_PREC_REP a = true) (hb : IS_PREC_REP b = true)
    (h1 : 1 ≤ i) (h2 : i ≤ LEN_PREC a) (h3 : i ≤ LEN_PREC b)
    (hpre : ∀ j, 1 ≤ j → j < i → GET_RNAM_PREC a j = GET_RNAM_PREC b j ∧
      EQ (GET_ELM_PREC a j) (GET_ELM_PREC b j) = true)
    (hd : GET_RNAM_PREC a i ≠ GET_RNAM_PREC b i) :
    (FuncLT_PREC_DEFAULT NAME_RNAM EQ LT a b = true ↔
      strcmp (NAME_RNAM (GET_RNAM_PREC a i).natAbs)
        (NAME_RNAM (GET_RNAM_PREC b i).natAbs) > 0) ∧
    (∀ a1 b1 : PRec, IS_PREC_REP a1 = true → IS_PREC_REP b1 = true →
      i ≤ LEN_PREC a1 → i ≤ LEN_PREC b1 →
      (∀ j, 1 ≤ j → j ≤ i → GET_RNAM_PREC a1 j = GET_RNAM_PREC a j ∧
        GET_RNAM_PREC b1 j = GET_RNAM_PREC b j) →
      (∀ j, 1 ≤ j → j < i → GET_ELM_PREC a1 j = GET_ELM_PREC a j ∧
        GET_ELM_PREC b1 j = GET_ELM_PREC b j) →
      FuncLT_PREC_DEFAULT NAME_RNAM EQ LT a1 b1 = FuncLT_PREC_DEFAULT NAME_RNAM EQ LT a b) := by
  have e := lt_first_diff NAME_RNAM EQ LT a b i ha hb h1 h2 h3 hpre hd
  refine ⟨by rw [e, decide_eq_true_eq], fun a1 b1 ha1 hb1 l1 l2 hn hv => ?_⟩
  have e1 := lt_first_diff NAME_RNAM EQ LT a1 b1 i ha1 hb1 h1 l1 l2
    (fun j j1 j2 => by
      obtain ⟨n1, n2⟩ := hn j j1 (by omega)
      obtain ⟨v1, v2⟩ := hv j j1 j2
      rw [n1, n2, v1, v2]
      exact hpre j j1 j2)
    (by
      obtain ⟨n1, n2⟩ := hn i h1 (le_refl _)
      rw [n1, n2]
      exact hd)
  obtain ⟨n1, n2⟩ := hn i h1 (le_refl _)
  rw [e1, e, n1, n2]

theorem lt_default_first_difference_witness :
    (IS_PREC_REP demoAB = true ∧ IS_PREC_REP demoBA = true ∧ 1 ≤ 1 ∧ 1 ≤ LEN_PREC demoAB ∧
      1 ≤ LEN_PREC demoBA ∧
      (∀ j, 1 ≤ j → j < 1 → GET_RNAM_PREC demoAB j = GET_RNAM_PREC demoBA j ∧
        demoEQ (GET_ELM_PREC demoAB j) (GET_ELM_PREC demoBA j) = true) ∧
      GET_RNAM_PREC demoAB 1 ≠ GET_RNAM_PREC demoBA 1) ∧
    ((FuncLT_PREC_DEFAULT nameAB demoEQ demoLT demoAB demoBA = true ↔
      strcmp (nameAB (GET_RNAM_PREC demoAB 1).natAbs)
        (nameAB (GET_RNAM_PREC demoBA 1).natAbs) > 0) ∧
    (∀ a1 b1 : PRec, IS_PREC_REP a1 = true → IS_PREC_REP b1 = true →
      1 ≤ LEN_PREC a1 → 1 ≤ LEN_PREC b1 →
      (∀ j, 1 ≤ j → j ≤ 1 → GET_RNAM_PREC a1 j = GET_RNAM_PREC demoAB j ∧
        GET_RNAM_PREC b1 j = GET_RNAM_PREC demoBA j) →
      (∀ j, 1 ≤ j → j < 1 → GET_ELM_PREC a1 j = GET_ELM_PREC demoAB j ∧
        GET_ELM_PREC b1 j = GET_ELM_PREC demoBA j) →
      FuncLT_PREC_DEFAULT nameAB demoEQ demoLT a1 b1 =
        FuncLT_PREC_DEFAULT nameAB demoEQ demoLT demoAB demoBA)) :=
  ⟨⟨by decide, by decide, by decide, by decide, by decide, fun j j1 j2 => by omega, by decide⟩,
    lt_default_first_difference nameAB demoEQ demoLT demoAB demoBA 1 (by decide) (by decide)
      (by decide) (by decide) (by decide) (fun j j1 j2 => by omega) (by decide)⟩

/-- With the texts of `nameAB` (identifier 1 is "b", identifier 2 is "a") the
record whose first name is 1 is less than the record whose first name is 2,
because "b" is the greater text; in the other direction the result is false. -/
theorem lt_default_demo :
    strcmp (nameAB 1) (nameAB 2) = 1 ∧
    FuncLT_PREC_DEFAULT nameAB demoEQ demoLT demoAB demoBA = true ∧
    FuncLT_PREC_DEFAULT nameAB demoEQ demoLT demoBA demoAB = false := by
  decide

theorem bagOf_setBag_ne (h : Heap) (o : Obj) (b : PRec) {v : Obj} (hv : v ≠ o) :
    bagOf (setBag h o b) v = bagOf h v := by
  by_cases ho : ValidRef h o
  · rw [bagOf_setBag h ho, if_neg hv]
  · by_cases hr : isBagRef o = true
    · have hl : h.length ≤ indexOf o := by
        by_contra hc
        exact ho ⟨hr, by omega⟩
      simp only [setBag, hr, if_true]
      rw [List.set_eq_of_length_le hl]
    · simp only [setBag, hr]
      rfl

theorem immLoop_cycle {h0 : Heap} {C : Obj → Prop} {MAKE : Heap → Obj → Option Heap}
    (hm : NoReturn h0 C MAKE) (rec : Obj) :
    ∀ (n i : Nat) (h : Heap), Untouched h0 C h →
      (∀ h1, immLoop MAKE rec i n h = some h1 → Untouched h0 C h1) ∧
      (C rec → ∀ ic, i ≤ ic → ic < i + n → C (GET_ELM_PREC (bagOf h0 rec) ic) →
        immLoop MAKE rec i n h = none) := by
  intro n
  induction n with
  | zero =>
    intro i h inv
    refine ⟨fun h1 e => ?_, fun _ ic h1 h2 => by omega⟩
    have : h = h1 := Option.some.inj e
    rw [← this]
    exact inv
  | succ n ih =>
    intro i h inv
    obtain ⟨m1, m2⟩ := hm h (GET_ELM_PREC (bagOf h rec) i) inv
    unfold immLoop
    cases e : MAKE h (GET_ELM_PREC (bagOf h rec) i) with
    | none =>
      exact ⟨fun h1 e1 => by simp at e1, fun _ _ _ _ _ => rfl⟩
    | some h2 =>
      have inv2 := m2 h2 e
      obtain ⟨a1, a2⟩ := ih (i + 1) h2 inv2
      refine ⟨fun h1 e1 => a1 h1 e1, fun cr ic c1 c2 cc => ?_⟩
      by_cases hi : ic = i
      · rw [hi] at cc
        rw [inv rec cr] at m1 e
        rw [m1 cc] at e
        exact absurd e (by simp)
      · exact a2 cr ic (by omega) (by omega) cc

theorem makeImmutablePRecWith_cycle {h0 : Heap} {C : Obj → Prop}
    {MAKE : Heap → Obj → Option Heap} (hC : CycleSet h0 C) (hm : NoReturn h0 C MAKE) :
    NoReturn h0 C (fun h u => MakeImmutablePRecWith MAKE h u) := by
  intro h u inv
  have hnone : C u → MakeImmutablePRecWith MAKE h u = none := by
    intro cu
    obtain ⟨_, i, i1, i2, ci⟩ := hC u cu
    have hl : LEN_PREC (bagOf h u) = (bagOf h0 u).len := by
      rw [inv u cu]
      rfl
    have e := (immLoop_cycle hm u (LEN_PREC (bagOf h u)) 1 h inv).2 cu i i1
      (by rw [hl]; omega) ci
    simp only [MakeImmutablePRecWith, e]
  refine ⟨hnone, fun h1 e0 => ?_⟩
  have e1 : MakeImmutablePRecWith MAKE h u = some h1 := e0
  have hu : ¬ C u := by
    intro cu
    rw [hnone cu] at e1
    exact absurd e1 (by simp)
  simp only [MakeImmutablePRecWith] at e1
  cases e : immLoop MAKE u 1 (LEN_PREC (bagOf h u)) h with
  | none =>
    rw [e] at e1
    exact absurd e1 (by simp)
  | some h2 =>
    rw [e] at e1
    have inv2 := (immLoop_cycle hm u (LEN_PREC (bagOf h u)) 1 h inv).1 h2 e
    have e2 := Option.some.inj e1
    intro v cv
    rw [← e2]
    have hv : v ≠ u := fun hc => hu (hc ▸ cv)
    show bagOf (setBag h2 u _) v = bagOf h0 v
    rw [bagOf_setBag_ne h2 u _ hv]
    exact inv2 v cv

theorem makeImmutable_cycle {h0 : Heap} {C : Obj → Prop} (hC : CycleSet h0 C) :
    ∀ fuel, NoReturn h0 C (fun h u => MakeImmutable fuel h u) := by
  intro fuel
  induction fuel with
  | zero =>
    intro h u inv
    exact ⟨fun _ => rfl, fun h1 e => by simp [MakeImmutable] at e⟩
  | succ fuel ih =>
    intro h u inv
    obtain ⟨p1, p2⟩ := makeImmutablePRecWith_cycle hC ih h u inv
    by_cases hmut : IS_MUTABLE_OBJ (bagOf h u) = true
    · have e : MakeImmutable (fuel + 1) h u =
          MakeImmutablePRecWith (fun h1 o => MakeImmutable fuel h1 o) h u := by
        simp only [MakeImmutable, if_pos hmut]
      exact ⟨fun cu => e.trans (p1 cu), fun h1 e1 => p2 h1 (e.symm.trans e1)⟩
    · have e : MakeImmutable (fuel + 1) h u = some h := by
        simp only [MakeImmutable, if_neg hmut]
      refine ⟨fun cu => ?_, fun h1 e0 => ?_⟩
      · exfalso
        apply hmut
        simp only [IS_MUTABLE_OBJ, inv u cu, (hC u cu).1]
        decide
      · have e1 : MakeImmutable (fuel + 1) h u = some h1 := e0
        rw [e] at e1
        rw [← Option.some.inj e1]
        exact inv

theorem cycleSet_leadsTo {h0 : Heap} {r : Obj} (hc : LeadsTo h0 r r) :
    CycleSet h0 (fun v => LeadsTo h0 r v) := by
  intro v hv
  cases hv with
  | last _ i mv i1 i2 e => exact ⟨mv.2, i, i1, i2, by rw [e]; exact hc⟩
  | next _ i mv i1 i2 hn => exact ⟨mv.2, i, i1, i2, hn⟩

/-- Claim C37: when from the mutable record `r` a chain of references through
slots of mutable records leads back to `r` (a slot of `r` holds `r`, or `r` lies
on a cycle of mutable records), `MakeImmutablePRec(r)` does not return for any
recursion depth, and neither does `MakeImmutable(r)`: a record is retyped only
behind the loop over its values, so every record of the chain is still mutable
and unchanged when the recursion comes to it again. -/
theorem freeze_of_cycle_never_returns (h0 : Heap) (r : Obj) (hc : LeadsTo h0 r r) :
    ∀ fuel, MakeImmutablePRec fuel h0 r = none ∧ MakeImmutable fuel h0 r = none ∧
      ∀ h, (∀ v, LeadsTo h0 r v → bagOf h v = bagOf h0 v) →
        IS_MUTABLE_OBJ (bagOf h r) = true ∧ MakeImmutable fuel h r = none := by
  intro fuel
  have hC := cycleSet_leadsTo hc
  have inv0 : Untouched h0 (fun v => LeadsTo h0 r v) h0 := fun _ _ => rfl
  refine ⟨(makeImmutablePRecWith_cycle hC (makeImmutable_cycle hC fuel) h0 r inv0).1 hc,
    (makeImmutable_cycle hC fuel h0 r inv0).1 hc, fun h inv => ⟨?_, ?_⟩⟩
  · simp only [IS_MUTABLE_OBJ, inv r hc, (hC r hc).1]
    decide
  · exact (makeImmutable_cycle hC fuel h r inv).1 hc

theorem freeze_of_cycle_never_returns_witness :
    LeadsTo demoSelf 2 2 ∧
    ∀ fuel, MakeImmutablePRec fuel demoSelf 2 = none ∧ MakeImmutable fuel demoSelf 2 = none ∧
      ∀ h, (∀ v, LeadsTo demoSelf 2 v → bagOf h v = bagOf demoSelf v) →
        IS_MUTABLE_OBJ (bagOf h 2) = true ∧ MakeImmutable fuel h 2 = none :=
  ⟨LeadsTo.last 2 1 isMutRec_demoSelf (by decide) (by decide) (by decide),
    freeze_of_cycle_never_returns demoSelf 2
      (LeadsTo.last 2 1 isMutRec_demoSelf (by decide) (by decide) (by decide))⟩

/-- In `demoCycle` the record of handle 2 holds the record of handle 4, whose
second slot holds the record of handle 2: the chain leads back, and
`MakeImmutablePRec` returns for no recursion depth (here up to 6 by
evaluation). -/
theorem freeze_cycle_demo :
    LeadsTo demoCycle 2 2 ∧ (∀ fuel, MakeImmutablePRec fuel demoCycle 2 = none) ∧
    MakeImmutablePRec 6 demoCycle 2 = none ∧ MakeImmutablePRec 6 demoSelf 2 = none := by
  have m2 : IsMutRec demoCycle 2 := by
    unfold IsMutRec ValidRef
    decide
  have m4 : IsMutRec demoCycle 4 := by
    unfold IsMutRec ValidRef
    decide
  have hc : LeadsTo demoCycle 2 2 :=
    LeadsTo.next 2 1 m2 (by decide) (by decide)
      (LeadsTo.last 4 2 m4 (by decide) (by decide) (by decide))
  have hC := cycleSet_leadsTo hc
  exact ⟨hc, fun fuel => (makeImmutablePRecWith_cycle hC (makeImmutable_cycle hC fuel)
    demoCycle 2 (fun _ _ => rfl)).1 hc, by decide, by decide⟩

theorem sort_len (r : PRec) (b : Bool) : (SortPRecRNam r b).len = r.len := by
  unfold SortPRecRNam
  simp only []
  split_ifs <;> rfl

/-- The binary search ends within `high - low` iterations; every probe keeps
`low ≤ i < high` inside the range the loop started with, `high - low` gets
smaller from probe to probe, and the result is that of `binSearch`. -/
theorem binSearchRun_spec (r : PRec) (k : Nat) :
    ∀ (fuel low high : Nat), high - low ≤ fuel →
      ∃ t, binSearchRun r k fuel low high = some t ∧
        (∀ F, high - low ≤ F → binSearch r k F low high = (t.2.1, t.2.2)) ∧
        (∀ q ∈ t.1, low ≤ q.low ∧ q.low ≤ q.i ∧ q.i < q.high ∧ q.high ≤ high) ∧
        (∀ q ∈ t.1.head?, q.low = low ∧ q.high = high) ∧
        t.1.Chain' (fun a b => b.high - b.low < a.high - a.low) ∧
        t.1.length ≤ high - low := by
  intro fuel
  induction fuel with
  | zero =>
    intro low high hf
    have hn : ¬ low < high := by omega
    refine ⟨([], 0, low), by simp only [binSearchRun, if_neg hn], fun F _ => ?_,
      fun q hq => by simp at hq, fun q hq => by simp at hq, List.chain'_nil, by simp⟩
    cases F with
    | zero => rfl
    | succ F => simp only [binSearch, if_neg hn]
  | succ fuel ih =>
    intro low high hf
    by_cases hlt : low < high
    · have hi1 : low ≤ (low + high) / 2 := by omega
      have hi2 : (low + high) / 2 < high := by omega
      by_cases c1 : -GET_RNAM_PREC r ((low + high) / 2) < (k : Int)
      · obtain ⟨t, e, eb, pr, hd, ch, ln⟩ := ih ((low + high) / 2 + 1) high (by omega)
        refine ⟨({ low := low, i := (low + high) / 2, high := high } :: t.1, t.2), ?_,
          fun F hF => ?_, fun q hq => ?_, fun q hq => ?_, ?_, ?_⟩
        · simp only [binSearchRun, if_pos hlt, if_pos c1, e, Option.map_some']
        · obtain ⟨F1, rfl⟩ : ∃ F1, F = F1 + 1 := ⟨F - 1, by omega⟩
          simp only [binSearch, if_pos hlt, if_pos c1]
          exact eb F1 (by omega)
        · rcases List.mem_cons.mp hq with rfl | hq
          · exact ⟨le_refl _, hi1, hi2, le_refl _⟩
          · obtain ⟨q1, q2, q3, q4⟩ := pr q hq
            exact ⟨by omega, q2, q3, q4⟩
        · simp only [List.head?_cons, Option.mem_def, Option.some.injEq] at hq
          rw [← hq]
          exact ⟨rfl, rfl⟩
        · rw [List.chain'_cons']
          refine ⟨fun q hq => ?_, ch⟩
          obtain ⟨q1, q2⟩ := hd q hq
          show q.high - q.low < high - low
          rw [q1, q2]
          omega
        · simp only [List.length_cons]
          omega
      · by_cases c2 : -GET_RNAM_PREC r ((low + high) / 2) > (k : Int)
        · obtain ⟨t, e, eb, pr, hd, ch, ln⟩ := ih low ((low + high) / 2) (by omega)
          refine ⟨({ low := low, i := (low + high) / 2, high := high } :: t.1, t.2), ?_,
            fun F hF => ?_, fun q hq => ?_, fun q hq => ?_, ?_, ?_⟩
          · simp only [binSearchRun, if_pos hlt, if_neg c1, if_pos c2, e, Option.map_some']
          · obtain ⟨F1, rfl⟩ : ∃ F1, F = F1 + 1 := ⟨F - 1, by omega⟩
            simp only [binSearch, if_pos hlt, if_neg c1, if_pos c2]
            exact eb F1 (by omega)
          · rcases List.mem_cons.mp hq with rfl | hq
            · exact ⟨le_refl _, hi1, hi2, le_refl _⟩
            · obtain ⟨q1, q2, q3, q4⟩ := pr q hq
              exact ⟨q1, q2, q3, by omega⟩
          · simp only [List.head?_cons, Option.mem_def, Option.some.injEq] at hq
            rw [← hq]
            exact ⟨rfl, rfl⟩
          · rw [List.chain'_cons']
            refine ⟨fun q hq => ?_, ch⟩
            obtain ⟨q1, q2⟩ := hd q hq
            show q.high - q.low < high - low
            rw [q1, q2]
            omega
          · simp only [List.length_cons]
            omega
        · refine ⟨([{ low := low, i := (low + high) / 2, high := high }], 1, (low + high) / 2),
            ?_, fun F hF => ?_, fun q hq => ?_, fun q hq => ?_, List.chain'_singleton _, ?_⟩
          · simp only [binSearchRun, if_pos hlt, if_neg c1, if_neg c2]
          · obtain ⟨F1, rfl⟩ : ∃ F1, F = F1 + 1 := ⟨F - 1, by omega⟩
            simp only [binSearch, if_pos hlt, if_neg c1, if_neg c2]
          · rw [List.mem_singleton] at hq
            rw [hq]
            exact ⟨le_refl _, hi1, hi2, le_refl _⟩
          · simp only [List.head?_cons, Option.mem_def, Option.some.injEq] at hq
            rw [← hq]
            exact ⟨rfl, rfl⟩
          · simp only [List.length_singleton]
            omega
    · refine ⟨([], 0, low), by simp only [binSearchRun, if_neg hlt], fun F _ => ?_,
        fun q hq => by simp at hq, fun q hq => by simp at hq, List.chain'_nil, by simp⟩
      cases F with
      | zero => rfl
      | succ F => simp only [binSearch, if_neg hlt]

/-- The backward scan reads the indices `i, i-1, ...` one by one, never index 0,
and its outcome is that of `scanBack`. -/
theorem scanBackRun_spec (r : PRec) (k : Nat) :
    ∀ i, (scanBackRun r k i).2 = scanBack r k i ∧
      (∀ j ∈ (scanBackRun r k i).1, 1 ≤ j ∧ j ≤ i) ∧
      (∀ j ∈ (scanBackRun r k i).1.head?, j = i) ∧
      (scanBackRun r k i).1.Chain' (fun a b => a = b + 1) ∧
      (scanBackRun r k i).1.length ≤ i ∧
      (∀ j, (scanBackRun r k i).2 = ScanResult.sortedArea j → 1 ≤ j ∧ j ≤ i) ∧
      (∀ j, (scanBackRun r k i).2 = ScanResult.found j → 1 ≤ j ∧ j ≤ i) ∧
      ((scanBackRun r k i).2 = ScanResult.exhausted → (scanBackRun r k i).1.length = i) := by
  intro i
  induction i with
  | zero =>
    refine ⟨rfl, fun j hj => ?_, fun j hj => ?_, List.chain'_nil, le_refl _, fun j hj => ?_,
      fun j hj => ?_, fun _ => rfl⟩
    · simp [scanBackRun] at hj
    · simp [scanBackRun] at hj
    · simp [scanBackRun] at hj
    · simp [scanBackRun] at hj
  | succ i ih =>
    obtain ⟨a1, a2, a3, a4, a5, a6, a7, a8⟩ := ih
    by_cases c1 : (k : Int) = GET_RNAM_PREC r (i + 1)
    · have e : scanBackRun r k (i + 1) = ([i + 1], ScanResult.found (i + 1)) := by
        simp only [scanBackRun, if_pos c1]
      rw [e]
      refine ⟨by simp only [scanBack, if_pos c1], fun j hj => ?_, fun j hj => ?_,
        List.chain'_singleton _, by simp, fun j hj => by simp at hj, fun j hj => ?_,
        fun hc => by simp at hc⟩
      · rw [List.mem_singleton] at hj
        omega
      · simp only [List.head?_cons, Option.mem_def, Option.some.injEq] at hj
        omega
      · simp only [ScanResult.found.injEq] at hj
        omega
    · by_cases c2 : GET_RNAM_PREC r (i + 1) < 0
      · have e : scanBackRun r k (i + 1) = ([i + 1], ScanResult.sortedArea (i + 1)) := by
          simp only [scanBackRun, if_neg c1, if_pos c2]
        rw [e]
        refine ⟨by simp only [scanBack, if_neg c1, if_pos c2], fun j hj => ?_, fun j hj => ?_,
          List.chain'_singleton _, by simp, fun j hj => ?_, fun j hj => by simp at hj,
          fun hc => by simp at hc⟩
        · rw [List.mem_singleton] at hj
          omega
        · simp only [List.head?_cons, Option.mem_def, Option.some.injEq] at hj
          omega
        · simp only [ScanResult.sortedArea.injEq] at hj
          omega
      · have e : scanBackRun r k (i + 1) =
            ((i + 1) :: (scanBackRun r k i).1, (scanBackRun r k i).2) := by
          simp only [scanBackRun, if_neg c1, if_neg c2]
        rw [e]
        refine ⟨by simp only [scanBack, if_neg c1, if_neg c2]; exact a1, fun j hj => ?_,
          fun j hj => ?_, ?_, ?_, fun j hj => ?_, fun j hj => ?_, fun hc => ?_⟩
        · rcases List.mem_cons.mp hj with rfl | hj
          · omega
          · have := a2 j hj
            omega
        · simp only [List.head?_cons, Option.mem_def, Option.some.injEq] at hj
          omega
        · rw [List.chain'_cons']
          exact ⟨fun q hq => by rw [a3 q hq], a4⟩
        · simp only [List.length_cons]
          omega
        · have := a6 j hj
          omega
        · have := a7 j hj
          omega
        · simp only [List.length_cons]
          rw [a8 hc]

/-- Claim C38: for a record of length `N`, a name and either cleanup flag,
`FindPRec` ends (the binary search needs at most `N` iterations, the backward
scan at most `N`) with the result of `FindPRec`, and every slot index whose name
word it reads lies in `1..N`: at each probe of the binary search
`1 ≤ low ≤ i < high ≤ N+1` holds and `high - low` is smaller than at the probe
before; the backward scan reads `N, N-1, ...` and never slot 0, and when it has
passed slot 1 without a hit it has read `N` slots and the function returns 0
without a binary search. -/
theorem find_reads_within_length (r : PRec) (k p : Nat) (cleanup : Bool) (fuel : Nat)
    (hf : LEN_PREC r ≤ fuel) :
    ∃ t, FindPRecRun r k p cleanup fuel = some t ∧ t.result = FindPRec r k p cleanup ∧
      (∀ i ∈ t.first, 1 ≤ i ∧ i ≤ LEN_PREC r) ∧
      (∀ i ∈ t.scan, 1 ≤ i ∧ i ≤ LEN_PREC r) ∧
      t.scan.Chain' (fun a b => a = b + 1) ∧ t.scan.length ≤ LEN_PREC r ∧
      (∀ q ∈ t.probes, 1 ≤ q.low ∧ q.low ≤ q.i ∧ q.i < q.high ∧ q.high ≤ LEN_PREC r + 1) ∧
      t.probes.Chain' (fun a b => b.high - b.low < a.high - a.low) ∧
      t.probes.length ≤ LEN_PREC r ∧
      (cleanup = false → 0 < LEN_PREC r → 0 < GET_RNAM_PREC r (LEN_PREC r) →
        scanBack r k (LEN_PREC r) = ScanResult.exhausted →
        t.scan.length = LEN_PREC r ∧ t.probes = [] ∧ t.result.ret = 0) := by
  have hf2 : r.len ≤ fuel := hf
  simp only [LEN_PREC]
  by_cases hd : r.len > 0 ∧ GET_RNAM_PREC r r.len > 0
  · cases cleanup with
    | true =>
      obtain ⟨t, e, eb, pr, _, ch, ln⟩ :=
        binSearchRun_spec (SortPRecRNam r false) k fuel 1 (r.len + 1) (by omega)
      refine ⟨{ first := [r.len], scan := [], probes := t.1,
                result := { ret := t.2.1, pos := t.2.2, bag := SortPRecRNam r false } },
        ?_, ?_, ?_, ?_, ?_, ?_, ?_, ?_, ?_, ?_⟩
      · simp only [FindPRecRun, if_pos hd, if_true, LEN_PREC, e, Option.map_some']
      · simp only [FindPRec, if_pos hd, if_true, LEN_PREC]
        rw [eb (r.len + 1 - 1) (by omega)]
      · intro i hi
        simp only [List.mem_singleton] at hi
        have := hd.1
        omega
      · intro i hi
        simp at hi
      · exact List.chain'_nil
      · simp
      · intro q hq
        obtain ⟨q1, q2, q3, q4⟩ := pr q hq
        exact ⟨q1, q2, q3, q4⟩
      · exact ch
      · have : t.1.length ≤ r.len + 1 - 1 := ln
        show t.1.length ≤ r.len
        omega
      · intro hc
        exact absurd hc (by decide)
    | false =>
      obtain ⟨s1, s2, _, s4, s5, s6, s7, s8⟩ := scanBackRun_spec r k r.len
      have hcl : ¬ ((false : Bool) = true) := by decide
      cases hs : (scanBackRun r k r.len).2 with
      | found i =>
        refine ⟨{ first := [r.len], scan := (scanBackRun r k r.len).1, probes := [],
                  result := { ret := 1, pos := i, bag := r } },
          ?_, ?_, ?_, ?_, ?_, ?_, ?_, ?_, ?_, ?_⟩
        · simp only [FindPRecRun, if_pos hd, if_neg hcl, LEN_PREC, hs]
        · simp only [FindPRec, if_pos hd, if_neg hcl, LEN_PREC, ← s1, hs]
        · intro i hi
          simp only [List.mem_singleton] at hi
          have := hd.1
          omega
        · exact s2
        · exact s4
        · exact s5
        · intro q hq
          simp at hq
        · exact List.chain'_nil
        · simp
        · intro _ _ _ hx
          rw [← s1, hs] at hx
          exact absurd hx (by simp)
      | exhausted =>
        refine ⟨{ first := [r.len], scan := (scanBackRun r k r.len).1, probes := [],
                  result := { ret := 0, pos := p, bag := r } },
          ?_, ?_, ?_, ?_, ?_, ?_, ?_, ?_, ?_, ?_⟩
        · simp only [FindPRecRun, if_pos hd, if_neg hcl, LEN_PREC, hs]
        · simp only [FindPRec, if_pos hd, if_neg hcl, LEN_PREC, ← s1, hs]
        · intro i hi
          simp only [List.mem_singleton] at hi
          have := hd.1
          omega
        · exact s2
        · exact s4
        · exact s5
        · intro q hq
          simp at hq
        · exact List.chain'_nil
        · simp
        · intro _ _ _ _
          exact ⟨s8 hs, rfl, rfl⟩
      | sortedArea i =>
        obtain ⟨i1, i2⟩ := s6 i hs
        obtain ⟨t, e, eb, pr, _, ch, ln⟩ := binSearchRun_spec r k fuel 1 (i + 1) (by omega)
        refine ⟨{ first := [r.len], scan := (scanBackRun r k r.len).1, probes := t.1,
                  result := { ret := t.2.1, pos := t.2.2, bag := r } },
          ?_, ?_, ?_, ?_, ?_, ?_, ?_, ?_, ?_, ?_⟩
        · simp only [FindPRecRun, if_pos hd, if_neg hcl, LEN_PREC, hs, e, Option.map_some']
        · simp only [FindPRec, if_pos hd, if_neg hcl, LEN_PREC, ← s1, hs]
          rw [eb (i + 1 - 1) (by omega)]
        · intro i hi
          simp only [List.mem_singleton] at hi
          have := hd.1
          omega
        · exact s2
        · exact s4
        · exact s5
        · intro q hq
          obtain ⟨q1, q2, q3, q4⟩ := pr q hq
          exact ⟨q1, q2, q3, by show q.high ≤ r.len + 1; omega⟩
        · exact ch
        · have : t.1.length ≤ i + 1 - 1 := ln
          show t.1.length ≤ r.len
          omega
        · intro _ _ _ hx
          rw [← s1, hs] at hx
          exact absurd hx (by simp)
  · obtain ⟨t, e, eb, pr, _, ch, ln⟩ := binSearchRun_spec r k fuel 1 (r.len + 1) (by omega)
    refine ⟨{ first := if r.len > 0 then [r.len] else [], scan := [], probes := t.1,
              result := { ret := t.2.1, pos := t.2.2, bag := r } },
      ?_, ?_, ?_, ?_, ?_, ?_, ?_, ?_, ?_, ?_⟩
    · simp only [FindPRecRun, if_neg hd, LEN_PREC, e, Option.map_some']
    · simp only [FindPRec, if_neg hd, LEN_PREC]
      rw [eb (r.len + 1 - 1) (by omega)]
    · intro i hi
      by_cases h0 : r.len > 0
      · simp only [LEN_PREC, if_pos h0, List.mem_singleton] at hi
        show 1 ≤ i ∧ i ≤ r.len
        omega
      · simp only [LEN_PREC, if_neg h0] at hi
        simp at hi
    · intro i hi
      simp at hi
    · exact List.chain'_nil
    · simp
    · intro q hq
      obtain ⟨q1, q2, q3, q4⟩ := pr q hq
      exact ⟨q1, q2, q3, q4⟩
    · exact ch
    · have : t.1.length ≤ r.len + 1 - 1 := ln
      show t.1.length ≤ r.len
      omega
    · intro _ h1 h2 _
      exact absurd ⟨h1, h2⟩ hd

theorem find_reads_within_length_witness :
    LEN_PREC demoRec ≤ 5 ∧
    ∃ t, FindPRecRun demoRec 5 0 false 5 = some t ∧ t.result = FindPRec demoRec 5 0 false ∧
      (∀ i ∈ t.first, 1 ≤ i ∧ i ≤ LEN_PREC demoRec) ∧
      (∀ i ∈ t.scan, 1 ≤ i ∧ i ≤ LEN_PREC demoRec) ∧
      t.scan.Chain' (fun a b => a = b + 1) ∧ t.scan.length ≤ LEN_PREC demoRec ∧
      (∀ q ∈ t.probes, 1 ≤ q.low ∧ q.low ≤ q.i ∧ q.i < q.high ∧
        q.high ≤ LEN_PREC demoRec + 1) ∧
      t.probes.Chain' (fun a b => b.high - b.low < a.high - a.low) ∧
      t.probes.length ≤ LEN_PREC demoRec ∧
      (false = false → 0 < LEN_PREC demoRec → 0 < GET_RNAM_PREC demoRec (LEN_PREC demoRec) →
        scanBack demoRec 5 (LEN_PREC demoRec) = ScanResult.exhausted →
        t.scan.length = LEN_PREC demoRec ∧ t.probes = [] ∧ t.result.ret = 0) :=
  ⟨by decide, find_reads_within_length demoRec 5 0 false 5 (by decide)⟩

/-- Runs of `FindPRec` on `demoRec` (names -3, -5, -7, 4, 1) without cleanup: for
the name 5 the scan reads slots 5, 4, 3 and the binary search probes slot 2;
for the name 1 the scan finds it in slot 5; on the record `demoDirty` (one
positive name 5) the scan for the name 7 reads slot 1 and the function returns
0. -/
theorem findPRecRun_demo :
    FindPRecRun demoRec 5 0 false 5 = some
      { first := [5], scan := [5, 4, 3], probes := [{ low := 1, i := 2, high := 4 }],
        result := { ret := 1, pos := 2, bag := demoRec } } ∧
    (FindPRecRun demoRec 1 0 false 5).map (fun t => (t.first, t.scan, t.probes, t.result.pos))
      = some ([5], [5], [], 5) ∧
    (FindPRecRun demoDirty 7 0 false 1).map (fun t => (t.first, t.scan, t.probes, t.result.ret))
      = some ([1], [1], [], 0) ∧
    (FindPRecRun demoRec 6 0 true 5).map (fun t => (t.first, t.scan, t.probes, t.result.pos))
      = some ([5], [], [{ low := 1, i := 3, high := 6 }, { low := 4, i := 5, high := 6 },
          { low := 4, i := 4, high := 5 }], 5) := by
  refine ⟨?_, by decide, by decide, by decide⟩
  rfl

theorem active_eq_map {r : PRec} (hlen : r.len ≤ r.slots.length) :
    active r = (List.range r.len).map (fun j => slotAt r (j + 1)) := by
  apply List.ext_getElem
  · rw [length_active hlen, List.length_map, List.length_range]
  · intro i h1 h2
    rw [length_active hlen] at h1
    rw [List.getElem_map, List.getElem_range, ← List.getD_eq_getElem _ (0, 0) (by
      rw [length_active hlen]; exact h1), active_getD hlen h1]

/-- The slots after `n` assignments of increasing new names: slot `j+1` holds
the name `key j` and the value `val j`; the names assigned before the last
cleanup (which happens at the start of a call that finds a length that is a
multiple of 1000) are negative, the later ones positive. -/
theorem setMany_spec (c : Nat) (key : Nat → Nat) (val : Nat → Obj) (hmono : StrictMono key)
    (hpos : 0 < key 0) :
    ∀ n, WellFormed (setMany c key val n) ∧ BagOK (setMany c key val n) ∧
      (setMany c key val n).len = n ∧
      ∀ j, j < n → slotAt (setMany c key val n) (j + 1) =
        (if j < 1000 * ((n - 1) / 1000) then -(key j : Int) else (key j : Int), val j) := by
  have kpos : ∀ j, 0 < key j := by
    intro j
    rcases Nat.eq_zero_or_pos j with h | h
    · rw [h]; exact hpos
    · have := hmono h
      omega
  intro n
  induction n with
  | zero =>
    exact ⟨wellFormed_new c, bagOK_new c, rfl, fun j hj => by omega⟩
  | succ n ih =>
    obtain ⟨wf, bok, hl, hs⟩ := ih
    have hlen := wf.1
    have hnat : ∀ j, j < n → (GET_RNAM_PREC (setMany c key val n) (j + 1)).natAbs = key j := by
      intro j hj
      rw [rnam_eq_slotAt, hs j hj]
      split <;> simp
    have hno : ¬ HasKey (setMany c key val n) (key n) := by
      rintro ⟨i, i1, i2, i3⟩
      rw [hl] at i2
      have h1 := hnat (i - 1) (by omega)
      rw [show i - 1 + 1 = i by omega, i3] at h1
      have h2 : key (i - 1) < key n := hmono (by omega)
      omega
    obtain ⟨w2, b2, _, _, _, a6⟩ := ass_spec wf bok (key n) (kpos n) (val n)
    obtain ⟨l2, sl⟩ := (ass_frame wf bok (key n) (val n)).1 hno
    have e : setMany c key val (n + 1) = AssPRec (setMany c key val n) (key n) (val n) := rfl
    rw [e]
    generalize setMany c key val n = r at wf bok hl hs hlen hnat hno w2 b2 a6 l2 sl
    refine ⟨w2, b2, by rw [l2, hl], fun j hj => ?_⟩
    rw [sl, hl]
    by_cases hjn : j = n
    · rw [if_pos (by omega), hjn, if_neg (by omega)]
    · rw [if_neg (by omega)]
      have hj2 : j < n := by omega
      by_cases hm : n % 1000 = 0
      · rw [if_pos hm, if_pos (by omega)]
        -- the cleanup negates all names; the slots keep their order
        obtain ⟨s1, _, _, s4, _, sp, scl⟩ := sort_active wf false
        have hlen2 : (SortPRecRNam r false).len ≤ (SortPRecRNam r false).slots.length := by
          rw [s1, s4]; exact hlen
        have hL : (active r).map normSlot =
            (List.range n).map (fun j => (-(key j : Int), val j)) := by
          rw [active_eq_map hlen, hl, List.map_map]
          apply List.map_congr_left
          intro i hi
          rw [List.mem_range] at hi
          simp only [Function.comp, normSlot]
          rw [← rnam_eq_slotAt, hnat i hi, hs i hi]
        have hcl : CleanL ((active r).map normSlot) := by
          rw [hL]
          constructor
          · intro s hs
            rw [List.mem_map] at hs
            obtain ⟨i, _, rfl⟩ := hs
            have := kpos i
            show -(key i : Int) < 0
            omega
          · rw [List.pairwise_map, List.pairwise_iff_getElem]
            intro i1 i2 h1 h2 h12
            rw [List.getElem_range, List.getElem_range]
            have : key i1 < key i2 := hmono h12
            show -(key i2 : Int) < -(key i1 : Int)
            omega
        have hu := cleanL_unique sp scl hcl
        have e1 : slotAt (SortPRecRNam r false) (j + 1) =
            (active (SortPRecRNam r false)).getD j (0, 0) :=
          slotAt_active hlen2 (by rw [s1, hl]; exact hj2)
        rw [e1, hu, hL, List.getD_eq_getElem _ _ (by
          rw [List.length_map, List.length_range]; exact hj2), List.getElem_map,
          List.getElem_range]
      · rw [if_neg hm, hs j hj2]
        have e2 : 1000 * ((n - 1) / 1000) = 1000 * ((n + 1 - 1) / 1000) := by omega
        rw [e2]

/-- The same, with the accessors of the record: after `n` calls the length is `n`
and slot `j` holds the name `key (j-1)`, negated when it was assigned before the
last cleanup, and the value `val (j-1)`. -/
theorem setMany_slots (c : Nat) (key : Nat → Nat) (val : Nat → Obj) (hmono : StrictMono key)
    (hpos : 0 < key 0) (n : Nat) :
    LEN_PREC (setMany c key val n) = n ∧
    ∀ j, 1 ≤ j → j ≤ n →
      GET_RNAM_PREC (setMany c key val n) j =
        (if j - 1 < 1000 * ((n - 1) / 1000) then -(key (j - 1) : Int)
          else (key (j - 1) : Int)) ∧
      GET_ELM_PREC (setMany c key val n) j = val (j - 1) := by
  obtain ⟨_, _, hl, hs⟩ := setMany_spec c key val hmono hpos n
  refine ⟨hl, fun j j1 j2 => ?_⟩
  have e := hs (j - 1) (by omega)
  rw [show j - 1 + 1 = j by omega] at e
  exact ⟨by rw [rnam_eq_slotAt, e], by rw [elm_eq_slotAt, e]⟩

theorem key_pos {key : Nat → Nat} (hmono : StrictMono key) (hpos : 0 < key 0) (j : Nat) :
    0 < key j := by
  rcases Nat.eq_zero_or_pos j with h | h
  · rw [h]; exact hpos
  · have := hmono h
    omega

/-- Claim C31 (what the code does): 2000 calls of `AssPRec` with new, strictly
increasing positive names on a new record give the length 2000 (the length is
`n` after `n` calls).  The cleanup of `AssPRec` happens at the start of a call
that finds a length that is a multiple of 1000: right after the 1000th call
slots `1..1000` hold the names in the positive encoding, and right after the
1001st call slots `1..1000` hold them negated, in the same order, and slot 1001
the new name in the positive encoding; this is still so after the 2000th
call, where slots `1001..2000` are positive. -/
theorem sets_reconcile_at_next_call (c : Nat) (key : Nat → Nat) (val : Nat → Obj)
    (hmono : StrictMono key) (hpos : 0 < key 0) :
    LEN_PREC (setMany c key val 2000) = 2000 ∧
    (∀ n, LEN_PREC (setMany c key val n) = n) ∧
    (∀ j, 1 ≤ j → j ≤ 1000 →
      GET_RNAM_PREC (setMany c key val 1000) j = (key (j - 1) : Int) ∧
      0 < GET_RNAM_PREC (setMany c key val 1000) j ∧
      GET_ELM_PREC (setMany c key val 1000) j = val (j - 1)) ∧
    (∀ j, 1 ≤ j → j ≤ 1000 →
      GET_RNAM_PREC (setMany c key val 1001) j = -(key (j - 1) : Int) ∧
      GET_RNAM_PREC (setMany c key val 1001) j < 0 ∧
      GET_ELM_PREC (setMany c key val 1001) j = val (j - 1)) ∧
    GET_RNAM_PREC (setMany c key val 1001) 1001 = (key 1000 : Int) ∧
    (∀ j, 1 ≤ j → j ≤ 1000 →
      GET_RNAM_PREC (setMany c key val 2000) j = -(key (j - 1) : Int)) ∧
    (∀ j, 1000 < j → j ≤ 2000 →
      GET_RNAM_PREC (setMany c key val 2000) j = (key (j - 1) : Int)) := by
  have s1000 := setMany_slots c key val hmono hpos 1000
  have s1001 := setMany_slots c key val hmono hpos 1001
  have s2000 := setMany_slots c key val hmono hpos 2000
  refine ⟨s2000.1, fun n => (setMany_slots c key val hmono hpos n).1, fun j j1 j2 => ?_,
    fun j j1 j2 => ?_, ?_, fun j j1 j2 => ?_, fun j j1 j2 => ?_⟩
  · obtain ⟨e1, e2⟩ := s1000.2 j j1 j2
    rw [if_neg (by omega)] at e1
    have k := key_pos hmono hpos (j - 1)
    refine ⟨e1, ?_, e2⟩
    rw [e1]
    omega
  · obtain ⟨e1, e2⟩ := s1001.2 j j1 (by omega)
    rw [if_pos (by omega)] at e1
    have k := key_pos hmono hpos (j - 1)
    refine ⟨e1, ?_, e2⟩
    rw [e1]
    omega
  · obtain ⟨e1, _⟩ := s1001.2 1001 (by omega) (by omega)
    rw [if_neg (by omega)] at e1
    exact e1
  · obtain ⟨e1, _⟩ := s2000.2 j j1 (by omega)
    rw [if_pos (by omega)] at e1
    exact e1
  · obtain ⟨e1, _⟩ := s2000.2 j (by omega) j2
    rw [if_neg (by omega)] at e1
    exact e1

theorem strictMono_seqKey : StrictMono seqKey := by
  intro a b h
  show a + 1 < b + 1
  omega

theorem sets_reconcile_at_next_call_witness :
    (StrictMono seqKey ∧ 0 < seqKey 0) ∧
    (LEN_PREC (setMany 0 seqKey seqVal 2000) = 2000 ∧
    (∀ n, LEN_PREC (setMany 0 seqKey seqVal n) = n) ∧
    (∀ j, 1 ≤ j → j ≤ 1000 →
      GET_RNAM_PREC (setMany 0 seqKey seqVal 1000) j = (seqKey (j - 1) : Int) ∧
      0 < GET_RNAM_PREC (setMany 0 seqKey seqVal 1000) j ∧
      GET_ELM_PREC (setMany 0 seqKey seqVal 1000) j = seqVal (j - 1)) ∧
    (∀ j, 1 ≤ j → j ≤ 1000 →
      GET_RNAM_PREC (setMany 0 seqKey seqVal 1001) j = -(seqKey (j - 1) : Int) ∧
      GET_RNAM_PREC (setMany 0 seqKey seqVal 1001) j < 0 ∧
      GET_ELM_PREC (setMany 0 seqKey seqVal 1001) j = seqVal (j - 1)) ∧
    GET_RNAM_PREC (setMany 0 seqKey seqVal 1001) 1001 = (seqKey 1000 : Int) ∧
    (∀ j, 1 ≤ j → j ≤ 1000 →
      GET_RNAM_PREC (setMany 0 seqKey seqVal 2000) j = -(seqKey (j - 1) : Int)) ∧
    (∀ j, 1000 < j → j ≤ 2000 →
      GET_RNAM_PREC (setMany 0 seqKey seqVal 2000) j = (seqKey (j - 1) : Int))) :=
  ⟨⟨strictMono_seqKey, by decide⟩,
    sets_reconcile_at_next_call 0 seqKey seqVal strictMono_seqKey (by decide)⟩

/-- Claim C31 (counterexample): after 1000 calls of `AssPRec` with the names
1, 2, ..., 1000 on a new record, the length is 1000 and every one of the slots
`1..1000` holds its name in the positive encoding: slot 1 holds 1 and slot 1000
holds 1000, so the slots are not all negative. -/
theorem set_1000_leaves_names_positive :
    StrictMono seqKey ∧ LEN_PREC (setMany 0 seqKey seqVal 1000) = 1000 ∧
    GET_RNAM_PREC (setMany 0 seqKey seqVal 1000) 1 = 1 ∧
    GET_RNAM_PREC (setMany 0 seqKey seqVal 1000) 1000 = 1000 ∧
    (∀ j, 1 ≤ j → j ≤ 1000 → 0 < GET_RNAM_PREC (setMany 0 seqKey seqVal 1000) j) ∧
    ¬ (∀ j, 1 ≤ j → j ≤ 1000 → GET_RNAM_PREC (setMany 0 seqKey seqVal 1000) j < 0) := by
  have sp := setMany_slots 0 seqKey seqVal strictMono_seqKey (by decide) 1000
  have sl : ∀ j, 1 ≤ j → j ≤ 1000 →
      GET_RNAM_PREC (setMany 0 seqKey seqVal 1000) j = (seqKey (j - 1) : Int) := by
    intro j j1 j2
    obtain ⟨e1, _⟩ := sp.2 j j1 j2
    rw [if_neg (by omega)] at e1
    exact e1
  have pos : ∀ j, 1 ≤ j → j ≤ 1000 → 0 < GET_RNAM_PREC (setMany 0 seqKey seqVal 1000) j := by
    intro j j1 j2
    rw [sl j j1 j2]
    have := key_pos strictMono_seqKey (by decide) (j - 1)
    omega
  refine ⟨strictMono_seqKey, sp.1, ?_, ?_, pos, fun hc => ?_⟩
  · rw [sl 1 (by omega) (by omega)]
    rfl
  · rw [sl 1000 (by omega) (by omega)]
    rfl
  · have h1 := hc 1 (by omega) (by omega)
    have h2 := pos 1 (by omega) (by omega)
    omega

/-- The first steps by evaluation: after three calls the names 1, 2, 3 are all
positive; a cleanup by `SortPRecRNam` would negate them. -/
theorem setMany_demo :
    (setMany 0 seqKey seqVal 3).len = 3 ∧
    (setMany 0 seqKey seqVal 3).slots.take 3 = [(1, 1), (2, 3), (3, 5)] ∧
    (SortPRecRNam (setMany 0 seqKey seqVal 3) false).slots.take 3 =
      [(-1, 1), (-2, 3), (-3, 5)] := by
  decide

end PRecord
